import Mathlib

/-!
# Ford-Fulkerson (Edmonds-Karp) maximum flow: embedding of `Ford-Fulkerson.c`

The C program works on `int` matrices of size `V x V` (`#define V 6`).  The
embedding keeps `V` as a parameter, so every theorem holds in particular for
the constant of the source.

* C arrays are total functions on `Nat`; only the indices below `V` matter.
* An `int` is an `Int`; the result of every `int` addition or subtraction
  (`max_flow += path_flow`, `rGraph[u][v] -= path_flow`,
  `rGraph[v][u] += path_flow`, `iteration++`) is reduced to 32 bits by `wrapInt`.
* Loops whose trip count is not a syntactic bound (`while (front < rear)`,
  `for (v = t; v != s; v = parent[v])`, `while (bfs(...))`) take a fuel argument
  and return `none` when it runs out; a value of `parent[]` that is not an index
  of the arrays also gives `none`.
* `parent[]` is not initialised by `fordFulkerson`; its initial contents are the
  argument `parent0`, and it is handed from one call of `bfs` to the next.
* Of the output only the path printed in each iteration is kept (`printPath`),
  because that loop has to finish for the iteration to go on.
-/

namespace FordFulkerson

/-- Largest value of a 32-bit `int`. -/
def INT_MAX : Int := 2147483647

/-- The source's `#define INF INT_MAX`. -/
def INF : Int := INT_MAX

/-- Value stored in an `int` for the mathematical result `x` (two's complement, 32 bits). -/
def wrapInt (x : Int) : Int := (x + 2147483648) % 4294967296 - 2147483648

/-- Array write `a[i] = x`. -/
def setAt {α : Type} (a : Nat → α) (i : Nat) (x : α) : Nat → α :=
  fun j => if j = i then x else a j

/-- Matrix write `m[i][j] = x`. -/
def setAt2 (m : Nat → Nat → Int) (i j : Nat) (x : Int) : Nat → Nat → Int :=
  fun a b => if a = i ∧ b = j then x else m a b

/-- Local variables of `bfs`. -/
structure BfsState where
  visited : Nat → Bool
  queue : Nat → Nat
  front : Nat
  rear : Nat
  parent : Nat → Int

/-- The inner `for (int v = 0; v < V; v++)` of `bfs` for the dequeued vertex `u`:
`n` is the number of values of `v` still to scan.  The Boolean is `true` when
the scan executed `return true`. -/
def bfsScan (rGraph : Nat → Nat → Int) (t u : Nat) : Nat → Nat → BfsState → Bool × BfsState
  | 0, _, st => (false, st)
  | n + 1, v, st =>
    if st.visited v = false ∧ 0 < rGraph u v then
      if v = t then
        (true, { st with parent := setAt st.parent v (u : Int) })
      else
        bfsScan rGraph t u n (v + 1)
          { st with
            queue := setAt st.queue st.rear v
            rear := st.rear + 1
            parent := setAt st.parent v (u : Int)
            visited := setAt st.visited v true }
    else
      bfsScan rGraph t u n (v + 1) st

/-- The `while (front < rear)` loop of `bfs`. -/
def bfsLoop (V : Nat) (rGraph : Nat → Nat → Int) (t : Nat) :
    Nat → BfsState → Option (Bool × BfsState)
  | 0, _ => none
  | fuel + 1, st =>
    if st.front < st.rear then
      match bfsScan rGraph t (st.queue st.front) V 0 { st with front := st.front + 1 } with
      | (true, st1) => some (true, st1)
      | (false, st1) => bfsLoop V rGraph t fuel st1
    else
      some (false, st)

/-- State of `bfs` when it reaches its loop. -/
def bfsInit (s : Nat) (parent : Nat → Int) : BfsState :=
  { visited := setAt (fun _ => false) s true
    queue := setAt (fun _ => 0) 0 s
    front := 0
    rear := 1
    parent := setAt parent s (-1) }

/-- The function `bfs`: its return value and the contents of `parent[]` afterwards. -/
def bfs (V : Nat) (rGraph : Nat → Nat → Int) (s t : Nat) (parent : Nat → Int) (fuel : Nat) :
    Option (Bool × (Nat → Int)) :=
  match bfsLoop V rGraph t fuel (bfsInit s parent) with
  | none => none
  | some (b, st) => some (b, st.parent)

/-- Reading `parent[v]` as the next array index: `none` when it is not an index of the arrays. -/
def parentOf (V : Nat) (parent : Nat → Int) (v : Nat) : Option Nat :=
  if 0 ≤ parent v ∧ parent v < (V : Int) then some (parent v).toNat else none

/-- The loop `for (v = t; v != s; v = parent[v]) printf("%d <- ", v);` followed by
`printf("%d\n", s)`: the list of vertices printed. -/
def printPath (V : Nat) (parent : Nat → Int) (s : Nat) : Nat → Nat → Option (List Nat)
  | 0, _ => none
  | fuel + 1, v =>
    if v = s then some [s]
    else
      match parentOf V parent v with
      | none => none
      | some u =>
        match printPath V parent s fuel u with
        | none => none
        | some l => some (v :: l)

/-- The bottleneck loop `for (v = t; v != s; v = parent[v])` with `path_flow` as accumulator. -/
def bottleneck (V : Nat) (rGraph : Nat → Nat → Int) (parent : Nat → Int) (s : Nat) :
    Nat → Nat → Int → Option Int
  | 0, _, _ => none
  | fuel + 1, v, path_flow =>
    if v = s then some path_flow
    else
      match parentOf V parent v with
      | none => none
      | some u =>
        bottleneck V rGraph parent s fuel u
          (if rGraph u v < path_flow then rGraph u v else path_flow)

/-- The update loop `for (v = t; v != s; v = parent[v])` on the residual matrix. -/
def updateResidual (V : Nat) (parent : Nat → Int) (s : Nat) (path_flow : Int) :
    Nat → Nat → (Nat → Nat → Int) → Option (Nat → Nat → Int)
  | 0, _, _ => none
  | fuel + 1, v, rGraph =>
    if v = s then some rGraph
    else
      match parentOf V parent v with
      | none => none
      | some u =>
        let r1 := setAt2 rGraph u v (wrapInt (rGraph u v - path_flow))
        let r2 := setAt2 r1 v u (wrapInt (r1 v u + path_flow))
        updateResidual V parent s path_flow fuel u r2

/-- Variables of `fordFulkerson` that live across iterations of its loop. -/
structure FFState where
  rGraph : Nat → Nat → Int
  parent : Nat → Int
  max_flow : Int
  iteration : Int

/-- State of `fordFulkerson` when it reaches its loop; `parent[]` is not initialised
by the source, so its contents `parent0` are arbitrary. -/
def ffInit (graph : Nat → Nat → Int) (parent0 : Nat → Int) : FFState :=
  { rGraph := graph, parent := parent0, max_flow := 0, iteration := 0 }

/-- Body of the `while (bfs(...))` loop, entered with the `parent[]` left by `bfs`. -/
def augment (V s t fuel : Nat) (st : FFState) (parent : Nat → Int) : Option FFState :=
  match printPath V parent s fuel t with
  | none => none
  | some _ =>
    match bottleneck V st.rGraph parent s fuel t INF with
    | none => none
    | some path_flow =>
      match updateResidual V parent s path_flow fuel t st.rGraph with
      | none => none
      | some r =>
        some { rGraph := r
               parent := parent
               max_flow := wrapInt (st.max_flow + path_flow)
               iteration := wrapInt (st.iteration + 1) }

/-- One evaluation of the loop condition and, when it holds, of the loop body.
`some (true, st1)`: one augmentation led to `st1`; `some (false, st1)`: `bfs`
returned false; `none`: an inner loop did not finish within `fuel`. -/
def ffStep (V s t fuel : Nat) (st : FFState) : Option (Bool × FFState) :=
  match bfs V st.rGraph s t st.parent fuel with
  | none => none
  | some (false, parent) => some (false, { st with parent := parent })
  | some (true, parent) =>
    match augment V s t fuel st parent with
    | none => none
    | some st1 => some (true, st1)

/-- The `while (bfs(rGraph, s, t, parent))` loop: `n` bounds the number of
evaluations of the condition, `fuel` each inner loop. -/
def ffLoop (V s t fuel : Nat) : Nat → FFState → Option FFState
  | 0, _ => none
  | n + 1, st =>
    match ffStep V s t fuel st with
    | none => none
    | some (false, st1) => some st1
    | some (true, st1) => ffLoop V s t fuel n st1

/-- The run of `fordFulkerson` up to its `return`: the final values of its variables. -/
def fordFulkersonRun (V : Nat) (graph : Nat → Nat → Int) (s t : Nat) (parent0 : Nat → Int)
    (fuel : Nat) : Option FFState :=
  ffLoop V s t fuel fuel (ffInit graph parent0)

/-- The function `fordFulkerson`: the returned `max_flow`. -/
def fordFulkerson (V : Nat) (graph : Nat → Nat → Int) (s t : Nat) (parent0 : Nat → Int)
    (fuel : Nat) : Option Int :=
  match fordFulkersonRun V graph s t parent0 fuel with
  | none => none
  | some st => some st.max_flow

/-- State after `k` augmentations, when the loop performs that many. -/
def ffAfter (V s t fuel : Nat) : Nat → FFState → Option FFState
  | 0, st => some st
  | k + 1, st =>
    match ffStep V s t fuel st with
    | some (true, st1) => ffAfter V s t fuel k st1
    | _ => none

/-- The capacity matrix of `main`. -/
def mainGraph : Nat → Nat → Int := fun u v =>
  match u, v with
  | 0, 1 => 16 | 0, 2 => 13
  | 1, 2 => 10 | 1, 3 => 12
  | 2, 1 => 4 | 2, 4 => 14
  | 3, 2 => 9 | 3, 5 => 20
  | 4, 3 => 7 | 4, 5 => 4
  | _, _ => 0

/-- Capacities `(0,1,5) (1,0,3) (1,2,5)`, every other entry zero. -/
def antiParallelGraph : Nat → Nat → Int := fun u v =>
  match u, v with
  | 0, 1 => 5
  | 1, 0 => 3
  | 1, 2 => 5
  | _, _ => 0

/-! ## Notions used to state the properties of the program -/

/-- `Reach V r s n v`: a walk of `n` edges, each of positive residual capacity, leads
from `s` to `v` through vertices below `V`. -/
def Reach (V : Nat) (r : Nat → Nat → Int) (s : Nat) : Nat → Nat → Prop
  | 0, v => v = s
  | n + 1, v => v < V ∧ ∃ u, u < V ∧ Reach V r s n u ∧ 0 < r u v

/-- Walks of a given length are decidable. -/
def Reach.decide (V : Nat) (r : Nat → Nat → Int) (s : Nat) :
    ∀ n v, Decidable (Reach V r s n v)
  | 0, v => decEq v s
  | n + 1, v =>
    have : ∀ u, Decidable (Reach V r s n u) := fun u => Reach.decide V r s n u
    (inferInstance : Decidable (v < V ∧ ∃ u, u < V ∧ Reach V r s n u ∧ 0 < r u v))

instance (V : Nat) (r : Nat → Nat → Int) (s n v : Nat) : Decidable (Reach V r s n v) :=
  Reach.decide V r s n v

/-- Number of edges of a shortest walk from `s` to `v` that has fewer than `V` edges;
`V` when there is none. -/
def dist (V : Nat) (r : Nat → Nat → Int) (s v : Nat) : Nat :=
  if h : ∃ n, n < V ∧ Reach V r s n v then Nat.find h else V

/-- A path written from its last vertex back to `s`: `l = [v_k, ..., v_1, s]` with
`parent[v_(i+1)] = v_i` and positive residual capacity on every edge `(v_i, v_(i+1))`. -/
def IsRPath (r : Nat → Nat → Int) (parent : Nat → Int) (s : Nat) : List Nat → Prop
  | [] => False
  | [v] => v = s
  | v :: u :: rest => parent v = (u : Int) ∧ 0 < r u v ∧ IsRPath r parent s (u :: rest)

/-- Invariant of the loops of `bfs`.  `c` is the number of values of `v` already
scanned for the vertex `queue[front-1]` that was dequeued last. -/
structure BfsInv (V : Nat) (r : Nat → Nat → Int) (s t : Nat) (st : BfsState) (c : Nat) : Prop where
  front_le : st.front ≤ st.rear
  q_lt : ∀ i, i < st.rear → st.queue i < V
  q_vis : ∀ i, i < st.rear → st.visited (st.queue i) = true
  vis_q : ∀ v, st.visited v = true → ∃ i, i < st.rear ∧ st.queue i = v
  q_inj : ∀ i j, i < j → j < st.rear → st.queue i ≠ st.queue j
  s_vis : st.visited s = true
  t_unvis : st.visited t = false
  q_sorted : ∀ i j, i ≤ j → j < st.rear →
    dist V r s (st.queue i) ≤ dist V r s (st.queue j)
  q_par : ∀ j, j < st.rear → st.queue j ≠ s →
    ∃ i, i < st.front ∧ dist V r s (st.queue j) = dist V r s (st.queue i) + 1
  path : ∀ v, st.visited v = true →
    ∃ l, IsRPath r st.parent s (v :: l) ∧ (v :: l).Nodup ∧
      (∀ x ∈ l, st.visited x = true) ∧ l.length = dist V r s v
  full : ∀ i, i + 1 < st.front → ∀ w, w < V → 0 < r (st.queue i) w → st.visited w = true
  part : ∀ w, w < c → w < V → 1 ≤ st.front →
    0 < r (st.queue (st.front - 1)) w → st.visited w = true

/-- What `parent[]` holds when `bfs` returns true: a simple path from `s` to `t` with
positive residual capacities and as few edges as any walk from `s` to `t`. -/
def BfsFound (V : Nat) (r : Nat → Nat → Int) (s t : Nat) (parent : Nat → Int) : Prop :=
  ∃ l, IsRPath r parent s (t :: l) ∧ (t :: l).Nodup ∧ (∀ x ∈ l, x < V) ∧
    l.length = dist V r s t ∧ dist V r s t < V

/-- Edges `(v_i, v_(i+1))` of a path written from its last vertex back to its first. -/
def pathEdges : List Nat → List (Nat × Nat)
  | v :: u :: rest => (u, v) :: pathEdges (u :: rest)
  | _ => []

/-- Minimum of `pf` and the residual capacities of the edges of a path. -/
def pathMin (r : Nat → Nat → Int) : Int → List Nat → Int
  | pf, v :: u :: rest => pathMin r (if r u v < pf then r u v else pf) (u :: rest)
  | pf, _ => pf

/-- Effect on the matrix of pushing `pf` along the edge `(u, v)`, the stored values
being `w` of the arithmetic results (`w = wrapInt` for the program, `w = id` for the
mathematical integers). -/
def pushEdge (w : Int → Int) (r : Nat → Nat → Int) (u v : Nat) (pf : Int) : Nat → Nat → Int :=
  setAt2 (setAt2 r u v (w (r u v - pf))) v u (w (setAt2 r u v (w (r u v - pf)) v u + pf))

/-- Effect on the matrix of pushing `pf` along every edge of a path. -/
def pushPath (w : Int → Int) (pf : Int) : (Nat → Nat → Int) → List Nat → Nat → Nat → Int
  | r, v :: u :: rest => pushPath w pf (pushEdge w r u v pf) (u :: rest)
  | r, _ => r

/-- One augmentation of `fordFulkerson` from `st` to `st1` along the path `t :: l`
(written from `t` back to `s`). -/
structure AugStep (V s t : Nat) (st st1 : FFState) (l : List Nat) : Prop where
  path : IsRPath st.rGraph st1.parent s (t :: l)
  nodup : (t :: l).Nodup
  lt : ∀ x ∈ l, x < V
  len : l.length = dist V st.rGraph s t
  dlt : dist V st.rGraph s t < V
  rGraph_eq :
    st1.rGraph = pushPath wrapInt (pathMin st.rGraph INF (t :: l)) st.rGraph (t :: l)
  max_flow_eq : st1.max_flow = wrapInt (st.max_flow + pathMin st.rGraph INF (t :: l))
  iteration_eq : st1.iteration = wrapInt (st.iteration + 1)

/-- Number of times the ordered pair `(a, b)` can still carry the bottleneck of an
augmenting path: it decreases with the distance of `a` from `s`. -/
def potPair (V : Nat) (r : Nat → Nat → Int) (s a b : Nat) : Nat :=
  if 0 < r a b then (V - dist V r s a) / 2
  else if 0 < r b a then (V - (dist V r s b + 1)) / 2
  else 0

/-- Bound on the number of augmentations still possible from the residual matrix `r`. -/
def potential (V : Nat) (r : Nat → Nat → Int) (s : Nat) : Nat :=
  ∑ a in Finset.range V, ∑ b in Finset.range V, potPair V r s a b

/-- Number `E` of edges of positive capacity. -/
def edgeCount (V : Nat) (graph : Nat → Nat → Int) : Nat :=
  ∑ a in Finset.range V, ∑ b in Finset.range V, if 0 < graph a b then 1 else 0

/-- The capacities are non-negative and the two capacities of every pair of opposite
edges sum to at most `INT_MAX`, so that no entry of the residual matrix can overflow. -/
structure PairBound (V : Nat) (graph : Nat → Nat → Int) : Prop where
  nonneg : ∀ a, a < V → ∀ b, b < V → 0 ≤ graph a b
  pair : ∀ a, a < V → ∀ b, b < V → graph a b + graph b a ≤ INT_MAX

/-- No sum the program forms can exceed `INT_MAX`: the bound on opposite capacities
and the capacities leaving `s`, which bound `max_flow`. -/
structure NoOverflow (V : Nat) (graph : Nat → Nat → Int) (s : Nat) : Prop where
  nonneg : ∀ a, a < V → ∀ b, b < V → 0 ≤ graph a b
  pair : ∀ a, a < V → ∀ b, b < V → graph a b + graph b a ≤ INT_MAX
  source : (∑ w in Finset.range V, graph s w) ≤ INT_MAX

/-- Invariant of the residual matrix `r` in the absence of overflow; `F` is the total
amount pushed so far. -/
structure ResInv (V : Nat) (graph : Nat → Nat → Int) (s t : Nat) (r : Nat → Nat → Int)
    (F : Int) : Prop where
  nonneg : ∀ a b, a < V → b < V → 0 ≤ r a b
  pair : ∀ a b, a < V → b < V → r a b + r b a = graph a b + graph b a
  net : ∀ v, v < V → (∑ w in Finset.range V, (graph v w - r v w)) =
    (if v = s then F else 0) - (if v = t then F else 0)
  flow_nonneg : 0 ≤ F

/-- Invariant of the loop of `fordFulkerson` in the absence of overflow: `max_flow` is
the total amount pushed. -/
abbrev FlowInv (V : Nat) (graph : Nat → Nat → Int) (s t : Nat) (st : FFState) : Prop :=
  ResInv V graph s t st.rGraph st.max_flow

/-- A feasible `s`-`t` flow: an assignment per ordered pair of vertices that respects
every capacity and is conserved at every vertex other than `s` and `t`. -/
def IsFlow (V : Nat) (graph : Nat → Nat → Int) (s t : Nat) (φ : Nat → Nat → Int) : Prop :=
  (∀ a, a < V → ∀ b, b < V → 0 ≤ φ a b ∧ φ a b ≤ graph a b) ∧
  ∀ v, v < V → v ≠ s → v ≠ t →
    (∑ u in Finset.range V, φ u v) = ∑ w in Finset.range V, φ v w

/-- Value of a flow: what leaves `s` minus what enters `s`. -/
def flowValue (V : Nat) (φ : Nat → Nat → Int) (s : Nat) : Int :=
  (∑ w in Finset.range V, φ s w) - ∑ u in Finset.range V, φ u s

/-- Capacity of the cut whose source side is `S`. -/
def cutCapacity (V : Nat) (graph : Nat → Nat → Int) (S : Nat → Bool) : Int :=
  ∑ a in Finset.range V, ∑ b in Finset.range V,
    if S a = true ∧ S b = false then graph a b else 0

/-- Invariant of the loops of `bfs` when the sink is already marked visited (`s = t`). -/
structure BfsInvT (V : Nat) (t : Nat) (st : BfsState) : Prop where
  front_le : st.front ≤ st.rear
  q_lt : ∀ i, i < st.rear → st.queue i < V
  q_vis : ∀ i, i < st.rear → st.visited (st.queue i) = true
  q_inj : ∀ i j, i < j → j < st.rear → st.queue i ≠ st.queue j
  t_vis : st.visited t = true

/-- The path printed and the bottleneck found by the iteration that starts from `st`. -/
def augmentFlow (V s t fuel : Nat) (st : FFState) : Option (List Nat × Int) :=
  match bfs V st.rGraph s t st.parent fuel with
  | some (true, parent) =>
    match printPath V parent s fuel t, bottleneck V st.rGraph parent s fuel t INF with
    | some path, some path_flow => some (path, path_flow)
    | _, _ => none
  | _ => none

/-- `m` is the largest value of a feasible `s`-`t` flow. -/
def IsMaxFlowValue (V : Nat) (graph : Nat → Nat → Int) (s t : Nat) (m : Int) : Prop :=
  (∃ φ, IsFlow V graph s t φ ∧ flowValue V φ s = m) ∧
  ∀ φ, IsFlow V graph s t φ → flowValue V φ s ≤ m

/-- `m` is the smallest capacity of a cut that separates `s` from `t`. -/
def IsMinCutCapacity (V : Nat) (graph : Nat → Nat → Int) (s t : Nat) (m : Int) : Prop :=
  (∃ S : Nat → Bool, S s = true ∧ S t = false ∧ cutCapacity V graph S = m) ∧
  ∀ S : Nat → Bool, S s = true → S t = false → m ≤ cutCapacity V graph S

/-- Flow on the pair `(u, w)` read off a residual matrix as the spec does: capacity
minus residual capacity on an original edge, nothing elsewhere. -/
def edgeFlow (graph r : Nat → Nat → Int) (u w : Nat) : Int :=
  if 0 < graph u w then graph u w - r u w else 0

/-- Total flow into `v` over the original edges. -/
def inflow (V : Nat) (graph r : Nat → Nat → Int) (v : Nat) : Int :=
  ∑ u in Finset.range V, edgeFlow graph r u v

/-- Total flow out of `v` over the original edges. -/
def outflow (V : Nat) (graph r : Nat → Nat → Int) (v : Nat) : Int :=
  ∑ w in Finset.range V, edgeFlow graph r v w

/-- Two disjoint paths `0 -> 1 -> 5` and `0 -> 2 -> 5` with every capacity `INT_MAX`. -/
def overflowGraph : Nat → Nat → Int := fun u v =>
  match u, v with
  | 0, 1 => 2147483647 | 0, 2 => 2147483647
  | 1, 5 => 2147483647 | 2, 5 => 2147483647
  | _, _ => 0

/-- Capacity `INT_MAX` on `(0, 5)` and capacity `1` on the opposite edge `(5, 0)`. -/
def oppositeGraph : Nat → Nat → Int := fun u v =>
  match u, v with
  | 0, 5 => 2147483647
  | 5, 0 => 1
  | _, _ => 0

/-- A feasible flow of value 23 on the graph of `main`. -/
def mainFlow : Nat → Nat → Int := fun u v =>
  match u, v with
  | 0, 1 => 12 | 0, 2 => 11
  | 1, 3 => 12
  | 2, 4 => 11
  | 3, 5 => 19
  | 4, 3 => 7 | 4, 5 => 4
  | _, _ => 0

/-- The source side `{0, 1, 2, 4}` of a cut of capacity 23 on the graph of `main`. -/
def mainCut : Nat → Bool := fun v =>
  match v with
  | 0 => true | 1 => true | 2 => true | 4 => true
  | _ => false

/-- The path `0 -> 1 -> 5` with capacities `INT_MAX` and an opposite edge `(1, 0)` of
capacity `1`. -/
def overflowPathGraph : Nat → Nat → Int := fun u v =>
  match u, v with
  | 0, 1 => 2147483647
  | 1, 0 => 1
  | 1, 5 => 2147483647
  | _, _ => 0

/-- The flow that sends 5 along `0 -> 1 -> 2`. -/
def antiParallelFlow : Nat → Nat → Int := fun u v =>
  if (u = 0 ∧ v = 1) ∨ (u = 1 ∧ v = 2) then 5 else 0

/-- The graph of `main` with a negative capacity `(0,3,-5)` and a self-loop `(2,2,7)` added. -/
def invalidGraph : Nat → Nat → Int := fun u v =>
  match u, v with
  | 0, 1 => 16 | 0, 2 => 13 | 0, 3 => -5
  | 1, 2 => 10 | 1, 3 => 12
  | 2, 1 => 4 | 2, 2 => 7 | 2, 4 => 14
  | 3, 2 => 9 | 3, 5 => 20
  | 4, 3 => 7 | 4, 5 => 4
  | _, _ => 0


/-! ## The loop of `fordFulkerson` in the mathematical integers

The definitions below repeat `updateResidual`, `augment`, `ffStep`, `ffLoop`,
`fordFulkersonRun` and `fordFulkerson` with every sum and difference taken in the
integers, without the reduction to 32 bits.  They are the reference against which the
program's `int` arithmetic is compared. -/

/-- The update loop on the residual matrix, in the mathematical integers. -/
def updateResidualZ (V : Nat) (parent : Nat → Int) (s : Nat) (path_flow : Int) :
    Nat → Nat → (Nat → Nat → Int) → Option (Nat → Nat → Int)
  | 0, _, _ => none
  | fuel + 1, v, rGraph =>
    if v = s then some rGraph
    else
      match parentOf V parent v with
      | none => none
      | some u =>
        let r1 := setAt2 rGraph u v (rGraph u v - path_flow)
        let r2 := setAt2 r1 v u (r1 v u + path_flow)
        updateResidualZ V parent s path_flow fuel u r2

/-- Body of the `while (bfs(...))` loop, in the mathematical integers. -/
def augmentZ (V s t fuel : Nat) (st : FFState) (parent : Nat → Int) : Option FFState :=
  match printPath V parent s fuel t with
  | none => none
  | some _ =>
    match bottleneck V st.rGraph parent s fuel t INF with
    | none => none
    | some path_flow =>
      match updateResidualZ V parent s path_flow fuel t st.rGraph with
      | none => none
      | some r =>
        some { rGraph := r
               parent := parent
               max_flow := st.max_flow + path_flow
               iteration := st.iteration + 1 }

/-- One evaluation of the loop condition and of the loop body, in the mathematical
integers. -/
def ffStepZ (V s t fuel : Nat) (st : FFState) : Option (Bool × FFState) :=
  match bfs V st.rGraph s t st.parent fuel with
  | none => none
  | some (false, parent) => some (false, { st with parent := parent })
  | some (true, parent) =>
    match augmentZ V s t fuel st parent with
    | none => none
    | some st1 => some (true, st1)

/-- The `while (bfs(rGraph, s, t, parent))` loop, in the mathematical integers. -/
def ffLoopZ (V s t fuel : Nat) : Nat → FFState → Option FFState
  | 0, _ => none
  | n + 1, st =>
    match ffStepZ V s t fuel st with
    | none => none
    | some (false, st1) => some st1
    | some (true, st1) => ffLoopZ V s t fuel n st1

/-- The run of `fordFulkerson`, in the mathematical integers. -/
def fordFulkersonRunZ (V : Nat) (graph : Nat → Nat → Int) (s t : Nat) (parent0 : Nat → Int)
    (fuel : Nat) : Option FFState :=
  ffLoopZ V s t fuel fuel (ffInit graph parent0)

/-- The value `fordFulkerson` returns when it computes in the mathematical integers. -/
def fordFulkersonZ (V : Nat) (graph : Nat → Nat → Int) (s t : Nat) (parent0 : Nat → Int)
    (fuel : Nat) : Option Int :=
  match fordFulkersonRunZ V graph s t parent0 fuel with
  | none => none
  | some st => some st.max_flow

/-- Invariant of the loop of `fordFulkerson` that needs no bound on opposite
capacities: every entry is a value of an `int`, the row of `s` is non-negative and
has lost exactly `max_flow`. -/
structure SrcInv (V : Nat) (graph : Nat → Nat → Int) (s : Nat) (st : FFState) : Prop where
  le_max : ∀ a b, a < V → b < V → st.rGraph a b ≤ INT_MAX
  row_nonneg : ∀ b, b < V → 0 ≤ st.rGraph s b
  row_sum : st.max_flow + (∑ b in Finset.range V, st.rGraph s b) =
    ∑ b in Finset.range V, graph s b
  flow_nonneg : 0 ≤ st.max_flow
end FordFulkerson

/-!
# Spanning trees

Vocabulary for the claims on `kruskal.c` and `prim.c`.  A graph on the vertices
`0, ..., n - 1` is a weight matrix `G` (`G[i][j] ≠ 0` is an edge of weight `G[i][j]`);
a set of edges is a list of pairs of vertices.
-/

namespace MST

/-- The list `E` has an edge between `a` and `b` (in either direction). -/
def Adj (E : List (Nat × Nat)) (a b : Nat) : Prop := (a, b) ∈ E ∨ (b, a) ∈ E

/-- The edges of `E` connect `a` and `b`. -/
def Conn (E : List (Nat × Nat)) : Nat → Nat → Prop := Relation.ReflTransGen (Adj E)

/-- No edge of `E` joins two vertices that the other edges of `E` connect: `E` has no
cycle (in particular no self-loop and no doubled edge). -/
def Acyclic (E : List (Nat × Nat)) : Prop :=
  ∀ E1 e E2, E = E1 ++ e :: E2 → ¬Conn (E1 ++ E2) e.1 e.2

/-- The pair `e` is an edge of the graph. -/
def IsEdge (n : Nat) (G : Nat → Nat → Int) (e : Nat × Nat) : Prop :=
  e.1 < n ∧ e.2 < n ∧ G e.1 e.2 ≠ 0

/-- The graph is connected. -/
def Connected (n : Nat) (G : Nat → Nat → Int) : Prop :=
  ∀ a, a < n → ∀ b, b < n → Relation.ReflTransGen (fun x y => x < n ∧ y < n ∧ G x y ≠ 0) a b

/-- The list `T` of edges of the graph is a spanning tree: it connects all the vertices
and has no cycle. -/
def IsSpanningTree (n : Nat) (G : Nat → Nat → Int) (T : List (Nat × Nat)) : Prop :=
  (∀ e ∈ T, IsEdge n G e) ∧ (∀ a, a < n → ∀ b, b < n → Conn T a b) ∧ Acyclic T

/-- Total weight of a list of edges. -/
def totalWeight (G : Nat → Nat → Int) (T : List (Nat × Nat)) : Int :=
  (T.map (fun e => G e.1 e.2)).sum

/-- Every edge of the list, taken in turn from the last to the first, joins two vertices
that the edges after it do not connect. -/
def Forest : List (Nat × Nat) → Prop
  | [] => True
  | e :: E => ¬Conn E e.1 e.2 ∧ Forest E

/-- The edge `e` has exactly one end in `S`. -/
def Crosses (S : Nat → Prop) (e : Nat × Nat) : Prop := (S e.1 ∧ ¬S e.2) ∨ (¬S e.1 ∧ S e.2)

/-- A list of `n - 1` edges of the graph that connects all the vertices. -/
def Span (n : Nat) (G : Nat → Nat → Int) (T : List (Nat × Nat)) : Prop :=
  (∀ e ∈ T, IsEdge n G e) ∧ (∀ a, a < n → ∀ b, b < n → Conn T a b) ∧ T.length + 1 = n

/-- The edges `F` can be completed to a connecting list of `n - 1` edges that is at most
as heavy as any given one. -/
def Promising (n : Nat) (G : Nat → Nat → Int) (F : List (Nat × Nat)) : Prop :=
  ∀ T, Span n G T → ∃ T1, Span n G T1 ∧ F.Subperm T1 ∧ totalWeight G T1 ≤ totalWeight G T

end MST

/-!
# Dijkstra's shortest paths: embedding of `dijkstra.c`

`V` (`#define V 5`) is a parameter.  The arrays `dist`, `parent` and `sptSet` are total
functions on `Nat`; the sum `dist[u] + graph[u][v]` is reduced to 32 bits by `wrapInt`.
`for (v = 0; v < V; v++)` is a fold over `List.range V`.
-/

namespace Dijkstra

open FordFulkerson (INT_MAX wrapInt setAt)

/-- The source's `#define INF INT_MAX`. -/
def INF : Int := INT_MAX

/-- The function `minDistance`: the accumulator of the loop is `(min, min_index)`. -/
def minDistance (V : Nat) (dist : Nat → Int) (sptSet : Nat → Bool) : Int :=
  ((List.range V).foldl (fun (acc : Int × Int) (v : Nat) =>
    if sptSet v = false ∧ dist v ≤ acc.1 then (dist v, (v : Int)) else acc) (INF, -1)).2

/-- Local arrays of `dijkstra`. -/
structure State where
  dist : Nat → Int
  parent : Nat → Int
  sptSet : Nat → Bool

/-- The initialisation loop of `dijkstra` followed by `dist[src] = 0`. -/
def init (src : Nat) : State :=
  { dist := setAt (fun _ => INF) src 0, parent := fun _ => -1, sptSet := fun _ => false }

/-- Body of the inner loop `for (int v = 0; v < V; v++)` of `dijkstra` for the picked
vertex `u`. -/
def relax (graph : Nat → Nat → Int) (u : Nat) (st : State) (v : Nat) : State :=
  if st.sptSet v = false ∧ graph u v ≠ 0 ∧ st.dist u ≠ INF ∧
      wrapInt (st.dist u + graph u v) < st.dist v then
    { st with dist := setAt st.dist v (wrapInt (st.dist u + graph u v)),
              parent := setAt st.parent v (u : Int) }
  else st

/-- One iteration of the main loop of `dijkstra`; `none` is the `break` taken when
`minDistance` returns `-1`. -/
def dijkstraStep (V : Nat) (graph : Nat → Nat → Int) (st : State) : Option State :=
  let u := minDistance V st.dist st.sptSet
  if u = -1 then none
  else some ((List.range V).foldl (relax graph u.toNat)
    { st with sptSet := setAt st.sptSet u.toNat true })

/-- The main loop `for (count = 0; count < V - 1; count++)` of `dijkstra`, with `n`
iterations still to make. -/
def dijkstraLoop (V : Nat) (graph : Nat → Nat → Int) : Nat → State → State
  | 0, st => st
  | n + 1, st =>
    match dijkstraStep V graph st with
    | none => st
    | some st1 => dijkstraLoop V graph n st1

/-- The arrays of `dijkstra` when the main loop is left (before `printSolution`). -/
def dijkstra (V : Nat) (graph : Nat → Nat → Int) (src : Nat) : State :=
  dijkstraLoop V graph (V - 1) (init src)

/-- The graph of `main` in `dijkstra.c`. -/
def mainGraph : Nat → Nat → Int := fun u v =>
  match u, v with
  | 0, 1 => 10 | 0, 4 => 5
  | 1, 2 => 1 | 1, 4 => 2
  | 2, 3 => 4
  | 3, 0 => 7 | 3, 2 => 6
  | 4, 1 => 3 | 4, 2 => 9 | 4, 3 => 2
  | _, _ => 0

/-- The list `l`, read from its last element to its head, is a walk from `src` in the
graph: every step `u, v` is an edge `graph[u][v] ≠ 0` to a vertex `v < V`. -/
def IsWalk (V : Nat) (graph : Nat → Nat → Int) (src : Nat) : List Nat → Prop
  | [] => False
  | [v] => v = src
  | v :: u :: rest => v < V ∧ graph u v ≠ 0 ∧ IsWalk V graph src (u :: rest)

/-- Sum of the weights of the edges of a walk. -/
def weight (graph : Nat → Nat → Int) : List Nat → Int
  | v :: u :: rest => weight graph (u :: rest) + graph u v
  | _ => 0

/-- Invariant of the main loop of `dijkstra` after `k` iterations. -/
structure Inv (V : Nat) (graph : Nat → Nat → Int) (src : Nat) (k : Nat) (st : State) : Prop where
  card : ((Finset.range V).filter (fun v => st.sptSet v = true)).card = k
  dist_src : st.dist src = 0
  nonneg : ∀ v, v < V → 0 ≤ st.dist v
  le_inf : ∀ v, v < V → st.dist v ≤ INF
  path : ∀ v, v < V → st.dist v ≠ INF → ∃ l, IsWalk V graph src (v :: l) ∧ (v :: l).Nodup ∧
    (∀ x ∈ l, st.sptSet x = true ∧ st.dist x ≠ INF) ∧ weight graph (v :: l) = st.dist v
  relaxed : ∀ u, u < V → st.sptSet u = true → st.dist u ≠ INF → ∀ v, v < V → graph u v ≠ 0 →
    st.dist v ≤ st.dist u + graph u v
  order : ∀ a b, a < V → b < V → st.sptSet a = true → st.sptSet b = false →
    st.dist a ≤ st.dist b

end Dijkstra

/-!
# Bellman-Ford shortest paths: embedding of `bellman-ford.c`

The graph is the number of vertices `V` and the list of the `E` edges (`graph->edge`).
The arrays `dist` and `parent` are total functions on `Nat`.  Every sum
`dist[u] + weight` that the program computes is recorded, as a mathematical integer, in
the list `sums` (which the program does not have), and the value the program works with
is that sum reduced to 32 bits by `wrapInt`.
-/

namespace BF

open FordFulkerson (INT_MAX wrapInt setAt)

/-- The source's `#define INF INT_MAX`. -/
def INF : Int := INT_MAX

/-- The source's `struct Edge`. -/
structure Edge where
  src : Nat
  dest : Nat
  weight : Int
deriving DecidableEq

/-- Local variables of `BellmanFord`, with the record `sums` of the sums computed. -/
structure State where
  dist : Nat → Int
  parent : Nat → Int
  updated : Bool
  sums : List Int

/-- Step 1 of `BellmanFord`: the initialisation loop followed by `dist[src] = 0`. -/
def init (src : Nat) : State :=
  { dist := setAt (fun _ => INF) src 0, parent := fun _ => -1, updated := false, sums := [] }

/-- Body of the inner loop of step 2 for the edge `e`. -/
def relaxEdge (st : State) (e : Edge) : State :=
  if st.dist e.src ≠ INF then
    if wrapInt (st.dist e.src + e.weight) < st.dist e.dest then
      { dist := setAt st.dist e.dest (wrapInt (st.dist e.src + e.weight)),
        parent := setAt st.parent e.dest (e.src : Int),
        updated := true,
        sums := (st.dist e.src + e.weight) :: st.sums }
    else { st with sums := (st.dist e.src + e.weight) :: st.sums }
  else st

/-- One iteration of the outer loop of step 2 up to the test of `updated`. -/
def relaxRound (edges : List Edge) (st : State) : State :=
  edges.foldl relaxEdge { st with updated := false }

/-- Step 2 of `BellmanFord`, with `n` iterations of `for (i = 1; i <= V - 1; i++)` still
to make; the loop is left when an iteration made no update. -/
def relaxLoop (edges : List Edge) : Nat → State → State
  | 0, st => st
  | n + 1, st =>
    if (relaxRound edges st).updated = false then relaxRound edges st
    else relaxLoop edges n (relaxRound edges st)

/-- Step 3 of `BellmanFord`: `false` at the first edge that can still be relaxed, `true`
when there is none; the second component lists the sums computed on the way. -/
def checkEdges (dist : Nat → Int) : List Edge → Bool × List Int
  | [] => (true, [])
  | e :: rest =>
    if dist e.src ≠ INF then
      if wrapInt (dist e.src + e.weight) < dist e.dest then (false, [dist e.src + e.weight])
      else ((checkEdges dist rest).1, (dist e.src + e.weight) :: (checkEdges dist rest).2)
    else checkEdges dist rest

/-- The function `BellmanFord` together with the list of all the sums `dist[u] + weight`
it computed. -/
def BellmanFordRun (V : Nat) (edges : List Edge) (src : Nat) : Bool × List Int :=
  ((checkEdges (relaxLoop edges (V - 1) (init src)).dist edges).1,
   (checkEdges (relaxLoop edges (V - 1) (init src)).dist edges).2 ++
     (relaxLoop edges (V - 1) (init src)).sums)

/-- The value returned by `BellmanFord`. -/
def BellmanFord (V : Nat) (edges : List Edge) (src : Nat) : Bool :=
  (BellmanFordRun V edges src).1

/-- The graph of `main` in `bellman-ford.c`. -/
def mainEdges : List Edge :=
  [⟨0, 1, -1⟩, ⟨0, 2, 4⟩, ⟨1, 2, 3⟩, ⟨1, 3, 2⟩, ⟨1, 4, 2⟩, ⟨3, 2, 5⟩, ⟨3, 1, 1⟩, ⟨4, 3, -3⟩]

/-- An edge of weight `INT_MAX` from the source to a cycle of weight `-1`. -/
def sentinelEdges : List Edge :=
  [⟨0, 1, 2147483647⟩, ⟨1, 2, -1⟩, ⟨2, 1, 0⟩]

/-- The list `p` of edges, read from its last element to its head, is a walk from `a` to
`b` along edges of the graph. -/
def IsWalk (edges : List Edge) (a : Nat) : List Edge → Nat → Prop
  | [], b => b = a
  | e :: rest, b => e ∈ edges ∧ e.dest = b ∧ IsWalk edges a rest e.src

/-- Sum of the weights of the edges of a walk. -/
def weight (p : List Edge) : Int := (p.map (fun e => e.weight)).sum

/-- The graph has a cycle of negative weight through a vertex that a walk from `src`
reaches. -/
def NegCycleReachable (edges : List Edge) (src : Nat) : Prop :=
  ∃ c p q, IsWalk edges src p c ∧ IsWalk edges c q c ∧ q ≠ [] ∧ weight q < 0

/-- A sum that is the value of an `int` other than the sentinel `INF`. -/
def Good (x : Int) : Prop := -2147483648 ≤ x ∧ x < INT_MAX

/-- Facts about the array `dist` that hold throughout step 2. -/
structure DistInv (edges : List Edge) (src : Nat) (st : State) : Prop where
  src_le : st.dist src ≤ 0
  le_inf : ∀ v, st.dist v ≤ INF
  walk : ∀ v, st.dist v ≠ INF → ∃ p, IsWalk edges src p v ∧ weight p = st.dist v

/-- After `k` complete iterations of the outer loop, `dist` is finite and at most the
weight on the end of every walk from `src` of at most `k` edges. -/
def Rounds (edges : List Edge) (src : Nat) (k : Nat) (st : State) : Prop :=
  ∀ p v, IsWalk edges src p v → p.length ≤ k → st.dist v ≠ INF ∧ st.dist v ≤ weight p

end BF

/-!
# Kruskal's minimum spanning tree: embedding of `kruskal.c`

The globals `n` and `G` are parameters.  The edge lists `elist` and `spanlist` (an array
`data` of `MAX` entries and a count `n`) are Lean lists, `belongs` is a total function on
`Nat`.  `kruskal` is `none` when the vertices do not fit in `G` (`n > MAX`) or the edges
do not fit in `elist.data`.
-/

namespace Kruskal

open MST

open FordFulkerson (setAt)

/-- The source's `#define MAX 30`. -/
def MAX : Nat := 30

/-- The source's `struct edge`. -/
structure Edge where
  u : Nat
  v : Nat
  w : Int
deriving DecidableEq

/-- The inner loop `for (j = 0; j < i; j++)` that appends the edges of row `i` of `G`
to `elist`. -/
def buildRow (G : Nat → Nat → Int) (i : Nat) (elist : List Edge) : List Edge :=
  (List.range i).foldl (fun acc j => if G i j ≠ 0 then acc ++ [⟨i, j, G i j⟩] else acc) elist

/-- The loop `for (i = 1; i < n; i++)` that builds `elist` from `G`. -/
def buildEdges (n : Nat) (G : Nat → Nat → Int) : List Edge :=
  (List.range (n - 1)).foldl (fun acc k => buildRow G (k + 1) acc) []

/-- The inner loop of `sort` from index `j` on, `a` being the current `data[j]`: one
sweep of adjacent exchanges. -/
def bubbleAux : Edge → List Edge → List Edge
  | a, [] => [a]
  | a, b :: rest => if a.w > b.w then b :: bubbleAux a rest else a :: bubbleAux b rest

/-- The inner loop `for (j = 0; j < elist.n - 1; j++)` of `sort`. -/
def bubblePass : List Edge → List Edge
  | [] => []
  | a :: rest => bubbleAux a rest

/-- The function `sort`: `elist.n - 1` sweeps. -/
def sort (elist : List Edge) : List Edge :=
  Nat.iterate bubblePass (elist.length - 1) elist

/-- The function `find`. -/
def find (belongs : Nat → Nat) (vertexno : Nat) : Nat := belongs vertexno

/-- The function `union1`. -/
def union1 (n : Nat) (belongs : Nat → Nat) (c1 c2 : Nat) : Nat → Nat :=
  (List.range n).foldl (fun b i => if b i = c2 then setAt b i c1 else b) belongs

/-- The array `belongs` and the list `spanlist` of `kruskal`. -/
structure State where
  belongs : Nat → Nat
  spanlist : List Edge

/-- The loop of `kruskal` over the sorted edges that are still to process. -/
def kruskalLoop (n : Nat) : List Edge → State → State
  | [], st => st
  | e :: rest, st =>
    if find st.belongs e.u ≠ find st.belongs e.v then
      if ((st.spanlist ++ [e]).length : Int) = (n : Int) - 1 then
        { belongs := union1 n st.belongs (find st.belongs e.u) (find st.belongs e.v),
          spanlist := st.spanlist ++ [e] }
      else
        kruskalLoop n rest
          { belongs := union1 n st.belongs (find st.belongs e.u) (find st.belongs e.v),
            spanlist := st.spanlist ++ [e] }
    else kruskalLoop n rest st

/-- The function `kruskal`: the contents of `spanlist` when it returns. -/
def kruskal (n : Nat) (G : Nat → Nat → Int) : Option (List Edge) :=
  if MAX < n then none
  else if MAX < (buildEdges n G).length then none
  else some (kruskalLoop n (sort (buildEdges n G))
    { belongs := fun i => i, spanlist := [] }).spanlist

/-- The vertices of the edges of a list. -/
def pairs (l : List Edge) : List (Nat × Nat) := l.map (fun e => (e.u, e.v))

/-- A symmetric matrix on four vertices (the graph of `main` in `prim.c`). -/
def sampleGraph : Nat → Nat → Int := fun u v =>
  match u, v with
  | 0, 1 => 1 | 0, 2 => 4
  | 1, 0 => 1 | 1, 2 => 2 | 1, 3 => 5
  | 2, 0 => 4 | 2, 1 => 2 | 2, 3 => 1
  | 3, 1 => 5 | 3, 2 => 1
  | _, _ => 0

/-- The last `k` entries of the list are sorted and not below any entry before them. -/
def Part (k : Nat) (l : List Edge) : Prop :=
  ∃ P S, l = P ++ S ∧ S.length = k ∧ S.Pairwise (fun x y => x.w ≤ y.w) ∧
    ∀ p ∈ P, ∀ s ∈ S, p.w ≤ s.w

/-- Invariant of the loop of `kruskal`; `P` lists the edges that have been processed. -/
structure KInv (n : Nat) (G : Nat → Nat → Int) (elist P : List Edge) (st : State) : Prop where
  mem : ∀ e ∈ st.spanlist, e ∈ elist
  label : ∀ x y, x < n → y < n →
    (st.belongs x = st.belongs y ↔ Conn (pairs st.spanlist).reverse x y)
  forest : Forest (pairs st.spanlist).reverse
  done : ∀ e ∈ P, st.belongs e.u = st.belongs e.v
  prom : Promising n G (pairs st.spanlist).reverse

/-- Facts on the sorted edge list that the loop of `kruskal` uses. -/
structure EdgeList (n : Nat) (G : Nat → Nat → Int) (elist : List Edge) : Prop where
  edge : ∀ e ∈ elist, e.u < n ∧ e.v < n ∧ e.w = G e.u e.v ∧ G e.u e.v ≠ 0
  all : ∀ x y, x < n → y < n → x ≠ y → G x y ≠ 0 →
    ∃ e ∈ elist, ((e.u = x ∧ e.v = y) ∨ (e.u = y ∧ e.v = x)) ∧ e.w = G x y
  sorted : elist.Pairwise (fun x y => x.w ≤ y.w)

end Kruskal

/-!
# Prim's minimum spanning tree: embedding of `prim.c`

`V` (`#define V 4`) is a parameter.  The arrays `parent`, `key` and `mstSet` are total
functions on `Nat`.  `primAlgorithm` is `none` when it returns from inside the loop
("Graph is not connected!"), and otherwise the arrays with which `printMST` is called.
-/

namespace Prim

open MST

open FordFulkerson (INT_MAX setAt)

/-- The source's `#define INF INT_MAX`. -/
def INF : Int := INT_MAX

/-- The function `minKey`: the accumulator of the loop is `(min, min_index)`. -/
def minKey (V : Nat) (key : Nat → Int) (mstSet : Nat → Bool) : Int :=
  ((List.range V).foldl (fun (acc : Int × Int) (v : Nat) =>
    if mstSet v = false ∧ key v < acc.1 then (key v, (v : Int)) else acc) (INF, -1)).2

/-- Local arrays of `primAlgorithm`. -/
structure State where
  parent : Nat → Int
  key : Nat → Int
  mstSet : Nat → Bool

/-- The initialisation loop of `primAlgorithm` followed by `key[0] = 0` and
`parent[0] = -1`. -/
def init : State :=
  { parent := setAt (fun _ => -1) 0 (-1), key := setAt (fun _ => INF) 0 0,
    mstSet := fun _ => false }

/-- Body of the inner loop `for (int v = 0; v < V; v++)` of `primAlgorithm` for the picked
vertex `u`. -/
def update (graph : Nat → Nat → Int) (u : Nat) (st : State) (v : Nat) : State :=
  if graph u v ≠ 0 ∧ st.mstSet v = false ∧ graph u v < st.key v then
    { st with parent := setAt st.parent v (u : Int), key := setAt st.key v (graph u v) }
  else st

/-- One iteration of the main loop of `primAlgorithm`; `none` is the `return` taken when
`minKey` returns `-1`. -/
def primStep (V : Nat) (graph : Nat → Nat → Int) (st : State) : Option State :=
  let u := minKey V st.key st.mstSet
  if u = -1 then none
  else some ((List.range V).foldl (update graph u.toNat)
    { st with mstSet := setAt st.mstSet u.toNat true })

/-- The main loop `for (count = 0; count < V - 1; count++)` of `primAlgorithm`, with `n`
iterations still to make. -/
def primLoop (V : Nat) (graph : Nat → Nat → Int) : Nat → State → Option State
  | 0, st => some st
  | n + 1, st =>
    match primStep V graph st with
    | none => none
    | some st1 => primLoop V graph n st1

/-- The arrays of `primAlgorithm` when `printMST` is called. -/
def primAlgorithm (V : Nat) (graph : Nat → Nat → Int) : Option State :=
  primLoop V graph (V - 1) init

/-- The edges `(parent[i], i)`, `1 ≤ i < V`, that `printMST` prints. -/
def mstEdges (V : Nat) (parent : Nat → Int) : List (Nat × Nat) :=
  (List.range (V - 1)).map (fun i => ((parent (i + 1)).toNat, i + 1))

/-- The graph of `main` in `prim.c`. -/
def mainGraph : Nat → Nat → Int := fun u v =>
  match u, v with
  | 0, 1 => 1 | 0, 2 => 4
  | 1, 0 => 1 | 1, 2 => 2 | 1, 3 => 5
  | 2, 0 => 4 | 2, 1 => 2 | 2, 3 => 1
  | 3, 1 => 5 | 3, 2 => 1
  | _, _ => 0

/-- Invariant of the main loop of `primAlgorithm` after `k ≥ 1` iterations; `F` lists the
edges `(parent[v], v)` of the vertices `v ≠ 0` of `mstSet`. -/
structure PInv (V : Nat) (G : Nat → Nat → Int) (k : Nat) (st : State)
    (F : List (Nat × Nat)) : Prop where
  card : ((Finset.range V).filter (fun v => st.mstSet v = true)).card = k
  zero : st.mstSet 0 = true
  edges : ∀ f ∈ F, IsEdge V G f ∧ st.mstSet f.1 = true ∧ st.mstSet f.2 = true
  conn : ∀ v, v < V → st.mstSet v = true → Conn F 0 v
  len : F.length + 1 = k
  prom : Promising V G F
  par : ∀ v, v < V → v ≠ 0 → st.mstSet v = true →
    ∃ p : Nat, st.parent v = (p : Int) ∧ (p, v) ∈ F
  key : ∀ v, v < V → st.mstSet v = false →
    (st.key v = INF ∧ ∀ u, u < V → st.mstSet u = true → G u v = 0) ∨
    ∃ u, u < V ∧ st.parent v = (u : Int) ∧ st.mstSet u = true ∧ G u v ≠ 0 ∧
      st.key v = G u v ∧
      ∀ u1, u1 < V → st.mstSet u1 = true → G u1 v ≠ 0 → st.key v ≤ G u1 v

end Prim

namespace FordFulkerson
/-! ## Elementary facts -/

theorem wrapInt_of_range {x : Int} (h1 : -2147483648 ≤ x) (h2 : x ≤ INT_MAX) : wrapInt x = x := by
  unfold wrapInt
  unfold INT_MAX at h2
  omega

theorem wrapInt_le_max (x : Int) : wrapInt x ≤ INT_MAX := by
  unfold wrapInt INT_MAX
  omega

theorem wrapInt_ge_min (x : Int) : -2147483648 ≤ wrapInt x := by
  unfold wrapInt
  omega

@[simp] theorem setAt_same {α : Type} (a : Nat → α) (i : Nat) (x : α) : setAt a i x i = x := by
  simp [setAt]

theorem setAt_other {α : Type} (a : Nat → α) {i j : Nat} (x : α) (h : j ≠ i) :
    setAt a i x j = a j := by
  simp [setAt, h]

@[simp] theorem setAt2_same (m : Nat → Nat → Int) (i j : Nat) (x : Int) :
    setAt2 m i j x i j = x := by
  simp [setAt2]

theorem setAt2_other (m : Nat → Nat → Int) {i j a b : Nat} (x : Int) (h : ¬(a = i ∧ b = j)) :
    setAt2 m i j x a b = m a b := by
  simp only [setAt2, if_neg h]

/-! ## More fuel never changes a result -/

theorem bfsLoop_mono (V : Nat) (r : Nat → Nat → Int) (t : Nat) :
    ∀ (n m : Nat) (st : BfsState) (x : Bool × BfsState),
      bfsLoop V r t n st = some x → n ≤ m → bfsLoop V r t m st = some x := by
  intro n
  induction n with
  | zero => intro m st x h; simp [bfsLoop] at h
  | succ n ih =>
    intro m st x h hm
    obtain ⟨m, rfl⟩ : ∃ k, m = k + 1 := ⟨m - 1, by omega⟩
    simp only [bfsLoop] at h ⊢
    split at h
    · rename_i hlt
      rw [if_pos hlt]
      split at h
      · exact h
      · rename_i st1 heq
        exact ih m st1 x h (by omega)
    · rename_i hlt
      rw [if_neg hlt]; exact h

theorem bfs_mono {V : Nat} {r : Nat → Nat → Int} {s t : Nat} {parent : Nat → Int} {n m : Nat}
    {x : Bool × (Nat → Int)} (h : bfs V r s t parent n = some x) (hm : n ≤ m) :
    bfs V r s t parent m = some x := by
  unfold bfs at h ⊢
  cases hb : bfsLoop V r t n (bfsInit s parent) with
  | none => simp [hb] at h
  | some y =>
    rw [bfsLoop_mono V r t n m _ y hb hm]
    rw [hb] at h
    exact h

theorem printPath_mono (V : Nat) (parent : Nat → Int) (s : Nat) :
    ∀ (n m v : Nat) (x : List Nat),
      printPath V parent s n v = some x → n ≤ m → printPath V parent s m v = some x := by
  intro n
  induction n with
  | zero => intro m v x h; simp [printPath] at h
  | succ n ih =>
    intro m v x h hm
    obtain ⟨m, rfl⟩ : ∃ k, m = k + 1 := ⟨m - 1, by omega⟩
    simp only [printPath] at h ⊢
    by_cases hv : v = s
    · simpa [hv] using h
    · rw [if_neg hv] at h ⊢
      cases hp : parentOf V parent v with
      | none => simp [hp] at h
      | some u =>
        simp only [hp] at h ⊢
        cases hr : printPath V parent s n u with
        | none => simp [hr] at h
        | some l =>
          rw [ih m u l hr (by omega)]
          rw [hr] at h
          exact h

theorem bottleneck_mono (V : Nat) (r : Nat → Nat → Int) (parent : Nat → Int) (s : Nat) :
    ∀ (n m v : Nat) (pf x : Int),
      bottleneck V r parent s n v pf = some x → n ≤ m → bottleneck V r parent s m v pf = some x := by
  intro n
  induction n with
  | zero => intro m v pf x h; simp [bottleneck] at h
  | succ n ih =>
    intro m v pf x h hm
    obtain ⟨m, rfl⟩ : ∃ k, m = k + 1 := ⟨m - 1, by omega⟩
    simp only [bottleneck] at h ⊢
    by_cases hv : v = s
    · simpa [hv] using h
    · rw [if_neg hv] at h ⊢
      cases hp : parentOf V parent v with
      | none => simp [hp] at h
      | some u =>
        simp only [hp] at h ⊢
        exact ih m u _ x h (by omega)

theorem updateResidual_mono (V : Nat) (parent : Nat → Int) (s : Nat) (pf : Int) :
    ∀ (n m v : Nat) (r x : Nat → Nat → Int),
      updateResidual V parent s pf n v r = some x → n ≤ m →
        updateResidual V parent s pf m v r = some x := by
  intro n
  induction n with
  | zero => intro m v r x h; simp [updateResidual] at h
  | succ n ih =>
    intro m v r x h hm
    obtain ⟨m, rfl⟩ : ∃ k, m = k + 1 := ⟨m - 1, by omega⟩
    simp only [updateResidual] at h ⊢
    by_cases hv : v = s
    · simpa [hv] using h
    · rw [if_neg hv] at h ⊢
      cases hp : parentOf V parent v with
      | none => simp [hp] at h
      | some u =>
        simp only [hp] at h ⊢
        exact ih m u _ x h (by omega)

theorem augment_mono {V s t n m : Nat} {st st1 : FFState} {parent : Nat → Int}
    (h : augment V s t n st parent = some st1) (hm : n ≤ m) :
    augment V s t m st parent = some st1 := by
  unfold augment at h ⊢
  cases hq : printPath V parent s n t with
  | none => simp [hq] at h
  | some path =>
    rw [printPath_mono V parent s n m t path hq hm]
    simp only [hq] at h ⊢
    cases hb : bottleneck V st.rGraph parent s n t INF with
    | none => simp [hb] at h
    | some pf =>
      rw [bottleneck_mono V st.rGraph parent s n m t INF pf hb hm]
      simp only [hb] at h ⊢
      cases hu : updateResidual V parent s pf n t st.rGraph with
      | none => simp [hu] at h
      | some r1 =>
        rw [updateResidual_mono V parent s pf n m t st.rGraph r1 hu hm]
        simp only [hu] at h ⊢
        exact h

theorem ffStep_mono {V s t n m : Nat} {st : FFState} {x : Bool × FFState}
    (h : ffStep V s t n st = some x) (hm : n ≤ m) : ffStep V s t m st = some x := by
  unfold ffStep at h ⊢
  cases hb : bfs V st.rGraph s t st.parent n with
  | none => simp [hb] at h
  | some y =>
    obtain ⟨b, p⟩ := y
    rw [bfs_mono hb hm]
    rw [hb] at h
    cases b with
    | false => exact h
    | true =>
      simp only at h ⊢
      cases ha : augment V s t n st p with
      | none => simp [ha] at h
      | some st1 =>
        rw [augment_mono ha hm]
        rw [ha] at h
        exact h

theorem ffLoop_mono (V s t : Nat) :
    ∀ (n m fuel fuel1 : Nat) (st x : FFState),
      ffLoop V s t fuel n st = some x → n ≤ m → fuel ≤ fuel1 →
        ffLoop V s t fuel1 m st = some x := by
  intro n
  induction n with
  | zero => intro m fuel fuel1 st x h; simp [ffLoop] at h
  | succ n ih =>
    intro m fuel fuel1 st x h hm hf
    obtain ⟨m, rfl⟩ : ∃ k, m = k + 1 := ⟨m - 1, by omega⟩
    simp only [ffLoop] at h ⊢
    cases hs : ffStep V s t fuel st with
    | none => simp [hs] at h
    | some y =>
      obtain ⟨b, st1⟩ := y
      rw [ffStep_mono hs hf]
      rw [hs] at h
      cases b with
      | false => exact h
      | true => exact ih m fuel fuel1 st1 x h (by omega) hf

theorem fordFulkersonRun_mono {V : Nat} {graph : Nat → Nat → Int} {s t : Nat}
    {parent0 : Nat → Int} {n m : Nat} {x : FFState}
    (h : fordFulkersonRun V graph s t parent0 n = some x) (hm : n ≤ m) :
    fordFulkersonRun V graph s t parent0 m = some x :=
  ffLoop_mono V s t n m n m _ x h hm hm

/-! ## Walks and distances -/

theorem dist_le (V : Nat) (r : Nat → Nat → Int) (s v : Nat) : dist V r s v ≤ V := by
  unfold dist
  split
  · rename_i h
    exact le_of_lt (Nat.find_spec h).1
  · exact le_refl V

theorem dist_le_of_reach {V : Nat} {r : Nat → Nat → Int} {s n v : Nat}
    (h : Reach V r s n v) : dist V r s v ≤ n := by
  by_cases hn : n < V
  · have hex : ∃ n, n < V ∧ Reach V r s n v := ⟨n, hn, h⟩
    unfold dist
    rw [dif_pos hex]
    exact Nat.find_min' hex ⟨hn, h⟩
  · exact le_trans (dist_le V r s v) (by omega)

theorem reach_dist {V : Nat} {r : Nat → Nat → Int} {s v : Nat}
    (h : dist V r s v < V) : Reach V r s (dist V r s v) v := by
  unfold dist at h ⊢
  split
  · rename_i hex
    exact (Nat.find_spec hex).2
  · rename_i hex
    rw [dif_neg hex] at h
    omega

theorem dist_self (V : Nat) (r : Nat → Nat → Int) (s : Nat) : dist V r s s = 0 := by
  have h : Reach V r s 0 s := by simp [Reach]
  have := dist_le_of_reach h
  omega

theorem reach_lt {V : Nat} {r : Nat → Nat → Int} {s n v : Nat} (hs : s < V)
    (h : Reach V r s n v) : v < V := by
  cases n with
  | zero => simp only [Reach] at h; omega
  | succ n => exact h.1

theorem dist_edge {V : Nat} {r : Nat → Nat → Int} {s u w : Nat} (hu : u < V) (hw : w < V)
    (h : 0 < r u w) : dist V r s w ≤ dist V r s u + 1 := by
  by_cases hd : dist V r s u < V
  · have h1 : Reach V r s (dist V r s u + 1) w := ⟨hw, u, hu, reach_dist hd, h⟩
    exact dist_le_of_reach h1
  · have := dist_le V r s w
    omega

theorem dist_pred {V : Nat} {r : Nat → Nat → Int} {s w : Nat}
    (hd : dist V r s w < V) (hws : w ≠ s) :
    w < V ∧ ∃ u, u < V ∧ 0 < r u w ∧ dist V r s u + 1 = dist V r s w := by
  have h := reach_dist hd
  cases hn : dist V r s w with
  | zero =>
    rw [hn] at h
    simp only [Reach] at h
    exact absurd h hws
  | succ n =>
    rw [hn] at h
    obtain ⟨hw, u, hu, hru, hpos⟩ := h
    refine ⟨hw, u, hu, hpos, ?_⟩
    have h1 := dist_le_of_reach hru
    have h2 := dist_edge (s := s) hu hw hpos
    omega

/-! ## Paths recorded in `parent[]` -/

theorem IsRPath.congr {r : Nat → Nat → Int} {p p1 : Nat → Int} {s : Nat} :
    ∀ {l : List Nat}, (∀ x ∈ l, p1 x = p x) → IsRPath r p s l → IsRPath r p1 s l
  | [], _, h => h
  | [_], _, h => h
  | v :: u :: rest, hag, h => by
    obtain ⟨h1, h2, h3⟩ := h
    refine ⟨?_, h2, ?_⟩
    · rw [hag v (by simp)]; exact h1
    · exact IsRPath.congr (fun x hx => hag x (List.mem_cons_of_mem _ hx)) h3

theorem IsRPath.getLast {r : Nat → Nat → Int} {p : Nat → Int} {s : Nat} :
    ∀ {l : List Nat}, IsRPath r p s l → s ∈ l
  | [], h => h.elim
  | [v], h => by simp only [IsRPath] at h; simp [h]
  | v :: u :: rest, h => by
    have := IsRPath.getLast h.2.2
    exact List.mem_cons_of_mem _ this

theorem nodup_length_le {V : Nat} {l : List Nat} (hn : l.Nodup) (hl : ∀ x ∈ l, x < V) :
    l.length ≤ V := by
  have h1 : l.toFinset ⊆ Finset.range V := by
    intro x hx
    simp only [List.mem_toFinset] at hx
    simpa using hl x hx
  have h2 := Finset.card_le_card h1
  rw [List.toFinset_card_of_nodup hn, Finset.card_range] at h2
  exact h2

/-! ## Breadth-first search -/

theorem BfsInv.visited_lt {V : Nat} {r : Nat → Nat → Int} {s t : Nat} {st : BfsState} {c : Nat}
    (h : BfsInv V r s t st c) {v : Nat} (hv : st.visited v = true) : v < V := by
  obtain ⟨i, hi, rfl⟩ := h.vis_q v hv
  exact h.q_lt i hi

theorem BfsInv.dist_lt {V : Nat} {r : Nat → Nat → Int} {s t : Nat} {st : BfsState} {c : Nat}
    (h : BfsInv V r s t st c) {v : Nat} (hv : st.visited v = true) : dist V r s v < V := by
  obtain ⟨l, _, hnd, hvis, hlen⟩ := h.path v hv
  have := nodup_length_le (V := V) hnd (by
    intro x hx
    rcases List.mem_cons.1 hx with rfl | hx
    · exact h.visited_lt hv
    · exact h.visited_lt (hvis x hx))
  simp only [List.length_cons] at this
  omega

/-- Every vertex at most as far from `s` as the vertex being scanned is already visited. -/
theorem BfsInv.visited_of_dist_le {V : Nat} {r : Nat → Nat → Int} {s t : Nat} {st : BfsState}
    {c : Nat} (h : BfsInv V r s t st c) (hf : 1 ≤ st.front) :
    ∀ n x, dist V r s x = n → n ≤ dist V r s (st.queue (st.front - 1)) →
      st.visited x = true := by
  have hu : st.front - 1 < st.rear := by have := h.front_le; omega
  have hdu := h.dist_lt (h.q_vis _ hu)
  intro n
  induction n with
  | zero =>
    intro x hx _
    by_cases hxs : x = s
    · rw [hxs]; exact h.s_vis
    · have := (dist_pred (V := V) (r := r) (s := s) (w := x) (by omega) hxs).2
      obtain ⟨u, _, _, hd⟩ := this
      omega
  | succ n ih =>
    intro x hx hle
    by_cases hxs : x = s
    · rw [hxs]; exact h.s_vis
    · obtain ⟨hxV, y, hyV, hpos, hd⟩ := dist_pred (V := V) (r := r) (s := s) (w := x) (by omega) hxs
      have hy := ih y (by omega) (by omega)
      obtain ⟨i, hi, hqi⟩ := h.vis_q y hy
      have hif : i + 1 < st.front := by
        by_contra hcon
        have := h.q_sorted (st.front - 1) i (by omega) hi
        rw [hqi] at this
        omega
      have := h.full i hif x hxV
      rw [hqi] at this
      exact this hpos

/-- A vertex discovered from the vertex being scanned is one edge further from `s`,
and `parent[]` then records a shortest path to it. -/
theorem BfsInv.discover {V : Nat} {r : Nat → Nat → Int} {s t : Nat} {st : BfsState} {c : Nat}
    (h : BfsInv V r s t st c) (hf : 1 ≤ st.front) {w : Nat} (hw : w < V)
    (hunv : st.visited w = false) (hpos : 0 < r (st.queue (st.front - 1)) w) :
    dist V r s w = dist V r s (st.queue (st.front - 1)) + 1 ∧ dist V r s w < V ∧
    ∃ l, IsRPath r (setAt st.parent w ((st.queue (st.front - 1) : Nat) : Int)) s (w :: l) ∧
      (w :: l).Nodup ∧ (∀ x ∈ l, st.visited x = true) ∧ l.length = dist V r s w := by
  have hu : st.front - 1 < st.rear := by have := h.front_le; omega
  have huvis := h.q_vis _ hu
  have huV := h.q_lt _ hu
  set u := st.queue (st.front - 1) with hudef
  obtain ⟨lu, hpath, hnd, hvis, hlen⟩ := h.path u huvis
  have hle := dist_edge (s := s) huV hw hpos
  have hgt : dist V r s u < dist V r s w := by
    by_contra hcon
    have := h.visited_of_dist_le hf (dist V r s w) w rfl (by rw [← hudef]; omega)
    rw [hunv] at this
    exact Bool.noConfusion this
  have hall : ∀ x ∈ u :: lu, st.visited x = true := by
    intro x hx
    rcases List.mem_cons.1 hx with rfl | hx
    · exact huvis
    · exact hvis x hx
  have hwnot : w ∉ u :: lu := by
    intro hmem
    have := hall w hmem
    rw [hunv] at this
    exact Bool.noConfusion this
  have hnd2 : (w :: u :: lu).Nodup := List.nodup_cons.2 ⟨hwnot, hnd⟩
  have hlen2 := nodup_length_le (V := V) hnd2 (by
    intro x hx
    rcases List.mem_cons.1 hx with rfl | hx
    · exact hw
    · exact h.visited_lt (hall x hx))
  simp only [List.length_cons] at hlen2
  have hdw : dist V r s w = dist V r s u + 1 := by omega
  refine ⟨hdw, by omega, u :: lu, ?_, hnd2, hall, ?_⟩
  · refine ⟨by simp, hpos, ?_⟩
    apply IsRPath.congr _ hpath
    intro x hx
    apply setAt_other
    rintro rfl
    exact hwnot hx
  · simp only [List.length_cons]; omega

theorem BfsInv.skip {V : Nat} {r : Nat → Nat → Int} {s t : Nat} {st : BfsState} {v : Nat}
    (h : BfsInv V r s t st v)
    (hc : ¬(st.visited v = false ∧ 0 < r (st.queue (st.front - 1)) v)) :
    BfsInv V r s t st (v + 1) := by
  refine { h with part := ?_ }
  intro w hw hwV hf hpos
  by_cases hwv : w = v
  · subst hwv
    by_contra hcon
    exact hc ⟨by simpa using hcon, hpos⟩
  · exact h.part w (by omega) hwV hf hpos

theorem BfsInv.enqueue {V : Nat} {r : Nat → Nat → Int} {s t : Nat} {st : BfsState} {v : Nat}
    (h : BfsInv V r s t st v) (hf : 1 ≤ st.front) (hv : v < V) (hvt : v ≠ t)
    (hunv : st.visited v = false) (hpos : 0 < r (st.queue (st.front - 1)) v) :
    BfsInv V r s t
      { st with
        queue := setAt st.queue st.rear v
        rear := st.rear + 1
        parent := setAt st.parent v ((st.queue (st.front - 1) : Nat) : Int)
        visited := setAt st.visited v true } (v + 1) := by
  obtain ⟨hdv, hdvV, l, hpath, hnd, hvis, hlen⟩ := h.discover hf hv hunv hpos
  have hfr := h.front_le
  have hqold : ∀ i, i < st.rear → setAt st.queue st.rear v i = st.queue i := fun i hi =>
    setAt_other _ _ (by omega)
  have hvisold : ∀ x, st.visited x = true → setAt st.visited v true x = true := by
    intro x hx
    by_cases hxv : x = v
    · rw [hxv]; simp
    · rw [setAt_other _ _ hxv]; exact hx
  have hvs : v ≠ s := by
    rintro rfl
    have := h.s_vis
    rw [hunv] at this
    exact Bool.noConfusion this
  have hqne : ∀ i, i < st.rear → st.queue i ≠ v := by
    intro i hi heq
    have := h.q_vis i hi
    rw [heq, hunv] at this
    exact Bool.noConfusion this
  have hdle : ∀ i, i < st.rear → dist V r s (st.queue i) ≤ dist V r s v := by
    intro i hi
    by_cases his : st.queue i = s
    · rw [his, dist_self]; exact Nat.zero_le _
    · obtain ⟨k, hk, hd⟩ := h.q_par i hi his
      have := h.q_sorted k (st.front - 1) (by omega) (by omega)
      omega
  constructor
  · show st.front ≤ st.rear + 1
    omega
  · intro i hi
    show setAt st.queue st.rear v i < V
    by_cases hir : i = st.rear
    · rw [hir]; simpa using hv
    · rw [hqold i (by simp only at hi; omega)]; exact h.q_lt i (by simp only at hi; omega)
  · intro i hi
    show setAt st.visited v true (setAt st.queue st.rear v i) = true
    by_cases hir : i = st.rear
    · rw [hir]; simp
    · rw [hqold i (by simp only at hi; omega)]
      exact hvisold _ (h.q_vis i (by simp only at hi; omega))
  · intro x hx
    show ∃ i, i < st.rear + 1 ∧ setAt st.queue st.rear v i = x
    by_cases hxv : x = v
    · exact ⟨st.rear, by omega, by rw [hxv]; simp⟩
    · have hx1 : st.visited x = true := by
        have : setAt st.visited v true x = true := hx
        rwa [setAt_other _ _ hxv] at this
      obtain ⟨i, hi, hq⟩ := h.vis_q x hx1
      exact ⟨i, by omega, by rw [hqold i hi]; exact hq⟩
  · intro i j hij hj
    show setAt st.queue st.rear v i ≠ setAt st.queue st.rear v j
    have hj1 : j < st.rear + 1 := hj
    by_cases hjr : j = st.rear
    · rw [hjr, hqold i (by omega)]
      simpa using hqne i (by omega)
    · rw [hqold i (by omega), hqold j (by omega)]
      exact h.q_inj i j hij (by omega)
  · exact hvisold s h.s_vis
  · show setAt st.visited v true t = false
    rw [setAt_other _ _ (Ne.symm hvt)]
    exact h.t_unvis
  · intro i j hij hj
    show dist V r s (setAt st.queue st.rear v i) ≤ dist V r s (setAt st.queue st.rear v j)
    have hj1 : j < st.rear + 1 := hj
    by_cases hjr : j = st.rear
    · by_cases hir : i = st.rear
      · rw [hjr, hir]
      · rw [hjr, hqold i (by omega)]
        simpa using hdle i (by omega)
    · rw [hqold i (by omega), hqold j (by omega)]
      exact h.q_sorted i j hij (by omega)
  · intro j hj hjs
    show ∃ i, i < st.front ∧
      dist V r s (setAt st.queue st.rear v j) = dist V r s (setAt st.queue st.rear v i) + 1
    have hj1 : j < st.rear + 1 := hj
    by_cases hjr : j = st.rear
    · refine ⟨st.front - 1, by omega, ?_⟩
      rw [hjr, hqold (st.front - 1) (by omega)]
      simpa using hdv
    · have hjs1 : st.queue j ≠ s := by
        have : setAt st.queue st.rear v j ≠ s := hjs
        rwa [hqold j (by omega)] at this
      obtain ⟨i, hi, hd⟩ := h.q_par j (by omega) hjs1
      exact ⟨i, hi, by rw [hqold j (by omega), hqold i (by omega)]; exact hd⟩
  · intro x hx
    show ∃ l, IsRPath r (setAt st.parent v ((st.queue (st.front - 1) : Nat) : Int)) s (x :: l) ∧
      (x :: l).Nodup ∧ (∀ y ∈ l, setAt st.visited v true y = true) ∧ l.length = dist V r s x
    by_cases hxv : x = v
    · rw [hxv]
      exact ⟨l, hpath, hnd, fun y hy => hvisold y (hvis y hy), hlen⟩
    · have hx1 : st.visited x = true := by
        have : setAt st.visited v true x = true := hx
        rwa [setAt_other _ _ hxv] at this
      obtain ⟨lx, hp, hn, hvx, hl⟩ := h.path x hx1
      refine ⟨lx, ?_, hn, fun y hy => hvisold y (hvx y hy), hl⟩
      apply IsRPath.congr _ hp
      intro y hy
      apply setAt_other
      rintro rfl
      rcases List.mem_cons.1 hy with rfl | hy
      · exact hxv rfl
      · have := hvx _ hy
        rw [hunv] at this
        exact Bool.noConfusion this
  · intro i hi w hw hp
    show setAt st.visited v true w = true
    have hi1 : i + 1 < st.front := hi
    have hp1 : 0 < r (st.queue i) w := by
      have : 0 < r (setAt st.queue st.rear v i) w := hp
      rwa [hqold i (by omega)] at this
    exact hvisold w (h.full i hi1 w hw hp1)
  · intro w hw hwV hf1 hp
    show setAt st.visited v true w = true
    by_cases hwv : w = v
    · rw [hwv]; simp
    · have hp1 : 0 < r (st.queue (st.front - 1)) w := by
        have : 0 < r (setAt st.queue st.rear v (st.front - 1)) w := hp
        rwa [hqold _ (by omega)] at this
      exact hvisold w (h.part w (by omega) hwV hf hp1)

theorem BfsInv.found {V : Nat} {r : Nat → Nat → Int} {s t : Nat} {st : BfsState} {c : Nat}
    (h : BfsInv V r s t st c) (hf : 1 ≤ st.front) (ht : t < V)
    (hpos : 0 < r (st.queue (st.front - 1)) t) :
    BfsFound V r s t (setAt st.parent t ((st.queue (st.front - 1) : Nat) : Int)) := by
  obtain ⟨_, hdV, l, hpath, hnd, hvis, hlen⟩ := h.discover hf ht h.t_unvis hpos
  exact ⟨l, hpath, hnd, fun x hx => h.visited_lt (hvis x hx), hlen, hdV⟩

theorem BfsInv.rear_le {V : Nat} {r : Nat → Nat → Int} {s t : Nat} {st : BfsState} {c : Nat}
    (h : BfsInv V r s t st c) : st.rear ≤ V := by
  have := Finset.card_le_card_of_injOn (s := Finset.range st.rear) (t := Finset.range V)
    st.queue (by
      intro i hi
      exact Finset.mem_range.2 (h.q_lt i (Finset.mem_range.1 hi)))
    (by
      intro i hi j hj hij
      simp only [Finset.coe_range, Set.mem_Iio] at hi hj
      by_contra hne
      rcases Nat.lt_or_gt_of_ne hne with hlt | hlt
      · exact h.q_inj i j hlt hj hij
      · exact h.q_inj j i hlt hi hij.symm)
  simpa using this

theorem BfsInv.advance {V : Nat} {r : Nat → Nat → Int} {s t : Nat} {st : BfsState}
    (h : BfsInv V r s t st V) (hlt : st.front < st.rear) :
    BfsInv V r s t { st with front := st.front + 1 } 0 := by
  constructor
  · show st.front + 1 ≤ st.rear
    omega
  · exact h.q_lt
  · exact h.q_vis
  · exact h.vis_q
  · exact h.q_inj
  · exact h.s_vis
  · exact h.t_unvis
  · exact h.q_sorted
  · intro j hj hjs
    obtain ⟨i, hi, hd⟩ := h.q_par j hj hjs
    exact ⟨i, Nat.lt_succ_of_lt hi, hd⟩
  · exact h.path
  · intro i hi w hw hp
    have hi1 : i + 1 < st.front + 1 := hi
    by_cases hif : i + 1 < st.front
    · exact h.full i hif w hw hp
    · have hieq : i = st.front - 1 := by omega
      rw [hieq] at hp
      exact h.part w hw hw (by omega) hp
  · intro w hw
    exact absurd hw (Nat.not_lt_zero w)

theorem bfsScan_spec {V : Nat} {r : Nat → Nat → Int} {s t : Nat} (ht : t < V) (u : Nat) :
    ∀ (n v : Nat) (st : BfsState), v + n = V → 1 ≤ st.front → st.queue (st.front - 1) = u →
      BfsInv V r s t st v →
      ∀ (b : Bool) (st1 : BfsState), bfsScan r t u n v st = (b, st1) →
        (b = false → BfsInv V r s t st1 V ∧ st1.front = st.front) ∧
        (b = true → BfsFound V r s t st1.parent) := by
  intro n
  induction n with
  | zero =>
    intro v st hv _ _ hinv b st1 hres
    simp only [bfsScan, Prod.mk.injEq] at hres
    obtain ⟨rfl, rfl⟩ := hres
    have hvV : v = V := by omega
    subst hvV
    exact ⟨fun _ => ⟨hinv, rfl⟩, fun hb => Bool.noConfusion hb⟩
  | succ n ih =>
    intro v st hv hf hu hinv b st1 hres
    have hvV : v < V := by omega
    simp only [bfsScan] at hres
    by_cases hc : st.visited v = false ∧ 0 < r u v
    · rw [if_pos hc] at hres
      by_cases hvt : v = t
      · rw [if_pos hvt] at hres
        simp only [Prod.mk.injEq] at hres
        obtain ⟨rfl, rfl⟩ := hres
        refine ⟨fun hb => Bool.noConfusion hb, fun _ => ?_⟩
        subst hvt
        have := hinv.found hf hvV (by rw [hu]; exact hc.2)
        rw [hu] at this
        exact this
      · rw [if_neg hvt] at hres
        have hinv1 := hinv.enqueue hf hvV hvt hc.1 (by rw [hu]; exact hc.2)
        rw [hu] at hinv1
        have hfr := hinv.front_le
        have hu1 : setAt st.queue st.rear v (st.front - 1) = u := by
          rw [setAt_other _ _ (by omega)]
          exact hu
        exact ih (v + 1)
          { st with
            queue := setAt st.queue st.rear v
            rear := st.rear + 1
            parent := setAt st.parent v (u : Int)
            visited := setAt st.visited v true } (by omega) hf hu1 hinv1 b st1 hres
    · rw [if_neg hc] at hres
      have hinv1 := hinv.skip (by rw [hu]; exact hc)
      exact ih (v + 1) st (by omega) hf hu hinv1 b st1 hres

theorem bfsLoop_spec {V : Nat} {r : Nat → Nat → Int} {s t : Nat} (ht : t < V) :
    ∀ (fuel : Nat) (st : BfsState), BfsInv V r s t st V → V + 1 ≤ fuel + st.front →
      ∃ b st1, bfsLoop V r t fuel st = some (b, st1) ∧
        (b = true → BfsFound V r s t st1.parent) ∧
        (b = false → BfsInv V r s t st1 V ∧ st1.front = st1.rear) := by
  intro fuel
  induction fuel with
  | zero =>
    intro st hinv hfuel
    have h1 := hinv.rear_le
    have h2 := hinv.front_le
    have h3 : 0 < st.rear := by
      obtain ⟨i, hi, _⟩ := hinv.vis_q s hinv.s_vis
      omega
    omega
  | succ fuel ih =>
    intro st hinv hfuel
    simp only [bfsLoop]
    by_cases hlt : st.front < st.rear
    · rw [if_pos hlt]
      have hadv := hinv.advance hlt
      cases hres : bfsScan r t (st.queue st.front) V 0 { st with front := st.front + 1 } with
      | mk b st1 =>
        have hspec := bfsScan_spec ht (st.queue st.front) V 0 _ (by omega)
          (by show 1 ≤ st.front + 1; omega) (by show st.queue (st.front + 1 - 1) = _; simp)
          hadv b st1 hres
        cases b with
        | true =>
          exact ⟨true, st1, rfl, fun _ => hspec.2 rfl, fun hb => Bool.noConfusion hb⟩
        | false =>
          obtain ⟨hinv1, hfront⟩ := hspec.1 rfl
          have hfront1 : st1.front = st.front + 1 := hfront
          exact ih st1 hinv1 (by omega)
    · rw [if_neg hlt]
      have := hinv.front_le
      exact ⟨false, st, rfl, fun hb => Bool.noConfusion hb, fun _ => ⟨hinv, by omega⟩⟩

theorem bfsInit_inv {V : Nat} (r : Nat → Nat → Int) {s t : Nat} (hs : s < V) (hst : s ≠ t)
    (parent : Nat → Int) : BfsInv V r s t (bfsInit s parent) V := by
  have hv : ∀ v, (bfsInit s parent).visited v = true → v = s := by
    intro v hv
    by_contra hne
    have : setAt (fun _ => false) s true v = true := hv
    rw [setAt_other _ _ hne] at this
    exact Bool.noConfusion this
  have hq : ∀ i, i < (bfsInit s parent).rear → (bfsInit s parent).queue i = s := by
    intro i hi
    have hi0 : i = 0 := by
      have : i < 1 := hi
      omega
    subst hi0
    simp [bfsInit]
  constructor
  · show 0 ≤ 1
    omega
  · intro i hi; rw [hq i hi]; exact hs
  · intro i hi; rw [hq i hi]; simp [bfsInit]
  · intro v hvv
    exact ⟨0, by show 0 < 1; omega, by rw [hv v hvv]; simp [bfsInit]⟩
  · intro i j hij hj
    have : j < 1 := hj
    omega
  · simp [bfsInit]
  · show setAt (fun _ => false) s true t = false
    rw [setAt_other _ _ (Ne.symm hst)]
  · intro i j hij hj
    rw [hq i (lt_of_le_of_lt hij hj), hq j hj]
  · intro j hj hjs
    exact absurd (hq j hj) hjs
  · intro v hvv
    rw [hv v hvv]
    exact ⟨[], by simp [IsRPath], by simp, by simp, by simp [dist_self]⟩
  · intro i hi
    have : i + 1 < 0 := hi
    omega
  · intro w _ _ hf
    have : 1 ≤ 0 := hf
    omega

theorem BfsInv.closed {V : Nat} {r : Nat → Nat → Int} {s t : Nat} {st : BfsState}
    (h : BfsInv V r s t st V) (hfr : st.front = st.rear) :
    ∀ n v, Reach V r s n v → st.visited v = true := by
  intro n
  induction n with
  | zero =>
    intro v hv
    simp only [Reach] at hv
    rw [hv]; exact h.s_vis
  | succ n ih =>
    intro v hv
    obtain ⟨hvV, u, _, hru, hpos⟩ := hv
    obtain ⟨i, hi, hq⟩ := h.vis_q u (ih u hru)
    by_cases hif : i + 1 < st.front
    · have := h.full i hif v hvV
      rw [hq] at this
      exact this hpos
    · have hieq : i = st.front - 1 := by omega
      have := h.part v hvV hvV (by omega)
      rw [← hieq, hq] at this
      exact this hpos

/-- Specification of `bfs`: with `V + 1` units of fuel it returns; it returns true exactly
when a walk of positive residual capacity leads from `s` to `t`, and then `parent[]`
records a shortest such path. -/
theorem bfs_spec {V : Nat} (r : Nat → Nat → Int) {s t : Nat} (hs : s < V) (ht : t < V)
    (hst : s ≠ t) (parent : Nat → Int) {fuel : Nat} (hfuel : V + 1 ≤ fuel) :
    ∃ b p, bfs V r s t parent fuel = some (b, p) ∧
      (b = true ↔ ∃ n, Reach V r s n t) ∧ (b = true → BfsFound V r s t p) := by
  obtain ⟨b, st1, hrun, htrue, hfalse⟩ :=
    bfsLoop_spec (r := r) (s := s) ht fuel (bfsInit s parent) (bfsInit_inv r hs hst parent)
      (by show V + 1 ≤ fuel + 0; omega)
  refine ⟨b, st1.parent, by simp [bfs, hrun], ?_, htrue⟩
  cases b with
  | true =>
    obtain ⟨l, _, _, _, _, hd⟩ := htrue rfl
    exact ⟨fun _ => ⟨_, reach_dist hd⟩, fun _ => rfl⟩
  | false =>
    obtain ⟨hinv, hfr⟩ := hfalse rfl
    constructor
    · intro hb; exact Bool.noConfusion hb
    · rintro ⟨n, hn⟩
      have := hinv.closed hfr n t hn
      rw [hinv.t_unvis] at this
      exact Bool.noConfusion this

/-! ## The loops that follow `parent[]` from `t` back to `s` -/

theorem parentOf_eq {V : Nat} {p : Nat → Int} {v u : Nat} (h : p v = (u : Int)) (hu : u < V) :
    parentOf V p v = some u := by
  unfold parentOf
  rw [h, if_pos ⟨Int.natCast_nonneg u, by exact_mod_cast hu⟩]
  simp

theorem IsRPath.head_eq_iff {r : Nat → Nat → Int} {p : Nat → Int} {s v : Nat} {l : List Nat}
    (h : IsRPath r p s (v :: l)) (hnd : (v :: l).Nodup) : v = s ↔ l = [] := by
  cases l with
  | nil => simp only [IsRPath] at h; simp [h]
  | cons u rest =>
    have hmem := IsRPath.getLast h.2.2
    have hv := (List.nodup_cons.1 hnd).1
    constructor
    · rintro rfl; exact absurd hmem hv
    · intro hl; exact absurd hl (by simp)

theorem bottleneck_spec {V : Nat} {r : Nat → Nat → Int} {p : Nat → Int} {s : Nat} :
    ∀ (l : List Nat) (v fuel : Nat) (pf : Int), IsRPath r p s (v :: l) → (v :: l).Nodup →
      (∀ x ∈ l, x < V) → l.length < fuel →
      bottleneck V r p s fuel v pf = some (pathMin r pf (v :: l)) := by
  intro l
  induction l with
  | nil =>
    intro v fuel pf h _ _ hfuel
    obtain ⟨fuel, rfl⟩ : ∃ k, fuel = k + 1 := ⟨fuel - 1, by simp at hfuel; omega⟩
    simp only [IsRPath] at h
    simp [bottleneck, h, pathMin]
  | cons u rest ih =>
    intro v fuel pf h hnd hV hfuel
    obtain ⟨fuel, rfl⟩ : ∃ k, fuel = k + 1 := ⟨fuel - 1, by simp at hfuel; omega⟩
    have hvs : v ≠ s := fun hvs => by
      have := (h.head_eq_iff hnd).1 hvs
      simp at this
    simp only [bottleneck, if_neg hvs, parentOf_eq h.1 (hV u (by simp)), pathMin]
    exact ih u fuel _ h.2.2 (List.nodup_cons.1 hnd).2
      (fun x hx => hV x (List.mem_cons_of_mem _ hx)) (by simp at hfuel; omega)

theorem printPath_spec {V : Nat} {r : Nat → Nat → Int} {p : Nat → Int} {s : Nat} :
    ∀ (l : List Nat) (v fuel : Nat), IsRPath r p s (v :: l) → (v :: l).Nodup →
      (∀ x ∈ l, x < V) → l.length < fuel →
      printPath V p s fuel v = some (v :: l) := by
  intro l
  induction l with
  | nil =>
    intro v fuel h _ _ hfuel
    obtain ⟨fuel, rfl⟩ : ∃ k, fuel = k + 1 := ⟨fuel - 1, by simp at hfuel; omega⟩
    simp only [IsRPath] at h
    simp [printPath, h]
  | cons u rest ih =>
    intro v fuel h hnd hV hfuel
    obtain ⟨fuel, rfl⟩ : ∃ k, fuel = k + 1 := ⟨fuel - 1, by simp at hfuel; omega⟩
    have hvs : v ≠ s := fun hvs => by
      have := (h.head_eq_iff hnd).1 hvs
      simp at this
    simp only [printPath, if_neg hvs, parentOf_eq h.1 (hV u (by simp))]
    rw [ih u fuel h.2.2 (List.nodup_cons.1 hnd).2
      (fun x hx => hV x (List.mem_cons_of_mem _ hx)) (by simp at hfuel; omega)]

theorem updateResidual_spec {V : Nat} {r0 : Nat → Nat → Int} {p : Nat → Int} {s : Nat}
    (pf : Int) :
    ∀ (l : List Nat) (v fuel : Nat) (r : Nat → Nat → Int), IsRPath r0 p s (v :: l) →
      (v :: l).Nodup → (∀ x ∈ l, x < V) → l.length < fuel →
      updateResidual V p s pf fuel v r = some (pushPath wrapInt pf r (v :: l)) := by
  intro l
  induction l with
  | nil =>
    intro v fuel r h _ _ hfuel
    obtain ⟨fuel, rfl⟩ : ∃ k, fuel = k + 1 := ⟨fuel - 1, by simp at hfuel; omega⟩
    simp only [IsRPath] at h
    simp [updateResidual, h, pushPath]
  | cons u rest ih =>
    intro v fuel r h hnd hV hfuel
    obtain ⟨fuel, rfl⟩ : ∃ k, fuel = k + 1 := ⟨fuel - 1, by simp at hfuel; omega⟩
    have hvs : v ≠ s := fun hvs => by
      have := (h.head_eq_iff hnd).1 hvs
      simp at this
    simp only [updateResidual, if_neg hvs, parentOf_eq h.1 (hV u (by simp)), pushPath]
    exact ih u fuel _ h.2.2 (List.nodup_cons.1 hnd).2
      (fun x hx => hV x (List.mem_cons_of_mem _ hx)) (by simp at hfuel; omega)

theorem pathMin_le (r : Nat → Nat → Int) :
    ∀ (l : List Nat) (pf : Int), pathMin r pf l ≤ pf ∧
      ∀ e ∈ pathEdges l, pathMin r pf l ≤ r e.1 e.2
  | [], pf => by simp [pathMin, pathEdges]
  | [v], pf => by simp [pathMin, pathEdges]
  | v :: u :: rest, pf => by
    have ih := pathMin_le r (u :: rest) (if r u v < pf then r u v else pf)
    simp only [pathMin, pathEdges]
    constructor
    · have := ih.1
      split at this <;> omega
    · intro e he
      rcases List.mem_cons.1 he with rfl | he
      · have := ih.1
        simp only
        split at this <;> omega
      · exact ih.2 e he

theorem pathMin_attained (r : Nat → Nat → Int) :
    ∀ (l : List Nat) (pf : Int), pathMin r pf l = pf ∨
      ∃ e ∈ pathEdges l, pathMin r pf l = r e.1 e.2
  | [], pf => by simp [pathMin]
  | [v], pf => by simp [pathMin]
  | v :: u :: rest, pf => by
    have ih := pathMin_attained r (u :: rest) (if r u v < pf then r u v else pf)
    simp only [pathMin, pathEdges]
    rcases ih with h | ⟨e, he, h⟩
    · by_cases hc : r u v < pf
      · right
        exact ⟨(u, v), by simp, by rw [h, if_pos hc]⟩
      · left
        rw [h, if_neg hc]
    · right
      exact ⟨e, List.mem_cons_of_mem _ he, h⟩

theorem mem_pathEdges :
    ∀ {l : List Nat} {e : Nat × Nat}, e ∈ pathEdges l → e.1 ∈ l ∧ e.2 ∈ l
  | [], e, h => by simp [pathEdges] at h
  | [v], e, h => by simp [pathEdges] at h
  | v :: u :: rest, e, h => by
    simp only [pathEdges] at h
    rcases List.mem_cons.1 h with rfl | h
    · simp
    · have := mem_pathEdges h
      exact ⟨List.mem_cons_of_mem _ this.1, List.mem_cons_of_mem _ this.2⟩

theorem IsRPath.edge_pos {r : Nat → Nat → Int} {p : Nat → Int} {s : Nat} :
    ∀ {l : List Nat}, IsRPath r p s l → ∀ e ∈ pathEdges l, 0 < r e.1 e.2
  | [], h => h.elim
  | [v], _ => by simp [pathEdges]
  | v :: u :: rest, h => by
    intro e he
    simp only [pathEdges] at he
    rcases List.mem_cons.1 he with rfl | he
    · exact h.2.1
    · exact IsRPath.edge_pos h.2.2 e he

/-- Entry by entry, what pushing `pf` along a simple path does to the matrix. -/
theorem pushPath_apply (w : Int → Int) (pf : Int) :
    ∀ (l : List Nat) (r : Nat → Nat → Int), l.Nodup → ∀ a b,
      pushPath w pf r l a b =
        if (a, b) ∈ pathEdges l then w (r a b - pf)
        else if (b, a) ∈ pathEdges l then w (r a b + pf) else r a b
  | [], r, _ => by simp [pushPath, pathEdges]
  | [v], r, _ => by simp [pushPath, pathEdges]
  | v :: u :: rest, r, hnd => by
    intro a b
    have hnd1 := (List.nodup_cons.1 hnd).2
    have hv : v ∉ u :: rest := (List.nodup_cons.1 hnd).1
    have huv : u ≠ v := by
      rintro rfl
      exact hv (by simp)
    have hnotin : ∀ x, (x, v) ∉ pathEdges (u :: rest) ∧ (v, x) ∉ pathEdges (u :: rest) := by
      intro x
      exact ⟨fun h => hv (mem_pathEdges h).2, fun h => hv (mem_pathEdges h).1⟩
    have ih := pushPath_apply w pf (u :: rest) (pushEdge w r u v pf) hnd1 a b
    simp only [pushPath, pathEdges, List.mem_cons, Prod.mk.injEq]
    rw [ih]
    by_cases h1 : a = u ∧ b = v
    · obtain ⟨rfl, rfl⟩ := h1
      have hne : ¬(a = b ∧ b = a) := fun h => huv h.1
      simp [(hnotin a).1, (hnotin a).2, pushEdge, setAt2, huv, Ne.symm huv]
    · by_cases h2 : a = v ∧ b = u
      · obtain ⟨rfl, rfl⟩ := h2
        simp [(hnotin b).1, (hnotin b).2, pushEdge, setAt2, huv, Ne.symm huv]
      · have hsame : pushEdge w r u v pf a b = r a b := by
          unfold pushEdge
          rw [setAt2_other _ _ h2, setAt2_other _ _ h1]
        have h2' : ¬(b = u ∧ a = v) := fun h => h2 ⟨h.2, h.1⟩
        simp only [hsame, h1, h2', false_or]

/-! ## One iteration of the loop of `fordFulkerson` -/

/-- With `V + 1` units of fuel one iteration finishes: either `bfs` returns false and no
walk of positive residual capacity leads from `s` to `t`, or one augmentation is made
along a shortest path. -/
theorem ffStep_spec {V s t : Nat} (hs : s < V) (ht : t < V) (hst : s ≠ t) (st : FFState)
    {fuel : Nat} (hfuel : V + 1 ≤ fuel) :
    (∃ p, ffStep V s t fuel st = some (false, { st with parent := p }) ∧
      ¬∃ n, Reach V st.rGraph s n t) ∨
    (∃ st1 l, ffStep V s t fuel st = some (true, st1) ∧ AugStep V s t st st1 l) := by
  obtain ⟨b, p, hbfs, hiff, hfound⟩ := bfs_spec st.rGraph hs ht hst st.parent hfuel
  cases b with
  | false =>
    left
    refine ⟨p, by simp [ffStep, hbfs], ?_⟩
    intro hex
    exact Bool.noConfusion (hiff.2 hex)
  | true =>
    right
    obtain ⟨l, hpath, hnd, hlt, hlen, hd⟩ := hfound rfl
    have hfl : l.length < fuel := by omega
    have hq := printPath_spec (V := V) l t fuel hpath hnd hlt hfl
    have hb := bottleneck_spec (V := V) l t fuel INF hpath hnd hlt hfl
    have hu := updateResidual_spec (V := V) (pathMin st.rGraph INF (t :: l)) l t fuel
      st.rGraph hpath hnd hlt hfl
    refine ⟨{ rGraph := pushPath wrapInt (pathMin st.rGraph INF (t :: l)) st.rGraph (t :: l)
              parent := p
              max_flow := wrapInt (st.max_flow + pathMin st.rGraph INF (t :: l))
              iteration := wrapInt (st.iteration + 1) }, l,
      by simp only [ffStep, hbfs, augment, hq, hb, hu], ?_⟩
    exact ⟨hpath, hnd, hlt, hlen, hd, rfl, rfl, rfl⟩

theorem ffStep_true {V s t : Nat} (hs : s < V) (ht : t < V) (hst : s ≠ t) {st st1 : FFState}
    {fuel : Nat} (h : ffStep V s t fuel st = some (true, st1)) :
    ∃ l, AugStep V s t st st1 l := by
  have h1 := ffStep_mono h (Nat.le_max_left fuel (V + 1))
  rcases ffStep_spec hs ht hst st (Nat.le_max_right fuel (V + 1)) with ⟨p, h2, _⟩ | ⟨st2, l, h2, h3⟩
  · rw [h1] at h2
    simp at h2
  · rw [h1] at h2
    simp only [Option.some.injEq, Prod.mk.injEq, true_and] at h2
    subst h2
    exact ⟨l, h3⟩

theorem ffStep_false {V s t : Nat} (hs : s < V) (ht : t < V) (hst : s ≠ t) {st st1 : FFState}
    {fuel : Nat} (h : ffStep V s t fuel st = some (false, st1)) :
    st1.rGraph = st.rGraph ∧ st1.max_flow = st.max_flow ∧ st1.iteration = st.iteration ∧
      ¬∃ n, Reach V st.rGraph s n t := by
  have h1 := ffStep_mono h (Nat.le_max_left fuel (V + 1))
  rcases ffStep_spec hs ht hst st (Nat.le_max_right fuel (V + 1)) with ⟨p, h2, h3⟩ | ⟨st2, l, h2, _⟩
  · rw [h1] at h2
    simp only [Option.some.injEq, Prod.mk.injEq, true_and] at h2
    subst h2
    exact ⟨rfl, rfl, rfl, h3⟩
  · rw [h1] at h2
    simp at h2

/-! ## Facts about one augmentation that hold whatever the capacities -/

theorem AugStep.l_ne_nil {V s t : Nat} {st st1 : FFState} {l : List Nat}
    (h : AugStep V s t st st1 l) (hst : s ≠ t) : l ≠ [] := by
  intro hl
  exact hst ((h.path.head_eq_iff h.nodup).2 hl).symm

theorem AugStep.edge_lt {V s t : Nat} {st st1 : FFState} {l : List Nat}
    (h : AugStep V s t st st1 l) (ht : t < V) {e : Nat × Nat} (he : e ∈ pathEdges (t :: l)) :
    e.1 < V ∧ e.2 < V := by
  have hall : ∀ x ∈ t :: l, x < V := by
    intro x hx
    rcases List.mem_cons.1 hx with rfl | hx
    · exact ht
    · exact h.lt x hx
  exact ⟨hall _ (mem_pathEdges he).1, hall _ (mem_pathEdges he).2⟩

theorem pathEdges_ne_nil : ∀ (v : Nat) {l : List Nat}, l ≠ [] → pathEdges (v :: l) ≠ []
  | v, [], h => absurd rfl h
  | v, u :: rest, _ => by simp [pathEdges]

/-- The amount pushed is positive, at most the residual capacity of every edge of the
path, and equal to it on some edge, when the entries are values of an `int`. -/
theorem AugStep.path_flow {V s t : Nat} {st st1 : FFState} {l : List Nat}
    (h : AugStep V s t st st1 l) (ht : t < V) (hst : s ≠ t)
    (hb : ∀ a b, a < V → b < V → st.rGraph a b ≤ INT_MAX) :
    0 < pathMin st.rGraph INF (t :: l) ∧
    (∀ e ∈ pathEdges (t :: l), pathMin st.rGraph INF (t :: l) ≤ st.rGraph e.1 e.2) ∧
    ∃ e ∈ pathEdges (t :: l), pathMin st.rGraph INF (t :: l) = st.rGraph e.1 e.2 := by
  have hle := pathMin_le st.rGraph (t :: l) INF
  have hpos := h.path.edge_pos
  have hex : ∃ e ∈ pathEdges (t :: l), pathMin st.rGraph INF (t :: l) = st.rGraph e.1 e.2 := by
    rcases pathMin_attained st.rGraph (t :: l) INF with heq | hex
    · obtain ⟨e, he⟩ := List.exists_mem_of_ne_nil _ (pathEdges_ne_nil t (h.l_ne_nil hst))
      refine ⟨e, he, ?_⟩
      have h1 := hle.2 e he
      have h2 := hb e.1 e.2 (h.edge_lt ht he).1 (h.edge_lt ht he).2
      rw [heq] at h1 ⊢
      unfold INF at h1 ⊢
      omega
    · exact hex
  refine ⟨?_, hle.2, hex⟩
  obtain ⟨e, he, heq⟩ := hex
  rw [heq]
  exact hpos e he

/-! ## Shortest augmenting paths: distances never decrease -/

theorem IsRPath.reach {V : Nat} {r : Nat → Nat → Int} {p : Nat → Int} {s : Nat} :
    ∀ {l : List Nat} {v : Nat}, IsRPath r p s (v :: l) → (∀ x ∈ v :: l, x < V) →
      Reach V r s l.length v
  | [], v, h, _ => by simp only [IsRPath] at h; simp [Reach, h]
  | u :: rest, v, h, hV => by
    have ih := IsRPath.reach (V := V) h.2.2 (fun x hx => hV x (List.mem_cons_of_mem _ hx))
    exact ⟨hV v (by simp), u, hV u (by simp), ih, h.2.1⟩

/-- Along a shortest path every edge leads one level further from `s`. -/
theorem IsRPath.levels {V : Nat} {r : Nat → Nat → Int} {p : Nat → Int} {s : Nat} :
    ∀ {l : List Nat} {v : Nat}, IsRPath r p s (v :: l) → (∀ x ∈ v :: l, x < V) →
      l.length = dist V r s v →
      ∀ e ∈ pathEdges (v :: l), dist V r s e.2 = dist V r s e.1 + 1 ∧
        dist V r s e.2 ≤ dist V r s v
  | [], v, _, _, _ => by simp [pathEdges]
  | u :: rest, v, h, hV, hlen => by
    have hu : u < V := hV u (by simp)
    have hv : v < V := hV v (by simp)
    have hreach := IsRPath.reach (V := V) h.2.2 (fun x hx => hV x (List.mem_cons_of_mem _ hx))
    have h1 := dist_le_of_reach hreach
    have h2 := dist_edge (s := s) hu hv h.2.1
    simp only [List.length_cons] at hlen
    have hdu : rest.length = dist V r s u := by omega
    have ih := IsRPath.levels (V := V) h.2.2
      (fun x hx => hV x (List.mem_cons_of_mem _ hx)) hdu
    intro e he
    simp only [pathEdges] at he
    rcases List.mem_cons.1 he with rfl | he
    · exact ⟨by simp only; omega, le_refl _⟩
    · have := ih e he
      exact ⟨this.1, by omega⟩

theorem AugStep.edge {V s t : Nat} {st st1 : FFState} {l : List Nat}
    (h : AugStep V s t st st1 l) (ht : t < V) {a b : Nat} (he : (a, b) ∈ pathEdges (t :: l)) :
    a < V ∧ b < V ∧ 0 < st.rGraph a b ∧
      dist V st.rGraph s b = dist V st.rGraph s a + 1 ∧ dist V st.rGraph s b < V := by
  have hall : ∀ x ∈ t :: l, x < V := by
    intro x hx
    rcases List.mem_cons.1 hx with rfl | hx
    · exact ht
    · exact h.lt x hx
  have hlev := IsRPath.levels (V := V) h.path hall h.len (a, b) he
  have hd := h.dlt
  exact ⟨(h.edge_lt ht he).1, (h.edge_lt ht he).2, h.path.edge_pos _ he, hlev.1,
    lt_of_le_of_lt hlev.2 hd⟩

theorem AugStep.apply {V s t : Nat} {st st1 : FFState} {l : List Nat}
    (h : AugStep V s t st st1 l) (a b : Nat) :
    st1.rGraph a b =
      if (a, b) ∈ pathEdges (t :: l) then
        wrapInt (st.rGraph a b - pathMin st.rGraph INF (t :: l))
      else if (b, a) ∈ pathEdges (t :: l) then
        wrapInt (st.rGraph a b + pathMin st.rGraph INF (t :: l))
      else st.rGraph a b := by
  rw [h.rGraph_eq]
  exact pushPath_apply wrapInt _ (t :: l) st.rGraph h.nodup a b

theorem AugStep.bounded {V s t : Nat} {st st1 : FFState} {l : List Nat}
    (h : AugStep V s t st st1 l)
    (hb : ∀ a b, a < V → b < V → st.rGraph a b ≤ INT_MAX) :
    ∀ a b, a < V → b < V → st1.rGraph a b ≤ INT_MAX := by
  intro a b ha hb1
  rw [h.apply a b]
  split
  · exact wrapInt_le_max _
  · split
    · exact wrapInt_le_max _
    · exact hb a b ha hb1

/-- On an edge of the path the subtraction does not wrap. -/
theorem AugStep.forward {V s t : Nat} {st st1 : FFState} {l : List Nat}
    (h : AugStep V s t st st1 l) (ht : t < V) (hst : s ≠ t)
    (hb : ∀ a b, a < V → b < V → st.rGraph a b ≤ INT_MAX)
    {a b : Nat} (he : (a, b) ∈ pathEdges (t :: l)) :
    st1.rGraph a b = st.rGraph a b - pathMin st.rGraph INF (t :: l) := by
  obtain ⟨hpos, hle, _⟩ := h.path_flow ht hst hb
  have h1 := hle (a, b) he
  have h2 := hb a b (h.edge_lt ht he).1 (h.edge_lt ht he).2
  rw [h.apply a b, if_pos he]
  apply wrapInt_of_range
  · simp only at h1; omega
  · simp only at h1; omega

theorem AugStep.changed {V s t : Nat} {st st1 : FFState} {l : List Nat}
    (h : AugStep V s t st st1 l) {a b : Nat} (hne : st1.rGraph a b ≠ st.rGraph a b) :
    (a, b) ∈ pathEdges (t :: l) ∨ (b, a) ∈ pathEdges (t :: l) := by
  by_contra hcon
  push_neg at hcon
  apply hne
  rw [h.apply a b, if_neg hcon.1, if_neg hcon.2]

theorem AugStep.critical {V s t : Nat} {st st1 : FFState} {l : List Nat}
    (h : AugStep V s t st st1 l) (ht : t < V) (hst : s ≠ t)
    (hb : ∀ a b, a < V → b < V → st.rGraph a b ≤ INT_MAX) :
    ∃ a b, (a, b) ∈ pathEdges (t :: l) ∧ st1.rGraph a b = 0 := by
  obtain ⟨_, _, e, he, heq⟩ := h.path_flow ht hst hb
  refine ⟨e.1, e.2, he, ?_⟩
  rw [h.forward ht hst hb he, heq]
  simp

/-- Distances from `s` do not decrease when every new edge leads one level back. -/
theorem dist_mono {V : Nat} {r r1 : Nat → Nat → Int} {s : Nat}
    (hnew : ∀ a b, a < V → b < V → 0 < r1 a b → r a b ≤ 0 →
      dist V r s a = dist V r s b + 1) (v : Nat) :
    dist V r s v ≤ dist V r1 s v := by
  have key : ∀ n v, Reach V r1 s n v → dist V r s v ≤ n := by
    intro n
    induction n with
    | zero =>
      intro v hv
      simp only [Reach] at hv
      rw [hv, dist_self]
    | succ n ih =>
      intro v hv
      obtain ⟨hvV, u, hu, hru, hpos⟩ := hv
      have hdu := ih u hru
      by_cases hold : 0 < r u v
      · have := dist_edge (s := s) hu hvV hold
        omega
      · have := hnew u v hu hvV hpos (by omega)
        omega
  by_cases hd : dist V r1 s v < V
  · exact key _ v (reach_dist hd)
  · have := dist_le V r s v
    omega

/-! ## The potential decreases with every augmentation -/

theorem potPair_le {V : Nat} {r r1 : Nat → Nat → Int} {s : Nat}
    (hmono : ∀ v, dist V r s v ≤ dist V r1 s v)
    (hch : ∀ a b, a < V → b < V → r1 a b ≠ r a b → dist V r s a ≤ dist V r s b + 1)
    (hnew : ∀ a b, a < V → b < V → 0 < r1 a b → r a b ≤ 0 →
      0 < r b a ∧ dist V r s a = dist V r s b + 1)
    {a b : Nat} (ha : a < V) (hb : b < V) : potPair V r1 s a b ≤ potPair V r s a b := by
  have hma := hmono a
  have hmb := hmono b
  unfold potPair
  by_cases hP1 : 0 < r1 a b
  · rw [if_pos hP1]
    by_cases hP : 0 < r a b
    · rw [if_pos hP]; omega
    · obtain ⟨hQ, hd⟩ := hnew a b ha hb hP1 (by omega)
      rw [if_neg hP, if_pos hQ]; omega
  · rw [if_neg hP1]
    by_cases hQ1 : 0 < r1 b a
    · rw [if_pos hQ1]
      by_cases hP : 0 < r a b
      · rw [if_pos hP]
        have := hch a b ha hb (by omega)
        omega
      · rw [if_neg hP]
        by_cases hQ : 0 < r b a
        · rw [if_pos hQ]; omega
        · exact absurd (hnew b a hb ha hQ1 (by omega)).1 hP
    · rw [if_neg hQ1]; exact Nat.zero_le _

theorem potPair_lt {V : Nat} {r r1 : Nat → Nat → Int} {s : Nat}
    (hmono : ∀ v, dist V r s v ≤ dist V r1 s v) {a b : Nat}
    (hP : 0 < r a b) (hP1 : r1 a b ≤ 0) (hd : dist V r s b = dist V r s a + 1)
    (hdV : dist V r s b < V) : potPair V r1 s a b < potPair V r s a b := by
  have hmb := hmono b
  unfold potPair
  rw [if_pos hP, if_neg (by omega)]
  split <;> omega

theorem potential_lt {V : Nat} {r r1 : Nat → Nat → Int} {s : Nat}
    (hch : ∀ a b, a < V → b < V → r1 a b ≠ r a b → dist V r s a ≤ dist V r s b + 1)
    (hnew : ∀ a b, a < V → b < V → 0 < r1 a b → r a b ≤ 0 →
      0 < r b a ∧ dist V r s a = dist V r s b + 1)
    (hcrit : ∃ a b, a < V ∧ b < V ∧ 0 < r a b ∧ r1 a b ≤ 0 ∧
      dist V r s b = dist V r s a + 1 ∧ dist V r s b < V) :
    potential V r1 s < potential V r s := by
  have hmono : ∀ v, dist V r s v ≤ dist V r1 s v :=
    dist_mono (fun a b ha hb h1 h2 => (hnew a b ha hb h1 h2).2)
  obtain ⟨a, b, ha, hb, hP, hP1, hd, hdV⟩ := hcrit
  unfold potential
  apply Finset.sum_lt_sum
  · intro x hx
    apply Finset.sum_le_sum
    intro y hy
    exact potPair_le hmono hch hnew (Finset.mem_range.1 hx) (Finset.mem_range.1 hy)
  · refine ⟨a, Finset.mem_range.2 ha, ?_⟩
    apply Finset.sum_lt_sum
    · intro y hy
      exact potPair_le hmono hch hnew ha (Finset.mem_range.1 hy)
    · exact ⟨b, Finset.mem_range.2 hb, potPair_lt hmono hP hP1 hd hdV⟩

theorem AugStep.potential_decreases {V s t : Nat} {st st1 : FFState} {l : List Nat}
    (h : AugStep V s t st st1 l) (ht : t < V) (hst : s ≠ t)
    (hb : ∀ a b, a < V → b < V → st.rGraph a b ≤ INT_MAX) :
    potential V st1.rGraph s < potential V st.rGraph s := by
  apply FordFulkerson.potential_lt
  · intro a b _ _ hne
    rcases h.changed hne with he | he
    · have := h.edge ht he
      omega
    · have := h.edge ht he
      omega
  · intro a b _ _ h1 h0
    rcases h.changed (a := a) (b := b) (by omega) with he | he
    · have := h.edge ht he
      omega
    · have := h.edge ht he
      exact ⟨this.2.2.1, this.2.2.2.1⟩
  · obtain ⟨a, b, he, h0⟩ := h.critical ht hst hb
    have := h.edge ht he
    exact ⟨a, b, this.1, this.2.1, this.2.2.1, by omega, this.2.2.2.1, this.2.2.2.2⟩

theorem potential_le_edges (V : Nat) (g : Nat → Nat → Int) (s : Nat) :
    potential V g s ≤ V * edgeCount V g := by
  have hpair : ∀ a b, potPair V g s a b ≤
      (V / 2) * ((if 0 < g a b then 1 else 0) + (if 0 < g b a then 1 else 0)) := by
    intro a b
    unfold potPair
    by_cases hP : 0 < g a b
    · rw [if_pos hP, if_pos hP]
      have : (V - dist V g s a) / 2 ≤ V / 2 := Nat.div_le_div_right (Nat.sub_le _ _)
      calc (V - dist V g s a) / 2 ≤ V / 2 := this
        _ = V / 2 * 1 := (Nat.mul_one _).symm
        _ ≤ V / 2 * (1 + if 0 < g b a then 1 else 0) :=
            Nat.mul_le_mul_left _ (Nat.le_add_right _ _)
    · rw [if_neg hP, if_neg hP]
      by_cases hQ : 0 < g b a
      · rw [if_pos hQ, if_pos hQ]
        have : (V - (dist V g s b + 1)) / 2 ≤ V / 2 := Nat.div_le_div_right (Nat.sub_le _ _)
        simpa using this
      · rw [if_neg hQ]; exact Nat.zero_le _
  have hsum : potential V g s ≤ ∑ a in Finset.range V, ∑ b in Finset.range V,
      (V / 2) * ((if 0 < g a b then 1 else 0) + (if 0 < g b a then 1 else 0)) := by
    unfold potential
    exact Finset.sum_le_sum (fun a _ => Finset.sum_le_sum (fun b _ => hpair a b))
  have heq : (∑ a in Finset.range V, ∑ b in Finset.range V,
      (V / 2) * ((if 0 < g a b then 1 else 0) + (if 0 < g b a then 1 else 0))) =
      (V / 2) * (edgeCount V g + edgeCount V g) := by
    unfold edgeCount
    simp only [← Finset.mul_sum, Finset.sum_add_distrib]
    congr 2
    exact Finset.sum_comm
  have h2 : V / 2 * 2 ≤ V := Nat.div_mul_le_self V 2
  calc potential V g s ≤ (V / 2) * (edgeCount V g + edgeCount V g) := by rw [← heq]; exact hsum
    _ = (V / 2 * 2) * edgeCount V g := by ring
    _ ≤ V * edgeCount V g := Nat.mul_le_mul_right _ h2

/-! ## Termination of the loop of `fordFulkerson` -/

theorem wrapInt_succ (x : Int) (k : Nat) :
    wrapInt (wrapInt (x + 1) + (k : Int)) = wrapInt (x + ((k + 1 : Nat) : Int)) := by
  unfold wrapInt
  push_cast
  omega

theorem ffAfter_iteration {V s t : Nat} (hs : s < V) (ht : t < V) (hst : s ≠ t) {fuel : Nat} :
    ∀ (k : Nat) (st st1 : FFState), wrapInt st.iteration = st.iteration →
      ffAfter V s t fuel k st = some st1 →
      st1.iteration = wrapInt (st.iteration + (k : Int)) := by
  intro k
  induction k with
  | zero =>
    intro st st1 hw h
    simp only [ffAfter, Option.some.injEq] at h
    subst h
    simpa using hw.symm
  | succ k ih =>
    intro st st1 hw h
    simp only [ffAfter] at h
    cases hstep : ffStep V s t fuel st with
    | none => simp [hstep] at h
    | some x =>
      obtain ⟨b, st2⟩ := x
      cases b with
      | false => simp [hstep] at h
      | true =>
        simp only [hstep] at h
        obtain ⟨l, haug⟩ := ffStep_true hs ht hst hstep
        have hw2 : wrapInt st2.iteration = st2.iteration := by
          rw [haug.iteration_eq]
          unfold wrapInt
          omega
        rw [ih st2 st1 hw2 h, haug.iteration_eq]
        exact wrapInt_succ _ _

/-- The loop makes at most `potential` augmentations and then stops. -/
theorem ffLoop_terminates {V s t : Nat} (hs : s < V) (ht : t < V) (hst : s ≠ t) {fuel : Nat}
    (hfuel : V + 1 ≤ fuel) :
    ∀ (N : Nat) (st : FFState), potential V st.rGraph s ≤ N →
      (∀ a b, a < V → b < V → st.rGraph a b ≤ INT_MAX) →
      ∃ k st1 p, k ≤ N ∧ ffAfter V s t fuel k st = some st1 ∧
        ffStep V s t fuel st1 = some (false, { st1 with parent := p }) ∧
        (¬∃ n, Reach V st1.rGraph s n t) ∧
        ∀ n, k < n → ffLoop V s t fuel n st = some { st1 with parent := p } := by
  intro N
  induction N with
  | zero =>
    intro st hpot hb
    rcases ffStep_spec hs ht hst st hfuel with ⟨p, hstep, hno⟩ | ⟨st2, l, hstep, haug⟩
    · refine ⟨0, st, p, le_refl _, rfl, hstep, hno, ?_⟩
      intro n hn
      obtain ⟨n, rfl⟩ : ∃ m, n = m + 1 := ⟨n - 1, by omega⟩
      simp [ffLoop, hstep]
    · have := haug.potential_decreases ht hst hb
      omega
  | succ N ih =>
    intro st hpot hb
    rcases ffStep_spec hs ht hst st hfuel with ⟨p, hstep, hno⟩ | ⟨st2, l, hstep, haug⟩
    · refine ⟨0, st, p, Nat.zero_le _, rfl, hstep, hno, ?_⟩
      intro n hn
      obtain ⟨n, rfl⟩ : ∃ m, n = m + 1 := ⟨n - 1, by omega⟩
      simp [ffLoop, hstep]
    · have hlt := haug.potential_decreases ht hst hb
      obtain ⟨k, st1, p, hk, hafter, hlast, hno, hloop⟩ :=
        ih st2 (by omega) (haug.bounded hb)
      refine ⟨k + 1, st1, p, by omega, by simp [ffAfter, hstep, hafter], hlast, hno, ?_⟩
      intro n hn
      obtain ⟨n, rfl⟩ : ∃ m, n = m + 1 := ⟨n - 1, by omega⟩
      simp only [ffLoop, hstep]
      exact hloop n (by omega)

/-! ## The loop of `fordFulkerson` without overflow -/

theorem pushEdge_id_apply (r : Nat → Nat → Int) {u v : Nat} (huv : u ≠ v) (pf : Int)
    (a b : Nat) :
    pushEdge id r u v pf a b =
      r a b + (if a = v ∧ b = u then pf else 0) - (if a = u ∧ b = v then pf else 0) := by
  unfold pushEdge setAt2
  by_cases h1 : a = v ∧ b = u
  · obtain ⟨rfl, rfl⟩ := h1
    have h2 : ¬(a = b ∧ b = a) := fun h => huv h.1.symm
    simp [h2]
  · by_cases h2 : a = u ∧ b = v
    · obtain ⟨rfl, rfl⟩ := h2
      have h3 : ¬(a = b ∧ b = a) := fun h => huv h.1
      simp [h3]
    · simp [h1, h2]

theorem sum_pushEdge_row (V : Nat) (r : Nat → Nat → Int) {u v : Nat} (huv : u ≠ v)
    (hu : u < V) (hv : v < V) (pf : Int) (x : Nat) :
    (∑ b in Finset.range V, pushEdge id r u v pf x b) =
      (∑ b in Finset.range V, r x b) + (if x = v then pf else 0) - (if x = u then pf else 0) := by
  simp only [pushEdge_id_apply r huv]
  rw [Finset.sum_sub_distrib, Finset.sum_add_distrib]
  have h1 : (∑ b in Finset.range V, if x = v ∧ b = u then pf else 0) =
      if x = v then pf else 0 := by
    by_cases hx : x = v
    · simp [hx, Finset.sum_ite_eq', hu]
    · simp [hx]
  have h2 : (∑ b in Finset.range V, if x = u ∧ b = v then pf else 0) =
      if x = u then pf else 0 := by
    by_cases hx : x = u
    · simp [hx, Finset.sum_ite_eq', hv]
    · simp [hx]
  rw [h1, h2]

theorem sum_pushPath_row {V : Nat} {r0 : Nat → Nat → Int} {p : Nat → Int} {s : Nat} (pf : Int) :
    ∀ (l : List Nat) (v : Nat) (r : Nat → Nat → Int), IsRPath r0 p s (v :: l) →
      (v :: l).Nodup → (∀ x ∈ v :: l, x < V) → ∀ x,
      (∑ b in Finset.range V, pushPath id pf r (v :: l) x b) =
        (∑ b in Finset.range V, r x b) + (if x = v then pf else 0) - (if x = s then pf else 0) := by
  intro l
  induction l with
  | nil =>
    intro v r h _ _ x
    simp only [IsRPath] at h
    simp [pushPath, h]
  | cons u rest ih =>
    intro v r h hnd hV x
    have huv : u ≠ v := by
      rintro rfl
      exact (List.nodup_cons.1 hnd).1 (by simp)
    simp only [pushPath]
    rw [ih u (pushEdge id r u v pf) h.2.2 (List.nodup_cons.1 hnd).2
      (fun y hy => hV y (List.mem_cons_of_mem _ hy)) x,
      sum_pushEdge_row V r huv (hV u (by simp)) (hV v (by simp)) pf x]
    ring

theorem NoOverflow.toPair {V : Nat} {g : Nat → Nat → Int} {s : Nat} (h : NoOverflow V g s) :
    PairBound V g :=
  ⟨h.nonneg, h.pair⟩

theorem ResInv.entry_le_max {V : Nat} {g : Nat → Nat → Int} {s t : Nat} {r : Nat → Nat → Int}
    {F : Int} (h : ResInv V g s t r F) (hpb : PairBound V g) :
    ∀ a b, a < V → b < V → r a b ≤ INT_MAX := by
  intro a b ha hb
  have h1 := h.pair a b ha hb
  have h2 := h.nonneg b a hb ha
  have h3 := hpb.pair a ha b hb
  omega

/-- Without overflow an augmentation subtracts the amount pushed on the edges of the
path, adds it on the reversed edges and leaves every other entry alone. -/
theorem AugStep.exact {V s t : Nat} {g : Nat → Nat → Int} {st st1 : FFState} {l : List Nat}
    {F : Int} (h : AugStep V s t st st1 l) (ht : t < V) (hst : s ≠ t) (hpb : PairBound V g)
    (hinv : ResInv V g s t st.rGraph F) (a b : Nat) :
    st1.rGraph a b =
      if (a, b) ∈ pathEdges (t :: l) then st.rGraph a b - pathMin st.rGraph INF (t :: l)
      else if (b, a) ∈ pathEdges (t :: l) then st.rGraph a b + pathMin st.rGraph INF (t :: l)
      else st.rGraph a b := by
  have hb := hinv.entry_le_max hpb
  obtain ⟨hpos, hle, _⟩ := h.path_flow ht hst hb
  by_cases h1 : (a, b) ∈ pathEdges (t :: l)
  · rw [if_pos h1]; exact h.forward ht hst hb h1
  · rw [if_neg h1, h.apply a b, if_neg h1]
    by_cases h2 : (b, a) ∈ pathEdges (t :: l)
    · rw [if_pos h2, if_pos h2]
      have hlt := h.edge_lt ht h2
      have hle2 := hle (b, a) h2
      have hp := hinv.pair a b hlt.2 hlt.1
      have hn := hinv.nonneg a b hlt.2 hlt.1
      have hsum := hpb.pair a hlt.2 b hlt.1
      apply wrapInt_of_range
      · simp only at hle2; omega
      · simp only at hle2; omega
    · rw [if_neg h2, if_neg h2]

theorem AugStep.eq_pushPath_id {V s t : Nat} {g : Nat → Nat → Int} {st st1 : FFState}
    {l : List Nat} {F : Int} (h : AugStep V s t st st1 l) (ht : t < V) (hst : s ≠ t)
    (hpb : PairBound V g) (hinv : ResInv V g s t st.rGraph F) :
    st1.rGraph = pushPath id (pathMin st.rGraph INF (t :: l)) st.rGraph (t :: l) := by
  funext a b
  rw [h.exact ht hst hpb hinv a b, pushPath_apply id _ (t :: l) st.rGraph h.nodup a b]
  rfl

theorem AugStep.not_both {V s t : Nat} {st st1 : FFState} {l : List Nat}
    (h : AugStep V s t st st1 l) (ht : t < V) {a b : Nat}
    (h1 : (a, b) ∈ pathEdges (t :: l)) : (b, a) ∉ pathEdges (t :: l) := by
  intro h2
  have e1 := h.edge ht h1
  have e2 := h.edge ht h2
  omega

/-- The invariant of the residual matrix is kept by an augmentation, the total pushed
growing by the bottleneck of the path. -/
theorem ResInv.step {V s t : Nat} {g : Nat → Nat → Int} {st st1 : FFState} {l : List Nat}
    {F : Int} (hinv : ResInv V g s t st.rGraph F) (h : AugStep V s t st st1 l) (ht : t < V)
    (hst : s ≠ t) (hpb : PairBound V g) :
    ResInv V g s t st1.rGraph (F + pathMin st.rGraph INF (t :: l)) := by
  have hb := hinv.entry_le_max hpb
  obtain ⟨hpos, hle, _⟩ := h.path_flow ht hst hb
  have hall : ∀ x ∈ t :: l, x < V := by
    intro x hx
    rcases List.mem_cons.1 hx with rfl | hx
    · exact ht
    · exact h.lt x hx
  have hnonneg : ∀ a b, a < V → b < V → 0 ≤ st1.rGraph a b := by
    intro a b ha hb1
    rw [h.exact ht hst hpb hinv a b]
    have hn := hinv.nonneg a b ha hb1
    split
    · rename_i he
      have := hle (a, b) he
      simp only at this; omega
    · split <;> omega
  have hrow : ∀ x, (∑ b in Finset.range V, st1.rGraph x b) =
      (∑ b in Finset.range V, st.rGraph x b) +
        (if x = t then pathMin st.rGraph INF (t :: l) else 0) -
        (if x = s then pathMin st.rGraph INF (t :: l) else 0) := by
    intro x
    rw [h.eq_pushPath_id ht hst hpb hinv]
    exact sum_pushPath_row _ l t st.rGraph h.path h.nodup hall x
  refine ⟨hnonneg, ?_, ?_, by have := hinv.flow_nonneg; omega⟩
  · intro a b ha hb1
    rw [h.exact ht hst hpb hinv a b, h.exact ht hst hpb hinv b a]
    have hp := hinv.pair a b ha hb1
    by_cases h1 : (a, b) ∈ pathEdges (t :: l)
    · rw [if_pos h1, if_neg (h.not_both ht h1), if_pos h1]; omega
    · by_cases h2 : (b, a) ∈ pathEdges (t :: l)
      · rw [if_neg h1, if_pos h2, if_pos h2]; omega
      · rw [if_neg h1, if_neg h2, if_neg h2, if_neg h1]; exact hp
  · intro v hv
    have h0 := hinv.net v hv
    rw [Finset.sum_sub_distrib] at h0 ⊢
    rw [hrow v]
    by_cases h1 : v = s
    · have h2 : v ≠ t := fun h2 => hst (h1.symm.trans h2)
      simp only [h1, if_true, if_neg hst] at h0 ⊢
      omega
    · by_cases h2 : v = t
      · simp only [h2, if_true, if_neg (Ne.symm hst)] at h0 ⊢
        omega
      · simp only [if_neg h1, if_neg h2] at h0 ⊢
        omega

/-- When also the capacities leaving `s` fit an `int`, `max_flow` is the total pushed. -/
theorem FlowInv.step_max_flow {V s t : Nat} {g : Nat → Nat → Int} {st st1 : FFState} {l : List Nat}
    (hinv : FlowInv V g s t st) (h : AugStep V s t st st1 l) (hs : s < V) (ht : t < V)
    (hst : s ≠ t) (hno : NoOverflow V g s) :
    FlowInv V g s t st1 ∧
      st1.max_flow = st.max_flow + pathMin st.rGraph INF (t :: l) := by
  have hres := ResInv.step hinv h ht hst hno.toPair
  have hmf : st1.max_flow = st.max_flow + pathMin st.rGraph INF (t :: l) := by
    rw [h.max_flow_eq]
    have h0 := hres.flow_nonneg
    have hs0 := hres.net s hs
    rw [if_pos rfl, if_neg hst] at hs0
    have hsrc : (∑ w in Finset.range V, (g s w - st1.rGraph s w)) ≤
        ∑ w in Finset.range V, g s w :=
      Finset.sum_le_sum (fun w hw => by
        have := hres.nonneg s w hs (Finset.mem_range.1 hw)
        omega)
    have := hno.source
    apply wrapInt_of_range
    · omega
    · omega
  refine ⟨?_, hmf⟩
  show ResInv V g s t st1.rGraph st1.max_flow
  rw [hmf]
  exact hres

theorem ffAfter_mono (V s t : Nat) {fuel fuel1 : Nat} (hf : fuel ≤ fuel1) :
    ∀ (k : Nat) (st x : FFState), ffAfter V s t fuel k st = some x →
      ffAfter V s t fuel1 k st = some x := by
  intro k
  induction k with
  | zero => intro st x h; exact h
  | succ k ih =>
    intro st x h
    simp only [ffAfter] at h ⊢
    cases hstep : ffStep V s t fuel st with
    | none => simp [hstep] at h
    | some y =>
      obtain ⟨b, st2⟩ := y
      cases b with
      | false => simp [hstep] at h
      | true =>
        rw [ffStep_mono hstep hf]
        simp only [hstep] at h ⊢
        exact ih st2 x h

theorem ffInit_res {V : Nat} {g : Nat → Nat → Int} (s t : Nat) (hpb : PairBound V g) :
    ResInv V g s t g 0 := by
  refine ⟨fun a b ha hb => hpb.nonneg a ha b hb, fun a b _ _ => rfl, ?_, le_refl _⟩
  intro v _
  simp

theorem ffInit_inv {V : Nat} {g : Nat → Nat → Int} {s : Nat} (t : Nat) (hno : NoOverflow V g s)
    (p0 : Nat → Int) : FlowInv V g s t (ffInit g p0) :=
  ffInit_res s t hno.toPair

theorem ffAfter_res {V s t : Nat} {g : Nat → Nat → Int} (hs : s < V) (ht : t < V) (hst : s ≠ t)
    (hpb : PairBound V g) {fuel : Nat} :
    ∀ (k : Nat) (st stk : FFState) (F : Int), ResInv V g s t st.rGraph F →
      ffAfter V s t fuel k st = some stk → ∃ F1, ResInv V g s t stk.rGraph F1 := by
  intro k
  induction k with
  | zero =>
    intro st stk F hinv h
    simp only [ffAfter, Option.some.injEq] at h
    subst h; exact ⟨F, hinv⟩
  | succ k ih =>
    intro st stk F hinv h
    simp only [ffAfter] at h
    cases hstep : ffStep V s t fuel st with
    | none => simp [hstep] at h
    | some y =>
      obtain ⟨b, st2⟩ := y
      cases b with
      | false => simp [hstep] at h
      | true =>
        simp only [hstep] at h
        obtain ⟨l, haug⟩ := ffStep_true hs ht hst hstep
        exact ih st2 stk _ (hinv.step haug ht hst hpb) h

theorem ffAfter_inv {V s t : Nat} {g : Nat → Nat → Int} (hs : s < V) (ht : t < V) (hst : s ≠ t)
    (hno : NoOverflow V g s) {fuel : Nat} :
    ∀ (k : Nat) (st stk : FFState), FlowInv V g s t st →
      ffAfter V s t fuel k st = some stk → FlowInv V g s t stk := by
  intro k
  induction k with
  | zero =>
    intro st stk hinv h
    simp only [ffAfter, Option.some.injEq] at h
    subst h; exact hinv
  | succ k ih =>
    intro st stk hinv h
    simp only [ffAfter] at h
    cases hstep : ffStep V s t fuel st with
    | none => simp [hstep] at h
    | some y =>
      obtain ⟨b, st2⟩ := y
      cases b with
      | false => simp [hstep] at h
      | true =>
        simp only [hstep] at h
        obtain ⟨l, haug⟩ := ffStep_true hs ht hst hstep
        exact ih st2 stk (FlowInv.step_max_flow hinv haug hs ht hst hno).1 h

/-- The run of `fordFulkerson` for `s ≠ t`: at most `V * E` augmentations, after which
`bfs` returns false; the final state is the same for every sufficient amount of fuel. -/
theorem run_spec {V s t : Nat} {g : Nat → Nat → Int} (hs : s < V) (ht : t < V) (hst : s ≠ t)
    (hb : ∀ a b, a < V → b < V → g a b ≤ INT_MAX) (p0 : Nat → Int) :
    ∃ k st1 p, k ≤ V * edgeCount V g ∧
      (∀ fuel, V + 1 ≤ fuel → ffAfter V s t fuel k (ffInit g p0) = some st1 ∧
        ffStep V s t fuel st1 = some (false, { st1 with parent := p })) ∧
      (¬∃ n, Reach V st1.rGraph s n t) ∧
      ∀ fuel, V * edgeCount V g + V + 1 ≤ fuel →
        fordFulkersonRun V g s t p0 fuel = some { st1 with parent := p } := by
  obtain ⟨k, st1, p, hk, hafter, hlast, hno, hloop⟩ :=
    ffLoop_terminates hs ht hst (le_refl (V + 1)) (V * edgeCount V g) (ffInit g p0)
      (potential_le_edges V g s) hb
  refine ⟨k, st1, p, hk, ?_, hno, ?_⟩
  · intro fuel hfuel
    exact ⟨ffAfter_mono V s t hfuel k _ _ hafter, ffStep_mono hlast hfuel⟩
  · intro fuel hfuel
    exact ffLoop_mono V s t (k + 1) fuel (V + 1) fuel _ _ (hloop (k + 1) (by omega))
      (by omega) (by omega)

/-! ## Flows and cuts -/

theorem sum_sum_antisymm (V : Nat) (h : Nat → Nat → Int)
    (hanti : ∀ a b, a < V → b < V → h a b = -h b a) :
    (∑ a in Finset.range V, ∑ b in Finset.range V, h a b) = 0 := by
  have h1 : (∑ a in Finset.range V, ∑ b in Finset.range V, h a b) =
      ∑ a in Finset.range V, ∑ b in Finset.range V, -h b a :=
    Finset.sum_congr rfl (fun a ha => Finset.sum_congr rfl (fun b hb =>
      hanti a b (Finset.mem_range.1 ha) (Finset.mem_range.1 hb)))
  have h2 : (∑ a in Finset.range V, ∑ b in Finset.range V, -h b a) =
      -∑ a in Finset.range V, ∑ b in Finset.range V, h a b := by
    rw [Finset.sum_comm]
    simp only [Finset.sum_neg_distrib]
  rw [h2] at h1
  omega

/-- The value of a flow is the net flow across any cut. -/
theorem flowValue_eq_cut {V s t : Nat} {g φ : Nat → Nat → Int} (hs : s < V)
    (hφ : IsFlow V g s t φ) {S : Nat → Bool} (hSs : S s = true) (hSt : S t = false) :
    flowValue V φ s = ∑ a in Finset.range V, ∑ b in Finset.range V,
      ((if S a = true then 1 else 0) - (if S b = true then 1 else 0)) * φ a b := by
  have hsplit : (∑ a in Finset.range V, ∑ b in Finset.range V,
      ((if S a = true then 1 else 0) - (if S b = true then 1 else 0)) * φ a b) =
      ∑ a in Finset.range V, (if S a = true then (1 : Int) else 0) *
        ((∑ b in Finset.range V, φ a b) - ∑ b in Finset.range V, φ b a) := by
    have e1 : ∀ a b, (((if S a = true then 1 else 0) - (if S b = true then 1 else 0)) * φ a b : Int)
        = (if S a = true then 1 else 0) * φ a b - (if S b = true then 1 else 0) * φ a b := by
      intro a b; ring
    simp only [e1, Finset.sum_sub_distrib]
    rw [Finset.sum_comm (f := fun a b => (if S b = true then (1 : Int) else 0) * φ a b)]
    simp only [mul_sub, Finset.mul_sum, Finset.sum_sub_distrib]
  rw [hsplit]
  rw [Finset.sum_eq_single s]
  · simp [hSs, flowValue]
  · intro v hv hvs
    by_cases hSv : S v = true
    · have hvt : v ≠ t := by
        rintro rfl
        rw [hSt] at hSv
        exact Bool.noConfusion hSv
      have := hφ.2 v (Finset.mem_range.1 hv) hvs hvt
      rw [this]; simp
    · simp [hSv]
  · intro hns
    exact absurd (Finset.mem_range.2 hs) hns

/-- Weak duality: no flow has a value above the capacity of a cut. -/
theorem flowValue_le_cut {V s t : Nat} {g φ : Nat → Nat → Int} (hs : s < V)
    (hφ : IsFlow V g s t φ) {S : Nat → Bool} (hSs : S s = true) (hSt : S t = false) :
    flowValue V φ s ≤ cutCapacity V g S := by
  rw [flowValue_eq_cut hs hφ hSs hSt]
  unfold cutCapacity
  apply Finset.sum_le_sum
  intro a ha
  apply Finset.sum_le_sum
  intro b hb
  have hbd := hφ.1 a (Finset.mem_range.1 ha) b (Finset.mem_range.1 hb)
  by_cases hSa : S a = true
  · by_cases hSb : S b = true
    · simp [hSa, hSb]
    · have hSb' : S b = false := by simpa using hSb
      simp [hSa, hSb', hbd.2]
  · have hSa' : S a = false := by simpa using hSa
    by_cases hSb : S b = true
    · simp [hSa', hSb, hbd.1]
    · have hSb' : S b = false := by simpa using hSb
      simp [hSa', hSb']

/-- The flow read off the residual matrix: the positive part of `graph - rGraph`. -/
theorem ResInv.isFlow {V s t : Nat} {g r : Nat → Nat → Int} {F : Int}
    (h : ResInv V g s t r F) (hpb : PairBound V g) (hs : s < V) (hst : s ≠ t) :
    IsFlow V g s t (fun a b => max 0 (g a b - r a b)) ∧
      flowValue V (fun a b => max 0 (g a b - r a b)) s = F := by
  have hdiff : ∀ v, v < V →
      (∑ w in Finset.range V, max 0 (g v w - r v w)) -
        (∑ u in Finset.range V, max 0 (g u v - r u v)) =
      ∑ w in Finset.range V, (g v w - r v w) := by
    intro v hv
    rw [← Finset.sum_sub_distrib]
    apply Finset.sum_congr rfl
    intro w hw
    have hp := h.pair v w hv (Finset.mem_range.1 hw)
    rcases max_cases 0 (g v w - r v w) with ⟨e1, f1⟩ | ⟨e1, f1⟩ <;>
    rcases max_cases 0 (g w v - r w v) with ⟨e2, f2⟩ | ⟨e2, f2⟩ <;>
    rw [e1, e2] <;> omega
  refine ⟨⟨?_, ?_⟩, ?_⟩
  · intro a ha b hb
    have hn := h.nonneg a b ha hb
    have hg := hpb.nonneg a ha b hb
    constructor
    · exact le_max_left _ _
    · exact max_le hg (by omega)
  · intro v hv hvs hvt
    have := hdiff v hv
    rw [h.net v hv, if_neg hvs, if_neg hvt] at this
    show (∑ u in Finset.range V, max 0 (g u v - r u v)) =
      ∑ w in Finset.range V, max 0 (g v w - r v w)
    omega
  · have := hdiff s hs
    rw [h.net s hs, if_pos rfl, if_neg hst] at this
    show (∑ w in Finset.range V, max 0 (g s w - r s w)) -
      (∑ u in Finset.range V, max 0 (g u s - r u s)) = F
    omega

/-- When no walk of positive residual capacity leads from `s` to `t`, the vertices that
such walks reach form a cut whose capacity is `max_flow`. -/
theorem ResInv.cut {V s t : Nat} {g r : Nat → Nat → Int} {F : Int}
    (h : ResInv V g s t r F) (hs : s < V) (hst : s ≠ t)
    (hno : ¬∃ n, Reach V r s n t) :
    ∃ S : Nat → Bool, S s = true ∧ S t = false ∧ cutCapacity V g S = F := by
  classical
  let S : Nat → Bool := fun v => decide (∃ n, Reach V r s n v)
  have hSs : S s = true := by
    simp only [S, decide_eq_true_eq]
    exact ⟨0, by simp [Reach]⟩
  have hSt : S t = false := by
    simp only [S, decide_eq_false_iff_not]
    exact hno
  have hclosed : ∀ a b, a < V → b < V → S a = true → S b = false → r a b = 0 := by
    intro a b ha hb hSa hSb
    simp only [S, decide_eq_true_eq] at hSa
    simp only [S, decide_eq_false_iff_not] at hSb
    obtain ⟨n, hn⟩ := hSa
    have hnn := h.nonneg a b ha hb
    by_contra hne
    exact hSb ⟨n + 1, hb, a, ha, hn, by omega⟩
  refine ⟨S, hSs, hSt, ?_⟩
  have hmf : F = ∑ a in Finset.range V, (if S a = true then (1 : Int) else 0) *
      ∑ b in Finset.range V, (g a b - r a b) := by
    rw [Finset.sum_eq_single s]
    · rw [h.net s hs]
      simp [hSs, hst]
    · intro v hv hvs
      by_cases hSv : S v = true
      · have hvt : v ≠ t := by
          rintro rfl
          rw [hSt] at hSv
          exact Bool.noConfusion hSv
        rw [h.net v (Finset.mem_range.1 hv), if_neg hvs, if_neg hvt]
        simp
      · simp [hSv]
    · intro hns
      exact absurd (Finset.mem_range.2 hs) hns
  have hanti := sum_sum_antisymm V
    (fun a b => (if S a = true then (1 : Int) else 0) * (if S b = true then 1 else 0) *
      (g a b - r a b))
    (by
      intro a b ha hb
      have := h.pair a b ha hb
      by_cases hSa : S a = true <;> by_cases hSb : S b = true <;> simp [hSa, hSb]
      omega)
  have hterm : ∀ a ∈ Finset.range V, ∀ b ∈ Finset.range V,
      (if S a = true then (1 : Int) else 0) * (g a b - r a b) =
        (if S a = true then (1 : Int) else 0) * (if S b = true then 1 else 0) *
          (g a b - r a b) +
        (if S a = true ∧ S b = false then g a b else 0) := by
    intro a ha b hb
    by_cases hSa : S a = true
    · by_cases hSb : S b = true
      · simp [hSa, hSb]
      · have hSb' : S b = false := by simpa using hSb
        have := hclosed a b (Finset.mem_range.1 ha) (Finset.mem_range.1 hb) hSa hSb'
        simp [hSa, hSb', this]
    · simp [hSa]
  rw [hmf]
  unfold cutCapacity
  simp only [Finset.mul_sum]
  rw [Finset.sum_congr rfl (fun a ha => Finset.sum_congr rfl (fun b hb => hterm a ha b hb))]
  simp only [Finset.sum_add_distrib]
  rw [hanti]
  simp

/-- The value computed is that of a feasible flow and of a cut, hence
the maximum flow value and the minimum cut capacity. -/
theorem maxflow_mincut {V s t : Nat} {g : Nat → Nat → Int} (hs : s < V) (ht : t < V)
    (hst : s ≠ t) (hno : NoOverflow V g s) (p0 : Nat → Int) :
    ∃ m : Int,
      (∀ fuel, V * edgeCount V g + V + 1 ≤ fuel → fordFulkerson V g s t p0 fuel = some m) ∧
      (∃ φ, IsFlow V g s t φ ∧ flowValue V φ s = m) ∧
      (∀ φ, IsFlow V g s t φ → flowValue V φ s ≤ m) ∧
      (∃ S : Nat → Bool, S s = true ∧ S t = false ∧ cutCapacity V g S = m) ∧
      (∀ S : Nat → Bool, S s = true → S t = false → m ≤ cutCapacity V g S) := by
  have hb : ∀ a b, a < V → b < V → g a b ≤ INT_MAX := by
    intro a b ha hb
    have := hno.pair a ha b hb
    have := hno.nonneg b hb a ha
    omega
  obtain ⟨k, st1, p, _, hafter, hnoreach, hrun⟩ := run_spec hs ht hst hb p0
  have hinv : FlowInv V g s t st1 :=
    ffAfter_inv hs ht hst hno k _ _ (ffInit_inv t hno p0) (hafter (V + 1) (le_refl _)).1
  obtain ⟨hflow, hval'⟩ := ResInv.isFlow hinv hno.toPair hs hst
  obtain ⟨S, hSs, hSt, hcap⟩ := ResInv.cut hinv hs hst hnoreach
  refine ⟨st1.max_flow, ?_, ⟨_, hflow, hval'⟩, ?_, ⟨S, hSs, hSt, hcap⟩, ?_⟩
  · intro fuel hfuel
    simp [fordFulkerson, hrun fuel hfuel]
  · intro φ hφ
    rw [← hcap]
    exact flowValue_le_cut hs hφ hSs hSt
  · intro S' hS's hS't
    rw [← hval']
    exact flowValue_le_cut hs hflow hS's hS't

/-! ## The case `s = t`: `bfs` returns false at once -/

theorem BfsInvT.rear_bound {V t : Nat} {st : BfsState} (h : BfsInvT V t st) : st.rear ≤ V := by
  have := Finset.card_le_card_of_injOn (s := Finset.range st.rear) (t := Finset.range V)
    st.queue (fun i hi => Finset.mem_range.2 (h.q_lt i (Finset.mem_range.1 hi)))
    (by
      intro i hi j hj hij
      simp only [Finset.coe_range, Set.mem_Iio] at hi hj
      by_contra hne
      rcases Nat.lt_or_gt_of_ne hne with hlt | hlt
      · exact h.q_inj i j hlt hj hij
      · exact h.q_inj j i hlt hi hij.symm)
  simpa using this

theorem bfsScanT_spec {V : Nat} (r : Nat → Nat → Int) (t u : Nat) :
    ∀ (n v : Nat) (st : BfsState), v + n = V → BfsInvT V t st →
      ∀ (b : Bool) (st1 : BfsState), bfsScan r t u n v st = (b, st1) →
        b = false ∧ BfsInvT V t st1 ∧ st1.front = st.front := by
  intro n
  induction n with
  | zero =>
    intro v st _ hinv b st1 hres
    simp only [bfsScan, Prod.mk.injEq] at hres
    obtain ⟨rfl, rfl⟩ := hres
    exact ⟨rfl, hinv, rfl⟩
  | succ n ih =>
    intro v st hv hinv b st1 hres
    simp only [bfsScan] at hres
    by_cases hc : st.visited v = false ∧ 0 < r u v
    · rw [if_pos hc] at hres
      have hvt : v ≠ t := by
        rintro rfl
        have := hinv.t_vis
        rw [hc.1] at this
        exact Bool.noConfusion this
      rw [if_neg hvt] at hres
      have hqold : ∀ i, i < st.rear → setAt st.queue st.rear v i = st.queue i := fun i hi =>
        setAt_other _ _ (by omega)
      have hvisold : ∀ x, st.visited x = true → setAt st.visited v true x = true := by
        intro x hx
        by_cases hxv : x = v
        · rw [hxv]; simp
        · rw [setAt_other _ _ hxv]; exact hx
      have hfr := hinv.front_le
      have hinv1 : BfsInvT V t
          { st with
            queue := setAt st.queue st.rear v
            rear := st.rear + 1
            parent := setAt st.parent v (u : Int)
            visited := setAt st.visited v true } := by
        constructor
        · show st.front ≤ st.rear + 1
          omega
        · intro i hi
          have hi1 : i < st.rear + 1 := hi
          show setAt st.queue st.rear v i < V
          by_cases hir : i = st.rear
          · rw [hir]; simp; omega
          · rw [hqold i (by omega)]; exact hinv.q_lt i (by omega)
        · intro i hi
          have hi1 : i < st.rear + 1 := hi
          show setAt st.visited v true (setAt st.queue st.rear v i) = true
          by_cases hir : i = st.rear
          · rw [hir]; simp
          · rw [hqold i (by omega)]; exact hvisold _ (hinv.q_vis i (by omega))
        · intro i j hij hj
          have hj1 : j < st.rear + 1 := hj
          show setAt st.queue st.rear v i ≠ setAt st.queue st.rear v j
          by_cases hjr : j = st.rear
          · rw [hjr, hqold i (by omega)]
            intro heq
            have := hinv.q_vis i (by omega)
            simp only [setAt_same] at heq
            rw [heq, hc.1] at this
            exact Bool.noConfusion this
          · rw [hqold i (by omega), hqold j (by omega)]
            exact hinv.q_inj i j hij (by omega)
        · exact hvisold t hinv.t_vis
      exact ih (v + 1) _ (by omega) hinv1 b st1 hres
    · rw [if_neg hc] at hres
      exact ih (v + 1) st (by omega) hinv b st1 hres

theorem bfsLoopT_spec {V : Nat} (r : Nat → Nat → Int) (t : Nat) :
    ∀ (fuel : Nat) (st : BfsState), BfsInvT V t st → 0 < st.rear → V + 1 ≤ fuel + st.front →
      ∃ st1, bfsLoop V r t fuel st = some (false, st1) := by
  intro fuel
  induction fuel with
  | zero =>
    intro st hinv hpos hfuel
    have h1 := hinv.rear_bound
    have h2 := hinv.front_le
    omega
  | succ fuel ih =>
    intro st hinv hpos hfuel
    simp only [bfsLoop]
    by_cases hlt : st.front < st.rear
    · rw [if_pos hlt]
      have hadv : BfsInvT V t { st with front := st.front + 1 } :=
        ⟨hlt, hinv.q_lt, hinv.q_vis, hinv.q_inj, hinv.t_vis⟩
      cases hres : bfsScan r t (st.queue st.front) V 0 { st with front := st.front + 1 } with
      | mk b st1 =>
        obtain ⟨hb, hinv1, hfront⟩ :=
          bfsScanT_spec r t (st.queue st.front) V 0 _ (by omega) hadv b st1 hres
        subst hb
        have hfront1 : st1.front = st.front + 1 := hfront
        have hpos1 : 0 < st1.rear := by
          have := hinv1.front_le
          omega
        exact ih st1 hinv1 hpos1 (by omega)
    · rw [if_neg hlt]
      exact ⟨st, rfl⟩

theorem run_same {V s : Nat} (g : Nat → Nat → Int) (hs : s < V) (p0 : Nat → Int) :
    ∃ p, ∀ fuel, V + 1 ≤ fuel →
      fordFulkersonRun V g s s p0 fuel = some { ffInit g p0 with parent := p } := by
  have hinv : BfsInvT V s (bfsInit s p0) := by
    constructor
    · show 0 ≤ 1
      omega
    · intro i hi
      have hi0 : i = 0 := by
        have : i < 1 := hi
        omega
      subst hi0
      simpa [bfsInit] using hs
    · intro i hi
      have hi0 : i = 0 := by
        have : i < 1 := hi
        omega
      subst hi0
      simp [bfsInit]
    · intro i j hij hj
      have : j < 1 := hj
      omega
    · simp [bfsInit]
  obtain ⟨st1, hloop⟩ := bfsLoopT_spec (V := V) g s (V + 1) (bfsInit s p0) hinv
    (by show 0 < 1; omega) (by show V + 1 ≤ V + 1 + 0; omega)
  refine ⟨st1.parent, ?_⟩
  intro fuel hfuel
  have hbfs : bfs V g s s p0 fuel = some (false, st1.parent) := by
    unfold bfs
    rw [bfsLoop_mono V g s (V + 1) fuel _ _ hloop hfuel]
  obtain ⟨n, rfl⟩ : ∃ m, fuel = m + 1 := ⟨fuel - 1, by omega⟩
  have hstep : ffStep V s s (n + 1) (ffInit g p0) =
      some (false, { ffInit g p0 with parent := st1.parent }) := by
    have hbfs1 : bfs V (ffInit g p0).rGraph s s (ffInit g p0).parent (n + 1) =
        some (false, st1.parent) := hbfs
    simp only [ffStep, hbfs1]
  unfold fordFulkersonRun
  simp only [ffLoop, hstep]

/-! ## Cumulative flow pushed along each pair -/

theorem ffStep_true_flow {V s t : Nat} (hs : s < V) (ht : t < V) (hst : s ≠ t)
    {st st1 : FFState} {fuel : Nat} (h : ffStep V s t fuel st = some (true, st1)) :
    ∃ l, AugStep V s t st st1 l ∧
      augmentFlow V s t fuel st = some (t :: l, pathMin st.rGraph INF (t :: l)) := by
  obtain ⟨l, haug⟩ := ffStep_true hs ht hst h
  refine ⟨l, haug, ?_⟩
  have hfl : l.length < max fuel (V + 1) := by
    have := haug.dlt
    have := haug.len
    have := Nat.le_max_right fuel (V + 1)
    omega
  unfold ffStep at h
  cases hbfs : bfs V st.rGraph s t st.parent fuel with
  | none => simp [hbfs] at h
  | some x =>
    obtain ⟨b, p⟩ := x
    cases b with
    | false => simp [hbfs] at h
    | true =>
      simp only [hbfs] at h
      cases haugm : augment V s t fuel st p with
      | none => simp [haugm] at h
      | some st2 =>
        simp only [haugm, Option.some.injEq, Prod.mk.injEq, true_and] at h
        subst h
        unfold augment at haugm
        cases hq : printPath V p s fuel t with
        | none => simp [hq] at haugm
        | some path =>
          simp only [hq] at haugm
          cases hb : bottleneck V st.rGraph p s fuel t INF with
          | none => simp [hb] at haugm
          | some pf =>
            simp only [hb] at haugm
            cases hu : updateResidual V p s pf fuel t st.rGraph with
            | none => simp [hu] at haugm
            | some r1 =>
              simp only [hu, Option.some.injEq] at haugm
              subst haugm
              have hpath : IsRPath st.rGraph p s (t :: l) := haug.path
              have hq1 := printPath_mono V p s fuel _ t path hq (Nat.le_max_left fuel (V + 1))
              have hb1 := bottleneck_mono V st.rGraph p s fuel _ t INF pf hb
                (Nat.le_max_left fuel (V + 1))
              rw [printPath_spec (V := V) l t _ hpath haug.nodup haug.lt hfl] at hq1
              rw [bottleneck_spec (V := V) l t _ INF hpath haug.nodup haug.lt hfl] at hb1
              simp only [Option.some.injEq] at hq1 hb1
              simp only [augmentFlow, hbfs, hq, hb, ← hq1, ← hb1]

theorem fordFulkerson_mono {V : Nat} {graph : Nat → Nat → Int} {s t : Nat}
    {parent0 : Nat → Int} {n m : Nat} {x : Int}
    (h : fordFulkerson V graph s t parent0 n = some x) (hm : n ≤ m) :
    fordFulkerson V graph s t parent0 m = some x := by
  unfold fordFulkerson at h ⊢
  cases hr : fordFulkersonRun V graph s t parent0 n with
  | none => simp [hr] at h
  | some st =>
    rw [fordFulkersonRun_mono hr hm]
    rw [hr] at h
    exact h

/-- Conservation at a vertex other than `s` and `t`, in the three readings of "flow". -/
theorem ResInv.conservation {V s t : Nat} {g r : Nat → Nat → Int} {F : Int}
    (h : ResInv V g s t r F) (hpb : PairBound V g) {v : Nat} (hv : v < V) (hvs : v ≠ s)
    (hvt : v ≠ t) :
    (∑ w in Finset.range V, (g v w - r v w)) = 0 ∧
    (∑ u in Finset.range V, max 0 (g u v - r u v)) =
      (∑ w in Finset.range V, max 0 (g v w - r v w)) ∧
    ((∀ w, w < V → ¬(0 < g v w ∧ 0 < g w v)) → inflow V g r v = outflow V g r v) := by
  have hnet : (∑ w in Finset.range V, (g v w - r v w)) = 0 := by
    rw [h.net v hv, if_neg hvs, if_neg hvt]; simp
  refine ⟨hnet, ?_, ?_⟩
  · have hdiff : (∑ u in Finset.range V, max 0 (g u v - r u v)) -
        (∑ w in Finset.range V, max 0 (g v w - r v w)) =
        -∑ w in Finset.range V, (g v w - r v w) := by
      rw [← Finset.sum_sub_distrib, ← Finset.sum_neg_distrib]
      apply Finset.sum_congr rfl
      intro w hw
      have hp := h.pair v w hv (Finset.mem_range.1 hw)
      rcases max_cases 0 (g v w - r v w) with ⟨e1, f1⟩ | ⟨e1, f1⟩ <;>
      rcases max_cases 0 (g w v - r w v) with ⟨e2, f2⟩ | ⟨e2, f2⟩ <;>
      rw [e1, e2] <;> omega
    omega
  · intro hanti
    have hdiff : inflow V g r v - outflow V g r v =
        -∑ w in Finset.range V, (g v w - r v w) := by
      unfold inflow outflow
      rw [← Finset.sum_sub_distrib, ← Finset.sum_neg_distrib]
      apply Finset.sum_congr rfl
      intro w hw
      have hw' := Finset.mem_range.1 hw
      have hp := h.pair v w hv hw'
      have hn1 := h.nonneg v w hv hw'
      have hn2 := h.nonneg w v hw' hv
      have hg1 := hpb.nonneg v hv w hw'
      have hg2 := hpb.nonneg w hw' v hv
      have ha := hanti w hw'
      unfold edgeFlow
      by_cases h1 : 0 < g v w
      · have h2 : ¬0 < g w v := fun h2 => ha ⟨h1, h2⟩
        rw [if_pos h1, if_neg h2]; omega
      · by_cases h2 : 0 < g w v
        · rw [if_neg h1, if_pos h2]; omega
        · rw [if_neg h1, if_neg h2]; omega
    omega

/-- The final state of a run from capacities that satisfy the pair bound. -/
theorem run_res {V s t : Nat} {g : Nat → Nat → Int} (hs : s < V) (ht : t < V) (hst : s ≠ t)
    (hpb : PairBound V g) (p0 : Nat → Int) :
    ∃ st F, (∀ fuel, V * edgeCount V g + V + 1 ≤ fuel →
        fordFulkersonRun V g s t p0 fuel = some st) ∧ ResInv V g s t st.rGraph F := by
  have hb : ∀ a b, a < V → b < V → g a b ≤ INT_MAX := by
    intro a b ha hb
    have := hpb.pair a ha b hb
    have := hpb.nonneg b hb a ha
    omega
  obtain ⟨k, st1, p, _, hafter, _, hrun⟩ := run_spec hs ht hst hb p0
  obtain ⟨F, hF⟩ := ffAfter_res hs ht hst hpb k _ _ 0 (ffInit_res s t hpb)
    (hafter (V + 1) (le_refl _)).1
  exact ⟨{ st1 with parent := p }, F, hrun, hF⟩

theorem mainGraph_noOverflow : NoOverflow 6 mainGraph 0 :=
  ⟨by decide, by decide, by decide⟩

theorem mainGraph_pairBound : PairBound 6 mainGraph :=
  ⟨by decide, by decide⟩

/-- The final state of a run without overflow: it satisfies the invariant and no walk
of positive residual capacity leads from `s` to `t`. -/
theorem run_flow {V s t : Nat} {g : Nat → Nat → Int} (hs : s < V) (ht : t < V) (hst : s ≠ t)
    (hno : NoOverflow V g s) (p0 : Nat → Int) :
    ∃ st, (∀ fuel, V * edgeCount V g + V + 1 ≤ fuel →
        fordFulkersonRun V g s t p0 fuel = some st) ∧ FlowInv V g s t st ∧
      ¬∃ n, Reach V st.rGraph s n t := by
  have hb : ∀ a b, a < V → b < V → g a b ≤ INT_MAX := by
    intro a b ha hb
    have := hno.pair a ha b hb
    have := hno.nonneg b hb a ha
    omega
  obtain ⟨k, st1, p, _, hafter, hnoreach, hrun⟩ := run_spec hs ht hst hb p0
  have hinv : FlowInv V g s t st1 :=
    ffAfter_inv hs ht hst hno k _ _ (ffInit_inv t hno p0) (hafter (V + 1) (le_refl _)).1
  exact ⟨{ st1 with parent := p }, hrun, hinv, hnoreach⟩

theorem antiParallelGraph_eq (u v : Nat) :
    antiParallelGraph u v =
      if u = 0 ∧ v = 1 then 5 else if u = 1 ∧ v = 0 then 3 else if u = 1 ∧ v = 2 then 5 else 0 := by
  unfold antiParallelGraph
  split
  · simp
  · simp
  · simp
  · rename_i h1 h2 h3
    have e1 : ¬(u = 0 ∧ v = 1) := fun h => h1 h.1 h.2
    have e2 : ¬(u = 1 ∧ v = 0) := fun h => h2 h.1 h.2
    have e3 : ¬(u = 1 ∧ v = 2) := fun h => h3 h.1 h.2
    rw [if_neg e1, if_neg e2, if_neg e3]

theorem sum_single_ite (V c : Nat) (hc : c < V) (x : Int) :
    (∑ w in Finset.range V, if w = c then x else 0) = x := by
  rw [Finset.sum_ite_eq' (Finset.range V) c (fun _ => x), if_pos (Finset.mem_range.2 hc)]

theorem antiParallel_general {V : Nat} (hV : 3 ≤ V) (p0 : Nat → Int) :
    ∃ st, (∀ fuel, V * edgeCount V antiParallelGraph + V + 1 ≤ fuel →
        fordFulkersonRun V antiParallelGraph 0 2 p0 fuel = some st) ∧
      st.max_flow = 5 ∧ st.rGraph 1 0 = 8 := by
  have hrow0 : ∀ w, antiParallelGraph 0 w = if w = 1 then 5 else 0 := by
    intro w; rw [antiParallelGraph_eq]; simp
  have hno : NoOverflow V antiParallelGraph 0 := by
    refine ⟨?_, ?_, ?_⟩
    · intro a _ b _
      rw [antiParallelGraph_eq]
      split_ifs <;> omega
    · intro a _ b _
      rw [antiParallelGraph_eq, antiParallelGraph_eq]
      unfold INT_MAX
      split_ifs <;> omega
    · simp only [hrow0]
      rw [sum_single_ite V 1 (by omega)]
      decide
  obtain ⟨st, hrun, hinv, hnoreach⟩ :=
    run_flow (by omega : 0 < V) (by omega : 2 < V) (by decide) hno p0
  have hflow : IsFlow V antiParallelGraph 0 2 antiParallelFlow := by
    constructor
    · intro a _ b _
      rw [antiParallelGraph_eq]
      unfold antiParallelFlow
      split_ifs <;> omega
    · intro v hv hv0 hv2
      by_cases hv1 : v = 1
      · subst hv1
        have e1 : ∀ u, antiParallelFlow u 1 = if u = 0 then 5 else 0 := by
          intro u; unfold antiParallelFlow; simp
        have e2 : ∀ w, antiParallelFlow 1 w = if w = 2 then 5 else 0 := by
          intro w; unfold antiParallelFlow; simp
        simp only [e1, e2]
        rw [sum_single_ite V 0 (by omega), sum_single_ite V 2 (by omega)]
      · have e1 : ∀ u, antiParallelFlow u v = 0 := by
          intro u; unfold antiParallelFlow
          rw [if_neg]; omega
        have e2 : ∀ w, antiParallelFlow v w = 0 := by
          intro w; unfold antiParallelFlow
          rw [if_neg]; omega
        simp only [e1, e2]
  have hval : flowValue V antiParallelFlow 0 = 5 := by
    unfold flowValue
    have e1 : ∀ w, antiParallelFlow 0 w = if w = 1 then 5 else 0 := by
      intro w; unfold antiParallelFlow; simp
    have e2 : ∀ u, antiParallelFlow u 0 = 0 := by
      intro u; unfold antiParallelFlow
      rw [if_neg]; omega
    simp only [e1, e2]
    rw [sum_single_ite V 1 (by omega)]
    simp
  have hcutcap : cutCapacity V antiParallelGraph (fun v => decide (v = 0)) = 5 := by
    unfold cutCapacity
    rw [Finset.sum_eq_single 0]
    · refine (Finset.sum_congr rfl (fun b _ => ?_)).trans (sum_single_ite V 1 (by omega) 5)
      rw [hrow0]
      by_cases hb : b = 1
      · subst hb; simp
      · simp [hb]
    · intro a _ ha
      apply Finset.sum_eq_zero
      intro b _
      simp [ha]
    · intro h0
      exact absurd (Finset.mem_range.2 (by omega : 0 < V)) h0
  obtain ⟨hf, hfv⟩ := ResInv.isFlow hinv hno.toPair (by omega : 0 < V) (by decide : (0 : Nat) ≠ 2)
  obtain ⟨S, hSs, hSt, hcap⟩ := ResInv.cut hinv (by omega : 0 < V) (by decide : (0 : Nat) ≠ 2)
    hnoreach
  have hle : st.max_flow ≤ 5 := by
    rw [← hfv, ← hcutcap]
    exact flowValue_le_cut (by omega) hf (by simp) (by simp)
  have hge : 5 ≤ st.max_flow := by
    rw [← hval, ← hcap]
    exact flowValue_le_cut (by omega) hflow hSs hSt
  have hmf : st.max_flow = 5 := le_antisymm hle hge
  refine ⟨st, hrun, hmf, ?_⟩
  have hnet := hinv.net 0 (by omega)
  rw [if_pos rfl, if_neg (by decide : (0 : Nat) ≠ 2), hmf, Finset.sum_sub_distrib] at hnet
  simp only [hrow0] at hnet
  rw [sum_single_ite V 1 (by omega)] at hnet
  have hzero : (∑ w in Finset.range V, st.rGraph 0 w) = 0 := by omega
  have h01 : st.rGraph 0 1 = 0 :=
    (Finset.sum_eq_zero_iff_of_nonneg
      (fun w hw => hinv.nonneg 0 w (by omega) (Finset.mem_range.1 hw))).1 hzero 1
      (Finset.mem_range.2 (by omega))
  have hpair := hinv.pair 1 0 (by omega) (by omega)
  rw [antiParallelGraph_eq 1 0, antiParallelGraph_eq 0 1] at hpair
  simp at hpair
  omega

/-! ## The properties of the specification, settled on the embedding -/

/-- C1, as stated, fails: with capacity `INT_MAX` on each edge of the two disjoint paths
`0 -> 1 -> 5` and `0 -> 2 -> 5` the capacities are non-negative `int` values, the flow
that saturates every edge is feasible and has value `4294967294`, and `fordFulkerson`
returns `-2`. -/
theorem fordFulkerson_overflow_counterexample :
    (∀ a, a < 6 → ∀ b, b < 6 → 0 ≤ overflowGraph a b ∧ overflowGraph a b ≤ INT_MAX) ∧
    (∀ fuel, 8 ≤ fuel → fordFulkerson 6 overflowGraph 0 5 (fun _ => 0) fuel = some (-2)) ∧
    IsFlow 6 overflowGraph 0 5 overflowGraph ∧
    flowValue 6 overflowGraph 0 = 4294967294 :=
  ⟨by decide,
   fun _ hfuel => fordFulkerson_mono
     (by decide! : fordFulkerson 6 overflowGraph 0 5 (fun _ => 0) 8 = some (-2)) hfuel,
   ⟨by decide, by decide⟩, by decide⟩

/-- C1, amended: for non-negative capacities whose opposite pairs and whose sum out of
`s` are at most `INT_MAX`, and `s ≠ t` in range, `fordFulkerson` returns the maximum
value of a feasible `s`-`t` flow, which is the capacity of a minimum `s`-`t` cut. -/
theorem fordFulkerson_max_flow_min_cut (V : Nat) (graph : Nat → Nat → Int) (s t : Nat)
    (parent0 : Nat → Int) (hs : s < V) (ht : t < V) (hst : s ≠ t)
    (hno : NoOverflow V graph s) :
    ∃ m : Int,
      (∀ fuel, V * edgeCount V graph + V + 1 ≤ fuel →
        fordFulkerson V graph s t parent0 fuel = some m) ∧
      IsMaxFlowValue V graph s t m ∧ IsMinCutCapacity V graph s t m := by
  obtain ⟨m, h1, h2, h3, h4, h5⟩ := maxflow_mincut hs ht hst hno parent0
  exact ⟨m, h1, ⟨h2, h3⟩, ⟨h4, h5⟩⟩

theorem fordFulkerson_max_flow_min_cut_witness :
    (0 < 6 ∧ 5 < 6 ∧ (0 : Nat) ≠ 5 ∧ NoOverflow 6 mainGraph 0) ∧
    ∃ m : Int,
      (∀ fuel, 6 * edgeCount 6 mainGraph + 6 + 1 ≤ fuel →
        fordFulkerson 6 mainGraph 0 5 (fun _ => 0) fuel = some m) ∧
      IsMaxFlowValue 6 mainGraph 0 5 m ∧ IsMinCutCapacity 6 mainGraph 0 5 m :=
  ⟨⟨by decide, by decide, by decide, mainGraph_noOverflow⟩,
   fordFulkerson_max_flow_min_cut 6 mainGraph 0 5 (fun _ => 0) (by decide) (by decide)
     (by decide) mainGraph_noOverflow⟩

/-- C4, as stated, fails: with capacities `(0,5,INT_MAX)` and `(5,0,1)`, all non-negative,
the first augmentation leaves `rGraph[5][0] = -2147483648`. -/
theorem rGraph_negative_counterexample :
    (∀ a, a < 6 → ∀ b, b < 6 → 0 ≤ oppositeGraph a b ∧ oppositeGraph a b ≤ INT_MAX) ∧
    (ffAfter 6 0 5 8 1 (ffInit oppositeGraph (fun _ => 0))).map (fun st => st.rGraph 5 0) =
      some (-2147483648) :=
  ⟨by decide, by decide!⟩

/-- C4, amended: for non-negative capacities whose opposite pairs sum to at most
`INT_MAX`, and `s ≠ t` in range, every entry of the residual matrix is non-negative
after initialisation (`k = 0`) and after each augmentation. -/
theorem rGraph_nonneg (V : Nat) (graph : Nat → Nat → Int) (s t : Nat) (parent0 : Nat → Int)
    (fuel : Nat) (hs : s < V) (ht : t < V) (hst : s ≠ t) (hpb : PairBound V graph)
    (k : Nat) (stk : FFState)
    (hk : ffAfter V s t fuel k (ffInit graph parent0) = some stk) :
    ∀ u, u < V → ∀ v, v < V → 0 ≤ stk.rGraph u v := by
  obtain ⟨F, hF⟩ := ffAfter_res hs ht hst hpb k _ _ 0 (ffInit_res s t hpb) hk
  exact fun u hu v hv => hF.nonneg u v hu hv

theorem rGraph_nonneg_witness :
    ∃ stk, ffAfter 6 0 5 8 2 (ffInit mainGraph (fun _ => 0)) = some stk ∧
      ∀ u, u < 6 → ∀ v, v < 6 → 0 ≤ stk.rGraph u v :=
  have hsome : (ffAfter 6 0 5 8 2 (ffInit mainGraph (fun _ => 0))).isSome = true := by decide!
  ⟨_, (Option.some_get hsome).symm,
    rGraph_nonneg 6 mainGraph 0 5 (fun _ => 0) 8 (by decide) (by decide) (by decide)
      mainGraph_pairBound 2 _ (Option.some_get hsome).symm⟩

/-- C6, as stated, fails: on the graph `(0,1,5) (1,0,3) (1,2,5)` with source 0 and sink 2
the flow read off the final residual matrix on the original edges gives, at vertex 1,
total inflow 5 and total outflow 0 (the edge `(1,0)` gets `3 - 8 = -5`).  It also
fails by overflow: on `(0,1,INT_MAX) (1,0,1) (1,5,INT_MAX)` with source 0 and sink 5
vertex 1 gets inflow `2147483647` and outflow `4294967296`. -/
theorem conservation_counterexample :
    (∀ a, a < 6 → ∀ b, b < 6 → 0 ≤ antiParallelGraph a b ∧ antiParallelGraph a b ≤ INT_MAX) ∧
    (fordFulkersonRun 6 antiParallelGraph 0 2 (fun _ => 0) 8).map
      (fun st => (inflow 6 antiParallelGraph st.rGraph 1,
        outflow 6 antiParallelGraph st.rGraph 1)) = some (5, 0) ∧
    (∀ a, a < 6 → ∀ b, b < 6 → 0 ≤ overflowPathGraph a b ∧ overflowPathGraph a b ≤ INT_MAX) ∧
    (fordFulkersonRun 6 overflowPathGraph 0 5 (fun _ => 0) 8).map
      (fun st => (inflow 6 overflowPathGraph st.rGraph 1,
        outflow 6 overflowPathGraph st.rGraph 1)) = some (2147483647, 4294967296) :=
  ⟨by decide, by decide!, by decide, by decide!⟩

/-- C6, amended: for non-negative capacities whose opposite pairs sum to at most
`INT_MAX`, and `s ≠ t` in range, after `fordFulkerson` terminates every vertex `v`
other than `s` and `t` has net flow `sum over w of (graph[v][w] - rGraph[v][w])` zero and
inflow equal to outflow when the flow on a pair is `max(0, graph - rGraph)`; with the
flow `graph - rGraph` on each original edge, inflow equals outflow at every such `v`
none of whose edges has an opposite edge. -/
theorem flow_conservation (V : Nat) (graph : Nat → Nat → Int) (s t : Nat)
    (parent0 : Nat → Int) (hs : s < V) (ht : t < V) (hst : s ≠ t)
    (hpb : PairBound V graph) :
    ∃ st, (∀ fuel, V * edgeCount V graph + V + 1 ≤ fuel →
        fordFulkersonRun V graph s t parent0 fuel = some st) ∧
      ∀ v, v < V → v ≠ s → v ≠ t →
        (∑ w in Finset.range V, (graph v w - st.rGraph v w)) = 0 ∧
        (∑ u in Finset.range V, max 0 (graph u v - st.rGraph u v)) =
          (∑ w in Finset.range V, max 0 (graph v w - st.rGraph v w)) ∧
        ((∀ w, w < V → ¬(0 < graph v w ∧ 0 < graph w v)) →
          inflow V graph st.rGraph v = outflow V graph st.rGraph v) := by
  obtain ⟨st, F, hrun, hF⟩ := run_res hs ht hst hpb parent0
  exact ⟨st, hrun, fun v hv hvs hvt => hF.conservation hpb hv hvs hvt⟩

theorem flow_conservation_witness :
    (0 < 6 ∧ 5 < 6 ∧ (0 : Nat) ≠ 5 ∧ PairBound 6 mainGraph) ∧
    ∃ st, (∀ fuel, 6 * edgeCount 6 mainGraph + 6 + 1 ≤ fuel →
        fordFulkersonRun 6 mainGraph 0 5 (fun _ => 0) fuel = some st) ∧
      ∀ v, v < 6 → v ≠ 0 → v ≠ 5 →
        (∑ w in Finset.range 6, (mainGraph v w - st.rGraph v w)) = 0 ∧
        (∑ u in Finset.range 6, max 0 (mainGraph u v - st.rGraph u v)) =
          (∑ w in Finset.range 6, max 0 (mainGraph v w - st.rGraph v w)) ∧
        ((∀ w, w < 6 → ¬(0 < mainGraph v w ∧ 0 < mainGraph w v)) →
          inflow 6 mainGraph st.rGraph v = outflow 6 mainGraph st.rGraph v) :=
  ⟨⟨by decide, by decide, by decide, mainGraph_pairBound⟩,
   flow_conservation 6 mainGraph 0 5 (fun _ => 0) (by decide) (by decide) (by decide)
     mainGraph_pairBound⟩

/-- C7, as stated, fails: on the graph `(0,1,5) (1,0,3) (1,2,5)` with source 0 and sink 2
the original edge `(1,0)` of capacity 3 ends with `rGraph[1][0] = 8`, so that its
computed flow `3 - 8 = -5` is negative.  It also fails by overflow: on
`(0,1,INT_MAX) (1,0,1) (1,5,INT_MAX)` with source 0 and sink 5 the edge `(1,0)` of
capacity 1 gets the computed flow `2147483649`. -/
theorem capacity_bound_counterexample :
    (∀ a, a < 6 → ∀ b, b < 6 → 0 ≤ antiParallelGraph a b ∧ antiParallelGraph a b ≤ INT_MAX) ∧
    0 < antiParallelGraph 1 0 ∧
    (fordFulkersonRun 6 antiParallelGraph 0 2 (fun _ => 0) 8).map
      (fun st => antiParallelGraph 1 0 - st.rGraph 1 0) = some (-5) ∧
    (∀ a, a < 6 → ∀ b, b < 6 → 0 ≤ overflowPathGraph a b ∧ overflowPathGraph a b ≤ INT_MAX) ∧
    overflowPathGraph 1 0 = 1 ∧
    (fordFulkersonRun 6 overflowPathGraph 0 5 (fun _ => 0) 8).map
      (fun st => overflowPathGraph 1 0 - st.rGraph 1 0) = some 2147483649 :=
  ⟨by decide, by decide, by decide!, by decide, by decide, by decide!⟩

/-- C7, amended: for non-negative capacities whose opposite pairs sum to at most
`INT_MAX`, and `s ≠ t` in range, after `fordFulkerson` terminates the computed flow
`c - rGraph[u][v]` of every original edge `(u,v)` of capacity `c` lies between
`-graph[v][u]` and `c`; it is non-negative when the opposite capacity `graph[v][u]`
is zero. -/
theorem flow_capacity_bound (V : Nat) (graph : Nat → Nat → Int) (s t : Nat)
    (parent0 : Nat → Int) (hs : s < V) (ht : t < V) (hst : s ≠ t)
    (hpb : PairBound V graph) :
    ∃ st, (∀ fuel, V * edgeCount V graph + V + 1 ≤ fuel →
        fordFulkersonRun V graph s t parent0 fuel = some st) ∧
      ∀ u, u < V → ∀ v, v < V → 0 < graph u v →
        -graph v u ≤ graph u v - st.rGraph u v ∧
        graph u v - st.rGraph u v ≤ graph u v ∧
        (graph v u = 0 → 0 ≤ graph u v - st.rGraph u v) := by
  obtain ⟨st, F, hrun, hF⟩ := run_res hs ht hst hpb parent0
  refine ⟨st, hrun, ?_⟩
  intro u hu v hv _
  have h1 := hF.pair u v hu hv
  have h2 := hF.nonneg u v hu hv
  have h3 := hF.nonneg v u hv hu
  exact ⟨by omega, by omega, fun h0 => by omega⟩

theorem flow_capacity_bound_witness :
    (0 < 6 ∧ 5 < 6 ∧ (0 : Nat) ≠ 5 ∧ PairBound 6 mainGraph) ∧
    ∃ st, (∀ fuel, 6 * edgeCount 6 mainGraph + 6 + 1 ≤ fuel →
        fordFulkersonRun 6 mainGraph 0 5 (fun _ => 0) fuel = some st) ∧
      ∀ u, u < 6 → ∀ v, v < 6 → 0 < mainGraph u v →
        -mainGraph v u ≤ mainGraph u v - st.rGraph u v ∧
        mainGraph u v - st.rGraph u v ≤ mainGraph u v ∧
        (mainGraph v u = 0 → 0 ≤ mainGraph u v - st.rGraph u v) :=
  ⟨⟨by decide, by decide, by decide, mainGraph_pairBound⟩,
   flow_capacity_bound 6 mainGraph 0 5 (fun _ => 0) (by decide) (by decide) (by decide)
     mainGraph_pairBound⟩

/-- C8: for capacities that are values of an `int` (whatever their sign) and every
`s`, `t` in range, equal or not, the loop of `fordFulkerson` makes finitely many
iterations: with `V * E + V + 1` units of fuel or more the run returns, always in the
same final state, so that `fordFulkerson` is total on such inputs. -/
theorem fordFulkerson_terminates (V : Nat) (graph : Nat → Nat → Int) (s t : Nat)
    (parent0 : Nat → Int) (hs : s < V) (ht : t < V)
    (hint : ∀ a, a < V → ∀ b, b < V → graph a b ≤ INT_MAX) :
    ∃ st, ∀ fuel, V * edgeCount V graph + V + 1 ≤ fuel →
      fordFulkersonRun V graph s t parent0 fuel = some st ∧
      fordFulkerson V graph s t parent0 fuel = some st.max_flow := by
  by_cases hst : s = t
  · subst hst
    obtain ⟨p, hp⟩ := run_same graph hs parent0
    refine ⟨{ ffInit graph parent0 with parent := p }, fun fuel hfuel => ?_⟩
    have := hp fuel (by omega)
    exact ⟨this, by simp [fordFulkerson, this]⟩
  · obtain ⟨k, st1, p, _, _, _, hrun⟩ :=
      run_spec hs ht hst (fun a b ha hb => hint a ha b hb) parent0
    refine ⟨{ st1 with parent := p }, fun fuel hfuel => ?_⟩
    have := hrun fuel hfuel
    exact ⟨this, by simp [fordFulkerson, this]⟩

theorem fordFulkerson_terminates_witness :
    (0 < 6 ∧ 5 < 6 ∧ ∀ a, a < 6 → ∀ b, b < 6 → mainGraph a b ≤ INT_MAX) ∧
    ∃ st, ∀ fuel, 6 * edgeCount 6 mainGraph + 6 + 1 ≤ fuel →
      fordFulkersonRun 6 mainGraph 0 5 (fun _ => 0) fuel = some st ∧
      fordFulkerson 6 mainGraph 0 5 (fun _ => 0) fuel = some st.max_flow :=
  ⟨⟨by decide, by decide, by decide⟩,
   fordFulkerson_terminates 6 mainGraph 0 5 (fun _ => 0) (by decide) (by decide) (by decide)⟩

theorem wrapInt_le_self {x : Int} (h : 0 ≤ x) : wrapInt x ≤ x := by
  unfold wrapInt
  omega

/-- C9: for capacities that are values of an `int`, `V` vertices, `E` edges of positive
capacity and `s ≠ t` in range, `fordFulkerson` makes `k ≤ V * E` augmentations and then
`bfs` returns false; the final value of `iteration` is `k` reduced to an `int`, hence
at most `V * E`, and it is `k` itself when `V * E` is at most `INT_MAX`. -/
theorem augmentations_le (V : Nat) (graph : Nat → Nat → Int) (s t : Nat)
    (parent0 : Nat → Int) (hs : s < V) (ht : t < V) (hst : s ≠ t)
    (hint : ∀ a, a < V → ∀ b, b < V → graph a b ≤ INT_MAX) :
    ∃ k st, k ≤ V * edgeCount V graph ∧
      (∀ fuel, V * edgeCount V graph + V + 1 ≤ fuel →
        fordFulkersonRun V graph s t parent0 fuel = some st ∧
        ∃ stk, ffAfter V s t fuel k (ffInit graph parent0) = some stk ∧
          ffStep V s t fuel stk = some (false, st)) ∧
      st.iteration = wrapInt k ∧
      st.iteration ≤ ((V * edgeCount V graph : Nat) : Int) ∧
      (((V * edgeCount V graph : Nat) : Int) ≤ INT_MAX → st.iteration = k) := by
  obtain ⟨k, st1, p, hk, hafter, _, hrun⟩ :=
    run_spec hs ht hst (fun a b ha hb => hint a ha b hb) parent0
  have hit : st1.iteration = wrapInt k := by
    have := ffAfter_iteration hs ht hst k (ffInit graph parent0) st1
      (by show wrapInt 0 = 0; decide)
      (hafter (V + 1) (le_refl _)).1
    simpa [ffInit] using this
  have hkI : (k : Int) ≤ ((V * edgeCount V graph : Nat) : Int) := by exact_mod_cast hk
  refine ⟨k, { st1 with parent := p }, hk, ?_, hit, ?_, ?_⟩
  · intro fuel hfuel
    exact ⟨hrun fuel hfuel, st1, hafter fuel (by omega)⟩
  · show st1.iteration ≤ _
    rw [hit]
    exact le_trans (wrapInt_le_self (Int.natCast_nonneg k)) hkI
  · intro hmax
    show st1.iteration = k
    rw [hit]
    exact wrapInt_of_range (by have := Int.natCast_nonneg k; omega) (by omega)

theorem augmentations_le_witness :
    (0 < 6 ∧ 5 < 6 ∧ (0 : Nat) ≠ 5 ∧ ∀ a, a < 6 → ∀ b, b < 6 → mainGraph a b ≤ INT_MAX) ∧
    ∃ k st, k ≤ 6 * edgeCount 6 mainGraph ∧
      (∀ fuel, 6 * edgeCount 6 mainGraph + 6 + 1 ≤ fuel →
        fordFulkersonRun 6 mainGraph 0 5 (fun _ => 0) fuel = some st ∧
        ∃ stk, ffAfter 6 0 5 fuel k (ffInit mainGraph (fun _ => 0)) = some stk ∧
          ffStep 6 0 5 fuel stk = some (false, st)) ∧
      st.iteration = wrapInt k ∧
      st.iteration ≤ ((6 * edgeCount 6 mainGraph : Nat) : Int) ∧
      (((6 * edgeCount 6 mainGraph : Nat) : Int) ≤ INT_MAX → st.iteration = k) :=
  ⟨⟨by decide, by decide, by decide, by decide⟩,
   augmentations_le 6 mainGraph 0 5 (fun _ => 0) (by decide) (by decide) (by decide)
     (by decide)⟩

/-- C10: for every residual matrix and every `s ≠ t` in range, `bfs` returns (with
`V + 1` units of fuel or more), and it returns true if and only if a walk from `s` to
`t` exists all of whose edges `(u,v)` have `rGraph[u][v] > 0`. -/
theorem bfs_true_iff (V : Nat) (rGraph : Nat → Nat → Int) (s t : Nat) (parent : Nat → Int)
    (fuel : Nat) (hs : s < V) (ht : t < V) (hst : s ≠ t) (hfuel : V + 1 ≤ fuel) :
    ∃ b p, bfs V rGraph s t parent fuel = some (b, p) ∧
      (b = true ↔ ∃ n, Reach V rGraph s n t) := by
  obtain ⟨b, p, h1, h2, _⟩ := bfs_spec rGraph hs ht hst parent hfuel
  exact ⟨b, p, h1, h2⟩

theorem bfs_true_iff_witness :
    (0 < 6 ∧ 5 < 6 ∧ (0 : Nat) ≠ 5 ∧ 6 + 1 ≤ 7) ∧
    ∃ b p, bfs 6 mainGraph 0 5 (fun _ => 0) 7 = some (b, p) ∧
      (b = true ↔ ∃ n, Reach 6 mainGraph 0 n 5) :=
  ⟨⟨by decide, by decide, by decide, by decide⟩,
   bfs_true_iff 6 mainGraph 0 5 (fun _ => 0) 7 (by decide) (by decide) (by decide)
     (by decide)⟩

/-- C2: on the 6-vertex graph of `main`, with source 0 and sink 5, `fordFulkerson`
returns 23, whatever the initial contents of `parent[]`; the run started with
`parent[]` zeroed returns it with 8 units of fuel or more. -/
theorem fordFulkerson_mainGraph :
    (∀ parent0 fuel, 6 * edgeCount 6 mainGraph + 6 + 1 ≤ fuel →
      fordFulkerson 6 mainGraph 0 5 parent0 fuel = some 23) ∧
    (∀ fuel, 8 ≤ fuel → fordFulkerson 6 mainGraph 0 5 (fun _ => 0) fuel = some 23) := by
  constructor
  · intro parent0 fuel hfuel
    obtain ⟨m, hrun, _, hmax, _, hmin⟩ :=
      maxflow_mincut (by decide : 0 < 6) (by decide : 5 < 6) (by decide : (0 : Nat) ≠ 5)
        mainGraph_noOverflow parent0
    have h1 : flowValue 6 mainFlow 0 ≤ m :=
      hmax mainFlow ⟨by decide, by decide⟩
    have h2 : m ≤ cutCapacity 6 mainGraph mainCut := hmin mainCut (by decide) (by decide)
    have e1 : flowValue 6 mainFlow 0 = 23 := by decide
    have e2 : cutCapacity 6 mainGraph mainCut = 23 := by decide
    rw [e1] at h1
    rw [e2] at h2
    rw [hrun fuel hfuel, le_antisymm h2 h1]
  · intro fuel hfuel
    exact fordFulkerson_mono
      (by decide! : fordFulkerson 6 mainGraph 0 5 (fun _ => 0) 8 = some 23) hfuel

/-- C3: on the graph whose only non-zero capacities are `(0,1,5)`, `(1,0,3)` and
`(1,2,5)`, with source 0 and sink 2, `fordFulkerson` returns total flow 5 and the final
residual matrix has `rGraph[1][0] = 8`, whatever the initial contents of `parent[]`:
for every number `V ≥ 3` of vertices, and by direct evaluation (one augmentation) with
6 vertices as in the source and with 3 as in the spec. -/
theorem fordFulkerson_antiParallel :
    (∀ V, 3 ≤ V → ∀ parent0 : Nat → Int,
      ∃ st, st.max_flow = 5 ∧ st.rGraph 1 0 = 8 ∧
        ∀ fuel, V * edgeCount V antiParallelGraph + V + 1 ≤ fuel →
          fordFulkersonRun V antiParallelGraph 0 2 parent0 fuel = some st ∧
          fordFulkerson V antiParallelGraph 0 2 parent0 fuel = some 5) ∧
    (∀ (parent0 : Nat → Int) (fuel : Nat), 8 ≤ fuel →
      (∃ st, fordFulkersonRun 6 antiParallelGraph 0 2 parent0 fuel = some st ∧
        st.max_flow = 5 ∧ st.rGraph 1 0 = 8 ∧ st.iteration = 1 ∧
        fordFulkerson 6 antiParallelGraph 0 2 parent0 fuel = some 5) ∧
      (∃ st, fordFulkersonRun 3 antiParallelGraph 0 2 parent0 fuel = some st ∧
        st.max_flow = 5 ∧ st.rGraph 1 0 = 8 ∧ st.iteration = 1 ∧
        fordFulkerson 3 antiParallelGraph 0 2 parent0 fuel = some 5)) := by
  constructor
  · intro V hV parent0
    obtain ⟨st, hrun, hmf, hr⟩ := antiParallel_general hV parent0
    refine ⟨st, hmf, hr, fun fuel hfuel => ⟨hrun fuel hfuel, ?_⟩⟩
    simp [fordFulkerson, hrun fuel hfuel, hmf]
  · intro parent0 fuel hfuel
    have h6 : (fordFulkersonRun 6 antiParallelGraph 0 2 parent0 8).map
        (fun st => (st.max_flow, st.rGraph 1 0, st.iteration)) = some (5, 8, 1) := rfl
    have h3 : (fordFulkersonRun 3 antiParallelGraph 0 2 parent0 8).map
        (fun st => (st.max_flow, st.rGraph 1 0, st.iteration)) = some (5, 8, 1) := rfl
    constructor
    · cases hr : fordFulkersonRun 6 antiParallelGraph 0 2 parent0 8 with
      | none => rw [hr] at h6; exact Option.noConfusion h6
      | some st =>
        rw [hr] at h6
        simp only [Option.map_some', Option.some.injEq, Prod.mk.injEq] at h6
        have hrun := fordFulkersonRun_mono hr hfuel
        exact ⟨st, hrun, h6.1, h6.2.1, h6.2.2, by simp [fordFulkerson, hrun, h6.1]⟩
    · cases hr : fordFulkersonRun 3 antiParallelGraph 0 2 parent0 8 with
      | none => rw [hr] at h3; exact Option.noConfusion h3
      | some st =>
        rw [hr] at h3
        simp only [Option.map_some', Option.some.injEq, Prod.mk.injEq] at h3
        have hrun := fordFulkersonRun_mono hr hfuel
        exact ⟨st, hrun, h3.1, h3.2.1, h3.2.2, by simp [fordFulkerson, hrun, h3.1]⟩

theorem fordFulkerson_antiParallel_witness :
    8 ≤ 8 ∧
    (∃ st, fordFulkersonRun 6 antiParallelGraph 0 2 (fun _ => 0) 8 = some st ∧
      st.max_flow = 5 ∧ st.rGraph 1 0 = 8 ∧ st.iteration = 1 ∧
      fordFulkerson 6 antiParallelGraph 0 2 (fun _ => 0) 8 = some 5) ∧
    (∃ st, fordFulkersonRun 3 antiParallelGraph 0 2 (fun _ => 0) 8 = some st ∧
      st.max_flow = 5 ∧ st.rGraph 1 0 = 8 ∧ st.iteration = 1 ∧
      fordFulkerson 3 antiParallelGraph 0 2 (fun _ => 0) 8 = some 5) :=
  ⟨le_refl 8, fordFulkerson_antiParallel.2 (fun _ => 0) 8 (le_refl 8)⟩

theorem fordFulkerson_mainGraph_witness :
    6 * edgeCount 6 mainGraph + 6 + 1 ≤ 67 ∧
    fordFulkerson 6 mainGraph 0 5 (fun _ => 0) 67 = some 23 :=
  ⟨by decide, fordFulkerson_mainGraph.1 (fun _ => 0) 67 (by decide)⟩

/-! ## The path recorded by `bfs`, unreachable sinks, and inputs the spec would reject -/

theorem IsRPath.parent_eq {r : Nat → Nat → Int} {p : Nat → Int} {s : Nat} :
    ∀ {l : List Nat}, IsRPath r p s l → ∀ e ∈ pathEdges l, p e.2 = (e.1 : Int)
  | [], h => h.elim
  | [v], _ => by simp [pathEdges]
  | v :: u :: rest, h => by
    intro e he
    simp only [pathEdges] at he
    rcases List.mem_cons.1 he with rfl | he
    · exact h.1
    · exact IsRPath.parent_eq h.2.2 e he

/-- C11: whenever `bfs` returns true (`s ≠ t` in range, any contents of `parent[]` on
entry), following `parent[]` backwards from `t` visits a list `t :: l` of distinct
vertices below `V` that ends at `s` after `l.length ≤ V - 1` steps, every step going
from `v` to `parent[v]` with `rGraph[parent[v]][v] > 0`; it is the list that the loop
`for (v = t; v != s; v = parent[v])` of `fordFulkerson` walks through. -/
theorem bfs_parent_path (V : Nat) (rGraph : Nat → Nat → Int) (s t : Nat) (parent : Nat → Int)
    (fuel : Nat) (hs : s < V) (ht : t < V) (hst : s ≠ t) (hfuel : V + 1 ≤ fuel) :
    ∃ b p, bfs V rGraph s t parent fuel = some (b, p) ∧
      (b = true → ∃ l, IsRPath rGraph p s (t :: l) ∧ (t :: l).Nodup ∧
        (∀ x ∈ t :: l, x < V) ∧ s ∈ t :: l ∧ l.length ≤ V - 1 ∧
        (∀ e ∈ pathEdges (t :: l), p e.2 = (e.1 : Int) ∧ 0 < rGraph e.1 e.2) ∧
        printPath V p s fuel t = some (t :: l)) := by
  obtain ⟨b, p, hbfs, _, hfound⟩ := bfs_spec rGraph hs ht hst parent hfuel
  refine ⟨b, p, hbfs, fun hb => ?_⟩
  obtain ⟨l, hpath, hnd, hlt, hlen, hd⟩ := hfound hb
  have hall : ∀ x ∈ t :: l, x < V := by
    intro x hx
    rcases List.mem_cons.1 hx with rfl | hx
    · exact ht
    · exact hlt x hx
  refine ⟨l, hpath, hnd, hall, hpath.getLast, by omega, ?_, ?_⟩
  · exact fun e he => ⟨hpath.parent_eq e he, hpath.edge_pos e he⟩
  · exact printPath_spec (V := V) l t fuel hpath hnd hlt (by omega)

theorem bfs_parent_path_witness :
    (0 < 6 ∧ 5 < 6 ∧ (0 : Nat) ≠ 5 ∧ 6 + 1 ≤ 7) ∧
    ∃ b p, bfs 6 mainGraph 0 5 (fun _ => 3) 7 = some (b, p) ∧
      (b = true → ∃ l, IsRPath mainGraph p 0 (5 :: l) ∧ (5 :: l).Nodup ∧
        (∀ x ∈ 5 :: l, x < 6) ∧ 0 ∈ 5 :: l ∧ l.length ≤ 6 - 1 ∧
        (∀ e ∈ pathEdges (5 :: l), p e.2 = (e.1 : Int) ∧ 0 < mainGraph e.1 e.2) ∧
        printPath 6 p 0 7 5 = some (5 :: l)) :=
  ⟨⟨by decide, by decide, by decide, by decide⟩,
   bfs_parent_path 6 mainGraph 0 5 (fun _ => 3) 7 (by decide) (by decide) (by decide)
     (by decide)⟩

/-- C12: whenever `bfs` returns true (`s ≠ t` in range), the path `t :: l` recorded in
`parent[]` has the fewest edges: every walk of positive residual capacity from `s` to
`t` has at least `l.length` edges, and so has every path that some predecessor map
records. -/
theorem bfs_shortest_path (V : Nat) (rGraph : Nat → Nat → Int) (s t : Nat)
    (parent : Nat → Int) (fuel : Nat) (hs : s < V) (ht : t < V) (hst : s ≠ t)
    (hfuel : V + 1 ≤ fuel) :
    ∃ b p, bfs V rGraph s t parent fuel = some (b, p) ∧
      (b = true → ∃ l, IsRPath rGraph p s (t :: l) ∧ (t :: l).Nodup ∧
        Reach V rGraph s l.length t ∧
        (∀ n, Reach V rGraph s n t → l.length ≤ n) ∧
        (∀ (q : Nat → Int) (l1 : List Nat), IsRPath rGraph q s (t :: l1) →
          (∀ x ∈ l1, x < V) → l.length ≤ l1.length)) := by
  obtain ⟨b, p, hbfs, _, hfound⟩ := bfs_spec rGraph hs ht hst parent hfuel
  refine ⟨b, p, hbfs, fun hb => ?_⟩
  obtain ⟨l, hpath, hnd, hlt, hlen, hd⟩ := hfound hb
  have hall : ∀ (l1 : List Nat), (∀ x ∈ l1, x < V) → ∀ x ∈ t :: l1, x < V := by
    intro l1 h1 x hx
    rcases List.mem_cons.1 hx with rfl | hx
    · exact ht
    · exact h1 x hx
  refine ⟨l, hpath, hnd, hpath.reach (hall l hlt), ?_, ?_⟩
  · intro n hn
    rw [hlen]
    exact dist_le_of_reach hn
  · intro q l1 hq h1
    rw [hlen]
    exact dist_le_of_reach (hq.reach (hall l1 h1))

theorem bfs_shortest_path_witness :
    (0 < 6 ∧ 5 < 6 ∧ (0 : Nat) ≠ 5 ∧ 6 + 1 ≤ 7) ∧
    ∃ b p, bfs 6 mainGraph 0 5 (fun _ => 0) 7 = some (b, p) ∧
      (b = true → ∃ l, IsRPath mainGraph p 0 (5 :: l) ∧ (5 :: l).Nodup ∧
        Reach 6 mainGraph 0 l.length 5 ∧
        (∀ n, Reach 6 mainGraph 0 n 5 → l.length ≤ n) ∧
        (∀ (q : Nat → Int) (l1 : List Nat), IsRPath mainGraph q 0 (5 :: l1) →
          (∀ x ∈ l1, x < 6) → l.length ≤ l1.length)) :=
  ⟨⟨by decide, by decide, by decide, by decide⟩,
   bfs_shortest_path 6 mainGraph 0 5 (fun _ => 0) 7 (by decide) (by decide) (by decide)
     (by decide)⟩

theorem not_reach_of_no_edge_in {V : Nat} {g : Nat → Nat → Int} {s t : Nat} (hst : s ≠ t)
    (h : ∀ u, u < V → g u t ≤ 0) : ¬∃ n, Reach V g s n t := by
  rintro ⟨n, hn⟩
  cases n with
  | zero =>
    simp only [Reach] at hn
    exact hst hn.symm
  | succ n =>
    obtain ⟨_, u, hu, _, hpos⟩ := hn
    have := h u hu
    omega

/-- C13: if no walk of positive capacity leads from `s` to `t` in the input graph, which
is the case when no edge of positive capacity enters `t` and so when every capacity
is zero, `fordFulkerson` makes no augmentation and returns the total flow 0, and no
error is signalled. -/
theorem fordFulkerson_unreachable (V : Nat) (graph : Nat → Nat → Int) (s t : Nat)
    (parent0 : Nat → Int) (fuel : Nat) (hs : s < V) (ht : t < V) (hst : s ≠ t)
    (hfuel : V + 1 ≤ fuel) :
    ((∀ u, u < V → ∀ v, v < V → graph u v = 0) → ∀ u, u < V → graph u t ≤ 0) ∧
    ((∀ u, u < V → graph u t ≤ 0) → ¬∃ n, Reach V graph s n t) ∧
    ((¬∃ n, Reach V graph s n t) →
      fordFulkerson V graph s t parent0 fuel = some 0 ∧
      ffAfter V s t fuel 1 (ffInit graph parent0) = none ∧
      ∃ p, fordFulkersonRun V graph s t parent0 fuel =
        some { rGraph := graph, parent := p, max_flow := 0, iteration := 0 }) := by
  refine ⟨fun h u hu => le_of_eq (h u hu t ht), not_reach_of_no_edge_in hst, fun hun => ?_⟩
  rcases ffStep_spec hs ht hst (ffInit graph parent0) hfuel with
    ⟨p, hstep, _⟩ | ⟨st1, l, _, haug⟩
  · have hrun : fordFulkersonRun V graph s t parent0 fuel =
        some { rGraph := graph, parent := p, max_flow := 0, iteration := 0 } := by
      obtain ⟨n, rfl⟩ : ∃ m, fuel = m + 1 := ⟨fuel - 1, by omega⟩
      simp only [fordFulkersonRun, ffLoop, hstep]
      rfl
    refine ⟨by simp [fordFulkerson, hrun], by simp [ffAfter, hstep], p, hrun⟩
  · exact absurd ⟨_, reach_dist haug.dlt⟩ hun

theorem fordFulkerson_unreachable_witness :
    (0 < 6 ∧ 2 < 6 ∧ (0 : Nat) ≠ 2 ∧ 6 + 1 ≤ 7) ∧
    ((∀ u, u < 6 → ∀ v, v < 6 → oppositeGraph u v = 0) → ∀ u, u < 6 → oppositeGraph u 2 ≤ 0) ∧
    ((∀ u, u < 6 → oppositeGraph u 2 ≤ 0) → ¬∃ n, Reach 6 oppositeGraph 0 n 2) ∧
    ((¬∃ n, Reach 6 oppositeGraph 0 n 2) →
      fordFulkerson 6 oppositeGraph 0 2 (fun _ => 0) 7 = some 0 ∧
      ffAfter 6 0 2 7 1 (ffInit oppositeGraph (fun _ => 0)) = none ∧
      ∃ p, fordFulkersonRun 6 oppositeGraph 0 2 (fun _ => 0) 7 =
        some { rGraph := oppositeGraph, parent := p, max_flow := 0, iteration := 0 }) :=
  ⟨⟨by decide, by decide, by decide, by decide⟩,
   fordFulkerson_unreachable 6 oppositeGraph 0 2 (fun _ => 0) 7 (by decide) (by decide)
     (by decide) (by decide)⟩

/-- C14, as stated, fails: `fordFulkerson` validates nothing, and a solve with source
equal to sink returns the flow value 0 like any other (here on the graph of `main`
with `s = t = 0`), instead of failing with `InvalidEndpoints`. -/
theorem equal_endpoints_counterexample :
    fordFulkerson 6 mainGraph 0 0 (fun _ => 0) 7 = some 0 ∧
    ∀ fuel, 7 ≤ fuel → fordFulkerson 6 mainGraph 0 0 (fun _ => 0) fuel = some 0 :=
  ⟨by decide!, fun _ hfuel => fordFulkerson_mono
    (by decide! : fordFulkerson 6 mainGraph 0 0 (fun _ => 0) 7 = some 0) hfuel⟩

/-- C14, amended: a solve whose source equals its sink (`s = t` in range) is not
rejected: the first call of `bfs` returns false, no augmentation is made and
`fordFulkerson` returns the flow value 0 with the residual matrix equal to the input.
(The source has no check of its endpoints, and an endpoint outside `[0, V)` indexes
the arrays out of bounds.) -/
theorem fordFulkerson_equal_endpoints (V : Nat) (graph : Nat → Nat → Int) (s : Nat)
    (parent0 : Nat → Int) (fuel : Nat) (hs : s < V) (hfuel : V + 1 ≤ fuel) :
    fordFulkerson V graph s s parent0 fuel = some 0 ∧
    ffAfter V s s fuel 1 (ffInit graph parent0) = none ∧
    ∃ p, fordFulkersonRun V graph s s parent0 fuel =
      some { rGraph := graph, parent := p, max_flow := 0, iteration := 0 } := by
  obtain ⟨p, hp⟩ := run_same graph hs parent0
  have hrun := hp fuel hfuel
  have hnone : ffAfter V s s fuel 1 (ffInit graph parent0) = none := by
    obtain ⟨n, rfl⟩ : ∃ m, fuel = m + 1 := ⟨fuel - 1, by omega⟩
    unfold fordFulkersonRun at hrun
    simp only [ffLoop] at hrun
    simp only [ffAfter]
    cases hstep : ffStep V s s (n + 1) (ffInit graph parent0) with
    | none => rfl
    | some x =>
      obtain ⟨b, st1⟩ := x
      cases b with
      | false => rfl
      | true =>
        exfalso
        -- an augmentation from `s` to `s` would need `bfs` to return true
        unfold ffStep at hstep
        obtain ⟨q, hq⟩ : ∃ q, bfs V (ffInit graph parent0).rGraph s s
            (ffInit graph parent0).parent (n + 1) = some (false, q) := by
          have hinv : BfsInvT V s (bfsInit s parent0) := by
            refine ⟨by show 0 ≤ 1; omega, ?_, ?_, ?_, by simp [bfsInit]⟩
            · intro i hi
              have hi0 : i = 0 := by
                have : i < 1 := hi
                omega
              subst hi0
              simpa [bfsInit] using hs
            · intro i hi
              have hi0 : i = 0 := by
                have : i < 1 := hi
                omega
              subst hi0
              simp [bfsInit]
            · intro i j hij hj
              have : j < 1 := hj
              omega
          obtain ⟨stq, hloop⟩ := bfsLoopT_spec (V := V) graph s (n + 1) (bfsInit s parent0) hinv
            (by show 0 < 1; omega) (by show V + 1 ≤ n + 1 + 0; omega)
          exact ⟨stq.parent, by
            show bfs V graph s s parent0 (n + 1) = _
            unfold bfs
            rw [hloop]⟩
        rw [hq] at hstep
        simp at hstep
  exact ⟨by simp [fordFulkerson, hrun, ffInit], hnone, p, hrun⟩

theorem fordFulkerson_equal_endpoints_witness :
    (0 < 6 ∧ 6 + 1 ≤ 7) ∧
    fordFulkerson 6 mainGraph 0 0 (fun _ => 0) 7 = some 0 ∧
    ffAfter 6 0 0 7 1 (ffInit mainGraph (fun _ => 0)) = none ∧
    ∃ p, fordFulkersonRun 6 mainGraph 0 0 (fun _ => 0) 7 =
      some { rGraph := mainGraph, parent := p, max_flow := 0, iteration := 0 } :=
  ⟨⟨by decide, by decide⟩,
   fordFulkerson_equal_endpoints 6 mainGraph 0 (fun _ => 0) 7 (by decide) (by decide)⟩

theorem AugStep.diag {V s t : Nat} {st st1 : FFState} {l : List Nat}
    (h : AugStep V s t st st1 l) (ht : t < V) (u : Nat) :
    st1.rGraph u u = st.rGraph u u := by
  rw [h.apply u u]
  have hnot : (u, u) ∉ pathEdges (t :: l) := by
    intro he
    have := h.edge ht he
    omega
  rw [if_neg hnot, if_neg hnot]

theorem ffAfter_diag {V s t : Nat} (hs : s < V) (ht : t < V) (hst : s ≠ t) {fuel : Nat} :
    ∀ (k : Nat) (st stk : FFState), ffAfter V s t fuel k st = some stk →
      ∀ u, stk.rGraph u u = st.rGraph u u := by
  intro k
  induction k with
  | zero =>
    intro st stk h u
    simp only [ffAfter, Option.some.injEq] at h
    subst h; rfl
  | succ k ih =>
    intro st stk h u
    simp only [ffAfter] at h
    cases hstep : ffStep V s t fuel st with
    | none => simp [hstep] at h
    | some y =>
      obtain ⟨b, st2⟩ := y
      cases b with
      | false => simp [hstep] at h
      | true =>
        simp only [hstep] at h
        obtain ⟨l, haug⟩ := ffStep_true hs ht hst hstep
        rw [ih st2 stk h u, haug.diag ht u]

/-- C15, as stated, fails: `fordFulkerson` validates nothing.  The graph of `main` with
the negative capacity `(0,3,-5)` and the self-loop `(2,2,7)` added is solved like any
other and the flow value 23 is returned. -/
theorem invalid_graph_counterexample :
    invalidGraph 0 3 < 0 ∧ invalidGraph 2 2 ≠ 0 ∧
    ∀ fuel, 8 ≤ fuel → fordFulkerson 6 invalidGraph 0 5 (fun _ => 0) fuel = some 23 :=
  ⟨by decide, by decide,
   fun _ hfuel => fordFulkerson_mono
     (by decide! : fordFulkerson 6 invalidGraph 0 5 (fun _ => 0) 8 = some 23) hfuel⟩

/-- C15, amended: a graph that contains a negative capacity or a self-loop is not
rejected.  For every matrix of `int` values, whatever their sign and whatever the
diagonal, and `s ≠ t` in range, `fordFulkerson` runs to completion and returns a
value; every augmenting path uses only edges `(a, b)` with `a ≠ b` and positive
residual capacity, so that an entry that is not positive is never taken as an edge
(an augmentation leaves it as it is, or adds the path flow to it as the reverse of an
edge of the path), and a self-loop is ignored: `rGraph[u][u]` ends as it started.  (Vertices are the indices
of the matrix, so that an out-of-range vertex cannot be written in the input.) -/
theorem fordFulkerson_no_validation (V : Nat) (graph : Nat → Nat → Int) (s t : Nat)
    (parent0 : Nat → Int) (hs : s < V) (ht : t < V) (hst : s ≠ t)
    (hint : ∀ a, a < V → ∀ b, b < V → graph a b ≤ INT_MAX) :
    (∃ st, (∀ fuel, V * edgeCount V graph + V + 1 ≤ fuel →
        fordFulkersonRun V graph s t parent0 fuel = some st ∧
        fordFulkerson V graph s t parent0 fuel = some st.max_flow) ∧
      ∀ u, st.rGraph u u = graph u u) ∧
    ∀ fuel k stk st1, ffAfter V s t fuel k (ffInit graph parent0) = some stk →
      ffStep V s t fuel stk = some (true, st1) →
      ∃ path pf, augmentFlow V s t fuel stk = some (path, pf) ∧
        (∀ e ∈ pathEdges path, e.1 ≠ e.2 ∧ 0 < stk.rGraph e.1 e.2) ∧
        ∀ a b, stk.rGraph a b ≤ 0 → st1.rGraph a b = stk.rGraph a b ∨
          st1.rGraph a b = wrapInt (stk.rGraph a b + pf) := by
  constructor
  · obtain ⟨k, st1, p, _, hafter, _, hrun⟩ :=
      run_spec hs ht hst (fun a b ha hb => hint a ha b hb) parent0
    refine ⟨{ st1 with parent := p }, fun fuel hfuel => ?_, fun u => ?_⟩
    · have := hrun fuel hfuel
      exact ⟨this, by simp [fordFulkerson, this]⟩
    · exact ffAfter_diag hs ht hst k _ _ (hafter (V + 1) (le_refl _)).1 u
  · intro fuel k stk st1 _ hstep
    obtain ⟨l, haug, hflow⟩ := ffStep_true_flow hs ht hst hstep
    refine ⟨_, _, hflow, ?_, ?_⟩
    · intro e he
      have := haug.edge ht (show (e.1, e.2) ∈ pathEdges (t :: l) from he)
      refine ⟨fun heq => ?_, this.2.2.1⟩
      have h4 := this.2.2.2.1
      rw [heq] at h4
      omega
    · intro a b hle
      rw [haug.apply a b]
      by_cases h1 : (a, b) ∈ pathEdges (t :: l)
      · have := (haug.edge ht h1).2.2.1
        omega
      · rw [if_neg h1]
        by_cases h2 : (b, a) ∈ pathEdges (t :: l)
        · rw [if_pos h2]; right; rfl
        · rw [if_neg h2]; left; rfl

theorem fordFulkerson_no_validation_witness :
    (0 < 6 ∧ 5 < 6 ∧ (0 : Nat) ≠ 5 ∧ ∀ a, a < 6 → ∀ b, b < 6 → invalidGraph a b ≤ INT_MAX) ∧
    (∃ st, (∀ fuel, 6 * edgeCount 6 invalidGraph + 6 + 1 ≤ fuel →
        fordFulkersonRun 6 invalidGraph 0 5 (fun _ => 0) fuel = some st ∧
        fordFulkerson 6 invalidGraph 0 5 (fun _ => 0) fuel = some st.max_flow) ∧
      ∀ u, st.rGraph u u = invalidGraph u u) ∧
    ∀ fuel k stk st1, ffAfter 6 0 5 fuel k (ffInit invalidGraph (fun _ => 0)) = some stk →
      ffStep 6 0 5 fuel stk = some (true, st1) →
      ∃ path pf, augmentFlow 6 0 5 fuel stk = some (path, pf) ∧
        (∀ e ∈ pathEdges path, e.1 ≠ e.2 ∧ 0 < stk.rGraph e.1 e.2) ∧
        ∀ a b, stk.rGraph a b ≤ 0 → st1.rGraph a b = stk.rGraph a b ∨
          st1.rGraph a b = wrapInt (stk.rGraph a b + pf) :=
  ⟨⟨by decide, by decide, by decide, by decide⟩,
   fordFulkerson_no_validation 6 invalidGraph 0 5 (fun _ => 0) (by decide) (by decide)
     (by decide) (by decide)⟩

/-- C20, as stated, fails: `max_flow += path_flow` is unchecked `int` arithmetic.  On
non-negative capacities with `INT_MAX` on the two disjoint paths `0→1→5` and `0→2→5`,
the second iteration finds a path with bottleneck `INT_MAX` while `max_flow` is
`INT_MAX`: `max_flow` becomes `-2`, it does not increase by the path flow, and the
returned total is negative.  Every capacity is a non-negative `int`; what exceeds
`INT_MAX` is the sum of the capacities leaving `s`. -/
theorem max_flow_increase_counterexample :
    (∀ a, a < 6 → ∀ b, b < 6 → 0 ≤ overflowGraph a b ∧ overflowGraph a b ≤ INT_MAX) ∧
    (∑ w in Finset.range 6, overflowGraph 0 w) = 4294967294 ∧
    (ffAfter 6 0 5 8 1 (ffInit overflowGraph (fun _ => 0))).map (fun st => st.max_flow) =
      some 2147483647 ∧
    ((ffAfter 6 0 5 8 1 (ffInit overflowGraph (fun _ => 0))).bind
      (augmentFlow 6 0 5 8)).map (fun x => x.2) = some 2147483647 ∧
    (ffAfter 6 0 5 8 2 (ffInit overflowGraph (fun _ => 0))).map (fun st => st.max_flow) =
      some (-2) ∧
    (fordFulkerson 6 overflowGraph 0 5 (fun _ => 0) 8).map (fun m => decide (0 ≤ m)) =
      some false :=
  ⟨by decide, by decide, by decide!, by decide!, by decide!, by decide!⟩

/-- No edge of an augmenting path enters `s`. -/
theorem AugStep.not_into_source {V s t : Nat} {st st1 : FFState} {l : List Nat}
    (h : AugStep V s t st st1 l) (ht : t < V) (b : Nat) :
    (b, s) ∉ pathEdges (t :: l) := by
  intro he
  have h1 := (h.edge ht he).2.2.2.1
  rw [dist_self] at h1
  omega

/-- In the row of `s` an augmentation only subtracts, exactly, whatever the other
capacities are. -/
theorem AugStep.source_row {V s t : Nat} {st st1 : FFState} {l : List Nat}
    (h : AugStep V s t st st1 l) (ht : t < V) (hst : s ≠ t)
    (hb : ∀ a b, a < V → b < V → st.rGraph a b ≤ INT_MAX) (b : Nat) :
    st1.rGraph s b = pushPath id (pathMin st.rGraph INF (t :: l)) st.rGraph (t :: l) s b := by
  rw [pushPath_apply id _ (t :: l) st.rGraph h.nodup s b]
  by_cases h1 : (s, b) ∈ pathEdges (t :: l)
  · rw [if_pos h1, h.forward ht hst hb h1]
    rfl
  · rw [h.apply s b, if_neg h1, if_neg h1, if_neg (h.not_into_source ht b),
      if_neg (h.not_into_source ht b)]

/-- The invariant of the row of `s` is kept by an augmentation, and `max_flow` grows by
exactly the bottleneck, as soon as the capacities leaving `s` sum to at most `INT_MAX`. -/
theorem SrcInv.augment_step {V s t : Nat} {g : Nat → Nat → Int} {st st1 : FFState} {l : List Nat}
    (hinv : SrcInv V g s st) (h : AugStep V s t st st1 l) (ht : t < V)
    (hst : s ≠ t) (hsrc : (∑ w in Finset.range V, g s w) ≤ INT_MAX) :
    SrcInv V g s st1 ∧ st1.max_flow = st.max_flow + pathMin st.rGraph INF (t :: l) := by
  have hb := hinv.le_max
  obtain ⟨hpos, hle, _⟩ := h.path_flow ht hst hb
  have hall : ∀ x ∈ t :: l, x < V := by
    intro x hx
    rcases List.mem_cons.1 hx with rfl | hx
    · exact ht
    · exact h.lt x hx
  have hrow : ∀ b, b < V → 0 ≤ st1.rGraph s b := by
    intro b hbV
    have hn := hinv.row_nonneg b hbV
    by_cases h1 : (s, b) ∈ pathEdges (t :: l)
    · rw [h.forward ht hst hb h1]
      have := hle (s, b) h1
      simp only at this
      omega
    · rw [h.apply s b, if_neg h1, if_neg (h.not_into_source ht b)]
      exact hn
  have hsum : (∑ b in Finset.range V, st1.rGraph s b) =
      (∑ b in Finset.range V, st.rGraph s b) - pathMin st.rGraph INF (t :: l) := by
    rw [Finset.sum_congr rfl (fun b _ => h.source_row ht hst hb b),
      sum_pushPath_row _ l t st.rGraph h.path h.nodup hall s, if_neg hst, if_pos rfl]
    omega
  have hnn : 0 ≤ ∑ b in Finset.range V, st1.rGraph s b :=
    Finset.sum_nonneg (fun b hb1 => hrow b (Finset.mem_range.1 hb1))
  have h0 := hinv.row_sum
  have h1 := hinv.flow_nonneg
  have hmf : st1.max_flow = st.max_flow + pathMin st.rGraph INF (t :: l) := by
    rw [h.max_flow_eq]
    apply wrapInt_of_range
    · omega
    · omega
  refine ⟨⟨h.bounded hb, hrow, ?_, ?_⟩, hmf⟩
  · rw [hmf, hsum]
    omega
  · rw [hmf]
    omega

theorem ffInit_srcInv {V : Nat} {g : Nat → Nat → Int} {s : Nat}
    (hint : ∀ a, a < V → ∀ b, b < V → g a b ≤ INT_MAX) (hrow : ∀ b, b < V → 0 ≤ g s b)
    (p0 : Nat → Int) : SrcInv V g s (ffInit g p0) :=
  ⟨fun a b ha hb => hint a ha b hb, hrow, by simp [ffInit], le_refl _⟩

theorem ffAfter_srcInv {V s t : Nat} {g : Nat → Nat → Int} (hs : s < V) (ht : t < V)
    (hst : s ≠ t) (hsrc : (∑ w in Finset.range V, g s w) ≤ INT_MAX) {fuel : Nat} :
    ∀ (k : Nat) (st stk : FFState), SrcInv V g s st →
      ffAfter V s t fuel k st = some stk → SrcInv V g s stk := by
  intro k
  induction k with
  | zero =>
    intro st stk hinv h
    simp only [ffAfter, Option.some.injEq] at h
    subst h; exact hinv
  | succ k ih =>
    intro st stk hinv h
    simp only [ffAfter] at h
    cases hstep : ffStep V s t fuel st with
    | none => simp [hstep] at h
    | some y =>
      obtain ⟨b, st2⟩ := y
      cases b with
      | false => simp [hstep] at h
      | true =>
        simp only [hstep] at h
        obtain ⟨l, haug⟩ := ffStep_true hs ht hst hstep
        exact ih st2 stk (hinv.augment_step haug ht hst hsrc).1 h

/-- C20, amended: for non-negative capacities (values of an `int`) whose sum out of
`s` is at most `INT_MAX`, and `s ≠ t` in range, in every iteration of the loop of
`fordFulkerson` that finds a path, `path_flow` after the bottleneck scan is the minimum
of `rGraph[parent[v]][v]` over the edges of the path found by `bfs` (a lower bound of
all of them, attained by one of them, so never the untouched sentinel) and is strictly
positive; `max_flow` then increases by exactly that amount, so by at least 1, and the
returned total is `≥ 0`.  No bound on opposite capacities is needed: an entry outside
the row of `s` may wrap around without affecting any of this. -/
theorem path_flow_bottleneck (V : Nat) (graph : Nat → Nat → Int) (s t : Nat)
    (parent0 : Nat → Int) (hs : s < V) (ht : t < V) (hst : s ≠ t)
    (hnn : ∀ a, a < V → ∀ b, b < V → 0 ≤ graph a b)
    (hint : ∀ a, a < V → ∀ b, b < V → graph a b ≤ INT_MAX)
    (hsrc : (∑ w in Finset.range V, graph s w) ≤ INT_MAX) :
    (∀ fuel k stk st1, ffAfter V s t fuel k (ffInit graph parent0) = some stk →
      ffStep V s t fuel stk = some (true, st1) →
      ∃ path pf, augmentFlow V s t fuel stk = some (path, pf) ∧
        (∀ e ∈ pathEdges path, st1.parent e.2 = (e.1 : Int) ∧ pf ≤ stk.rGraph e.1 e.2) ∧
        (∃ e ∈ pathEdges path, pf = stk.rGraph e.1 e.2) ∧
        0 < pf ∧
        st1.max_flow = stk.max_flow + pf ∧ stk.max_flow + 1 ≤ st1.max_flow) ∧
    ∃ m, 0 ≤ m ∧ ∀ fuel, V * edgeCount V graph + V + 1 ≤ fuel →
      fordFulkerson V graph s t parent0 fuel = some m := by
  have hinit : SrcInv V graph s (ffInit graph parent0) :=
    ffInit_srcInv hint (hnn s hs) parent0
  constructor
  · intro fuel k stk st1 hafter hstep
    have hinv : SrcInv V graph s stk := ffAfter_srcInv hs ht hst hsrc k _ _ hinit hafter
    obtain ⟨l, haug, hflow⟩ := ffStep_true_flow hs ht hst hstep
    obtain ⟨hpos, hle, hex⟩ := haug.path_flow ht hst hinv.le_max
    obtain ⟨_, hmf⟩ := hinv.augment_step haug ht hst hsrc
    exact ⟨_, _, hflow, fun e he => ⟨haug.path.parent_eq e he, hle e he⟩, hex, hpos,
      hmf, by omega⟩
  · obtain ⟨k, st1, p, _, hafter, _, hrun⟩ :=
      run_spec hs ht hst (fun a b ha hb => hint a ha b hb) parent0
    have hinv : SrcInv V graph s st1 :=
      ffAfter_srcInv hs ht hst hsrc k _ _ hinit (hafter (V + 1) (le_refl _)).1
    exact ⟨st1.max_flow, hinv.flow_nonneg, fun fuel hfuel => by
      simp [fordFulkerson, hrun fuel hfuel]⟩

theorem path_flow_bottleneck_witness :
    (0 < 6 ∧ 5 < 6 ∧ (0 : Nat) ≠ 5 ∧ (∀ a, a < 6 → ∀ b, b < 6 → 0 ≤ mainGraph a b) ∧
      (∀ a, a < 6 → ∀ b, b < 6 → mainGraph a b ≤ INT_MAX) ∧
      (∑ w in Finset.range 6, mainGraph 0 w) ≤ INT_MAX) ∧
    (∀ fuel k stk st1, ffAfter 6 0 5 fuel k (ffInit mainGraph (fun _ => 0)) = some stk →
      ffStep 6 0 5 fuel stk = some (true, st1) →
      ∃ path pf, augmentFlow 6 0 5 fuel stk = some (path, pf) ∧
        (∀ e ∈ pathEdges path, st1.parent e.2 = (e.1 : Int) ∧ pf ≤ stk.rGraph e.1 e.2) ∧
        (∃ e ∈ pathEdges path, pf = stk.rGraph e.1 e.2) ∧
        0 < pf ∧
        st1.max_flow = stk.max_flow + pf ∧ stk.max_flow + 1 ≤ st1.max_flow) ∧
    ∃ m, 0 ≤ m ∧ ∀ fuel, 6 * edgeCount 6 mainGraph + 6 + 1 ≤ fuel →
      fordFulkerson 6 mainGraph 0 5 (fun _ => 0) fuel = some m :=
  ⟨⟨by decide, by decide, by decide, by decide, by decide, by decide⟩,
   path_flow_bottleneck 6 mainGraph 0 5 (fun _ => 0) (by decide) (by decide) (by decide)
     (by decide) (by decide) (by decide)⟩

/-! ## The effect of one augmentation on the residual matrix, and the net outflow -/

/-- C24, as stated, fails: `max_flow += path_flow` is unchecked `int` arithmetic.  On
non-negative capacities with `INT_MAX` on the two disjoint paths `0→1→5` and `0→2→5`,
after the second augmentation the net outflow of the source `0` is `4294967294` and that
of the sink `5` is `-4294967294`, while `max_flow` is `-2`. -/
theorem net_outflow_counterexample :
    (∀ a, a < 6 → ∀ b, b < 6 → 0 ≤ overflowGraph a b) ∧
    (ffAfter 6 0 5 8 2 (ffInit overflowGraph (fun _ => 0))).map
      (fun st => (∑ w in Finset.range 6, (overflowGraph 0 w - st.rGraph 0 w),
        ∑ w in Finset.range 6, (overflowGraph 5 w - st.rGraph 5 w), st.max_flow)) =
      some (4294967294, -4294967294, -2) :=
  ⟨by decide, by decide!⟩

/-- C24, amended: for non-negative capacities whose opposite pairs and whose sum out of
`s` are at most `INT_MAX`, and `s ≠ t` in range, after initialisation (`k = 0`) and after
every augmentation, for every vertex `v` the net outflow
`sum over w of (graph[v][w] - rGraph[v][w])` equals `max_flow` if `v = s`, equals
`-max_flow` if `v = t`, and equals 0 for every other vertex. -/
theorem net_outflow (V : Nat) (graph : Nat → Nat → Int) (s t : Nat) (parent0 : Nat → Int)
    (fuel : Nat) (hs : s < V) (ht : t < V) (hst : s ≠ t) (hno : NoOverflow V graph s)
    (k : Nat) (stk : FFState)
    (hk : ffAfter V s t fuel k (ffInit graph parent0) = some stk) :
    ∀ v, v < V →
      (v = s → (∑ w in Finset.range V, (graph v w - stk.rGraph v w)) = stk.max_flow) ∧
      (v = t → (∑ w in Finset.range V, (graph v w - stk.rGraph v w)) = -stk.max_flow) ∧
      (v ≠ s → v ≠ t → (∑ w in Finset.range V, (graph v w - stk.rGraph v w)) = 0) := by
  have hinv : FlowInv V graph s t stk :=
    ffAfter_inv hs ht hst hno k _ _ (ffInit_inv t hno parent0) hk
  intro v hv
  have hnet := hinv.net v hv
  refine ⟨fun h => ?_, fun h => ?_, fun h1 h2 => ?_⟩
  · rw [hnet, if_pos h, if_neg (fun h2 => hst (h.symm.trans h2))]
    omega
  · rw [hnet, if_pos h, if_neg (fun h2 => hst (h2.symm.trans h))]
    omega
  · rw [hnet, if_neg h1, if_neg h2]
    omega

theorem net_outflow_witness :
    ∃ stk, ffAfter 6 0 5 8 3 (ffInit mainGraph (fun _ => 0)) = some stk ∧
      ∀ v, v < 6 →
        (v = 0 → (∑ w in Finset.range 6, (mainGraph v w - stk.rGraph v w)) = stk.max_flow) ∧
        (v = 5 → (∑ w in Finset.range 6, (mainGraph v w - stk.rGraph v w)) = -stk.max_flow) ∧
        (v ≠ 0 → v ≠ 5 → (∑ w in Finset.range 6, (mainGraph v w - stk.rGraph v w)) = 0) :=
  have hsome : (ffAfter 6 0 5 8 3 (ffInit mainGraph (fun _ => 0))).isSome = true := by decide!
  ⟨_, (Option.some_get hsome).symm,
    net_outflow 6 mainGraph 0 5 (fun _ => 0) 8 (by decide) (by decide) (by decide)
      mainGraph_noOverflow 3 _ (Option.some_get hsome).symm⟩


/-! ## The `int` arithmetic of `fordFulkerson` against the mathematical integers -/

theorem printPath_head {V : Nat} {p : Nat → Int} {s : Nat} :
    ∀ (fuel v : Nat) (l : List Nat), printPath V p s fuel v = some l → ∃ rest, l = v :: rest
  | 0, _, _, h => by simp [printPath] at h
  | fuel + 1, v, l, h => by
    simp only [printPath] at h
    by_cases hv : v = s
    · rw [if_pos hv] at h
      simp only [Option.some.injEq] at h
      exact ⟨[], by rw [← h, hv]⟩
    · rw [if_neg hv] at h
      cases hp : parentOf V p v with
      | none => simp [hp] at h
      | some u =>
        simp only [hp] at h
        cases hq : printPath V p s fuel u with
        | none => simp [hq] at h
        | some l1 =>
          simp only [hq, Option.some.injEq] at h
          exact ⟨l1, h.symm⟩

/-- The update loop pushes `path_flow` along the path that `printPath` prints. -/
theorem updateResidual_eq_map {V : Nat} {p : Nat → Int} {s : Nat} (pf : Int) :
    ∀ (fuel v : Nat) (r : Nat → Nat → Int),
      updateResidual V p s pf fuel v r =
        (printPath V p s fuel v).map (pushPath wrapInt pf r)
  | 0, _, _ => rfl
  | fuel + 1, v, r => by
    simp only [updateResidual, printPath]
    by_cases hv : v = s
    · rw [if_pos hv, if_pos hv]
      rfl
    · rw [if_neg hv, if_neg hv]
      cases hp : parentOf V p v with
      | none => rfl
      | some u =>
        simp only []
        rw [updateResidual_eq_map pf fuel u]
        cases hq : printPath V p s fuel u with
        | none => rfl
        | some l =>
          obtain ⟨rest, rfl⟩ := printPath_head fuel u l hq
          rfl

theorem updateResidualZ_eq_map {V : Nat} {p : Nat → Int} {s : Nat} (pf : Int) :
    ∀ (fuel v : Nat) (r : Nat → Nat → Int),
      updateResidualZ V p s pf fuel v r =
        (printPath V p s fuel v).map (pushPath id pf r)
  | 0, _, _ => rfl
  | fuel + 1, v, r => by
    simp only [updateResidualZ, printPath]
    by_cases hv : v = s
    · rw [if_pos hv, if_pos hv]
      rfl
    · rw [if_neg hv, if_neg hv]
      cases hp : parentOf V p v with
      | none => rfl
      | some u =>
        simp only []
        rw [updateResidualZ_eq_map pf fuel u]
        cases hq : printPath V p s fuel u with
        | none => rfl
        | some l =>
          obtain ⟨rest, rfl⟩ := printPath_head fuel u l hq
          rfl

theorem bfsInit_invT {V s : Nat} (hs : s < V) (p0 : Nat → Int) :
    BfsInvT V s (bfsInit s p0) := by
  constructor
  · show 0 ≤ 1
    omega
  · intro i hi
    have hi0 : i = 0 := by
      have : i < 1 := hi
      omega
    subst hi0
    simpa [bfsInit] using hs
  · intro i hi
    have hi0 : i = 0 := by
      have : i < 1 := hi
      omega
    subst hi0
    simp [bfsInit]
  · intro i j hij hj
    have : j < 1 := hj
    omega
  · simp [bfsInit]

/-- With the source as sink `bfs` never returns true. -/
theorem bfs_same_not_true {V s : Nat} (hs : s < V) (r : Nat → Nat → Int) (p q : Nat → Int)
    (fuel : Nat) : bfs V r s s p fuel ≠ some (true, q) := by
  intro h
  have h1 := bfs_mono h (Nat.le_add_right fuel (V + 1))
  obtain ⟨st1, hloop⟩ := bfsLoopT_spec (V := V) r s (fuel + (V + 1)) (bfsInit s p)
    (bfsInit_invT hs p) (by show 0 < 1; omega) (by omega)
  unfold bfs at h1
  rw [hloop] at h1
  simp at h1

theorem ffStep_same_not_true {V s : Nat} (hs : s < V) (fuel : Nat) (st st1 : FFState) :
    ffStep V s s fuel st ≠ some (true, st1) := by
  intro h
  unfold ffStep at h
  cases hb : bfs V st.rGraph s s st.parent fuel with
  | none => simp [hb] at h
  | some x =>
    obtain ⟨b, p⟩ := x
    cases b with
    | false => simp [hb] at h
    | true => exact bfs_same_not_true hs _ _ _ _ hb

/-- Without overflow one augmentation keeps the invariant and every sum it forms is the
value of an `int`: `max_flow`, `iteration` and the residual matrix are those of the
mathematical integers. -/
theorem exact_step {V s t : Nat} {g : Nat → Nat → Int} {st st1 : FFState} {fuel : Nat}
    (hs : s < V) (ht : t < V) (hst : s ≠ t) (hno : NoOverflow V g s)
    (hinv : FlowInv V g s t st) (hit : 0 ≤ st.iteration ∧ st.iteration ≤ st.max_flow)
    (h : ffStep V s t fuel st = some (true, st1)) :
    ∃ l, augmentFlow V s t fuel st = some (t :: l, pathMin st.rGraph INF (t :: l)) ∧
      FlowInv V g s t st1 ∧ (0 ≤ st1.iteration ∧ st1.iteration ≤ st1.max_flow) ∧
      0 < pathMin st.rGraph INF (t :: l) ∧
      st1.max_flow = st.max_flow + pathMin st.rGraph INF (t :: l) ∧
      st1.iteration = st.iteration + 1 ∧
      st1.rGraph = pushPath id (pathMin st.rGraph INF (t :: l)) st.rGraph (t :: l) ∧
      st1.max_flow ≤ INT_MAX := by
  obtain ⟨l, haug, hflow⟩ := ffStep_true_flow hs ht hst h
  obtain ⟨hinv1, hmf⟩ := hinv.step_max_flow haug hs ht hst hno
  have hb := ResInv.entry_le_max hinv hno.toPair
  obtain ⟨hpos, _, _⟩ := haug.path_flow ht hst hb
  have hmax : st1.max_flow ≤ INT_MAX := by
    rw [haug.max_flow_eq]
    exact wrapInt_le_max _
  have hINT : INT_MAX = 2147483647 := rfl
  have hiter : st1.iteration = st.iteration + 1 := by
    rw [haug.iteration_eq]
    exact wrapInt_of_range (by omega) (by omega)
  exact ⟨l, hflow, hinv1, ⟨by omega, by omega⟩, hpos, hmf, hiter,
    haug.eq_pushPath_id ht hst hno.toPair hinv, hmax⟩

/-- Without overflow one evaluation of the loop condition and body gives the same state
in `int` arithmetic and in the mathematical integers. -/
theorem ffStep_eq_Z {V s t : Nat} {g : Nat → Nat → Int} {st : FFState} (fuel : Nat)
    (hs : s < V) (ht : t < V) (hno : NoOverflow V g s)
    (hinv : FlowInv V g s t st) (hit : 0 ≤ st.iteration ∧ st.iteration ≤ st.max_flow) :
    ffStepZ V s t fuel st = ffStep V s t fuel st := by
  cases hb : bfs V st.rGraph s t st.parent fuel with
  | none => simp only [ffStep, ffStepZ, hb]
  | some x =>
    obtain ⟨b, p⟩ := x
    cases b with
    | false => simp only [ffStep, ffStepZ, hb]
    | true =>
      by_cases hst : s = t
      · subst hst
        exact absurd hb (bfs_same_not_true hs _ _ _ _)
      cases hpp : printPath V p s fuel t with
      | none => simp only [ffStep, ffStepZ, hb, augment, augmentZ, hpp]
      | some path =>
        cases hbn : bottleneck V st.rGraph p s fuel t INF with
        | none => simp only [ffStep, ffStepZ, hb, augment, augmentZ, hpp, hbn]
        | some pf =>
          have hstep : ffStep V s t fuel st = some (true,
              { rGraph := pushPath wrapInt pf st.rGraph path
                parent := p
                max_flow := wrapInt (st.max_flow + pf)
                iteration := wrapInt (st.iteration + 1) }) := by
            simp only [ffStep, hb, augment, hpp, hbn, updateResidual_eq_map, Option.map_some']
          have hstepZ : ffStepZ V s t fuel st = some (true,
              { rGraph := pushPath id pf st.rGraph path
                parent := p
                max_flow := st.max_flow + pf
                iteration := st.iteration + 1 }) := by
            simp only [ffStepZ, hb, augmentZ, hpp, hbn, updateResidualZ_eq_map,
              Option.map_some']
          obtain ⟨l, hflow, _, _, _, hmf, hiter, hr, _⟩ :=
            exact_step hs ht hst hno hinv hit hstep
          have hflow1 : augmentFlow V s t fuel st = some (path, pf) := by
            simp only [augmentFlow, hb, hpp, hbn]
          rw [hflow1] at hflow
          simp only [Option.some.injEq, Prod.mk.injEq] at hflow
          obtain ⟨hpath, hpf⟩ := hflow
          rw [hstep, hstepZ]
          have h1 : wrapInt (st.max_flow + pf) = st.max_flow + pf := by
            have : wrapInt (st.max_flow + pf) =
                st.max_flow + pathMin st.rGraph INF (t :: l) := hmf
            rw [this, hpf]
          have h2 : wrapInt (st.iteration + 1) = st.iteration + 1 := hiter
          have h3 : pushPath wrapInt pf st.rGraph path = pushPath id pf st.rGraph path := by
            have : pushPath wrapInt pf st.rGraph path =
                pushPath id (pathMin st.rGraph INF (t :: l)) st.rGraph (t :: l) := hr
            rw [this, hpf, hpath]
          rw [h1, h2, h3]

/-- Without overflow the invariant holds after every augmentation. -/
theorem ffAfter_exact {V s t : Nat} {g : Nat → Nat → Int} (hs : s < V) (ht : t < V)
    (hno : NoOverflow V g s) {fuel : Nat} :
    ∀ (k : Nat) (st stk : FFState), FlowInv V g s t st →
      (0 ≤ st.iteration ∧ st.iteration ≤ st.max_flow) →
      ffAfter V s t fuel k st = some stk →
      FlowInv V g s t stk ∧ (0 ≤ stk.iteration ∧ stk.iteration ≤ stk.max_flow) := by
  intro k
  induction k with
  | zero =>
    intro st stk hinv hit h
    simp only [ffAfter, Option.some.injEq] at h
    subst h
    exact ⟨hinv, hit⟩
  | succ k ih =>
    intro st stk hinv hit h
    simp only [ffAfter] at h
    cases hstep : ffStep V s t fuel st with
    | none => simp [hstep] at h
    | some y =>
      obtain ⟨b, st2⟩ := y
      cases b with
      | false => simp [hstep] at h
      | true =>
        simp only [hstep] at h
        by_cases hst : s = t
        · subst hst
          exact absurd hstep (ffStep_same_not_true hs _ _ _)
        obtain ⟨_, _, hinv1, hit1, _⟩ := exact_step hs ht hst hno hinv hit hstep
        exact ih st2 stk hinv1 hit1 h

/-- Without overflow the loop gives the same final state in `int` arithmetic and in the
mathematical integers, for every bound on the number of iterations. -/
theorem ffLoop_eq_Z {V s t : Nat} {g : Nat → Nat → Int} (hs : s < V) (ht : t < V)
    (hno : NoOverflow V g s) (fuel : Nat) :
    ∀ (n : Nat) (st : FFState), FlowInv V g s t st →
      (0 ≤ st.iteration ∧ st.iteration ≤ st.max_flow) →
      ffLoopZ V s t fuel n st = ffLoop V s t fuel n st := by
  intro n
  induction n with
  | zero => intro st _ _; rfl
  | succ n ih =>
    intro st hinv hit
    simp only [ffLoop, ffLoopZ]
    rw [ffStep_eq_Z fuel hs ht hno hinv hit]
    cases hstep : ffStep V s t fuel st with
    | none => rfl
    | some y =>
      obtain ⟨b, st2⟩ := y
      cases b with
      | false => rfl
      | true =>
        simp only []
        by_cases hst : s = t
        · subst hst
          exact absurd hstep (ffStep_same_not_true hs _ _ _)
        obtain ⟨_, _, hinv1, hit1, _⟩ := exact_step hs ht hst hno hinv hit hstep
        exact ih st2 hinv1 hit1

theorem ffInit_flowInv {V : Nat} {g : Nat → Nat → Int} {s : Nat} (t : Nat)
    (hno : NoOverflow V g s) (p0 : Nat → Int) :
    FlowInv V g s t (ffInit g p0) ∧
      (0 ≤ (ffInit g p0).iteration ∧ (ffInit g p0).iteration ≤ (ffInit g p0).max_flow) :=
  ⟨ffInit_inv t hno p0, le_refl _, le_refl _⟩

/-- Bounds that the invariant gives on `max_flow` and on the residual matrix. -/
theorem FlowInv.bounds {V s t : Nat} {g : Nat → Nat → Int} {st : FFState}
    (hinv : FlowInv V g s t st) (hs : s < V) (hst : s ≠ t) :
    0 ≤ st.max_flow ∧ st.max_flow ≤ (∑ w in Finset.range V, g s w) ∧
    ∀ u, u < V → ∀ v, v < V →
      0 ≤ st.rGraph u v ∧ st.rGraph u v ≤ g u v + g v u := by
  have h0 := hinv.flow_nonneg
  refine ⟨h0, ?_, fun u hu v hv => ?_⟩
  · have hnet := hinv.net s hs
    rw [if_pos rfl, if_neg hst] at hnet
    have hsrc : (∑ w in Finset.range V, (g s w - st.rGraph s w)) ≤
        ∑ w in Finset.range V, g s w :=
      Finset.sum_le_sum (fun w hw => by
        have := hinv.nonneg s w hs (Finset.mem_range.1 hw)
        omega)
    rw [hnet] at hsrc
    omega
  · have h1 := hinv.nonneg u v hu hv
    have h2 := hinv.nonneg v u hv hu
    have h3 := hinv.pair u v hu hv
    exact ⟨h1, by omega⟩

/-- With the source as sink no augmentation is made. -/
theorem ffAfter_same {V s : Nat} (hs : s < V) {fuel : Nat} :
    ∀ (k : Nat) (st stk : FFState), ffAfter V s s fuel k st = some stk → stk = st
  | 0, st, stk, h => by
    simp only [ffAfter, Option.some.injEq] at h
    exact h.symm
  | k + 1, st, stk, h => by
    simp only [ffAfter] at h
    cases hstep : ffStep V s s fuel st with
    | none => simp [hstep] at h
    | some y =>
      obtain ⟨b, st2⟩ := y
      cases b with
      | false => simp [hstep] at h
      | true => exact absurd hstep (ffStep_same_not_true hs _ _ _)

/-- C25: if every capacity is non-negative, the capacities leaving `s` sum to at most
`INT_MAX` and the two capacities of every pair of opposite edges sum to at most
`INT_MAX` (`s` and `t` in range), then no `int` addition of `fordFulkerson` overflows:
throughout the run `0 ≤ max_flow ≤ sum over w of graph[s][w]` and
`0 ≤ rGraph[u][v] ≤ graph[u][v] + graph[v][u]`; every augmentation adds `path_flow` to
`max_flow` and `1` to `iteration` and updates `rGraph` as in the mathematical
integers; and the run and the value returned are those of the same loop computed in the
mathematical integers, for every amount of fuel. -/
theorem int_arithmetic_exact (V : Nat) (graph : Nat → Nat → Int) (s t : Nat)
    (parent0 : Nat → Int) (hs : s < V) (ht : t < V) (hno : NoOverflow V graph s) :
    (∀ fuel k stk, ffAfter V s t fuel k (ffInit graph parent0) = some stk →
      0 ≤ stk.max_flow ∧ stk.max_flow ≤ (∑ w in Finset.range V, graph s w) ∧
      (∑ w in Finset.range V, graph s w) ≤ INT_MAX ∧
      ∀ u, u < V → ∀ v, v < V →
        0 ≤ stk.rGraph u v ∧ stk.rGraph u v ≤ graph u v + graph v u ∧
        graph u v + graph v u ≤ INT_MAX) ∧
    (∀ fuel k stk st1, ffAfter V s t fuel k (ffInit graph parent0) = some stk →
      ffStep V s t fuel stk = some (true, st1) →
      ∃ path path_flow, augmentFlow V s t fuel stk = some (path, path_flow) ∧
        st1.max_flow = stk.max_flow + path_flow ∧
        st1.iteration = stk.iteration + 1 ∧
        st1.rGraph = pushPath id path_flow stk.rGraph path) ∧
    (∀ fuel, fordFulkersonRun V graph s t parent0 fuel =
        fordFulkersonRunZ V graph s t parent0 fuel ∧
      fordFulkerson V graph s t parent0 fuel = fordFulkersonZ V graph s t parent0 fuel) ∧
    ∃ m, 0 ≤ m ∧ m ≤ INT_MAX ∧ ∀ fuel, V * edgeCount V graph + V + 1 ≤ fuel →
      fordFulkerson V graph s t parent0 fuel = some m ∧
      fordFulkersonZ V graph s t parent0 fuel = some m := by
  obtain ⟨hinit, hit0⟩ := ffInit_flowInv t hno parent0
  have hrunZ : ∀ fuel, fordFulkersonRun V graph s t parent0 fuel =
      fordFulkersonRunZ V graph s t parent0 fuel :=
    fun fuel => (ffLoop_eq_Z hs ht hno fuel fuel _ hinit hit0).symm
  have hresZ : ∀ fuel, fordFulkerson V graph s t parent0 fuel =
      fordFulkersonZ V graph s t parent0 fuel := by
    intro fuel
    unfold fordFulkerson fordFulkersonZ
    rw [hrunZ fuel]
  have hsum0 : 0 ≤ ∑ w in Finset.range V, graph s w :=
    Finset.sum_nonneg (fun w hw => hno.nonneg s hs w (Finset.mem_range.1 hw))
  refine ⟨?_, ?_, fun fuel => ⟨hrunZ fuel, hresZ fuel⟩, ?_⟩
  · intro fuel k stk hk
    by_cases hst : s = t
    · subst hst
      have := ffAfter_same hs k _ _ hk
      subst this
      refine ⟨le_refl _, hsum0, hno.source, fun u hu v hv => ?_⟩
      have h1 := hno.nonneg u hu v hv
      have h2 := hno.nonneg v hv u hu
      exact ⟨h1, by show graph u v ≤ _; omega, hno.pair u hu v hv⟩
    · obtain ⟨hinv, _⟩ := ffAfter_exact hs ht hno k _ _ hinit hit0 hk
      obtain ⟨h1, h2, h3⟩ := hinv.bounds hs hst
      exact ⟨h1, h2, hno.source, fun u hu v hv =>
        ⟨(h3 u hu v hv).1, (h3 u hu v hv).2, hno.pair u hu v hv⟩⟩
  · intro fuel k stk st1 hk hstep
    by_cases hst : s = t
    · subst hst
      exact absurd hstep (ffStep_same_not_true hs _ _ _)
    · obtain ⟨hinv, hit⟩ := ffAfter_exact hs ht hno k _ _ hinit hit0 hk
      obtain ⟨l, hflow, _, _, _, hmf, hiter, hr, _⟩ :=
        exact_step hs ht hst hno hinv hit hstep
      exact ⟨_, _, hflow, hmf, hiter, hr⟩
  · by_cases hst : s = t
    · subst hst
      obtain ⟨p, hp⟩ := run_same graph hs parent0
      refine ⟨0, le_refl _, by decide, fun fuel hfuel => ?_⟩
      have hrun := hp fuel (by omega)
      have h1 : fordFulkerson V graph s s parent0 fuel = some 0 := by
        simp [fordFulkerson, hrun, ffInit]
      exact ⟨h1, by rw [← hresZ fuel]; exact h1⟩
    · obtain ⟨st, hrun, hinv, _⟩ := run_flow hs ht hst hno parent0
      obtain ⟨h1, h2, _⟩ := hinv.bounds hs hst
      refine ⟨st.max_flow, h1, le_trans h2 hno.source, fun fuel hfuel => ?_⟩
      have h3 : fordFulkerson V graph s t parent0 fuel = some st.max_flow := by
        simp [fordFulkerson, hrun fuel hfuel]
      exact ⟨h3, by rw [← hresZ fuel]; exact h3⟩

theorem int_arithmetic_exact_witness :
    (0 < 6 ∧ 5 < 6 ∧ NoOverflow 6 mainGraph 0) ∧
    ((∀ fuel k stk, ffAfter 6 0 5 fuel k (ffInit mainGraph (fun _ => 0)) = some stk →
      0 ≤ stk.max_flow ∧ stk.max_flow ≤ (∑ w in Finset.range 6, mainGraph 0 w) ∧
      (∑ w in Finset.range 6, mainGraph 0 w) ≤ INT_MAX ∧
      ∀ u, u < 6 → ∀ v, v < 6 →
        0 ≤ stk.rGraph u v ∧ stk.rGraph u v ≤ mainGraph u v + mainGraph v u ∧
        mainGraph u v + mainGraph v u ≤ INT_MAX) ∧
    (∀ fuel k stk st1, ffAfter 6 0 5 fuel k (ffInit mainGraph (fun _ => 0)) = some stk →
      ffStep 6 0 5 fuel stk = some (true, st1) →
      ∃ path path_flow, augmentFlow 6 0 5 fuel stk = some (path, path_flow) ∧
        st1.max_flow = stk.max_flow + path_flow ∧
        st1.iteration = stk.iteration + 1 ∧
        st1.rGraph = pushPath id path_flow stk.rGraph path) ∧
    (∀ fuel, fordFulkersonRun 6 mainGraph 0 5 (fun _ => 0) fuel =
        fordFulkersonRunZ 6 mainGraph 0 5 (fun _ => 0) fuel ∧
      fordFulkerson 6 mainGraph 0 5 (fun _ => 0) fuel =
        fordFulkersonZ 6 mainGraph 0 5 (fun _ => 0) fuel) ∧
    ∃ m, 0 ≤ m ∧ m ≤ INT_MAX ∧ ∀ fuel, 6 * edgeCount 6 mainGraph + 6 + 1 ≤ fuel →
      fordFulkerson 6 mainGraph 0 5 (fun _ => 0) fuel = some m ∧
      fordFulkersonZ 6 mainGraph 0 5 (fun _ => 0) fuel = some m) :=
  ⟨⟨by decide, by decide, mainGraph_noOverflow⟩,
   int_arithmetic_exact 6 mainGraph 0 5 (fun _ => 0) (by decide) (by decide)
     mainGraph_noOverflow⟩

end FordFulkerson

/-! ## Dijkstra: the distances at the end of the main loop -/

namespace Dijkstra

open FordFulkerson (INT_MAX wrapInt setAt wrapInt_of_range setAt_same setAt_other)

theorem minDistance_fold (dist : Nat → Int) (sptSet : Nat → Bool) (n : Nat)
    (hle : ∀ v, v < n → dist v ≤ INF) :
    ((List.range n).foldl (fun (acc : Int × Int) (v : Nat) =>
        if sptSet v = false ∧ dist v ≤ acc.1 then (dist v, (v : Int)) else acc) (INF, -1) =
          (INF, -1) ∧ ∀ v, v < n → sptSet v = true) ∨
    ∃ u, u < n ∧ (List.range n).foldl (fun (acc : Int × Int) (v : Nat) =>
        if sptSet v = false ∧ dist v ≤ acc.1 then (dist v, (v : Int)) else acc) (INF, -1) =
          (dist u, (u : Int)) ∧ sptSet u = false ∧
        ∀ v, v < n → sptSet v = false → dist u ≤ dist v := by
  induction n with
  | zero => left; exact ⟨rfl, fun v hv => absurd hv (Nat.not_lt_zero v)⟩
  | succ n ih =>
    rw [List.range_succ, List.foldl_append]
    simp only [List.foldl_cons, List.foldl_nil]
    rcases ih (fun v hv => hle v (Nat.lt_succ_of_lt hv)) with ⟨h0, hall⟩ | ⟨u, hu, h0, hsu, hmin⟩
    · rw [h0]
      by_cases hn : sptSet n = false
      · right
        refine ⟨n, Nat.lt_succ_self n, ?_, hn, ?_⟩
        · rw [if_pos ⟨hn, hle n (Nat.lt_succ_self n)⟩]
        · intro v hv hsv
          rcases Nat.lt_succ_iff_lt_or_eq.1 hv with hv | rfl
          · rw [hall v hv] at hsv; exact absurd hsv (by decide)
          · exact le_refl _
      · left
        refine ⟨by rw [if_neg (fun h => hn h.1)], ?_⟩
        intro v hv
        rcases Nat.lt_succ_iff_lt_or_eq.1 hv with hv | rfl
        · exact hall v hv
        · simpa using hn
    · rw [h0]
      right
      by_cases hn : sptSet n = false ∧ dist n ≤ dist u
      · refine ⟨n, Nat.lt_succ_self n, by rw [if_pos hn], hn.1, ?_⟩
        intro v hv hsv
        rcases Nat.lt_succ_iff_lt_or_eq.1 hv with hv | rfl
        · exact le_trans hn.2 (hmin v hv hsv)
        · exact le_refl _
      · refine ⟨u, Nat.lt_succ_of_lt hu, by rw [if_neg hn], hsu, ?_⟩
        intro v hv hsv
        rcases Nat.lt_succ_iff_lt_or_eq.1 hv with hv | rfl
        · exact hmin v hv hsv
        · by_contra hlt
          exact hn ⟨hsv, by omega⟩

/-- What `minDistance` returns: `-1` when every vertex is in `sptSet`, otherwise a vertex
outside `sptSet` whose `dist` is least among the vertices outside `sptSet`. -/
theorem minDistance_spec (V : Nat) (dist : Nat → Int) (sptSet : Nat → Bool)
    (hle : ∀ v, v < V → dist v ≤ INF) :
    (minDistance V dist sptSet = -1 ∧ ∀ v, v < V → sptSet v = true) ∨
    ∃ u, u < V ∧ minDistance V dist sptSet = (u : Int) ∧ sptSet u = false ∧
      ∀ v, v < V → sptSet v = false → dist u ≤ dist v := by
  unfold minDistance
  rcases minDistance_fold dist sptSet V hle with ⟨h0, hall⟩ | ⟨u, hu, h0, hsu, hmin⟩
  · left; rw [h0]; exact ⟨rfl, hall⟩
  · right; exact ⟨u, hu, by rw [h0], hsu, hmin⟩

/-- The inner loop of `dijkstra` in closed form: `sptSet` is not written, and `dist[v]` is
replaced by `dist[u] + graph[u][v]` exactly for the `v` that pass the test. -/
theorem relax_fold (graph : Nat → Nat → Int) (u : Nat) (st : State) (hu : st.sptSet u = true)
    (n : Nat) :
    ((List.range n).foldl (relax graph u) st).sptSet = st.sptSet ∧
    ∀ v, ((List.range n).foldl (relax graph u) st).dist v =
      if v < n ∧ st.sptSet v = false ∧ graph u v ≠ 0 ∧ st.dist u ≠ INF ∧
          wrapInt (st.dist u + graph u v) < st.dist v
      then wrapInt (st.dist u + graph u v) else st.dist v := by
  induction n with
  | zero =>
    refine ⟨rfl, fun v => ?_⟩
    rw [if_neg (fun h => Nat.not_lt_zero v h.1)]
    rfl
  | succ n ih =>
    rw [List.range_succ, List.foldl_append]
    simp only [List.foldl_cons, List.foldl_nil]
    obtain ⟨hs, hd⟩ := ih
    have hdu : ((List.range n).foldl (relax graph u) st).dist u = st.dist u := by
      rw [hd u, if_neg]
      intro h
      rw [hu] at h
      exact absurd h.2.1 (by decide)
    have hdn : ((List.range n).foldl (relax graph u) st).dist n = st.dist n := by
      rw [hd n, if_neg]
      intro h
      exact absurd h.1 (lt_irrefl n)
    generalize List.foldl (relax graph u) st (List.range n) = stn at hs hd hdu hdn
    unfold relax
    rw [hs, hdu, hdn]
    by_cases hc : st.sptSet n = false ∧ graph u n ≠ 0 ∧ st.dist u ≠ INF ∧
        wrapInt (st.dist u + graph u n) < st.dist n
    · rw [if_pos hc]
      refine ⟨rfl, fun v => ?_⟩
      show setAt _ n _ v = _
      by_cases hvn : v = n
      · subst hvn
        rw [setAt_same, if_pos ⟨Nat.lt_succ_self v, hc⟩]
      · rw [setAt_other _ _ hvn, hd v]
        by_cases hv : v < n
        · have h1 : (v < n + 1) = True := by simp; omega
          have h2 : (v < n) = True := by simp [hv]
          simp only [h1, h2]
        · have h1 : ¬ v < n + 1 := by omega
          rw [if_neg (fun h => hv h.1), if_neg (fun h => h1 h.1)]
    · rw [if_neg hc]
      refine ⟨hs, fun v => ?_⟩
      rw [hd v]
      by_cases hvn : v = n
      · subst hvn
        rw [if_neg (fun h => lt_irrefl v h.1), if_neg (fun h => hc h.2)]
      · by_cases hv : v < n
        · have h1 : (v < n + 1) = True := by simp; omega
          have h2 : (v < n) = True := by simp [hv]
          simp only [h1, h2]
        · have h1 : ¬ v < n + 1 := by omega
          rw [if_neg (fun h => hv h.1), if_neg (fun h => h1 h.1)]

theorem inv_init (V : Nat) (graph : Nat → Nat → Int) (src : Nat) :
    Inv V graph src 0 (init src) := by
  have hd : ∀ v, (init src).dist v = if v = src then 0 else INF := fun v => rfl
  refine ⟨?_, ?_, ?_, ?_, ?_, ?_, ?_⟩
  · simp [init]
  · rw [hd, if_pos rfl]
  · intro v _
    rw [hd]
    split
    · exact le_refl _
    · decide
  · intro v _
    rw [hd]
    split
    · decide
    · exact le_refl _
  · intro v _ hne
    rw [hd] at hne ⊢
    by_cases hv : v = src
    · subst hv
      exact ⟨[], rfl, by simp, by simp, by simp [weight]⟩
    · rw [if_neg hv] at hne
      exact absurd rfl hne
  · intro u _ hu
    exact absurd hu (by simp [init])
  · intro a b _ _ ha
    exact absurd ha (by simp [init])

theorem exists_not_spt {V k : Nat} {sptSet : Nat → Bool}
    (hcard : ((Finset.range V).filter (fun v => sptSet v = true)).card = k) (hk : k < V) :
    ¬ ∀ v, v < V → sptSet v = true := by
  intro hall
  have : (Finset.range V).filter (fun v => sptSet v = true) = Finset.range V :=
    Finset.filter_true_of_mem (fun v hv => hall v (Finset.mem_range.1 hv))
  rw [this, Finset.card_range] at hcard
  omega

theorem card_setAt {V k u : Nat} {sptSet : Nat → Bool}
    (hcard : ((Finset.range V).filter (fun v => sptSet v = true)).card = k) (hu : u < V)
    (hsu : sptSet u = false) :
    ((Finset.range V).filter (fun v => setAt sptSet u true v = true)).card = k + 1 := by
  have : (Finset.range V).filter (fun v => setAt sptSet u true v = true) =
      insert u ((Finset.range V).filter (fun v => sptSet v = true)) := by
    ext v
    simp only [Finset.mem_filter, Finset.mem_range, Finset.mem_insert]
    by_cases hv : v = u
    · subst hv
      simp [hu]
    · rw [setAt_other _ _ hv]
      simp [hv]
  rw [this, Finset.card_insert_of_not_mem, hcard]
  simp [hsu]

theorem isWalk_lt {V : Nat} {graph : Nat → Nat → Int} {src : Nat} (hsrc : src < V) :
    ∀ (l : List Nat) (v : Nat), IsWalk V graph src (v :: l) → v < V
  | [], v, h => by
    have : v = src := h
    omega
  | _ :: _, _, h => h.1

/-- One iteration of the main loop keeps the invariant, and does not `break` while a
vertex is outside `sptSet`. -/
theorem inv_step {V : Nat} {graph : Nat → Nat → Int} {src k : Nat} {st : State}
    (hnn : ∀ u, u < V → ∀ v, v < V → 0 ≤ graph u v)
    (hno : ∀ l, IsWalk V graph src l → l.Nodup → weight graph l < INT_MAX)
    (hinv : Inv V graph src k st) (hk : k < V) :
    ∃ st1, dijkstraStep V graph st = some st1 ∧ Inv V graph src (k + 1) st1 := by
  rcases minDistance_spec V st.dist st.sptSet hinv.le_inf with ⟨_, hall⟩ | ⟨u, hu, hmin, hsu, hleast⟩
  · exact absurd hall (exists_not_spt hinv.card hk)
  have hne : (u : Int) ≠ -1 := by omega
  have hstep : dijkstraStep V graph st = some ((List.range V).foldl (relax graph u)
      { st with sptSet := setAt st.sptSet u true }) := by
    unfold dijkstraStep
    simp only [hmin, if_neg hne, Int.toNat_ofNat]
  refine ⟨_, hstep, ?_⟩
  obtain ⟨hs, hd⟩ := relax_fold graph u { st with sptSet := setAt st.sptSet u true }
    (setAt_same _ _ _) V
  generalize (List.range V).foldl (relax graph u)
    { st with sptSet := setAt st.sptSet u true } = st2 at hs hd
  have hs2 : ∀ v, st2.sptSet v = setAt st.sptSet u true v := fun v => by rw [hs]
  have hd2 : ∀ v, st2.dist v = if v < V ∧ setAt st.sptSet u true v = false ∧ graph u v ≠ 0 ∧
      st.dist u ≠ INF ∧ wrapInt (st.dist u + graph u v) < st.dist v
      then wrapInt (st.dist u + graph u v) else st.dist v := hd
  have hINF : INF = INT_MAX := rfl
  -- vertices of the new `sptSet` keep their distance
  have hkeep : ∀ v, setAt st.sptSet u true v = true → st2.dist v = st.dist v := by
    intro v hv
    rw [hd2, if_neg]
    intro h
    rw [hv] at h
    exact absurd h.2.1 (by decide)
  have hold : ∀ v, st.sptSet v = true → setAt st.sptSet u true v = true := by
    intro v hv
    by_cases hvu : v = u
    · subst hvu; exact setAt_same _ _ _
    · rw [setAt_other _ _ hvu]; exact hv
  have hnew : ∀ v, setAt st.sptSet u true v = false → st.sptSet v = false ∧ v ≠ u := by
    intro v hv
    by_cases hvu : v = u
    · subst hvu; rw [setAt_same] at hv; exact absurd hv (by decide)
    · rw [setAt_other _ _ hvu] at hv; exact ⟨hv, hvu⟩
  -- the candidate distance of a vertex outside `sptSet` is the weight of a simple walk
  have hcand : ∀ v, v < V → setAt st.sptSet u true v = false → graph u v ≠ 0 →
      st.dist u ≠ INF →
      wrapInt (st.dist u + graph u v) = st.dist u + graph u v ∧
      st.dist u + graph u v < INF ∧ st.dist u ≤ st.dist u + graph u v ∧
      ∃ l, IsWalk V graph src (v :: l) ∧ (v :: l).Nodup ∧
        (∀ x ∈ l, setAt st.sptSet u true x = true ∧ st.dist x ≠ INF) ∧
        weight graph (v :: l) = st.dist u + graph u v := by
    intro v hv hsv hg hdu
    obtain ⟨l, hwalk, hnd, hin, hw⟩ := hinv.path u hu hdu
    have hwalk2 : IsWalk V graph src (v :: u :: l) := ⟨hv, hg, hwalk⟩
    have hmem : ∀ x ∈ u :: l, setAt st.sptSet u true x = true ∧ st.dist x ≠ INF := by
      intro x hx
      rcases List.mem_cons.1 hx with rfl | hx
      · exact ⟨setAt_same _ _ _, hdu⟩
      · exact ⟨hold x (hin x hx).1, (hin x hx).2⟩
    have hnd2 : (v :: u :: l).Nodup := by
      refine List.nodup_cons.2 ⟨fun hmem1 => ?_, hnd⟩
      have := (hmem v hmem1).1
      rw [hsv] at this
      exact absurd this (by decide)
    have hw2 : weight graph (v :: u :: l) = st.dist u + graph u v := by
      show weight graph (u :: l) + graph u v = _
      rw [hw]
    have hlt := hno _ hwalk2 hnd2
    rw [hw2] at hlt
    have h0 := hinv.nonneg u hu
    have hg0 := hnn u hu v hv
    refine ⟨wrapInt_of_range (by omega) (by omega), by rw [hINF]; exact hlt, by omega,
      u :: l, hwalk2, hnd2, hmem, hw2⟩
  have hle_old : ∀ v, v < V → st2.dist v ≤ st.dist v := by
    intro v _
    rw [hd2]
    split
    · rename_i h; exact le_of_lt h.2.2.2.2
    · exact le_refl _
  refine ⟨?_, ?_, ?_, ?_, ?_, ?_, ?_⟩
  · -- card
    have := card_setAt hinv.card hu hsu
    rw [← this]
    congr 1
    ext v
    simp only [Finset.mem_filter, Finset.mem_range, hs2]
  · -- dist_src
    rw [hd2]
    split
    · rename_i h
      obtain ⟨hv, hsv, hg, hdu, hlt⟩ := h
      obtain ⟨hw, _, hge, _⟩ := hcand src hv hsv hg hdu
      rw [hw, hinv.dist_src] at hlt
      have := hinv.nonneg u hu
      omega
    · exact hinv.dist_src
  · -- nonneg
    intro v hv
    rw [hd2]
    split
    · rename_i h
      obtain ⟨_, hsv, hg, hdu, _⟩ := h
      obtain ⟨hw, _, hge, _⟩ := hcand v hv hsv hg hdu
      rw [hw]
      have := hinv.nonneg u hu
      omega
    · exact hinv.nonneg v hv
  · -- le_inf
    intro v hv
    exact le_trans (hle_old v hv) (hinv.le_inf v hv)
  · -- path
    intro v hv hne2
    rw [hd2] at hne2 ⊢
    split
    · rename_i h
      obtain ⟨_, hsv, hg, hdu, _⟩ := h
      obtain ⟨hw, _, _, l, hwalk, hnd, hin, hwt⟩ := hcand v hv hsv hg hdu
      refine ⟨l, hwalk, hnd, fun x hx => ?_, by rw [hwt, hw]⟩
      refine ⟨by rw [hs2]; exact (hin x hx).1, ?_⟩
      rw [hkeep x (hin x hx).1]
      exact (hin x hx).2
    · rename_i h
      rw [if_neg h] at hne2
      obtain ⟨l, hwalk, hnd, hin, hwt⟩ := hinv.path v hv hne2
      refine ⟨l, hwalk, hnd, fun x hx => ?_, hwt⟩
      refine ⟨by rw [hs2]; exact hold x (hin x hx).1, ?_⟩
      rw [hkeep x (hold x (hin x hx).1)]
      exact (hin x hx).2
  · -- relaxed
    intro a ha hsa hda v hv hg
    rw [hs2] at hsa
    rw [hkeep a hsa] at hda ⊢
    by_cases hau : a = u
    · subst hau
      by_cases hsv : setAt st.sptSet a true v = true
      · rw [hkeep v hsv]
        have hg0 := hnn a ha v hv
        by_cases hva : v = a
        · subst hva; omega
        · rw [setAt_other _ _ hva] at hsv
          have := hinv.order v a hv ha hsv hsu
          omega
      · have hsv1 : setAt st.sptSet a true v = false := by
          cases h : setAt st.sptSet a true v
          · rfl
          · exact absurd h hsv
        obtain ⟨hw, _, _, _⟩ := hcand v hv hsv1 hg hda
        rw [hd2]
        split
        · rw [hw]
        · rename_i h
          by_contra hlt
          exact h ⟨hv, hsv1, hg, hda, by rw [hw]; omega⟩
    · rw [setAt_other _ _ hau] at hsa
      exact le_trans (hle_old v hv) (hinv.relaxed a ha hsa hda v hv hg)
  · -- order
    intro a b ha hb hsa hsb
    rw [hs2] at hsa hsb
    rw [hkeep a hsa]
    obtain ⟨hsb1, hbu⟩ := hnew b hsb
    have hau : st.dist a ≤ st.dist u := by
      by_cases hau : a = u
      · subst hau; exact le_refl _
      · rw [setAt_other _ _ hau] at hsa
        exact hinv.order a u ha hu hsa hsu
    have hub : st.dist u ≤ st.dist b := hleast b hb hsb1
    rw [hd2]
    split
    · rename_i h
      obtain ⟨_, _, hg, hdu, _⟩ := h
      obtain ⟨hw, _, hge, _⟩ := hcand b hb hsb hg hdu
      rw [hw]
      omega
    · omega

theorem inv_loop {V : Nat} {graph : Nat → Nat → Int} {src : Nat}
    (hnn : ∀ u, u < V → ∀ v, v < V → 0 ≤ graph u v)
    (hno : ∀ l, IsWalk V graph src l → l.Nodup → weight graph l < INT_MAX) :
    ∀ (n k : Nat) (st : State), Inv V graph src k st → k + n ≤ V →
      Inv V graph src (k + n) (dijkstraLoop V graph n st)
  | 0, _, _, hinv, _ => hinv
  | n + 1, k, st, hinv, hk => by
    obtain ⟨st1, hstep, hinv1⟩ := inv_step hnn hno hinv (by omega : k < V)
    simp only [dijkstraLoop, hstep]
    have := inv_loop hnn hno n (k + 1) st1 hinv1 (by omega)
    have he : k + (n + 1) = k + 1 + n := by omega
    rw [he]
    exact this

/-- At the end of the loop at most one vertex is outside `sptSet`. -/
theorem not_spt_unique {V : Nat} {sptSet : Nat → Bool}
    (hcard : ((Finset.range V).filter (fun v => sptSet v = true)).card = V - 1)
    {a b : Nat} (ha : a < V) (hb : b < V) (hsa : sptSet a = false) (hsb : sptSet b = false) :
    a = b := by
  by_contra hab
  have hsub : (Finset.range V).filter (fun v => sptSet v = true) ⊆
      ((Finset.range V).erase a).erase b := by
    intro v hv
    simp only [Finset.mem_filter, Finset.mem_range] at hv
    simp only [Finset.mem_erase, Finset.mem_range]
    refine ⟨?_, ?_, hv.1⟩
    · rintro rfl; rw [hsb] at hv; exact absurd hv.2 (by decide)
    · rintro rfl; rw [hsa] at hv; exact absurd hv.2 (by decide)
  have h1 := Finset.card_le_card hsub
  rw [hcard, Finset.card_erase_of_mem, Finset.card_erase_of_mem, Finset.card_range] at h1
  · omega
  · exact Finset.mem_range.2 ha
  · simp only [Finset.mem_erase, Finset.mem_range]
    exact ⟨fun h => hab h.symm, hb⟩

/-- At the end of the loop every edge out of a vertex with a finite distance is relaxed,
and its head has a finite distance. -/
theorem final_edge {V : Nat} {graph : Nat → Nat → Int} {src : Nat} {st : State}
    (hnn : ∀ u, u < V → ∀ v, v < V → 0 ≤ graph u v)
    (hno : ∀ l, IsWalk V graph src l → l.Nodup → weight graph l < INT_MAX)
    (hinv : Inv V graph src (V - 1) st) {a v : Nat} (ha : a < V) (hv : v < V)
    (hda : st.dist a ≠ INF) (hg : graph a v ≠ 0) :
    st.dist v ≤ st.dist a + graph a v ∧ st.dist v ≠ INF := by
  have hrel : st.dist v ≤ st.dist a + graph a v := by
    have hg0 := hnn a ha v hv
    by_cases hsa : st.sptSet a = true
    · exact hinv.relaxed a ha hsa hda v hv hg
    · have hsa1 : st.sptSet a = false := by
        cases h : st.sptSet a
        · rfl
        · exact absurd h hsa
      by_cases hsv : st.sptSet v = true
      · have := hinv.order v a hv ha hsv hsa1
        omega
      · have hsv1 : st.sptSet v = false := by
          cases h : st.sptSet v
          · rfl
          · exact absurd h hsv
        have := not_spt_unique hinv.card ha hv hsa1 hsv1
        subst this
        omega
  refine ⟨hrel, ?_⟩
  obtain ⟨l, hwalk, hnd, hin, hw⟩ := hinv.path a ha hda
  by_cases hmem : v ∈ a :: l
  · rcases List.mem_cons.1 hmem with rfl | hmem
    · exact hda
    · exact (hin v hmem).2
  · have hlt := hno (v :: a :: l) ⟨hv, hg, hwalk⟩ (List.nodup_cons.2 ⟨hmem, hnd⟩)
    have hw2 : weight graph (v :: a :: l) = st.dist a + graph a v := by
      show weight graph (a :: l) + graph a v = _
      rw [hw]
    rw [hw2] at hlt
    have hINF : INF = INT_MAX := rfl
    intro h
    rw [h, hINF] at hrel
    omega

/-- At the end of the loop the distance of the end of a walk from `src` is finite and at
most the weight of the walk. -/
theorem final_walk {V : Nat} {graph : Nat → Nat → Int} {src : Nat} {st : State}
    (hsrc : src < V)
    (hnn : ∀ u, u < V → ∀ v, v < V → 0 ≤ graph u v)
    (hno : ∀ l, IsWalk V graph src l → l.Nodup → weight graph l < INT_MAX)
    (hinv : Inv V graph src (V - 1) st) :
    ∀ (l : List Nat) (v : Nat), IsWalk V graph src (v :: l) →
      st.dist v ≠ INF ∧ st.dist v ≤ weight graph (v :: l)
  | [], v, h => by
    have hv : v = src := h
    subst hv
    rw [hinv.dist_src]
    exact ⟨by decide, le_refl _⟩
  | u :: rest, v, h => by
    obtain ⟨hv, hg, hwalk⟩ := h
    obtain ⟨hdu, hle⟩ := final_walk hsrc hnn hno hinv rest u hwalk
    have hu := isWalk_lt hsrc rest u hwalk
    obtain ⟨hrel, hdv⟩ := final_edge hnn hno hinv hu hv hdu hg
    refine ⟨hdv, ?_⟩
    show st.dist v ≤ weight graph (u :: rest) + graph u v
    omega

/-- The weight of a walk without repeated vertex is at most `(V - 1) * M` when no weight
exceeds `M`. -/
theorem weight_le_of_bounded {V : Nat} {graph : Nat → Nat → Int} {src : Nat} {M : Int}
    (hsrc : src < V) (hM : ∀ u, u < V → ∀ v, v < V → graph u v ≤ M) (hM0 : 0 ≤ M) :
    ∀ (l : List Nat), IsWalk V graph src l → weight graph l ≤ (l.length - 1 : Nat) * M
  | [], h => absurd h (by simp [IsWalk])
  | [v], _ => by simp [weight]
  | v :: u :: rest, h => by
    obtain ⟨hv, _, hwalk⟩ := h
    have ih := weight_le_of_bounded hsrc hM hM0 (u :: rest) hwalk
    have hu := isWalk_lt hsrc rest u hwalk
    have hg := hM u hu v hv
    show weight graph (u :: rest) + graph u v ≤ _
    simp only [List.length_cons, Nat.add_sub_cancel] at ih ⊢
    push_cast
    nlinarith

theorem isWalk_all_lt {V : Nat} {graph : Nat → Nat → Int} {src : Nat} (hsrc : src < V) :
    ∀ (l : List Nat), IsWalk V graph src l → ∀ x ∈ l, x < V
  | [], h, _, _ => absurd h (by simp [IsWalk])
  | [v], h, x, hx => by
    have hv : v = src := h
    simp only [List.mem_singleton] at hx
    omega
  | v :: u :: rest, h, x, hx => by
    rcases List.mem_cons.1 hx with rfl | hx
    · exact h.1
    · exact isWalk_all_lt hsrc (u :: rest) h.2.2 x hx

theorem nodup_length_le_of_lt {V : Nat} {l : List Nat} (hnd : l.Nodup) (hlt : ∀ x ∈ l, x < V) :
    l.length ≤ V := by
  have h1 : l.toFinset ⊆ Finset.range V := by
    intro x hx
    exact Finset.mem_range.2 (hlt x (List.mem_toFinset.1 hx))
  have h2 := Finset.card_le_card h1
  rw [List.toFinset_card_of_nodup hnd, Finset.card_range] at h2
  exact h2

/-- A bound on the weights that keeps every sum along a walk without repeated vertex
below `INT_MAX`. -/
theorem no_overflow_of_bounded {V : Nat} {graph : Nat → Nat → Int} {src : Nat} {M : Int}
    (hsrc : src < V) (hM : ∀ u, u < V → ∀ v, v < V → graph u v ≤ M) (hM0 : 0 ≤ M)
    (hVM : (V - 1 : Nat) * M < INT_MAX) :
    ∀ l, IsWalk V graph src l → l.Nodup → weight graph l < INT_MAX := by
  intro l hwalk hnd
  have h1 := weight_le_of_bounded hsrc hM hM0 l hwalk
  have h2 := nodup_length_le_of_lt hnd (isWalk_all_lt hsrc l hwalk)
  have h3 : ((l.length - 1 : Nat) : Int) ≤ ((V - 1 : Nat) : Int) := by
    have : l.length - 1 ≤ V - 1 := by omega
    exact_mod_cast this
  have h4 : ((l.length - 1 : Nat) : Int) * M ≤ ((V - 1 : Nat) : Int) * M :=
    mul_le_mul_of_nonneg_right h3 hM0
  omega

/-- C16: for non-negative weights such that no sum along a path (a walk from `src`
without repeated vertex) reaches `INT_MAX`, and `src < V`: when the main loop of
`dijkstra` is left, `dist[src] = 0`, for every vertex `v` reachable from `src` the value
`dist[v]` is the weight of a walk from `src` to `v` and no walk from `src` to `v` weighs
less, and `dist[v] = INF` for every `v` that is not reachable. -/
theorem dijkstra_shortest (V : Nat) (graph : Nat → Nat → Int) (src : Nat) (hsrc : src < V)
    (hnn : ∀ u, u < V → ∀ v, v < V → 0 ≤ graph u v)
    (hno : ∀ l, IsWalk V graph src l → l.Nodup → weight graph l < INT_MAX) :
    (dijkstra V graph src).dist src = 0 ∧
    ∀ v, v < V →
      ((∃ l, IsWalk V graph src (v :: l)) →
        (∃ l, IsWalk V graph src (v :: l) ∧ (v :: l).Nodup ∧
          weight graph (v :: l) = (dijkstra V graph src).dist v) ∧
        (∀ l, IsWalk V graph src (v :: l) →
          (dijkstra V graph src).dist v ≤ weight graph (v :: l)) ∧
        (dijkstra V graph src).dist v < INF) ∧
      ((¬∃ l, IsWalk V graph src (v :: l)) → (dijkstra V graph src).dist v = INF) := by
  have hinv : Inv V graph src (V - 1) (dijkstra V graph src) := by
    have := inv_loop hnn hno (V - 1) 0 (init src) (inv_init V graph src) (by omega)
    rw [Nat.zero_add] at this
    exact this
  refine ⟨hinv.dist_src, fun v hv => ⟨?_, ?_⟩⟩
  · rintro ⟨l, hwalk⟩
    obtain ⟨hne, _⟩ := final_walk hsrc hnn hno hinv l v hwalk
    obtain ⟨l1, hwalk1, hnd1, _, hw1⟩ := hinv.path v hv hne
    refine ⟨⟨l1, hwalk1, hnd1, hw1⟩, fun l2 hwalk2 =>
      (final_walk hsrc hnn hno hinv l2 v hwalk2).2, ?_⟩
    exact lt_of_le_of_ne (hinv.le_inf v hv) hne
  · intro hnot
    by_contra hne
    obtain ⟨l1, hwalk1, _⟩ := hinv.path v hv hne
    exact hnot ⟨l1, hwalk1⟩

theorem mainGraph_no_overflow :
    ∀ l, IsWalk 5 mainGraph 0 l → l.Nodup → weight mainGraph l < INT_MAX :=
  no_overflow_of_bounded (M := 10) (by decide) (by decide) (by decide) (by decide)

theorem dijkstra_shortest_witness :
    ((0 : Nat) < 5 ∧ (∀ u, u < 5 → ∀ v, v < 5 → 0 ≤ mainGraph u v) ∧
      ∀ l, IsWalk 5 mainGraph 0 l → l.Nodup → weight mainGraph l < INT_MAX) ∧
    ((dijkstra 5 mainGraph 0).dist 0 = 0 ∧
    ∀ v, v < 5 →
      ((∃ l, IsWalk 5 mainGraph 0 (v :: l)) →
        (∃ l, IsWalk 5 mainGraph 0 (v :: l) ∧ (v :: l).Nodup ∧
          weight mainGraph (v :: l) = (dijkstra 5 mainGraph 0).dist v) ∧
        (∀ l, IsWalk 5 mainGraph 0 (v :: l) →
          (dijkstra 5 mainGraph 0).dist v ≤ weight mainGraph (v :: l)) ∧
        (dijkstra 5 mainGraph 0).dist v < INF) ∧
      ((¬∃ l, IsWalk 5 mainGraph 0 (v :: l)) → (dijkstra 5 mainGraph 0).dist v = INF)) :=
  ⟨⟨by decide, by decide, mainGraph_no_overflow⟩,
   dijkstra_shortest 5 mainGraph 0 (by decide) (by decide) mainGraph_no_overflow⟩

/-- For the values of an `int` array (all at most `INT_MAX`), `minDistance` returns `-1`
only when every vertex is in `sptSet`. -/
theorem minDistance_neg_one_iff (V : Nat) (dist : Nat → Int) (sptSet : Nat → Bool)
    (hle : ∀ v, v < V → dist v ≤ INF) :
    minDistance V dist sptSet = -1 ↔ ∀ v, v < V → sptSet v = true := by
  rcases minDistance_spec V dist sptSet hle with ⟨h, hall⟩ | ⟨u, hu, h, hsu, _⟩
  · exact ⟨fun _ => hall, fun _ => h⟩
  · constructor
    · intro h1
      rw [h] at h1
      omega
    · intro hall
      rw [hall u hu] at hsu
      exact absurd hsu (by decide)

/-- C23 fails on the code: `minDistance` compares with `dist[v] <= min` starting from
`min = INF`, so a vertex outside `sptSet` with `dist = INF` is selected.  With
`dist = {0, INF, INF, INF, INF}` and `sptSet = {true, false, false, false, false}` (the
arrays of `dijkstra` after its first iteration on a graph without edges, `src = 0`) it
returns `4`, not `-1`; the main loop does not break, and puts the unreachable vertices
`4`, `3`, `2` into `sptSet`. -/
theorem minDistance_unreachable :
    minDistance 5 (fun v => if v = 0 then 0 else INF) (fun v => decide (v = 0)) = 4 ∧
    (List.range 5).map (dijkstraLoop 5 (fun _ _ => 0) 1 (init 0)).dist =
      [0, INF, INF, INF, INF] ∧
    (List.range 5).map (dijkstraLoop 5 (fun _ _ => 0) 1 (init 0)).sptSet =
      [true, false, false, false, false] ∧
    minDistance 5 (dijkstraLoop 5 (fun _ _ => 0) 1 (init 0)).dist
      (dijkstraLoop 5 (fun _ _ => 0) 1 (init 0)).sptSet = 4 ∧
    (List.range 5).map (dijkstra 5 (fun _ _ => 0) 0).sptSet =
      [true, false, true, true, true] := by
  refine ⟨by decide, by decide, by decide, by decide, by decide⟩

end Dijkstra

/-! ## Bellman-Ford: the value returned and negative cycles -/

namespace BF

open FordFulkerson (INT_MAX wrapInt setAt wrapInt_of_range setAt_same setAt_other)

theorem good_wrap {x : Int} (h : Good x) : wrapInt x = x :=
  wrapInt_of_range h.1 (le_of_lt h.2)

theorem relaxEdge_sums (st : State) (e : Edge) :
    ∀ x ∈ st.sums, x ∈ (relaxEdge st e).sums := by
  intro x hx
  unfold relaxEdge
  split
  · split
    · exact List.mem_cons_of_mem _ hx
    · exact List.mem_cons_of_mem _ hx
  · exact hx

theorem foldl_sums (es : List Edge) :
    ∀ (st : State), ∀ x ∈ st.sums, x ∈ (es.foldl relaxEdge st).sums := by
  induction es with
  | nil => intro st x hx; exact hx
  | cons e rest ih =>
    intro st x hx
    exact ih (relaxEdge st e) x (relaxEdge_sums st e x hx)

theorem relaxRound_sums (edges : List Edge) (st : State) :
    ∀ x ∈ st.sums, x ∈ (relaxRound edges st).sums :=
  fun x hx => foldl_sums edges { st with updated := false } x hx

theorem relaxLoop_sums (edges : List Edge) :
    ∀ (n : Nat) (st : State), ∀ x ∈ st.sums, x ∈ (relaxLoop edges n st).sums
  | 0, _, _, hx => hx
  | n + 1, st, x, hx => by
    simp only [relaxLoop]
    split
    · exact relaxRound_sums edges st x hx
    · exact relaxLoop_sums edges n _ x (relaxRound_sums edges st x hx)

theorem distInv_init (edges : List Edge) (src : Nat) : DistInv edges src (init src) := by
  have hd : ∀ v, (init src).dist v = if v = src then 0 else INF := fun v => rfl
  refine ⟨by rw [hd, if_pos rfl], ?_, ?_⟩
  · intro v
    rw [hd]
    split
    · decide
    · exact le_refl _
  · intro v hne
    rw [hd] at hne ⊢
    by_cases hv : v = src
    · subst hv
      exact ⟨[], rfl, by simp [weight]⟩
    · rw [if_neg hv] at hne
      exact absurd rfl hne

theorem weight_cons (e : Edge) (p : List Edge) : weight (e :: p) = e.weight + weight p := by
  simp [weight]

theorem weight_append (p q : List Edge) : weight (p ++ q) = weight p + weight q := by
  simp [weight]

/-- Effect of one relaxation when the sum it computes is an `int` below `INF`. -/
theorem relaxEdge_spec {edges : List Edge} {src : Nat} {st : State} {e : Edge}
    (he : e ∈ edges) (hinv : DistInv edges src st)
    (hgood : ∀ x ∈ (relaxEdge st e).sums, Good x) :
    DistInv edges src (relaxEdge st e) ∧
    (∀ v, (relaxEdge st e).dist v ≤ st.dist v) ∧
    (st.dist e.src ≠ INF → (relaxEdge st e).dist e.dest ≤ st.dist e.src + e.weight ∧
      st.dist e.src + e.weight < INF) := by
  have hINF : INF = INT_MAX := rfl
  unfold relaxEdge at hgood ⊢
  by_cases h1 : st.dist e.src ≠ INF
  · rw [if_pos h1] at hgood ⊢
    by_cases h2 : wrapInt (st.dist e.src + e.weight) < st.dist e.dest
    · rw [if_pos h2] at hgood ⊢
      have hg : Good (st.dist e.src + e.weight) := hgood _ (List.mem_cons_self _ _)
      have hw := good_wrap hg
      rw [hw] at h2 ⊢
      have hdist : ∀ v, (setAt st.dist e.dest (st.dist e.src + e.weight)) v ≤ st.dist v := by
        intro v
        by_cases hv : v = e.dest
        · subst hv; rw [setAt_same]; exact le_of_lt h2
        · rw [setAt_other _ _ hv]
      refine ⟨⟨?_, ?_, ?_⟩, hdist, fun _ => ⟨?_, by rw [hINF]; exact hg.2⟩⟩
      · exact le_trans (hdist src) hinv.src_le
      · intro v
        exact le_trans (hdist v) (hinv.le_inf v)
      · intro v hne
        show ∃ p, IsWalk edges src p v ∧
          weight p = setAt st.dist e.dest (st.dist e.src + e.weight) v
        by_cases hv : v = e.dest
        · subst hv
          obtain ⟨p, hp, hwp⟩ := hinv.walk e.src h1
          refine ⟨e :: p, ⟨he, rfl, hp⟩, ?_⟩
          rw [setAt_same, weight_cons, hwp]
          omega
        · have hne1 : st.dist v ≠ INF := by
            have : setAt st.dist e.dest (st.dist e.src + e.weight) v = st.dist v :=
              setAt_other _ _ hv
            intro h
            apply hne
            show setAt st.dist e.dest (st.dist e.src + e.weight) v = INF
            rw [this, h]
          rw [setAt_other _ _ hv]
          exact hinv.walk v hne1
      · show setAt st.dist e.dest (st.dist e.src + e.weight) e.dest ≤ _
        rw [setAt_same]
    · rw [if_neg h2] at hgood ⊢
      have hg : Good (st.dist e.src + e.weight) := hgood _ (List.mem_cons_self _ _)
      have hw := good_wrap hg
      rw [hw] at h2
      refine ⟨⟨hinv.src_le, hinv.le_inf, hinv.walk⟩, fun v => le_refl _, fun _ =>
        ⟨?_, by rw [hINF]; exact hg.2⟩⟩
      show st.dist e.dest ≤ _
      omega
  · rw [if_neg h1]
    exact ⟨hinv, fun v => le_refl _, fun h => absurd h h1⟩

/-- A pass over a list of edges: the invariant is kept, `dist` does not increase, and
every edge of the list whose tail had a finite distance at the start is relaxed. -/
theorem foldl_spec {edges : List Edge} {src : Nat} :
    ∀ (es : List Edge) (st : State), (∀ e ∈ es, e ∈ edges) → DistInv edges src st →
      (∀ x ∈ (es.foldl relaxEdge st).sums, Good x) →
      DistInv edges src (es.foldl relaxEdge st) ∧
      (∀ v, (es.foldl relaxEdge st).dist v ≤ st.dist v) ∧
      ∀ e ∈ es, st.dist e.src ≠ INF →
        (es.foldl relaxEdge st).dist e.dest ≤ st.dist e.src + e.weight ∧
        (es.foldl relaxEdge st).dist e.dest ≠ INF
  | [], st, _, hinv, _ => ⟨hinv, fun _ => le_refl _, fun e he => absurd he (List.not_mem_nil e)⟩
  | e1 :: rest, st, hsub, hinv, hgood => by
    have hINF : INF = INT_MAX := rfl
    have hgood1 : ∀ x ∈ (relaxEdge st e1).sums, Good x :=
      fun x hx => hgood x (foldl_sums rest _ x hx)
    obtain ⟨hinv1, hmono1, hrel1⟩ :=
      relaxEdge_spec (hsub e1 (List.mem_cons_self _ _)) hinv hgood1
    obtain ⟨hinv2, hmono2, hrel2⟩ := foldl_spec rest (relaxEdge st e1)
      (fun e he => hsub e (List.mem_cons_of_mem _ he)) hinv1 hgood
    refine ⟨hinv2, fun v => le_trans (hmono2 v) (hmono1 v), ?_⟩
    intro e he hne
    rcases List.mem_cons.1 he with rfl | he
    · obtain ⟨h1, h2⟩ := hrel1 hne
      have h3 := hmono2 e.dest
      have h4 : (List.foldl relaxEdge st (e :: rest)).dist e.dest =
          (List.foldl relaxEdge (relaxEdge st e) rest).dist e.dest := rfl
      rw [h4]
      refine ⟨by omega, fun h => ?_⟩
      rw [h, hINF] at h3
      rw [hINF] at h2
      omega
    · have hne1 : (relaxEdge st e1).dist e.src ≠ INF := by
        intro h
        have h1 := hmono1 e.src
        have h2 := hinv.le_inf e.src
        rw [h] at h1
        exact hne (le_antisymm h2 h1)
      obtain ⟨h1, h2⟩ := hrel2 e he hne1
      have h3 := hmono1 e.src
      exact ⟨by
        show (List.foldl relaxEdge (relaxEdge st e1) rest).dist e.dest ≤ _
        omega, h2⟩

/-- A pass that leaves `updated` false has changed nothing, and no edge of the list
passes the test of the relaxation. -/
theorem foldl_not_updated :
    ∀ (es : List Edge) (st : State), (es.foldl relaxEdge st).updated = false →
      (es.foldl relaxEdge st).dist = st.dist ∧
      ∀ e ∈ es, ¬(st.dist e.src ≠ INF ∧ wrapInt (st.dist e.src + e.weight) < st.dist e.dest)
  | [], _, _ => ⟨rfl, fun e he => absurd he (List.not_mem_nil e)⟩
  | e1 :: rest, st, h => by
    have htrue : ∀ (es : List Edge) (st : State), st.updated = true →
        (es.foldl relaxEdge st).updated = true := by
      intro es
      induction es with
      | nil => intro st h; exact h
      | cons e es ih =>
        intro st h
        apply ih
        unfold relaxEdge
        split
        · split
          · rfl
          · exact h
        · exact h
    have hc : ¬(st.dist e1.src ≠ INF ∧
        wrapInt (st.dist e1.src + e1.weight) < st.dist e1.dest) := by
      intro hc
      have h1 : (relaxEdge st e1).updated = true := by
        unfold relaxEdge
        rw [if_pos hc.1, if_pos hc.2]
      have h2 := htrue rest _ h1
      have h3 : (List.foldl relaxEdge st (e1 :: rest)).updated =
          (List.foldl relaxEdge (relaxEdge st e1) rest).updated := rfl
      rw [h3, h2] at h
      exact absurd h (by decide)
    have hd : (relaxEdge st e1).dist = st.dist := by
      unfold relaxEdge
      split
      · rename_i h1
        rw [if_neg (fun h2 => hc ⟨h1, h2⟩)]
      · rfl
    obtain ⟨h1, h2⟩ := foldl_not_updated rest (relaxEdge st e1) h
    refine ⟨by
      show (List.foldl relaxEdge (relaxEdge st e1) rest).dist = _
      rw [h1, hd], ?_⟩
    intro e he
    rcases List.mem_cons.1 he with rfl | he
    · exact hc
    · have := h2 e he
      rw [hd] at this
      exact this

/-- The value returned by step 3. -/
theorem checkEdges_true (dist : Nat → Int) :
    ∀ (es : List Edge), (∀ e ∈ es,
      ¬(dist e.src ≠ INF ∧ wrapInt (dist e.src + e.weight) < dist e.dest)) →
      (checkEdges dist es).1 = true
  | [], _ => rfl
  | e :: rest, h => by
    have ih := checkEdges_true dist rest (fun e1 he1 => h e1 (List.mem_cons_of_mem _ he1))
    have he := h e (List.mem_cons_self _ _)
    unfold checkEdges
    split
    · rename_i h1
      rw [if_neg (fun h2 => he ⟨h1, h2⟩)]
      exact ih
    · exact ih

theorem checkEdges_false (dist : Nat → Int) :
    ∀ (es : List Edge), (checkEdges dist es).1 = false →
      ∃ e ∈ es, dist e.src ≠ INF ∧ wrapInt (dist e.src + e.weight) < dist e.dest ∧
        (dist e.src + e.weight) ∈ (checkEdges dist es).2
  | [], h => absurd h (by simp [checkEdges])
  | e :: rest, h => by
    unfold checkEdges at h ⊢
    by_cases h1 : dist e.src ≠ INF
    · rw [if_pos h1] at h ⊢
      by_cases h2 : wrapInt (dist e.src + e.weight) < dist e.dest
      · rw [if_pos h2]
        exact ⟨e, List.mem_cons_self _ _, h1, h2, List.mem_singleton.2 rfl⟩
      · rw [if_neg h2] at h ⊢
        obtain ⟨e1, he1, h3, h4, h5⟩ := checkEdges_false dist rest h
        exact ⟨e1, List.mem_cons_of_mem _ he1, h3, h4, List.mem_cons_of_mem _ h5⟩
    · rw [if_neg h1] at h ⊢
      obtain ⟨e1, he1, h3, h4, h5⟩ := checkEdges_false dist rest h
      exact ⟨e1, List.mem_cons_of_mem _ he1, h3, h4, h5⟩

theorem checkEdges_all (dist : Nat → Int) :
    ∀ (es : List Edge), (checkEdges dist es).1 = true →
      ∀ e ∈ es, dist e.src ≠ INF →
        ¬(wrapInt (dist e.src + e.weight) < dist e.dest) ∧
        (dist e.src + e.weight) ∈ (checkEdges dist es).2
  | [], _ => fun e he => absurd he (List.not_mem_nil e)
  | e1 :: rest, h => by
    intro e he hne
    unfold checkEdges at h ⊢
    by_cases h1 : dist e1.src ≠ INF
    · rw [if_pos h1] at h ⊢
      by_cases h2 : wrapInt (dist e1.src + e1.weight) < dist e1.dest
      · rw [if_pos h2] at h
        exact absurd h (by simp)
      · rw [if_neg h2] at h ⊢
        rcases List.mem_cons.1 he with rfl | he
        · exact ⟨h2, List.mem_cons_self _ _⟩
        · obtain ⟨h3, h4⟩ := checkEdges_all dist rest h e he hne
          exact ⟨h3, List.mem_cons_of_mem _ h4⟩
    · rw [if_neg h1] at h ⊢
      rcases List.mem_cons.1 he with rfl | he
      · exact absurd hne h1
      · exact checkEdges_all dist rest h e he hne

/-- Concatenation of walks (the lists are read from the end). -/
theorem isWalk_append {edges : List Edge} {a b : Nat} :
    ∀ (q : List Edge) (c : Nat) (p : List Edge), IsWalk edges a p b → IsWalk edges b q c →
      IsWalk edges a (q ++ p) c
  | [], c, p, hp, hq => by
    have : c = b := hq
    subst this
    exact hp
  | e :: rest, c, p, hp, hq => ⟨hq.1, hq.2.1, isWalk_append rest e.src p hp hq.2.2⟩

/-- List of the vertices of a walk that ends in `b`, read from the end. -/
theorem isWalk_split {edges : List Edge} {a : Nat} :
    ∀ (p : List Edge) (b v : Nat), IsWalk edges a p b → v ∈ b :: p.map (fun e => e.src) →
      ∃ p1 p2, p = p2 ++ p1 ∧ IsWalk edges a p1 v ∧ IsWalk edges v p2 b
  | [], b, v, hp, hv => by
    simp only [List.map_nil, List.mem_singleton] at hv
    subst hv
    exact ⟨[], [], rfl, hp, rfl⟩
  | e :: rest, b, v, hp, hv => by
    by_cases hvb : v = b
    · subst hvb
      exact ⟨e :: rest, [], rfl, hp, rfl⟩
    · have hv1 : v ∈ e.src :: rest.map (fun e => e.src) := by
        simp only [List.map_cons, List.mem_cons] at hv ⊢
        rcases hv with h | h
        · exact absurd h hvb
        · exact h
      obtain ⟨p1, p2, hsplit, h1, h2⟩ := isWalk_split rest e.src v hp.2.2 hv1
      exact ⟨p1, e :: p2, by rw [hsplit]; rfl, h1, hp.1, hp.2.1, h2⟩

/-- Without a negative cycle that `src` reaches, every walk from `src` can be replaced by
one that is not heavier and repeats no vertex. -/
theorem exists_simple_walk {edges : List Edge} {src : Nat}
    (hneg : ¬NegCycleReachable edges src) :
    ∀ (p : List Edge) (v : Nat), IsWalk edges src p v →
      ∃ q, IsWalk edges src q v ∧ weight q ≤ weight p ∧
        (v :: q.map (fun e => e.src)).Nodup
  | [], v, hp => ⟨[], hp, le_refl _, by simp⟩
  | e :: rest, v, hp => by
    obtain ⟨q, hq, hwq, hnd⟩ := exists_simple_walk hneg rest e.src hp.2.2
    by_cases hv : v ∈ e.src :: q.map (fun e => e.src)
    · obtain ⟨p1, p2, hsplit, h1, h2⟩ := isWalk_split q e.src v hq hv
      have hcyc : IsWalk edges v (e :: p2) v := ⟨hp.1, hp.2.1, h2⟩
      have hnn : 0 ≤ weight (e :: p2) := by
        by_contra hlt
        exact hneg ⟨v, p1, e :: p2, h1, hcyc, by simp, by omega⟩
      refine ⟨p1, h1, ?_, ?_⟩
      · rw [weight_cons] at hnn ⊢
        rw [hsplit, weight_append] at hwq
        omega
      · rw [hsplit] at hnd
        simp only [List.map_append] at hnd
        have hsub : (v :: p1.map (fun e => e.src)).Sublist
            (e.src :: (p2.map (fun e => e.src) ++ p1.map (fun e => e.src))) := by
          -- `v` is the source of the last edge of `p2`, or `e.src` when `p2` is empty
          cases p2 with
          | nil =>
            have : e.src = v := h2
            rw [this]
            exact List.Sublist.refl _
          | cons e2 r2 =>
            have hlast : ∀ (l : List Edge) (c : Nat), l ≠ [] → IsWalk edges v l c →
                (v :: p1.map (fun e => e.src)).Sublist
                  (l.map (fun e => e.src) ++ p1.map (fun e => e.src)) := by
              intro l
              induction l with
              | nil => intro c h; exact absurd rfl h
              | cons e3 r3 ih =>
                intro c _ hw
                cases r3 with
                | nil =>
                  have : e3.src = v := hw.2.2
                  simp only [List.map_cons, List.map_nil, List.singleton_append, this]
                  exact List.Sublist.refl _
                | cons e4 r4 =>
                  exact List.Sublist.cons _ (ih e3.src (by simp) hw.2.2)
            exact List.Sublist.cons _ (hlast (e2 :: r2) e.src (by simp) h2)
        exact hnd.sublist hsub
    · exact ⟨e :: q, ⟨hp.1, hp.2.1, hq⟩, by rw [weight_cons, weight_cons]; omega,
        List.nodup_cons.2 ⟨hv, hnd⟩⟩

theorem isWalk_vertices_lt {edges : List Edge} {src V : Nat} (hsrc : src < V)
    (hlt : ∀ e ∈ edges, e.src < V ∧ e.dest < V) :
    ∀ (p : List Edge) (v : Nat), IsWalk edges src p v →
      ∀ x ∈ v :: p.map (fun e => e.src), x < V
  | [], v, hp, x, hx => by
    have : v = src := hp
    simp only [List.map_nil, List.mem_singleton] at hx
    omega
  | e :: rest, v, hp, x, hx => by
    rcases List.mem_cons.1 hx with rfl | hx
    · have := (hlt e hp.1).2
      have h2 : e.dest = x := hp.2.1
      omega
    · exact isWalk_vertices_lt hsrc hlt rest e.src hp.2.2 x hx

theorem nodup_lt_length {V : Nat} {l : List Nat} (hnd : l.Nodup) (hlt : ∀ x ∈ l, x < V) :
    l.length ≤ V := by
  have h1 : l.toFinset ⊆ Finset.range V := by
    intro x hx
    exact Finset.mem_range.2 (hlt x (List.mem_toFinset.1 hx))
  have h2 := Finset.card_le_card h1
  rw [List.toFinset_card_of_nodup hnd, Finset.card_range] at h2
  exact h2

theorem rounds_init (edges : List Edge) (src : Nat) : Rounds edges src 0 (init src) := by
  intro p v hp hlen
  have hp0 : p = [] := List.length_eq_zero.1 (Nat.le_zero.1 hlen)
  subst hp0
  have hv : v = src := hp
  subst hv
  have hd : (init v).dist v = 0 := by simp [init]
  rw [hd]
  exact ⟨by decide, by simp [weight]⟩

theorem rounds_step {edges : List Edge} {src k : Nat} {st : State}
    (hinv : DistInv edges src st) (hr : Rounds edges src k st)
    (hgood : ∀ x ∈ (relaxRound edges st).sums, Good x) :
    DistInv edges src (relaxRound edges st) ∧ Rounds edges src (k + 1) (relaxRound edges st) := by
  have hinv0 : DistInv edges src { st with updated := false } :=
    ⟨hinv.src_le, hinv.le_inf, hinv.walk⟩
  obtain ⟨hinv1, hmono, hrel⟩ := foldl_spec edges { st with updated := false }
    (fun e he => he) hinv0 hgood
  refine ⟨hinv1, ?_⟩
  intro p v hp hlen
  cases p with
  | nil =>
    obtain ⟨h1, h2⟩ := hr [] v hp (Nat.zero_le _)
    have h3 : (relaxRound edges st).dist v ≤ st.dist v := hmono v
    have h4 := hinv.le_inf v
    refine ⟨fun h => ?_, le_trans h3 h2⟩
    rw [h] at h3
    exact h1 (le_antisymm h4 h3)
  | cons e rest =>
    obtain ⟨he, hdest, hrest⟩ := hp
    obtain ⟨h1, h2⟩ := hr rest e.src hrest (by simpa using hlen)
    obtain ⟨h3, h4⟩ := hrel e he h1
    subst hdest
    refine ⟨h4, ?_⟩
    rw [weight_cons]
    have h5 : (relaxRound edges st).dist e.dest ≤ st.dist e.src + e.weight := h3
    omega

/-- Step 2 ends either in a state in which no edge passes the test of the relaxation
(the loop was left early) or after `n` complete iterations. -/
theorem relaxLoop_spec {edges : List Edge} {src : Nat} :
    ∀ (n k : Nat) (st : State), DistInv edges src st → Rounds edges src k st →
      (∀ x ∈ (relaxLoop edges n st).sums, Good x) →
      DistInv edges src (relaxLoop edges n st) ∧
      ((∀ e ∈ edges, ¬((relaxLoop edges n st).dist e.src ≠ INF ∧
          wrapInt ((relaxLoop edges n st).dist e.src + e.weight) <
            (relaxLoop edges n st).dist e.dest)) ∨
        Rounds edges src (k + n) (relaxLoop edges n st))
  | 0, _, _, hinv, hr, _ => ⟨hinv, Or.inr hr⟩
  | n + 1, k, st, hinv, hr, hgood => by
    simp only [relaxLoop] at hgood ⊢
    by_cases hu : (relaxRound edges st).updated = false
    · rw [if_pos hu] at hgood ⊢
      obtain ⟨hinv1, _⟩ := rounds_step hinv hr hgood
      refine ⟨hinv1, Or.inl ?_⟩
      obtain ⟨hd, hno⟩ := foldl_not_updated edges { st with updated := false } hu
      have hd1 : (relaxRound edges st).dist = st.dist := hd
      rw [hd1]
      exact hno
    · rw [if_neg hu] at hgood ⊢
      have hgood1 : ∀ x ∈ (relaxRound edges st).sums, Good x :=
        fun x hx => hgood x (relaxLoop_sums edges n _ x hx)
      obtain ⟨hinv1, hr1⟩ := rounds_step hinv hr hgood1
      have := relaxLoop_spec n (k + 1) (relaxRound edges st) hinv1 hr1 hgood
      have he : k + (n + 1) = k + 1 + n := by omega
      rw [he]
      exact this

/-- When step 3 finds no edge to relax and all its sums are below `INF`, no negative
cycle is reachable. -/
theorem no_neg_cycle_of_check {edges : List Edge} {src : Nat} {dist : Nat → Int}
    (hsrc : dist src ≤ 0)
    (hcheck : (checkEdges dist edges).1 = true)
    (hgood : ∀ x ∈ (checkEdges dist edges).2, Good x) :
    ¬NegCycleReachable edges src := by
  have hINF : INF = INT_MAX := rfl
  have hedge : ∀ e ∈ edges, dist e.src ≠ INF →
      dist e.dest ≤ dist e.src + e.weight ∧ dist e.dest ≠ INF := by
    intro e he hne
    obtain ⟨h1, h2⟩ := checkEdges_all dist edges hcheck e he hne
    have hg := hgood _ h2
    rw [good_wrap hg] at h1
    have h3 := hg.2
    refine ⟨by omega, fun h => ?_⟩
    rw [h, hINF] at h1
    omega
  have hwalk : ∀ (q : List Edge) (a b : Nat), IsWalk edges a q b → dist a ≠ INF →
      dist b ≠ INF ∧ dist b ≤ dist a + weight q := by
    intro q
    induction q with
    | nil =>
      intro a b hq hne
      have : b = a := hq
      subst this
      exact ⟨hne, by simp [weight]⟩
    | cons e rest ih =>
      intro a b hq hne
      obtain ⟨he, hdest, hrest⟩ := hq
      obtain ⟨h1, h2⟩ := ih a e.src hrest hne
      obtain ⟨h3, h4⟩ := hedge e he h1
      subst hdest
      rw [weight_cons]
      exact ⟨h4, by omega⟩
  rintro ⟨c, p, q, hp, hq, _, hneg⟩
  have hs : dist src ≠ INF := by
    intro h
    rw [h, hINF] at hsrc
    exact absurd hsrc (by decide)
  obtain ⟨hc, _⟩ := hwalk p src c hp hs
  obtain ⟨_, h2⟩ := hwalk q c c hq hc
  omega

/-- C17, as stated, fails: a sum `dist[u] + weight` that is exactly `INT_MAX` does not
overflow, but the vertex it reaches keeps the distance `INF` and counts as unreachable.
With the edges `(0,1,INT_MAX)`, `(1,2,-1)`, `(2,1,0)` and `src = 0` no sum overflows, the
cycle `1 → 2 → 1` of weight `-1` is reachable from `src`, and `BellmanFord` returns true. -/
theorem bellmanFord_sentinel_counterexample :
    (∀ e ∈ sentinelEdges, e.src < 3 ∧ e.dest < 3) ∧
    (∀ x ∈ (BellmanFordRun 3 sentinelEdges 0).2, -2147483648 ≤ x ∧ x ≤ INT_MAX) ∧
    NegCycleReachable sentinelEdges 0 ∧
    BellmanFord 3 sentinelEdges 0 = true :=
  ⟨by decide, by decide,
   ⟨1, [⟨0, 1, 2147483647⟩], [⟨2, 1, 0⟩, ⟨1, 2, -1⟩],
     ⟨by decide, rfl, rfl⟩, ⟨by decide, rfl, by decide, rfl, rfl⟩, by decide, by decide⟩,
   by decide⟩

/-- C17, amended: for `V ≥ 1` vertices, edges with endpoints in `[0,V)` and `src` in
`[0,V)`, provided every sum `dist[u] + weight` that is computed is the value of an `int`
below `INT_MAX` (no overflow, and no collision with the sentinel `INF`), `BellmanFord`
returns false if and only if the graph has a negative-weight cycle reachable from `src`,
and returns true otherwise, also when the relaxation loop is left early. -/
theorem bellmanFord_neg_cycle (V : Nat) (edges : List Edge) (src : Nat) (hsrc : src < V)
    (hlt : ∀ e ∈ edges, e.src < V ∧ e.dest < V)
    (hgood : ∀ x ∈ (BellmanFordRun V edges src).2, -2147483648 ≤ x ∧ x < INT_MAX) :
    (BellmanFord V edges src = false ↔ NegCycleReachable edges src) ∧
    (BellmanFord V edges src = true ↔ ¬NegCycleReachable edges src) := by
  have hgood1 : ∀ x ∈ (relaxLoop edges (V - 1) (init src)).sums, Good x :=
    fun x hx => hgood x (List.mem_append_right _ hx)
  have hgood2 : ∀ x ∈ (checkEdges (relaxLoop edges (V - 1) (init src)).dist edges).2,
      Good x := fun x hx => hgood x (List.mem_append_left _ hx)
  obtain ⟨hinv, hcases⟩ := relaxLoop_spec (V - 1) 0 (init src) (distInv_init edges src)
    (rounds_init edges src) hgood1
  have hres : BellmanFord V edges src =
      (checkEdges (relaxLoop edges (V - 1) (init src)).dist edges).1 := rfl
  generalize relaxLoop edges (V - 1) (init src) = st at hinv hcases hres hgood1 hgood2
  have hforward : BellmanFord V edges src = false → NegCycleReachable edges src := by
    intro hfalse
    by_contra hneg
    rw [hres] at hfalse
    rcases hcases with hnone | hrounds
    · have := checkEdges_true st.dist edges hnone
      rw [this] at hfalse
      exact absurd hfalse (by decide)
    · obtain ⟨e, he, hne, hlt1, hmem⟩ := checkEdges_false st.dist edges hfalse
      rw [good_wrap (hgood2 _ hmem)] at hlt1
      obtain ⟨p, hp, hwp⟩ := hinv.walk e.src hne
      obtain ⟨q, hq, hwq, hnd⟩ :=
        exists_simple_walk hneg (e :: p) e.dest ⟨he, rfl, hp⟩
      have hlen := nodup_lt_length hnd (isWalk_vertices_lt hsrc hlt q e.dest hq)
      simp only [List.length_cons, List.length_map] at hlen
      obtain ⟨_, h2⟩ := hrounds q e.dest hq (by omega)
      rw [weight_cons, hwp] at hwq
      omega
  have hbackward : BellmanFord V edges src = true → ¬NegCycleReachable edges src := by
    intro htrue
    rw [hres] at htrue
    exact no_neg_cycle_of_check hinv.src_le htrue hgood2
  refine ⟨⟨hforward, fun hneg => ?_⟩, ⟨hbackward, fun hneg => ?_⟩⟩
  · cases h : BellmanFord V edges src
    · rfl
    · exact absurd hneg (hbackward h)
  · cases h : BellmanFord V edges src
    · exact absurd (hforward h) hneg
    · rfl

theorem bellmanFord_neg_cycle_witness :
    ((0 : Nat) < 5 ∧ (∀ e ∈ mainEdges, e.src < 5 ∧ e.dest < 5) ∧
      ∀ x ∈ (BellmanFordRun 5 mainEdges 0).2, -2147483648 ≤ x ∧ x < INT_MAX) ∧
    ((BellmanFord 5 mainEdges 0 = false ↔ NegCycleReachable mainEdges 0) ∧
     (BellmanFord 5 mainEdges 0 = true ↔ ¬NegCycleReachable mainEdges 0)) :=
  ⟨⟨by decide, by decide, by decide⟩,
   bellmanFord_neg_cycle 5 mainEdges 0 (by decide) (by decide) (by decide)⟩

end BF

/-! ## Spanning trees: counting, exchange of an edge across a cut -/

namespace MST

theorem conn_refl (E : List (Nat × Nat)) (a : Nat) : Conn E a a := Relation.ReflTransGen.refl

theorem conn_trans {E : List (Nat × Nat)} {a b c : Nat} (h1 : Conn E a b) (h2 : Conn E b c) :
    Conn E a c := Relation.ReflTransGen.trans h1 h2

theorem adj_symm {E : List (Nat × Nat)} {a b : Nat} (h : Adj E a b) : Adj E b a := Or.symm h

theorem conn_symm {E : List (Nat × Nat)} {a b : Nat} (h : Conn E a b) : Conn E b a := by
  induction h with
  | refl => exact conn_refl E a
  | tail _ hbc ih => exact Relation.ReflTransGen.head (adj_symm hbc) ih

theorem conn_mono {E E1 : List (Nat × Nat)} (hsub : ∀ e ∈ E, e ∈ E1) {a b : Nat}
    (h : Conn E a b) : Conn E1 a b :=
  Relation.ReflTransGen.mono (fun _ _ hadj => hadj.imp (hsub _) (hsub _)) h

theorem conn_edge {E : List (Nat × Nat)} {e : Nat × Nat} (he : e ∈ E) : Conn E e.1 e.2 :=
  Relation.ReflTransGen.single (Or.inl he)

/-- Connection through one more edge. -/
theorem conn_cons {E : List (Nat × Nat)} {e : Nat × Nat} {x y : Nat}
    (h : Conn (e :: E) x y) :
    Conn E x y ∨ (Conn E x e.1 ∧ Conn E e.2 y) ∨ (Conn E x e.2 ∧ Conn E e.1 y) := by
  induction h with
  | refl => exact Or.inl (conn_refl E x)
  | @tail z y _ hzy ih =>
    have hcase : Adj E z y ∨ (z = e.1 ∧ y = e.2) ∨ (y = e.1 ∧ z = e.2) := by
      rcases hzy with h | h
      · rcases List.mem_cons.1 h with h | h
        · right; left
          have h1 : z = e.1 := congrArg Prod.fst h
          have h2 : y = e.2 := congrArg Prod.snd h
          exact ⟨h1, h2⟩
        · left; exact Or.inl h
      · rcases List.mem_cons.1 h with h | h
        · right; right
          have h1 : y = e.1 := congrArg Prod.fst h
          have h2 : z = e.2 := congrArg Prod.snd h
          exact ⟨h1, h2⟩
        · left; exact Or.inr h
    rcases ih with h1 | ⟨h1, h2⟩ | ⟨h1, h2⟩
    · rcases hcase with h | ⟨rfl, rfl⟩ | ⟨rfl, rfl⟩
      · exact Or.inl (Relation.ReflTransGen.tail h1 h)
      · exact Or.inr (Or.inl ⟨h1, conn_refl E _⟩)
      · exact Or.inr (Or.inr ⟨h1, conn_refl E _⟩)
    · rcases hcase with h | ⟨rfl, rfl⟩ | ⟨rfl, rfl⟩
      · exact Or.inr (Or.inl ⟨h1, Relation.ReflTransGen.tail h2 h⟩)
      · exact Or.inr (Or.inl ⟨h1, conn_refl E _⟩)
      · exact Or.inl h1
    · rcases hcase with h | ⟨rfl, rfl⟩ | ⟨rfl, rfl⟩
      · exact Or.inr (Or.inr ⟨h1, Relation.ReflTransGen.tail h2 h⟩)
      · exact Or.inl h1
      · exact Or.inr (Or.inr ⟨h1, conn_refl E _⟩)

theorem conn_cons_iff {E : List (Nat × Nat)} {e : Nat × Nat} {x y : Nat} :
    Conn (e :: E) x y ↔
      Conn E x y ∨ (Conn E x e.1 ∧ Conn E e.2 y) ∨ (Conn E x e.2 ∧ Conn E e.1 y) := by
  constructor
  · exact conn_cons
  · have hsub : ∀ f ∈ E, f ∈ e :: E := fun f hf => List.mem_cons_of_mem _ hf
    have he : Conn (e :: E) e.1 e.2 := conn_edge (List.mem_cons_self _ _)
    rintro (h | ⟨h1, h2⟩ | ⟨h1, h2⟩)
    · exact conn_mono hsub h
    · exact conn_trans (conn_mono hsub h1) (conn_trans he (conn_mono hsub h2))
    · exact conn_trans (conn_mono hsub h1) (conn_trans (conn_symm he) (conn_mono hsub h2))

/-- An edge whose ends are connected already adds no connection. -/
theorem conn_cons_of_conn {E : List (Nat × Nat)} {e : Nat × Nat} (he : Conn E e.1 e.2)
    {x y : Nat} (h : Conn (e :: E) x y) : Conn E x y := by
  rcases conn_cons h with h | ⟨h1, h2⟩ | ⟨h1, h2⟩
  · exact h
  · exact conn_trans h1 (conn_trans he h2)
  · exact conn_trans h1 (conn_trans (conn_symm he) h2)

theorem conn_nil {a b : Nat} (h : Conn [] a b) : a = b := by
  induction h with
  | refl => rfl
  | tail _ hbc _ =>
    rcases hbc with h | h
    · exact absurd h (List.not_mem_nil _)
    · exact absurd h (List.not_mem_nil _)

/-- A set of representatives of the classes of connected vertices, with its size. -/
theorem exists_reps (n : Nat) :
    ∀ (E : List (Nat × Nat)), (∀ e ∈ E, e.1 < n ∧ e.2 < n) →
      ∃ R : Finset Nat, (∀ r ∈ R, r < n) ∧ (∀ v, v < n → ∃ r ∈ R, Conn E v r) ∧
        (∀ r ∈ R, ∀ r1 ∈ R, Conn E r r1 → r = r1) ∧ n ≤ R.card + E.length ∧
        (Forest E → R.card + E.length = n)
  | [], _ => by
    refine ⟨Finset.range n, fun r hr => Finset.mem_range.1 hr,
      fun v hv => ⟨v, Finset.mem_range.2 hv, conn_refl _ v⟩,
      fun r _ r1 _ h => conn_nil h, by simp, fun _ => by simp⟩
  | e :: E, hlt => by
    obtain ⟨R, hR, hrep, hdist, hcard, hforest⟩ :=
      exists_reps n E (fun f hf => hlt f (List.mem_cons_of_mem _ hf))
    obtain ⟨ha, hb⟩ := hlt e (List.mem_cons_self _ _)
    obtain ⟨ra, hra, hca⟩ := hrep e.1 ha
    obtain ⟨rb, hrb, hcb⟩ := hrep e.2 hb
    have hsub : ∀ f ∈ E, f ∈ e :: E := fun f hf => List.mem_cons_of_mem _ hf
    by_cases hab : ra = rb
    · subst hab
      have hconn : Conn E e.1 e.2 := conn_trans hca (conn_symm hcb)
      refine ⟨R, hR, fun v hv => ?_, fun r hr r1 hr1 h => ?_, ?_, fun hf => ?_⟩
      · obtain ⟨r, hr, hc⟩ := hrep v hv
        exact ⟨r, hr, conn_mono hsub hc⟩
      · exact hdist r hr r1 hr1 (conn_cons_of_conn hconn h)
      · simp only [List.length_cons]; omega
      · exact absurd hconn hf.1
    · refine ⟨R.erase rb, fun r hr => hR r (Finset.mem_of_mem_erase hr), fun v hv => ?_,
        fun r hr r1 hr1 h => ?_, ?_, fun hf => ?_⟩
      · obtain ⟨r, hr, hc⟩ := hrep v hv
        by_cases hrrb : r = rb
        · subst hrrb
          refine ⟨ra, Finset.mem_erase.2 ⟨hab, hra⟩, ?_⟩
          have h1 : Conn (e :: E) v e.2 := conn_mono hsub (conn_trans hc (conn_symm hcb))
          have h2 : Conn (e :: E) e.2 e.1 := conn_symm (conn_edge (List.mem_cons_self _ _))
          exact conn_trans h1 (conn_trans h2 (conn_mono hsub hca))
        · exact ⟨r, Finset.mem_erase.2 ⟨hrrb, hr⟩, conn_mono hsub hc⟩
      · obtain ⟨hne, hr⟩ := Finset.mem_erase.1 hr
        obtain ⟨hne1, hr1⟩ := Finset.mem_erase.1 hr1
        rcases conn_cons h with h | ⟨_, h2⟩ | ⟨h1, _⟩
        · exact hdist r hr r1 hr1 h
        · exact absurd (hdist r1 hr1 rb hrb (conn_trans (conn_symm h2) hcb)) hne1
        · exact absurd (hdist r hr rb hrb (conn_trans h1 hcb)) hne
      · have := Finset.card_erase_of_mem hrb
        have hpos : 0 < R.card := Finset.card_pos.2 ⟨rb, hrb⟩
        simp only [List.length_cons]
        omega
      · have := Finset.card_erase_of_mem hrb
        have hpos : 0 < R.card := Finset.card_pos.2 ⟨rb, hrb⟩
        have := hforest hf.2
        simp only [List.length_cons]
        omega

/-- A list of edges that connects `n ≥ 1` vertices has at least `n - 1` edges. -/
theorem connected_length {n : Nat} {E : List (Nat × Nat)} (hlt : ∀ e ∈ E, e.1 < n ∧ e.2 < n)
    (hconn : ∀ a, a < n → ∀ b, b < n → Conn E a b) : n ≤ E.length + 1 := by
  obtain ⟨R, hR, _, hdist, hcard, _⟩ := exists_reps n E hlt
  have h1 : R.card ≤ 1 :=
    Finset.card_le_one.2 (fun r hr r1 hr1 => hdist r hr r1 hr1 (hconn r (hR r hr) r1 (hR r1 hr1)))
  omega

/-- A forest on `n ≥ 1` vertices has at most `n - 1` edges, and connects all the vertices
when it has `n - 1`; a forest that connects all the vertices has `n - 1` edges. -/
theorem forest_length {n : Nat} {E : List (Nat × Nat)} (hn : 1 ≤ n)
    (hlt : ∀ e ∈ E, e.1 < n ∧ e.2 < n) (hf : Forest E) :
    E.length + 1 ≤ n ∧ (E.length + 1 = n → ∀ a, a < n → ∀ b, b < n → Conn E a b) ∧
    ((∀ a, a < n → ∀ b, b < n → Conn E a b) → E.length + 1 = n) := by
  obtain ⟨R, hR, hrep, hdist, _, hcard⟩ := exists_reps n E hlt
  have hc := hcard hf
  obtain ⟨r0, hr0, _⟩ := hrep 0 (by omega)
  have hpos : 0 < R.card := Finset.card_pos.2 ⟨r0, hr0⟩
  refine ⟨by omega, fun hlen a ha b hb => ?_, fun hconn => ?_⟩
  · have h1 : R.card ≤ 1 := by omega
    obtain ⟨ra, hra, hca⟩ := hrep a ha
    obtain ⟨rb, hrb, hcb⟩ := hrep b hb
    have := Finset.card_le_one.1 h1 ra hra rb hrb
    subst this
    exact conn_trans hca (conn_symm hcb)
  · have h1 : R.card ≤ 1 :=
      Finset.card_le_one.2 (fun r hr r1 hr1 =>
        hdist r hr r1 hr1 (hconn r (hR r hr) r1 (hR r1 hr1)))
    omega

theorem forest_of_acyclic : ∀ (E : List (Nat × Nat)), Acyclic E → Forest E
  | [], _ => trivial
  | e :: E, h => by
    refine ⟨h [] e E rfl, forest_of_acyclic E ?_⟩
    intro E1 f E2 hE hc
    refine h (e :: E1) f E2 (by rw [hE]; rfl) ?_
    exact conn_mono (fun g hg => List.mem_cons_of_mem _ hg) hc

/-- A spanning tree on `n ≥ 1` vertices is a connecting list of `n - 1` edges. -/
theorem span_of_spanningTree {n : Nat} {G : Nat → Nat → Int} {T : List (Nat × Nat)}
    (hn : 1 ≤ n) (h : IsSpanningTree n G T) : Span n G T := by
  obtain ⟨hedge, hconn, hac⟩ := h
  have hlt : ∀ e ∈ T, e.1 < n ∧ e.2 < n := fun e he => ⟨(hedge e he).1, (hedge e he).2.1⟩
  exact ⟨hedge, hconn, (forest_length hn hlt (forest_of_acyclic T hac)).2.2 hconn⟩

/-- A connecting list of `n - 1` edges is a spanning tree. -/
theorem spanningTree_of_span {n : Nat} {G : Nat → Nat → Int} {T : List (Nat × Nat)}
    (h : Span n G T) : IsSpanningTree n G T := by
  obtain ⟨hedge, hconn, hlen⟩ := h
  refine ⟨hedge, hconn, ?_⟩
  intro E1 e E2 hE hc
  have hlt : ∀ f ∈ E1 ++ E2, f.1 < n ∧ f.2 < n := by
    intro f hf
    have hfT : f ∈ T := by
      rw [hE]
      rcases List.mem_append.1 hf with h | h
      · exact List.mem_append_left _ h
      · exact List.mem_append_right _ (List.mem_cons_of_mem _ h)
    exact ⟨(hedge f hfT).1, (hedge f hfT).2.1⟩
  have hconn1 : ∀ a, a < n → ∀ b, b < n → Conn (E1 ++ E2) a b := by
    intro a ha b hb
    have h1 : Conn (e :: (E1 ++ E2)) a b := by
      refine conn_mono ?_ (hconn a ha b hb)
      intro f hf
      rw [hE] at hf
      rcases List.mem_append.1 hf with h | h
      · exact List.mem_cons_of_mem _ (List.mem_append_left _ h)
      · rcases List.mem_cons.1 h with h | h
        · rw [h]; exact List.mem_cons_self _ _
        · exact List.mem_cons_of_mem _ (List.mem_append_right _ h)
    exact conn_cons_of_conn hc h1
  have h1 := connected_length hlt hconn1
  have h2 : T.length = E1.length + E2.length + 1 := by
    rw [hE]
    simp only [List.length_append, List.length_cons]
    omega
  simp only [List.length_append] at h1
  omega

/-- Edges that do not cross a cut connect no vertex inside to one outside. -/
theorem conn_no_cross {S : Nat → Prop} {N : List (Nat × Nat)} (hN : ∀ f ∈ N, ¬Crosses S f)
    {a b : Nat} (h : Conn N a b) : S a → S b := by
  induction h with
  | refl => exact id
  | @tail b c _ hbc ih =>
    intro ha
    have hb := ih ha
    by_contra hc
    rcases hbc with h | h
    · exact hN _ h (Or.inl ⟨hb, hc⟩)
    · exact hN _ h (Or.inr ⟨hc, hb⟩)

/-- Among crossing edges that connect `a` inside the cut to `b` outside, one can be
replaced by the edge `(a, b)`. -/
theorem exists_cross_edge {S : Nat → Prop} {a b : Nat} (ha : S a) (hb : ¬S b)
    (N : List (Nat × Nat)) (hN : ∀ f ∈ N, ¬Crosses S f) :
    ∀ (C : List (Nat × Nat)), (∀ f ∈ C, Crosses S f) → Conn (C ++ N) a b →
      ∃ e1 ∈ C, ∃ E0 : List (Nat × Nat), (∀ g ∈ E0, g ∈ C ++ N ∧ g ≠ e1) ∧
        Conn ((a, b) :: E0) e1.1 e1.2
  | [], _, h => absurd (conn_no_cross hN h ha) hb
  | f :: C, hC, h => by
    by_cases hc : Conn (C ++ N) a b
    · obtain ⟨e1, he1, E0, hE0, hconn⟩ :=
        exists_cross_edge ha hb N hN C (fun g hg => hC g (List.mem_cons_of_mem _ hg)) hc
      exact ⟨e1, List.mem_cons_of_mem _ he1, E0,
        fun g hg => ⟨List.mem_cons_of_mem _ (hE0 g hg).1, (hE0 g hg).2⟩, hconn⟩
    · refine ⟨f, List.mem_cons_self _ _, C ++ N, fun g hg => ⟨List.mem_cons_of_mem _ hg, ?_⟩, ?_⟩
      · rintro rfl
        apply hc
        refine conn_mono ?_ h
        intro g1 hg1
        rcases List.mem_cons.1 hg1 with h1 | h1
        · rw [h1]; exact hg
        · exact h1
      · have hsub : ∀ g ∈ C ++ N, g ∈ (a, b) :: (C ++ N) :=
          fun g hg => List.mem_cons_of_mem _ hg
        have hab : Conn ((a, b) :: (C ++ N)) a b :=
          conn_edge (e := (a, b)) (List.mem_cons_self _ _)
        rcases conn_cons h with h1 | ⟨h1, h2⟩ | ⟨h1, h2⟩
        · exact absurd h1 hc
        · exact conn_trans (conn_symm (conn_mono hsub h1))
            (conn_trans hab (conn_symm (conn_mono hsub h2)))
        · exact conn_trans (conn_mono hsub h2)
            (conn_trans (conn_symm hab) (conn_mono hsub h1))

theorem totalWeight_cons (G : Nat → Nat → Int) (e : Nat × Nat) (T : List (Nat × Nat)) :
    totalWeight G (e :: T) = G e.1 e.2 + totalWeight G T := by
  simp [totalWeight]

theorem totalWeight_perm (G : Nat → Nat → Int) {T T1 : List (Nat × Nat)} (h : T.Perm T1) :
    totalWeight G T = totalWeight G T1 :=
  (h.map _).sum_eq

theorem subperm_of_cons_not_mem {F T0 : List (Nat × Nat)} {e : Nat × Nat} (he : e ∉ F)
    (h : F.Subperm (e :: T0)) : F.Subperm T0 := by
  obtain ⟨l, hl, hsub⟩ := h
  cases hsub with
  | cons _ h1 => exact ⟨l, hl, h1⟩
  | cons₂ _ h1 =>
    exact absurd (hl.subset (List.mem_cons_self _ _)) he

/-- The edges of a list that cross a cut and those that do not. -/
theorem exists_cross_split (T : List (Nat × Nat)) (S : Nat → Prop) :
    ∃ C N : List (Nat × Nat), (∀ f ∈ C, Crosses S f) ∧ (∀ f ∈ N, ¬Crosses S f) ∧
      ∀ g, g ∈ T ↔ g ∈ C ++ N := by
  classical
  refine ⟨T.filter (fun f => Crosses S f), T.filter (fun f => ¬Crosses S f),
    fun f hf => by simpa using (List.mem_filter.1 hf).2,
    fun f hf => by simpa using (List.mem_filter.1 hf).2, fun g => ⟨fun hg => ?_, fun hg => ?_⟩⟩
  · by_cases hc : Crosses S g
    · exact List.mem_append_left _ (List.mem_filter.2 ⟨hg, by simpa using hc⟩)
    · exact List.mem_append_right _ (List.mem_filter.2 ⟨hg, by simpa using hc⟩)
  · rcases List.mem_append.1 hg with h | h
    · exact (List.mem_filter.1 h).1
    · exact (List.mem_filter.1 h).1

/-- Exchange across a cut: a connecting list `T` of `n - 1` edges that contains `F`, none
of whose edges crosses the cut, can be changed into one that contains `F` and the
lightest crossing edge `(a, b)` of the graph and is not heavier. -/
theorem exchange {n : Nat} {G : Nat → Nat → Int} {F T : List (Nat × Nat)} {S : Nat → Prop}
    {a b : Nat} (hT : Span n G T) (hFT : F.Subperm T) (hF : ∀ f ∈ F, ¬Crosses S f)
    (hab : IsEdge n G (a, b)) (ha : S a) (hb : ¬S b)
    (hmin : ∀ g, IsEdge n G g → Crosses S g → G a b ≤ G g.1 g.2) :
    ∃ T1, Span n G T1 ∧ ((a, b) :: F).Subperm T1 ∧ totalWeight G T1 ≤ totalWeight G T := by
  obtain ⟨hedge, hconn, hlen⟩ := hT
  obtain ⟨C, N, hC, hN, hiff⟩ := exists_cross_split T S
  obtain ⟨e1, he1, E0, hE0, hc1⟩ := exists_cross_edge ha hb N hN C hC
    (conn_mono (fun g hg => (hiff g).1 hg) (hconn a hab.1 b hab.2.1))
  have hback : ∀ g ∈ C ++ N, g ∈ T := fun g hg => (hiff g).2 hg
  have he1T : e1 ∈ T := hback e1 (List.mem_append_left _ he1)
  have he1c : Crosses S e1 := hC e1 he1
  have he1F : e1 ∉ F := fun h => hF e1 h he1c
  obtain ⟨T0, hperm, hFT0, hin, hout⟩ : ∃ T0 : List (Nat × Nat), T.Perm (e1 :: T0) ∧
      F.Subperm T0 ∧ (∀ g ∈ T, g ≠ e1 → g ∈ T0) ∧ (∀ g ∈ T0, g ∈ T) := by
    obtain ⟨s, t, hst⟩ := List.append_of_mem he1T
    have hperm : T.Perm (e1 :: (s ++ t)) := by rw [hst]; exact List.perm_middle
    refine ⟨s ++ t, hperm, subperm_of_cons_not_mem he1F (hFT.trans hperm.subperm), ?_, ?_⟩
    · intro g hg hne
      rw [hst] at hg
      rcases List.mem_append.1 hg with h | h
      · exact List.mem_append_left _ h
      · rcases List.mem_cons.1 h with h | h
        · exact absurd h hne
        · exact List.mem_append_right _ h
    · intro g hg
      rw [hst]
      rcases List.mem_append.1 hg with h | h
      · exact List.mem_append_left _ h
      · exact List.mem_append_right _ (List.mem_cons_of_mem _ h)
  have hE0sub : ∀ g ∈ (a, b) :: E0, g ∈ (a, b) :: T0 := by
    intro g hg
    rcases List.mem_cons.1 hg with h | h
    · rw [h]; exact List.mem_cons_self _ _
    · exact List.mem_cons_of_mem _ (hin g (hback g (hE0 g h).1) (hE0 g h).2)
  have hc2 : Conn ((a, b) :: T0) e1.1 e1.2 := conn_mono hE0sub hc1
  have hTsub : ∀ g ∈ T, g ∈ e1 :: (a, b) :: T0 := by
    intro g hg
    by_cases hge : g = e1
    · rw [hge]; exact List.mem_cons_self _ _
    · exact List.mem_cons_of_mem _ (List.mem_cons_of_mem _ (hin g hg hge))
  refine ⟨(a, b) :: T0, ⟨?_, ?_, ?_⟩, ?_, ?_⟩
  · intro g hg
    rcases List.mem_cons.1 hg with h | h
    · rw [h]; exact hab
    · exact hedge g (hout g h)
  · intro x hx y hy
    exact conn_cons_of_conn hc2 (conn_mono hTsub (hconn x hx y hy))
  · have := hperm.length_eq
    simp only [List.length_cons] at this ⊢
    omega
  · exact (List.subperm_cons (a, b)).2 hFT0
  · rw [totalWeight_perm G hperm, totalWeight_cons, totalWeight_cons]
    have := hmin e1 (hedge e1 he1T) he1c
    have h3 : G (a, b).1 (a, b).2 = G a b := rfl
    omega

/-- A promising list of `n - 1` edges that connects all the vertices is a spanning tree of
minimum weight. -/
theorem mst_of_promising {n : Nat} {G : Nat → Nat → Int} {F : List (Nat × Nat)} (hn : 1 ≤ n)
    (hspan : Span n G F) (hprom : Promising n G F) :
    IsSpanningTree n G F ∧
    ∀ T, IsSpanningTree n G T → totalWeight G F ≤ totalWeight G T := by
  refine ⟨spanningTree_of_span hspan, fun T hT => ?_⟩
  obtain ⟨T1, hT1, hsub, hw⟩ := hprom T (span_of_spanningTree hn hT)
  have hlen : T1.length ≤ F.length := by
    have h1 := hT1.2.2
    have h2 := hspan.2.2
    omega
  have hperm : F.Perm T1 := hsub.perm_of_length_le hlen
  rw [totalWeight_perm G hperm]
  exact hw

theorem promising_nil (n : Nat) (G : Nat → Nat → Int) : Promising n G [] :=
  fun T hT => ⟨T, hT, List.nil_subperm, le_refl _⟩

theorem promising_perm {n : Nat} {G : Nat → Nat → Int} {F F1 : List (Nat × Nat)}
    (h : F.Perm F1) (hprom : Promising n G F) : Promising n G F1 := by
  intro T hT
  obtain ⟨T1, hT1, hsub, hw⟩ := hprom T hT
  exact ⟨T1, hT1, h.symm.subperm.trans hsub, hw⟩

/-- A walk of the graph from inside a cut to outside has an edge that crosses the cut. -/
theorem exists_crossing {n : Nat} {G : Nat → Nat → Int} {S : Nat → Prop} {a b : Nat}
    (h : Relation.ReflTransGen (fun x y => x < n ∧ y < n ∧ G x y ≠ 0) a b) :
    S a → ¬S b → ∃ x y, x < n ∧ y < n ∧ G x y ≠ 0 ∧ S x ∧ ¬S y := by
  induction h with
  | refl => intro ha hb; exact absurd ha hb
  | @tail b c _ hbc ih =>
    intro ha hc
    by_cases hb : S b
    · exact ⟨b, c, hbc.1, hbc.2.1, hbc.2.2, hb, hc⟩
    · exact ih ha hb

/-- A graph in which the vertex `c` is adjacent to every other vertex is connected. -/
theorem connected_of_hub {n : Nat} {G : Nat → Nat → Int} {c : Nat} (hc : c < n)
    (h : ∀ v, v < n → v ≠ c → G v c ≠ 0 ∧ G c v ≠ 0) : Connected n G := by
  intro a ha b hb
  have h1 : Relation.ReflTransGen (fun x y => x < n ∧ y < n ∧ G x y ≠ 0) a c := by
    by_cases hac : a = c
    · rw [hac]
    · exact Relation.ReflTransGen.single ⟨ha, hc, (h a ha hac).1⟩
  have h2 : Relation.ReflTransGen (fun x y => x < n ∧ y < n ∧ G x y ≠ 0) c b := by
    by_cases hbc : b = c
    · rw [hbc]
    · exact Relation.ReflTransGen.single ⟨hc, hb, (h b hb hbc).2⟩
  exact Relation.ReflTransGen.trans h1 h2

end MST

/-! ## Kruskal: the edge list, the sort, and the spanning tree that is built -/

namespace Kruskal

open FordFulkerson (setAt setAt_same setAt_other)
open MST

theorem mem_buildRow (G : Nat → Nat → Int) (i : Nat) :
    ∀ (m : Nat) (acc : List Edge) (e : Edge),
      e ∈ (List.range m).foldl
          (fun acc j => if G i j ≠ 0 then acc ++ [(⟨i, j, G i j⟩ : Edge)] else acc) acc ↔
        e ∈ acc ∨ ∃ j, j < m ∧ G i j ≠ 0 ∧ e = ⟨i, j, G i j⟩ := by
  intro m
  induction m with
  | zero =>
    intro acc e
    simp
  | succ m ih =>
    intro acc e
    rw [List.range_succ, List.foldl_append]
    simp only [List.foldl_cons, List.foldl_nil]
    by_cases hG : G i m ≠ 0
    · rw [if_pos hG, List.mem_append, ih, List.mem_singleton]
      constructor
      · rintro ((h | ⟨j, hj, hg, he⟩) | h)
        · exact Or.inl h
        · exact Or.inr ⟨j, Nat.lt_succ_of_lt hj, hg, he⟩
        · exact Or.inr ⟨m, Nat.lt_succ_self m, hG, h⟩
      · rintro (h | ⟨j, hj, hg, he⟩)
        · exact Or.inl (Or.inl h)
        · rcases Nat.lt_succ_iff_lt_or_eq.1 hj with hj | rfl
          · exact Or.inl (Or.inr ⟨j, hj, hg, he⟩)
          · exact Or.inr he
    · rw [if_neg hG, ih]
      constructor
      · rintro (h | ⟨j, hj, hg, he⟩)
        · exact Or.inl h
        · exact Or.inr ⟨j, Nat.lt_succ_of_lt hj, hg, he⟩
      · rintro (h | ⟨j, hj, hg, he⟩)
        · exact Or.inl h
        · rcases Nat.lt_succ_iff_lt_or_eq.1 hj with hj | rfl
          · exact Or.inr ⟨j, hj, hg, he⟩
          · exact absurd hg hG

theorem mem_buildEdges_fold (G : Nat → Nat → Int) :
    ∀ (m : Nat) (e : Edge),
      e ∈ (List.range m).foldl (fun acc k => buildRow G (k + 1) acc) [] ↔
        ∃ i j, j < i ∧ i < m + 1 ∧ G i j ≠ 0 ∧ e = ⟨i, j, G i j⟩ := by
  intro m
  induction m with
  | zero =>
    intro e
    simp only [List.range_zero, List.foldl_nil, List.not_mem_nil, false_iff]
    rintro ⟨i, j, hj, hi, _⟩
    omega
  | succ m ih =>
    intro e
    rw [List.range_succ, List.foldl_append]
    simp only [List.foldl_cons, List.foldl_nil]
    have h1 : ∀ X : List Edge, e ∈ buildRow G (m + 1) X ↔
        e ∈ X ∨ ∃ j, j < m + 1 ∧ G (m + 1) j ≠ 0 ∧ e = ⟨m + 1, j, G (m + 1) j⟩ :=
      fun X => mem_buildRow G (m + 1) (m + 1) X e
    rw [h1, ih]
    constructor
    · rintro (⟨i, j, hj, hi, hg, he⟩ | ⟨j, hj, hg, he⟩)
      · exact ⟨i, j, hj, by omega, hg, he⟩
      · exact ⟨m + 1, j, hj, by omega, hg, he⟩
    · rintro ⟨i, j, hj, hi, hg, he⟩
      rcases Nat.lt_succ_iff_lt_or_eq.1 hi with hi | rfl
      · exact Or.inl ⟨i, j, hj, hi, hg, he⟩
      · exact Or.inr ⟨j, hj, hg, he⟩

/-- The edge list built from `G`: one entry `(i, j, G[i][j])` for each non-zero entry
below the diagonal. -/
theorem mem_buildEdges (n : Nat) (G : Nat → Nat → Int) (e : Edge) :
    e ∈ buildEdges n G ↔ ∃ i j, j < i ∧ i < n ∧ G i j ≠ 0 ∧ e = ⟨i, j, G i j⟩ := by
  unfold buildEdges
  rw [mem_buildEdges_fold]
  constructor
  · rintro ⟨i, j, hj, hi, hg, he⟩
    exact ⟨i, j, hj, by omega, hg, he⟩
  · rintro ⟨i, j, hj, hi, hg, he⟩
    exact ⟨i, j, hj, by omega, hg, he⟩

theorem bubbleAux_perm : ∀ (l : List Edge) (a : Edge), (bubbleAux a l).Perm (a :: l)
  | [], a => List.Perm.refl _
  | b :: rest, a => by
    unfold bubbleAux
    split
    · exact ((bubbleAux_perm rest a).cons b).trans (List.Perm.swap a b rest)
    · exact (bubbleAux_perm rest b).cons a

theorem bubblePass_perm : ∀ (l : List Edge), (bubblePass l).Perm l
  | [] => List.Perm.refl _
  | a :: rest => bubbleAux_perm rest a

theorem iterate_bubblePass_perm : ∀ (k : Nat) (l : List Edge),
    (Nat.iterate bubblePass k l).Perm l
  | 0, _ => List.Perm.refl _
  | k + 1, l => (iterate_bubblePass_perm k (bubblePass l)).trans (bubblePass_perm l)

/-- The function `sort` returns a permutation of its input. -/
theorem sort_perm (l : List Edge) : (sort l).Perm l := iterate_bubblePass_perm _ l

theorem bubbleAux_sorted : ∀ (S : List Edge) (a : Edge), (∀ s ∈ S, a.w ≤ s.w) →
    S.Pairwise (fun x y => x.w ≤ y.w) → bubbleAux a S = a :: S
  | [], _, _, _ => rfl
  | b :: rest, a, ha, hS => by
    have hab := ha b (List.mem_cons_self _ _)
    unfold bubbleAux
    rw [if_neg (by omega)]
    rw [bubbleAux_sorted rest b (fun s hs => List.rel_of_pairwise_cons hS hs)
      (List.pairwise_cons.1 hS).2]

/-- One sweep moves a largest element of the unsorted part in front of the sorted part. -/
theorem bubbleAux_spec (S : List Edge) (hS : S.Pairwise (fun x y => x.w ≤ y.w)) :
    ∀ (P : List Edge) (a : Edge), (∀ p ∈ a :: P, ∀ s ∈ S, p.w ≤ s.w) →
      ∃ Q m, bubbleAux a (P ++ S) = Q ++ m :: S ∧ (Q ++ [m]).Perm (a :: P) ∧
        ∀ q ∈ Q, q.w ≤ m.w
  | [], a, h => by
    refine ⟨[], a, ?_, List.Perm.refl _, fun q hq => absurd hq (List.not_mem_nil q)⟩
    exact bubbleAux_sorted S a (h a (List.mem_cons_self _ _)) hS
  | b :: P, a, h => by
    by_cases hab : a.w > b.w
    · obtain ⟨Q, m, heq, hperm, hle⟩ := bubbleAux_spec S hS P a (by
        intro p hp s hs
        rcases List.mem_cons.1 hp with rfl | hp
        · exact h _ (List.mem_cons_self _ _) s hs
        · exact h p (List.mem_cons_of_mem _ (List.mem_cons_of_mem _ hp)) s hs)
      refine ⟨b :: Q, m, ?_, ?_, ?_⟩
      · show bubbleAux a (b :: (P ++ S)) = _
        unfold bubbleAux
        rw [if_pos hab, heq]
        rfl
      · exact (hperm.cons b).trans (List.Perm.swap a b P)
      · intro q hq
        rcases List.mem_cons.1 hq with rfl | hq
        · have ham : a ∈ Q ++ [m] := hperm.symm.subset (List.mem_cons_self _ _)
          rcases List.mem_append.1 ham with h1 | h1
          · have := hle a h1; omega
          · have : a = m := List.mem_singleton.1 h1
            subst this; omega
        · exact hle q hq
    · obtain ⟨Q, m, heq, hperm, hle⟩ := bubbleAux_spec S hS P b (by
        intro p hp s hs
        exact h p (List.mem_cons_of_mem _ hp) s hs)
      refine ⟨a :: Q, m, ?_, ?_, ?_⟩
      · show bubbleAux a (b :: (P ++ S)) = _
        unfold bubbleAux
        rw [if_neg hab, heq]
        rfl
      · exact hperm.cons a
      · intro q hq
        rcases List.mem_cons.1 hq with rfl | hq
        · have hbm : b ∈ Q ++ [m] := hperm.symm.subset (List.mem_cons_self _ _)
          rcases List.mem_append.1 hbm with h1 | h1
          · have := hle b h1; omega
          · have : b = m := List.mem_singleton.1 h1
            subst this; omega
        · exact hle q hq

theorem part_bubblePass {k : Nat} {l : List Edge} (h : Part k l) (hk : k < l.length) :
    Part (k + 1) (bubblePass l) := by
  obtain ⟨P, S, rfl, hlen, hS, hPS⟩ := h
  cases P with
  | nil => simp at hk; omega
  | cons a P =>
    obtain ⟨Q, m, heq, hperm, hle⟩ := bubbleAux_spec S hS P a hPS
    have hmem : ∀ x ∈ Q ++ [m], x ∈ a :: P := fun x hx => hperm.subset hx
    refine ⟨Q, m :: S, ?_, by simp [hlen], ?_, ?_⟩
    · show bubbleAux a (P ++ S) = _
      exact heq
    · exact List.pairwise_cons.2
        ⟨fun s hs => hPS m (hmem m (List.mem_append_right _ (List.mem_singleton.2 rfl))) s hs, hS⟩
    · intro q hq s hs
      rcases List.mem_cons.1 hs with rfl | hs
      · exact hle q hq
      · exact hPS q (hmem q (List.mem_append_left _ hq)) s hs

theorem part_iterate : ∀ (j k : Nat) (l : List Edge), Part k l → k + j ≤ l.length →
    Part (k + j) (Nat.iterate bubblePass j l)
  | 0, _, _, h, _ => h
  | j + 1, k, l, h, hk => by
    have h1 := part_bubblePass h (by omega)
    have h2 := part_iterate j (k + 1) (bubblePass l) h1 (by
      rw [(bubblePass_perm l).length_eq]; omega)
    have he : k + (j + 1) = k + 1 + j := by omega
    rw [he]
    exact h2

/-- The function `sort` leaves the list in non-decreasing order of weight. -/
theorem sort_sorted (l : List Edge) : (sort l).Pairwise (fun x y => x.w ≤ y.w) := by
  have h0 : Part 0 l := ⟨l, [], by simp, rfl, List.Pairwise.nil, fun _ _ s hs =>
    absurd hs (List.not_mem_nil s)⟩
  have h1 := part_iterate (l.length - 1) 0 l h0 (by omega)
  obtain ⟨P, S, heq, hlen, hS, hPS⟩ := h1
  have hl : (sort l).length = l.length := (sort_perm l).length_eq
  have heq1 : sort l = P ++ S := heq
  rw [heq1]
  rw [heq1, List.length_append] at hl
  refine List.pairwise_append.2 ⟨?_, hS, hPS⟩
  cases P with
  | nil => exact List.Pairwise.nil
  | cons a P =>
    cases P with
    | nil => exact List.pairwise_singleton _ _
    | cons b P => simp at hl; omega

/-- The function `union1` in closed form. -/
theorem union1_fold (belongs : Nat → Nat) (c1 c2 : Nat) :
    ∀ (m x : Nat),
      (List.range m).foldl (fun b i => if b i = c2 then setAt b i c1 else b) belongs x =
        if x < m ∧ belongs x = c2 then c1 else belongs x := by
  intro m
  induction m with
  | zero => intro x; simp
  | succ m ih =>
    intro x
    rw [List.range_succ, List.foldl_append]
    simp only [List.foldl_cons, List.foldl_nil]
    have hm : (List.range m).foldl (fun b i => if b i = c2 then setAt b i c1 else b) belongs m =
        belongs m := by
      rw [ih m, if_neg (fun h => lt_irrefl m h.1)]
    rw [hm]
    by_cases hc : belongs m = c2
    · rw [if_pos hc]
      by_cases hx : x = m
      · subst hx
        rw [setAt_same, if_pos ⟨Nat.lt_succ_self x, hc⟩]
      · rw [setAt_other _ _ hx, ih x]
        by_cases hxm : x < m
        · have h1 : x < m + 1 := Nat.lt_succ_of_lt hxm
          simp only [h1, hxm, true_and]
        · have h1 : ¬ x < m + 1 := fun h => (Nat.lt_succ_iff_lt_or_eq.1 h).elim hxm hx
          rw [if_neg (fun h => hxm h.1), if_neg (fun h => h1 h.1)]
    · rw [if_neg hc, ih x]
      by_cases hx : x = m
      · subst hx
        rw [if_neg (fun h => lt_irrefl x h.1), if_neg (fun h => hc h.2)]
      · by_cases hxm : x < m
        · have h1 : x < m + 1 := Nat.lt_succ_of_lt hxm
          simp only [h1, hxm, true_and]
        · have h1 : ¬ x < m + 1 := fun h => (Nat.lt_succ_iff_lt_or_eq.1 h).elim hxm hx
          rw [if_neg (fun h => hxm h.1), if_neg (fun h => h1 h.1)]

theorem union1_apply (n : Nat) (belongs : Nat → Nat) (c1 c2 x : Nat) :
    union1 n belongs c1 c2 x = if x < n ∧ belongs x = c2 then c1 else belongs x :=
  union1_fold belongs c1 c2 n x

theorem pairs_append (l : List Edge) (e : Edge) :
    (pairs (l ++ [e])).reverse = (e.u, e.v) :: (pairs l).reverse := by
  simp [pairs]

/-- Accepting the edge `e`, whose ends have different labels, keeps the invariant. -/
theorem kinv_accept {n : Nat} {G : Nat → Nat → Int} {elist P R : List Edge} {e : Edge}
    {st : State} (hel : EdgeList n G elist) (hsplit : elist = P ++ e :: R)
    (hinv : KInv n G elist P st) (hne : st.belongs e.u ≠ st.belongs e.v) :
    KInv n G elist (P ++ [e])
      { belongs := union1 n st.belongs (st.belongs e.u) (st.belongs e.v),
        spanlist := st.spanlist ++ [e] } := by
  have heel : e ∈ elist := by rw [hsplit]; exact List.mem_append_right _ (List.mem_cons_self _ _)
  obtain ⟨hu, hv, hw, hG⟩ := hel.edge e heel
  have hnot : ¬Conn (pairs st.spanlist).reverse e.u e.v :=
    fun h => hne ((hinv.label e.u e.v hu hv).2 h)
  have hFlt : ∀ f ∈ (pairs st.spanlist).reverse, f.1 < n ∧ f.2 < n ∧
      Conn (pairs st.spanlist).reverse f.1 f.2 := by
    intro f hf
    have hf1 : f ∈ pairs st.spanlist := List.mem_reverse.1 hf
    obtain ⟨a, ha, rfl⟩ := List.mem_map.1 hf1
    obtain ⟨h1, h2, _⟩ := hel.edge a (hinv.mem a ha)
    exact ⟨h1, h2, conn_edge hf⟩
  refine ⟨?_, ?_, ?_, ?_, ?_⟩
  · intro a ha
    rcases List.mem_append.1 ha with h | h
    · exact hinv.mem a h
    · rw [List.mem_singleton.1 h]; exact heel
  · intro x y hx hy
    show union1 n st.belongs (st.belongs e.u) (st.belongs e.v) x =
      union1 n st.belongs (st.belongs e.u) (st.belongs e.v) y ↔
      Conn (pairs (st.spanlist ++ [e])).reverse x y
    rw [pairs_append, conn_cons_iff, union1_apply, union1_apply,
      ← hinv.label x y hx hy, ← hinv.label x e.u hx hu, ← hinv.label e.v y hv hy,
      ← hinv.label x e.v hx hv, ← hinv.label e.u y hu hy]
    simp only [hx, hy, true_and]
    by_cases h1 : st.belongs x = st.belongs e.v <;> by_cases h2 : st.belongs y = st.belongs e.v
    · rw [if_pos h1, if_pos h2]
      simp only [true_iff]
      left; omega
    · rw [if_pos h1, if_neg h2]
      constructor
      · intro h; right; right; exact ⟨h1, h⟩
      · rintro (h | ⟨h3, h4⟩ | ⟨_, h4⟩)
        · omega
        · omega
        · exact h4
    · rw [if_neg h1, if_pos h2]
      constructor
      · intro h; right; left; exact ⟨h, h2.symm⟩
      · rintro (h | ⟨h3, _⟩ | ⟨h3, _⟩)
        · omega
        · exact h3
        · omega
    · rw [if_neg h1, if_neg h2]
      constructor
      · intro h; left; exact h
      · rintro (h | ⟨_, h4⟩ | ⟨h3, _⟩)
        · exact h
        · omega
        · omega
  · show Forest (pairs (st.spanlist ++ [e])).reverse
    rw [pairs_append]
    exact ⟨hnot, hinv.forest⟩
  · intro a ha
    show union1 n st.belongs (st.belongs e.u) (st.belongs e.v) a.u =
      union1 n st.belongs (st.belongs e.u) (st.belongs e.v) a.v
    rw [union1_apply, union1_apply]
    rcases List.mem_append.1 ha with h | h
    · have := hinv.done a h
      have haa : a ∈ elist := by rw [hsplit]; exact List.mem_append_left _ h
      obtain ⟨h1, h2, _⟩ := hel.edge a haa
      simp only [h1, h2, true_and, this]
    · rw [List.mem_singleton.1 h]
      rw [if_neg (fun h => hne h.2), if_pos ⟨hv, rfl⟩]
  · show Promising n G (pairs (st.spanlist ++ [e])).reverse
    rw [pairs_append]
    intro T hT
    obtain ⟨T1, hT1, hsub, hw1⟩ := hinv.prom T hT
    have hcross : ∀ f ∈ (pairs st.spanlist).reverse,
        ¬Crosses (fun x => st.belongs x = st.belongs e.u) f := by
      intro f hf
      obtain ⟨h1, h2, h3⟩ := hFlt f hf
      have := (hinv.label f.1 f.2 h1 h2).2 h3
      rintro (⟨h4, h5⟩ | ⟨h4, h5⟩)
      · have h4a : st.belongs f.1 = st.belongs e.u := h4
        exact h5 (show st.belongs f.2 = st.belongs e.u by omega)
      · have h5a : st.belongs f.2 = st.belongs e.u := h5
        exact h4 (show st.belongs f.1 = st.belongs e.u by omega)
    have hmin : ∀ g, IsEdge n G g → Crosses (fun x => st.belongs x = st.belongs e.u) g →
        G e.u e.v ≤ G g.1 g.2 := by
      intro g hg hc
      have hlab : st.belongs g.1 ≠ st.belongs g.2 := by
        rcases hc with ⟨h4, h5⟩ | ⟨h4, h5⟩
        · have h4a : st.belongs g.1 = st.belongs e.u := h4
          intro h; exact h5 (show st.belongs g.2 = st.belongs e.u by omega)
        · have h5a : st.belongs g.2 = st.belongs e.u := h5
          intro h; exact h4 (show st.belongs g.1 = st.belongs e.u by omega)
      have hne12 : g.1 ≠ g.2 := fun h => hlab (by rw [h])
      obtain ⟨a, ha, hends, hwa⟩ := hel.all g.1 g.2 hg.1 hg.2.1 hne12 hg.2.2
      have hlab2 : st.belongs a.u ≠ st.belongs a.v := by
        rcases hends with ⟨h1, h2⟩ | ⟨h1, h2⟩
        · rw [h1, h2]; exact hlab
        · rw [h1, h2]; exact fun h => hlab h.symm
      have haP : a ∉ P := fun h => hlab2 (hinv.done a h)
      rw [hsplit] at ha
      have hsorted := hel.sorted
      rw [hsplit] at hsorted
      have h5 := (List.pairwise_append.1 hsorted).2.1
      rcases List.mem_append.1 ha with h | h
      · exact absurd h haP
      · rcases List.mem_cons.1 h with h | h
        · rw [← hwa, h, hw]
        · have := List.rel_of_pairwise_cons h5 h
          rw [← hwa, ← hw]
          exact this
    obtain ⟨T2, hT2, hsub2, hw2⟩ := exchange hT1 hsub hcross ⟨hu, hv, hG⟩ rfl
      (fun h => hne h.symm) hmin
    exact ⟨T2, hT2, hsub2, le_trans hw2 hw1⟩

/-- The loop of `kruskal` ends with `n - 1` edges in `spanlist` or with every edge of the
list processed. -/
theorem kruskalLoop_spec {n : Nat} {G : Nat → Nat → Int} {elist : List Edge}
    (hel : EdgeList n G elist) :
    ∀ (R P : List Edge) (st : State), elist = P ++ R → KInv n G elist P st →
      ∃ P1, KInv n G elist P1 (kruskalLoop n R st) ∧
        ((kruskalLoop n R st).spanlist.length + 1 = n ∨ P1 = elist)
  | [], P, st, hsplit, hinv => ⟨P, hinv, Or.inr (by rw [hsplit]; simp)⟩
  | e :: R, P, st, hsplit, hinv => by
    have hsplit1 : elist = (P ++ [e]) ++ R := by rw [hsplit]; simp
    unfold kruskalLoop
    simp only [find]
    by_cases hne : st.belongs e.u ≠ st.belongs e.v
    · rw [if_pos hne]
      have hinv1 := kinv_accept hel hsplit hinv hne
      by_cases hlen : ((st.spanlist ++ [e]).length : Int) = (n : Int) - 1
      · rw [if_pos hlen]
        refine ⟨P ++ [e], hinv1, Or.inl ?_⟩
        show (st.spanlist ++ [e]).length + 1 = n
        omega
      · rw [if_neg hlen]
        exact kruskalLoop_spec hel R (P ++ [e]) _ hsplit1 hinv1
    · rw [if_neg hne]
      have heq : st.belongs e.u = st.belongs e.v := by
        by_contra h; exact hne h
      refine kruskalLoop_spec hel R (P ++ [e]) st hsplit1
        ⟨hinv.mem, hinv.label, hinv.forest, ?_, hinv.prom⟩
      intro a ha
      rcases List.mem_append.1 ha with h | h
      · exact hinv.done a h
      · rw [List.mem_singleton.1 h]; exact heq

theorem kinv_init (n : Nat) (G : Nat → Nat → Int) (elist : List Edge) :
    KInv n G elist [] { belongs := fun i => i, spanlist := [] } := by
  refine ⟨fun e he => absurd he (List.not_mem_nil e), ?_, trivial,
    fun e he => absurd he (List.not_mem_nil e), promising_nil n G⟩
  intro x y _ _
  show x = y ↔ Conn [] x y
  exact ⟨fun h => by rw [h]; exact conn_refl _ _, conn_nil⟩

theorem edgeList_sort {n : Nat} {G : Nat → Nat → Int}
    (hsym : ∀ i, i < n → ∀ j, j < n → G i j = G j i) :
    EdgeList n G (sort (buildEdges n G)) := by
  have hmem : ∀ e, e ∈ sort (buildEdges n G) ↔ e ∈ buildEdges n G :=
    fun e => (sort_perm _).mem_iff
  refine ⟨?_, ?_, sort_sorted _⟩
  · intro e he
    obtain ⟨i, j, hj, hi, hg, rfl⟩ := (mem_buildEdges n G e).1 ((hmem e).1 he)
    exact ⟨hi, by show j < n; omega, rfl, hg⟩
  · intro x y hx hy hxy hg
    rcases Nat.lt_or_gt_of_ne hxy with h | h
    · have hg1 : G y x ≠ 0 := by rw [← hsym x hx y hy]; exact hg
      exact ⟨⟨y, x, G y x⟩, (hmem _).2 ((mem_buildEdges n G _).2 ⟨y, x, h, hy, hg1, rfl⟩),
        Or.inr ⟨rfl, rfl⟩, (hsym x hx y hy).symm⟩
    · exact ⟨⟨x, y, G x y⟩, (hmem _).2 ((mem_buildEdges n G _).2 ⟨x, y, h, hx, hg, rfl⟩),
        Or.inl ⟨rfl, rfl⟩, rfl⟩

theorem totalWeight_pairs {n : Nat} {G : Nat → Nat → Int} {elist : List Edge}
    (hel : EdgeList n G elist) :
    ∀ (l : List Edge), (∀ e ∈ l, e ∈ elist) →
      totalWeight G (pairs l) = (l.map (fun e => e.w)).sum
  | [], _ => rfl
  | e :: l, h => by
    have ih := totalWeight_pairs hel l (fun a ha => h a (List.mem_cons_of_mem _ ha))
    have hw := (hel.edge e (h e (List.mem_cons_self _ _))).2.2.1
    show totalWeight G ((e.u, e.v) :: pairs l) = _
    rw [totalWeight_cons, ih]
    simp only [List.map_cons, List.sum_cons]
    rw [hw]

/-- C18: for `1 ≤ n ≤ MAX` and a symmetric matrix `G` of a connected graph whose edges
fit in `elist`, `kruskal` leaves in `spanlist` exactly `n - 1` edges of the graph, with
their weights; they form a spanning tree (they connect all the vertices and have no
cycle), and their total weight is least among the spanning trees of the graph. -/
theorem kruskal_mst (n : Nat) (G : Nat → Nat → Int) (hn1 : 1 ≤ n) (hn : n ≤ MAX)
    (hsym : ∀ i, i < n → ∀ j, j < n → G i j = G j i) (hconn : Connected n G)
    (hfit : (buildEdges n G).length ≤ MAX) :
    ∃ spanlist, kruskal n G = some spanlist ∧ spanlist.length + 1 = n ∧
      (∀ e ∈ spanlist, e.u < n ∧ e.v < n ∧ G e.u e.v ≠ 0 ∧ e.w = G e.u e.v) ∧
      IsSpanningTree n G (pairs spanlist) ∧
      ∀ T, IsSpanningTree n G T →
        (spanlist.map (fun e => e.w)).sum ≤ totalWeight G T := by
  have hel := edgeList_sort hsym
  obtain ⟨P1, hinv, hend⟩ := kruskalLoop_spec hel (sort (buildEdges n G)) []
    { belongs := fun i => i, spanlist := [] } rfl (kinv_init n G _)
  have hk : kruskal n G = some (kruskalLoop n (sort (buildEdges n G))
      { belongs := fun i => i, spanlist := [] }).spanlist := by
    unfold kruskal
    rw [if_neg (by omega), if_neg (by omega)]
  generalize kruskalLoop n (sort (buildEdges n G))
    { belongs := fun i => i, spanlist := [] } = st at hinv hend hk
  have hFlt : ∀ f ∈ (pairs st.spanlist).reverse, f.1 < n ∧ f.2 < n := by
    intro f hf
    have hf1 : f ∈ pairs st.spanlist := List.mem_reverse.1 hf
    obtain ⟨a, ha, rfl⟩ := List.mem_map.1 hf1
    obtain ⟨h1, h2, _⟩ := hel.edge a (hinv.mem a ha)
    exact ⟨h1, h2⟩
  have hFedge : ∀ f ∈ (pairs st.spanlist).reverse, IsEdge n G f := by
    intro f hf
    have hf1 : f ∈ pairs st.spanlist := List.mem_reverse.1 hf
    obtain ⟨a, ha, rfl⟩ := List.mem_map.1 hf1
    obtain ⟨h1, h2, _, h4⟩ := hel.edge a (hinv.mem a ha)
    exact ⟨h1, h2, h4⟩
  have hflen : (pairs st.spanlist).reverse.length = st.spanlist.length := by simp [pairs]
  obtain ⟨_, hfl2, hfl3⟩ := forest_length hn1 hFlt hinv.forest
  have hboth : st.spanlist.length + 1 = n ∧
      ∀ a, a < n → ∀ b, b < n → Conn (pairs st.spanlist).reverse a b := by
    rcases hend with hlen | hP
    · exact ⟨hlen, hfl2 (by rw [hflen]; exact hlen)⟩
    · have hedgeconn : ∀ x y, x < n → y < n → G x y ≠ 0 →
          Conn (pairs st.spanlist).reverse x y := by
        intro x y hx hy hg
        by_cases hxy : x = y
        · rw [hxy]; exact conn_refl _ _
        · obtain ⟨a, ha, hends, _⟩ := hel.all x y hx hy hxy hg
          have hd := hinv.done a (by rw [hP]; exact ha)
          rcases hends with ⟨h1, h2⟩ | ⟨h1, h2⟩
          · rw [h1, h2] at hd
            exact (hinv.label x y hx hy).1 hd
          · rw [h1, h2] at hd
            exact (hinv.label x y hx hy).1 hd.symm
      have hwalk : ∀ a b, Relation.ReflTransGen (fun x y => x < n ∧ y < n ∧ G x y ≠ 0) a b →
          Conn (pairs st.spanlist).reverse a b := by
        intro a b h
        induction h with
        | refl => exact conn_refl _ _
        | tail _ hbc ih => exact conn_trans ih (hedgeconn _ _ hbc.1 hbc.2.1 hbc.2.2)
      have hall : ∀ a, a < n → ∀ b, b < n → Conn (pairs st.spanlist).reverse a b :=
        fun a ha b hb => hwalk a b (hconn a ha b hb)
      have := hfl3 hall
      rw [hflen] at this
      exact ⟨this, hall⟩
  obtain ⟨hlen, hall⟩ := hboth
  have hspanR : Span n G (pairs st.spanlist).reverse := ⟨hFedge, hall, by rw [hflen]; exact hlen⟩
  have hperm : (pairs st.spanlist).reverse.Perm (pairs st.spanlist) := List.reverse_perm _
  have hspan : Span n G (pairs st.spanlist) := by
    refine ⟨fun f hf => hFedge f (List.mem_reverse.2 hf), fun a ha b hb => ?_, ?_⟩
    · exact conn_mono (fun g hg => List.mem_reverse.1 hg) (hall a ha b hb)
    · rw [← hperm.length_eq, hflen]; exact hlen
  obtain ⟨htree, hmin⟩ := mst_of_promising hn1 hspan (promising_perm hperm hinv.prom)
  refine ⟨st.spanlist, hk, hlen, ?_, htree, ?_⟩
  · intro e he
    obtain ⟨h1, h2, h3, h4⟩ := hel.edge e (hinv.mem e he)
    exact ⟨h1, h2, h4, h3⟩
  · intro T hT
    rw [← totalWeight_pairs hel st.spanlist hinv.mem]
    exact hmin T hT

theorem sampleGraph_connected : Connected 4 sampleGraph :=
  connected_of_hub (c := 1) (by decide) (by decide)

theorem kruskal_mst_witness :
    (1 ≤ 4 ∧ 4 ≤ MAX ∧ (∀ i, i < 4 → ∀ j, j < 4 → sampleGraph i j = sampleGraph j i) ∧
      Connected 4 sampleGraph ∧ (buildEdges 4 sampleGraph).length ≤ MAX) ∧
    ∃ spanlist, kruskal 4 sampleGraph = some spanlist ∧ spanlist.length + 1 = 4 ∧
      (∀ e ∈ spanlist, e.u < 4 ∧ e.v < 4 ∧ sampleGraph e.u e.v ≠ 0 ∧
        e.w = sampleGraph e.u e.v) ∧
      IsSpanningTree 4 sampleGraph (pairs spanlist) ∧
      ∀ T, IsSpanningTree 4 sampleGraph T →
        (spanlist.map (fun e => e.w)).sum ≤ totalWeight sampleGraph T :=
  ⟨⟨by decide, by decide, by decide, sampleGraph_connected, by decide⟩,
   kruskal_mst 4 sampleGraph (by decide) (by decide) (by decide) sampleGraph_connected
     (by decide)⟩

/-- C22: for every edge list, after `sort` the entries are in non-decreasing order of
weight `w` and are a permutation of the entries before the call: no edge is lost,
duplicated or altered, and `elist.n` is unchanged. -/
theorem sort_sorted_perm (elist : List Edge) :
    (sort elist).Pairwise (fun x y => x.w ≤ y.w) ∧ (sort elist).Perm elist ∧
    (sort elist).length = elist.length ∧ (∀ e, (sort elist).count e = elist.count e) :=
  ⟨sort_sorted elist, sort_perm elist, (sort_perm elist).length_eq,
   fun e => (sort_perm elist).count_eq e⟩

end Kruskal

/-! ## Prim: the tree recorded in `parent` -/

namespace Prim

open FordFulkerson (INT_MAX setAt setAt_same setAt_other)
open MST

theorem minKey_fold (key : Nat → Int) (mstSet : Nat → Bool) (n : Nat) :
    ((List.range n).foldl (fun (acc : Int × Int) (v : Nat) =>
        if mstSet v = false ∧ key v < acc.1 then (key v, (v : Int)) else acc) (INF, -1) =
          (INF, -1) ∧ ∀ v, v < n → mstSet v = false → INF ≤ key v) ∨
    ∃ u, u < n ∧ (List.range n).foldl (fun (acc : Int × Int) (v : Nat) =>
        if mstSet v = false ∧ key v < acc.1 then (key v, (v : Int)) else acc) (INF, -1) =
          (key u, (u : Int)) ∧ mstSet u = false ∧ key u < INF ∧
        ∀ v, v < n → mstSet v = false → key u ≤ key v := by
  induction n with
  | zero => left; exact ⟨rfl, fun v hv => absurd hv (Nat.not_lt_zero v)⟩
  | succ n ih =>
    rw [List.range_succ, List.foldl_append]
    simp only [List.foldl_cons, List.foldl_nil]
    rcases ih with ⟨h0, hall⟩ | ⟨u, hu, h0, hsu, hlt, hmin⟩
    · rw [h0]
      by_cases hn : mstSet n = false ∧ key n < INF
      · right
        refine ⟨n, Nat.lt_succ_self n, by rw [if_pos hn], hn.1, hn.2, ?_⟩
        intro v hv hsv
        rcases Nat.lt_succ_iff_lt_or_eq.1 hv with hv | rfl
        · exact le_trans (le_of_lt hn.2) (hall v hv hsv)
        · exact le_refl _
      · left
        refine ⟨by rw [if_neg hn], ?_⟩
        intro v hv hsv
        rcases Nat.lt_succ_iff_lt_or_eq.1 hv with hv | rfl
        · exact hall v hv hsv
        · by_contra hlt
          exact hn ⟨hsv, lt_of_not_le hlt⟩
    · rw [h0]
      right
      by_cases hn : mstSet n = false ∧ key n < key u
      · refine ⟨n, Nat.lt_succ_self n, by rw [if_pos hn], hn.1, lt_trans hn.2 hlt, ?_⟩
        intro v hv hsv
        rcases Nat.lt_succ_iff_lt_or_eq.1 hv with hv | rfl
        · exact le_trans (le_of_lt hn.2) (hmin v hv hsv)
        · exact le_refl _
      · refine ⟨u, Nat.lt_succ_of_lt hu, by rw [if_neg hn], hsu, hlt, ?_⟩
        intro v hv hsv
        rcases Nat.lt_succ_iff_lt_or_eq.1 hv with hv | rfl
        · exact hmin v hv hsv
        · by_contra hlt1
          exact hn ⟨hsv, lt_of_not_le hlt1⟩

/-- What `minKey` returns: `-1` when no vertex outside `mstSet` has a key below `INF`,
otherwise a vertex outside `mstSet` whose key is below `INF` and least. -/
theorem minKey_spec (V : Nat) (key : Nat → Int) (mstSet : Nat → Bool) :
    (minKey V key mstSet = -1 ∧ ∀ v, v < V → mstSet v = false → INF ≤ key v) ∨
    ∃ u, u < V ∧ minKey V key mstSet = (u : Int) ∧ mstSet u = false ∧ key u < INF ∧
      ∀ v, v < V → mstSet v = false → key u ≤ key v := by
  unfold minKey
  rcases minKey_fold key mstSet V with ⟨h0, hall⟩ | ⟨u, hu, h0, hsu, hlt, hmin⟩
  · left; rw [h0]; exact ⟨rfl, hall⟩
  · right; exact ⟨u, hu, by rw [h0], hsu, hlt, hmin⟩

/-- One step of a loop that writes `f v` into `a[v]` for the `v` that pass a test. -/
theorem setAt_step {α : Type} (cond : Nat → Prop) [DecidablePred cond] (f g a : Nat → α)
    (n : Nat) (ha : ∀ w, a w = if w < n ∧ cond w then f w else g w) :
    (cond n → ∀ v, setAt a n (f n) v = if v < n + 1 ∧ cond v then f v else g v) ∧
    (¬cond n → ∀ v, a v = if v < n + 1 ∧ cond v then f v else g v) := by
  constructor
  · intro hc v
    by_cases hvn : v = n
    · subst hvn
      rw [setAt_same, if_pos ⟨Nat.lt_succ_self v, hc⟩]
    · rw [setAt_other _ _ hvn, ha v]
      by_cases hv : v < n
      · have h1 : v < n + 1 := Nat.lt_succ_of_lt hv
        simp only [h1, hv, true_and]
      · have h1 : ¬ v < n + 1 := fun h => (Nat.lt_succ_iff_lt_or_eq.1 h).elim hv hvn
        rw [if_neg (fun h => hv h.1), if_neg (fun h => h1 h.1)]
  · intro hc v
    rw [ha v]
    by_cases hvn : v = n
    · subst hvn
      rw [if_neg (fun h => lt_irrefl v h.1), if_neg (fun h => hc h.2)]
    · by_cases hv : v < n
      · have h1 : v < n + 1 := Nat.lt_succ_of_lt hv
        simp only [h1, hv, true_and]
      · have h1 : ¬ v < n + 1 := fun h => (Nat.lt_succ_iff_lt_or_eq.1 h).elim hv hvn
        rw [if_neg (fun h => hv h.1), if_neg (fun h => h1 h.1)]

/-- The inner loop of `primAlgorithm` in closed form. -/
theorem update_fold (graph : Nat → Nat → Int) (u : Nat) (st : State) (n : Nat) :
    ((List.range n).foldl (update graph u) st).mstSet = st.mstSet ∧
    (∀ v, ((List.range n).foldl (update graph u) st).key v =
      if v < n ∧ (graph u v ≠ 0 ∧ st.mstSet v = false ∧ graph u v < st.key v)
      then graph u v else st.key v) ∧
    ∀ v, ((List.range n).foldl (update graph u) st).parent v =
      if v < n ∧ (graph u v ≠ 0 ∧ st.mstSet v = false ∧ graph u v < st.key v)
      then (u : Int) else st.parent v := by
  induction n with
  | zero =>
    refine ⟨rfl, fun v => ?_, fun v => ?_⟩
    · rw [if_neg (fun h => Nat.not_lt_zero v h.1)]; rfl
    · rw [if_neg (fun h => Nat.not_lt_zero v h.1)]; rfl
  | succ n ih =>
    rw [List.range_succ, List.foldl_append]
    simp only [List.foldl_cons, List.foldl_nil]
    obtain ⟨hs, hk, hp⟩ := ih
    have hkn : ((List.range n).foldl (update graph u) st).key n = st.key n := by
      rw [hk n, if_neg]
      intro h
      exact absurd h.1 (lt_irrefl n)
    generalize List.foldl (update graph u) st (List.range n) = stn at hs hk hp hkn
    obtain ⟨hk1, hk2⟩ := setAt_step
      (fun w => graph u w ≠ 0 ∧ st.mstSet w = false ∧ graph u w < st.key w)
      (fun w => graph u w) st.key stn.key n hk
    obtain ⟨hp1, hp2⟩ := setAt_step
      (fun w => graph u w ≠ 0 ∧ st.mstSet w = false ∧ graph u w < st.key w)
      (fun _ => (u : Int)) st.parent stn.parent n hp
    unfold update
    rw [hs, hkn]
    by_cases hc : graph u n ≠ 0 ∧ st.mstSet n = false ∧ graph u n < st.key n
    · rw [if_pos hc]
      exact ⟨rfl, hk1 hc, hp1 hc⟩
    · rw [if_neg hc]
      exact ⟨hs, hk2 hc, hp2 hc⟩

theorem bool_false_of_ne_true {b : Bool} (h : ¬b = true) : b = false := by
  cases b
  · rfl
  · exact absurd rfl h

theorem exists_not_mst {V k : Nat} {mstSet : Nat → Bool}
    (hcard : ((Finset.range V).filter (fun v => mstSet v = true)).card = k) (hk : k < V) :
    ∃ z, z < V ∧ mstSet z = false := by
  by_contra hnot
  have hall : ∀ v, v < V → mstSet v = true := by
    intro v hv
    by_contra h
    exact hnot ⟨v, hv, bool_false_of_ne_true h⟩
  have : (Finset.range V).filter (fun v => mstSet v = true) = Finset.range V :=
    Finset.filter_true_of_mem (fun v hv => hall v (Finset.mem_range.1 hv))
  rw [this, Finset.card_range] at hcard
  omega

theorem card_mstSet_setAt {V k u : Nat} {mstSet : Nat → Bool}
    (hcard : ((Finset.range V).filter (fun v => mstSet v = true)).card = k) (hu : u < V)
    (hsu : mstSet u = false) :
    ((Finset.range V).filter (fun v => setAt mstSet u true v = true)).card = k + 1 := by
  have : (Finset.range V).filter (fun v => setAt mstSet u true v = true) =
      insert u ((Finset.range V).filter (fun v => mstSet v = true)) := by
    ext v
    simp only [Finset.mem_filter, Finset.mem_range, Finset.mem_insert]
    by_cases hv : v = u
    · subst hv
      simp [hu]
    · rw [setAt_other _ _ hv]
      simp [hv]
  rw [this, Finset.card_insert_of_not_mem, hcard]
  simp [hsu]

theorem not_mst_unique {V : Nat} {mstSet : Nat → Bool}
    (hcard : ((Finset.range V).filter (fun v => mstSet v = true)).card = V - 1)
    {a b : Nat} (ha : a < V) (hb : b < V) (hsa : mstSet a = false) (hsb : mstSet b = false) :
    a = b := by
  by_contra hab
  have hsub : (Finset.range V).filter (fun v => mstSet v = true) ⊆
      ((Finset.range V).erase a).erase b := by
    intro v hv
    simp only [Finset.mem_filter, Finset.mem_range] at hv
    simp only [Finset.mem_erase, Finset.mem_range]
    refine ⟨?_, ?_, hv.1⟩
    · rintro rfl; rw [hsb] at hv; exact absurd hv.2 (by decide)
    · rintro rfl; rw [hsa] at hv; exact absurd hv.2 (by decide)
  have h1 := Finset.card_le_card hsub
  rw [hcard, Finset.card_erase_of_mem, Finset.card_erase_of_mem, Finset.card_range] at h1
  · omega
  · exact Finset.mem_range.2 ha
  · simp only [Finset.mem_erase, Finset.mem_range]
    exact ⟨fun h => hab h.symm, hb⟩

/-- In a connected graph some vertex outside `mstSet` has a key below `INF`. -/
theorem exists_key_lt {V : Nat} {G : Nat → Nat → Int} {k : Nat} {st : State}
    {F : List (Nat × Nat)} (hlt : ∀ i, i < V → ∀ j, j < V → G i j < INT_MAX)
    (hconn : Connected V G) (hinv : PInv V G k st F) (hk : k < V) :
    ∃ y, y < V ∧ st.mstSet y = false ∧ st.key y < INF := by
  obtain ⟨z, hz, hsz⟩ := exists_not_mst hinv.card hk
  obtain ⟨x, y, hx, hy, hg, hsx, hsy⟩ := exists_crossing (S := fun x => st.mstSet x = true)
    (hconn 0 (by omega) z hz) hinv.zero
    (by show ¬(st.mstSet z = true); rw [hsz]; decide)
  have hsy1 : st.mstSet y = false := bool_false_of_ne_true hsy
  refine ⟨y, hy, hsy1, ?_⟩
  rcases hinv.key y hy hsy1 with ⟨_, h0⟩ | ⟨u, hu, _, _, _, hk1, _⟩
  · exact absurd (h0 x hx hsx) hg
  · rw [hk1]
    exact hlt u hu y hy

/-- The edge `(parent[u], u)` of a vertex `u` outside `mstSet` of least key is an edge of
the graph from `mstSet`, and can be added to the edges chosen so far. -/
theorem pinv_pick {V : Nat} {G : Nat → Nat → Int} {k : Nat} {st : State}
    {F : List (Nat × Nat)} (hsym : ∀ i, i < V → ∀ j, j < V → G i j = G j i)
    (hinv : PInv V G k st F) {u : Nat} (hu : u < V) (hsu : st.mstSet u = false)
    (hlt : st.key u < INF)
    (hmin : ∀ v, v < V → st.mstSet v = false → st.key u ≤ st.key v) :
    ∃ p, p < V ∧ st.parent u = (p : Int) ∧ st.mstSet p = true ∧ G p u ≠ 0 ∧
      st.key u = G p u ∧ Promising V G ((p, u) :: F) := by
  rcases hinv.key u hu hsu with ⟨h0, _⟩ | ⟨p, hp, hpar, hsp, hg, hkey, _⟩
  · rw [h0] at hlt
    exact absurd hlt (lt_irrefl _)
  refine ⟨p, hp, hpar, hsp, hg, hkey, ?_⟩
  intro T hT
  obtain ⟨T1, hT1, hsub, hw1⟩ := hinv.prom T hT
  have hcross : ∀ f ∈ F, ¬Crosses (fun x => st.mstSet x = true) f := by
    intro f hf
    obtain ⟨_, h1, h2⟩ := hinv.edges f hf
    rintro (⟨_, h4⟩ | ⟨h3, _⟩)
    · exact h4 h2
    · exact h3 h1
  have hmin1 : ∀ g, IsEdge V G g → Crosses (fun x => st.mstSet x = true) g →
      G p u ≤ G g.1 g.2 := by
    intro g hg hc
    rcases hc with ⟨h1, h2⟩ | ⟨h1, h2⟩
    · have h2a : st.mstSet g.2 = false := bool_false_of_ne_true h2
      have h3 := hmin g.2 hg.2.1 h2a
      rcases hinv.key g.2 hg.2.1 h2a with ⟨_, h0⟩ | ⟨_, _, _, _, _, _, hle⟩
      · exact absurd (h0 g.1 hg.1 h1) hg.2.2
      · have := hle g.1 hg.1 h1 hg.2.2
        omega
    · have h1a : st.mstSet g.1 = false := bool_false_of_ne_true h1
      have h3 := hmin g.1 hg.1 h1a
      have hs := hsym g.1 hg.1 g.2 hg.2.1
      have hg2 : G g.2 g.1 ≠ 0 := by rw [← hs]; exact hg.2.2
      rcases hinv.key g.1 hg.1 h1a with ⟨_, h0⟩ | ⟨_, _, _, _, _, _, hle⟩
      · exact absurd (h0 g.2 hg.2.1 h2) hg2
      · have := hle g.2 hg.2.1 h2 hg2
        omega
  obtain ⟨T2, hT2, hsub2, hw2⟩ := exchange hT1 hsub hcross ⟨hp, hu, hg⟩ hsp
    (by show ¬(st.mstSet u = true); rw [hsu]; decide) hmin1
  exact ⟨T2, hT2, hsub2, le_trans hw2 hw1⟩

/-- One iteration of the main loop after the first keeps the invariant, and does not
return while a vertex is outside `mstSet`. -/
theorem pinv_step {V : Nat} {G : Nat → Nat → Int} {k : Nat} {st : State}
    {F : List (Nat × Nat)} (hsym : ∀ i, i < V → ∀ j, j < V → G i j = G j i)
    (hlt : ∀ i, i < V → ∀ j, j < V → G i j < INT_MAX) (hconn : Connected V G)
    (hinv : PInv V G k st F) (hk : k < V) :
    ∃ st1 F1, primStep V G st = some st1 ∧ PInv V G (k + 1) st1 F1 := by
  have hINF : INF = INT_MAX := rfl
  obtain ⟨y, hy, hsy, hky⟩ := exists_key_lt hlt hconn hinv hk
  rcases minKey_spec V st.key st.mstSet with ⟨_, hall⟩ | ⟨u, hu, hmk, hsu, hku, hmin⟩
  · have := hall y hy hsy
    omega
  obtain ⟨p, hp, hpar, hsp, hg, hkey, hprom⟩ := pinv_pick hsym hinv hu hsu hku hmin
  have hne : (u : Int) ≠ -1 := by omega
  have hstep : primStep V G st = some ((List.range V).foldl (update G u)
      { st with mstSet := setAt st.mstSet u true }) := by
    unfold primStep
    simp only [hmk, if_neg hne, Int.toNat_ofNat]
  refine ⟨_, (p, u) :: F, hstep, ?_⟩
  obtain ⟨hs, hk2, hp2⟩ := update_fold G u { st with mstSet := setAt st.mstSet u true } V
  generalize (List.range V).foldl (update G u)
    { st with mstSet := setAt st.mstSet u true } = st2 at hs hk2 hp2
  have hs2 : ∀ v, st2.mstSet v = setAt st.mstSet u true v := fun v => by rw [hs]
  have hkey2 : ∀ v, st2.key v = if v < V ∧ (G u v ≠ 0 ∧ setAt st.mstSet u true v = false ∧
      G u v < st.key v) then G u v else st.key v := hk2
  have hpar2 : ∀ v, st2.parent v = if v < V ∧ (G u v ≠ 0 ∧
      setAt st.mstSet u true v = false ∧ G u v < st.key v) then (u : Int)
      else st.parent v := hp2
  have hold : ∀ v, st.mstSet v = true → st2.mstSet v = true := by
    intro v hv
    rw [hs2]
    by_cases hvu : v = u
    · subst hvu; exact setAt_same _ _ _
    · rw [setAt_other _ _ hvu]; exact hv
  have hsu2 : st2.mstSet u = true := by rw [hs2]; exact setAt_same _ _ _
  have hnew : ∀ v, st2.mstSet v = false → st.mstSet v = false ∧ v ≠ u := by
    intro v hv
    rw [hs2] at hv
    by_cases hvu : v = u
    · subst hvu; rw [setAt_same] at hv; exact absurd hv (by decide)
    · rw [setAt_other _ _ hvu] at hv; exact ⟨hv, hvu⟩
  have hmst : ∀ v, st2.mstSet v = true → v = u ∨ st.mstSet v = true := by
    intro v hv
    rw [hs2] at hv
    by_cases hvu : v = u
    · exact Or.inl hvu
    · rw [setAt_other _ _ hvu] at hv; exact Or.inr hv
  have hparkeep : ∀ v, st2.mstSet v = true → st2.parent v = st.parent v := by
    intro v hv
    rw [hs2] at hv
    rw [hpar2, if_neg]
    intro h
    rw [hv] at h
    exact absurd h.2.2.1 (by decide)
  have hsubF : ∀ f ∈ F, f ∈ (p, u) :: F := fun f hf => List.mem_cons_of_mem _ hf
  refine ⟨?_, hold 0 hinv.zero, ?_, ?_, ?_, hprom, ?_, ?_⟩
  · have := card_mstSet_setAt hinv.card hu hsu
    have hfil : (Finset.range V).filter (fun v => st2.mstSet v = true) =
        (Finset.range V).filter (fun v => setAt st.mstSet u true v = true) := by
      ext v
      simp only [Finset.mem_filter, Finset.mem_range, hs2]
    rw [hfil]
    exact this
  · intro f hf
    rcases List.mem_cons.1 hf with rfl | hf
    · exact ⟨⟨hp, hu, hg⟩, hold p hsp, hsu2⟩
    · obtain ⟨h1, h2, h3⟩ := hinv.edges f hf
      exact ⟨h1, hold _ h2, hold _ h3⟩
  · intro v hv hsv
    rcases hmst v hsv with rfl | hsv1
    · exact conn_trans (conn_mono hsubF (hinv.conn p hp hsp))
        (conn_edge (e := (p, v)) (List.mem_cons_self _ _))
    · exact conn_mono hsubF (hinv.conn v hv hsv1)
  · have := hinv.len
    simp only [List.length_cons]
    omega
  · intro v hv hv0 hsv
    rw [hparkeep v hsv]
    rcases hmst v hsv with rfl | hsv1
    · exact ⟨p, hpar, List.mem_cons_self _ _⟩
    · obtain ⟨q, hq, hqF⟩ := hinv.par v hv hv0 hsv1
      exact ⟨q, hq, List.mem_cons_of_mem _ hqF⟩
  · intro v hv hsv
    obtain ⟨hsv1, hvu⟩ := hnew v hsv
    have hsv2 : setAt st.mstSet u true v = false := by rw [← hs2]; exact hsv
    rw [hkey2, hpar2]
    by_cases hc : G u v ≠ 0 ∧ G u v < st.key v
    · rw [if_pos ⟨hv, hc.1, hsv2, hc.2⟩, if_pos ⟨hv, hc.1, hsv2, hc.2⟩]
      right
      refine ⟨u, hu, rfl, hsu2, hc.1, rfl, ?_⟩
      intro u1 hu1 hsu1 hg1
      rcases hmst u1 hsu1 with rfl | hsu1a
      · exact le_refl _
      · rcases hinv.key v hv hsv1 with ⟨_, h0⟩ | ⟨_, _, _, _, _, _, hle⟩
        · exact absurd (h0 u1 hu1 hsu1a) hg1
        · have := hle u1 hu1 hsu1a hg1
          omega
    · rw [if_neg (fun h => hc ⟨h.2.1, h.2.2.2⟩), if_neg (fun h => hc ⟨h.2.1, h.2.2.2⟩)]
      rcases hinv.key v hv hsv1 with ⟨hinf, h0⟩ | ⟨q, hq, hpq, hsq, hgq, hkq, hle⟩
      · left
        refine ⟨hinf, ?_⟩
        intro u1 hu1 hsu1
        rcases hmst u1 hsu1 with rfl | hsu1a
        · by_contra hg1
          have := hlt u1 hu1 v hv
          exact hc ⟨hg1, by rw [hinf, hINF]; exact this⟩
        · exact h0 u1 hu1 hsu1a
      · right
        refine ⟨q, hq, hpq, hold q hsq, hgq, hkq, ?_⟩
        intro u1 hu1 hsu1 hg1
        rcases hmst u1 hsu1 with rfl | hsu1a
        · by_contra hlt1
          exact hc ⟨hg1, lt_of_not_le hlt1⟩
        · exact hle u1 hu1 hsu1a hg1

/-- The first iteration picks the vertex `0`. -/
theorem pinv_first {V : Nat} {G : Nat → Nat → Int} (hV : 1 ≤ V)
    (hlt : ∀ i, i < V → ∀ j, j < V → G i j < INT_MAX) :
    ∃ st1, primStep V G init = some st1 ∧ PInv V G 1 st1 [] := by
  have hINF : INF = INT_MAX := rfl
  have hkey0 : ∀ v, init.key v = if v = 0 then 0 else INF := fun v => rfl
  have hmst0 : ∀ v, init.mstSet v = false := fun v => rfl
  rcases minKey_spec V init.key init.mstSet with ⟨_, hall⟩ | ⟨u, hu, hmk, hsu, hku, hmin⟩
  · have := hall 0 (by omega) rfl
    rw [hkey0, if_pos rfl] at this
    exact absurd this (by decide)
  have hu0 : u = 0 := by
    by_contra h
    rw [hkey0, if_neg h] at hku
    exact absurd hku (lt_irrefl _)
  subst hu0
  have hne : ((0 : Nat) : Int) ≠ -1 := by omega
  have hstep : primStep V G init = some ((List.range V).foldl (update G 0)
      { init with mstSet := setAt init.mstSet 0 true }) := by
    unfold primStep
    simp only [hmk, if_neg hne, Int.toNat_ofNat]
  refine ⟨_, hstep, ?_⟩
  obtain ⟨hs, hk2, hp2⟩ := update_fold G 0 { init with mstSet := setAt init.mstSet 0 true } V
  generalize (List.range V).foldl (update G 0)
    { init with mstSet := setAt init.mstSet 0 true } = st2 at hs hk2 hp2
  have hs2 : ∀ v, st2.mstSet v = setAt init.mstSet 0 true v := fun v => by rw [hs]
  have hkey2 : ∀ v, st2.key v = if v < V ∧ (G 0 v ≠ 0 ∧ setAt init.mstSet 0 true v = false ∧
      G 0 v < init.key v) then G 0 v else init.key v := hk2
  have hpar2 : ∀ v, st2.parent v = if v < V ∧ (G 0 v ≠ 0 ∧
      setAt init.mstSet 0 true v = false ∧ G 0 v < init.key v) then ((0 : Nat) : Int)
      else init.parent v := hp2
  have hmst : ∀ v, st2.mstSet v = true → v = 0 := by
    intro v hv
    rw [hs2] at hv
    by_contra hv0
    rw [setAt_other _ _ hv0, hmst0] at hv
    exact absurd hv (by decide)
  have hs0 : st2.mstSet 0 = true := by rw [hs2]; exact setAt_same _ _ _
  refine ⟨?_, hs0, fun f hf => absurd hf (List.not_mem_nil f), ?_, rfl, promising_nil V G,
    ?_, ?_⟩
  · have h0 : ((Finset.range V).filter (fun v => init.mstSet v = true)).card = 0 := by
      simp [hmst0]
    have := card_mstSet_setAt h0 (by omega : 0 < V) rfl
    have hfil : (Finset.range V).filter (fun v => st2.mstSet v = true) =
        (Finset.range V).filter (fun v => setAt init.mstSet 0 true v = true) := by
      ext v
      simp only [Finset.mem_filter, Finset.mem_range, hs2]
    rw [hfil]
    exact this
  · intro v _ hsv
    rw [hmst v hsv]
    exact conn_refl _ _
  · intro v _ hv0 hsv
    exact absurd (hmst v hsv) hv0
  · intro v hv hsv
    have hv0 : v ≠ 0 := by
      rintro rfl
      rw [hs0] at hsv
      exact absurd hsv (by decide)
    have hsv2 : setAt init.mstSet 0 true v = false := by rw [← hs2]; exact hsv
    have hkv : init.key v = INF := by rw [hkey0, if_neg hv0]
    rw [hkey2, hpar2, hkv]
    by_cases hg : G 0 v ≠ 0
    · have hlt1 : G 0 v < INF := by rw [hINF]; exact hlt 0 (by omega) v hv
      rw [if_pos ⟨hv, hg, hsv2, hlt1⟩, if_pos ⟨hv, hg, hsv2, hlt1⟩]
      right
      refine ⟨0, by omega, rfl, hs0, hg, rfl, ?_⟩
      intro u1 _ hsu1 _
      rw [hmst u1 hsu1]
    · rw [if_neg (fun h => hg h.2.1), if_neg (fun h => hg h.2.1)]
      left
      refine ⟨rfl, ?_⟩
      intro u1 _ hsu1
      rw [hmst u1 hsu1]
      by_contra h
      exact hg h

theorem pinv_loop {V : Nat} {G : Nat → Nat → Int}
    (hsym : ∀ i, i < V → ∀ j, j < V → G i j = G j i)
    (hlt : ∀ i, i < V → ∀ j, j < V → G i j < INT_MAX) (hconn : Connected V G) :
    ∀ (n k : Nat) (st : State) (F : List (Nat × Nat)), PInv V G k st F → k + n ≤ V →
      ∃ st1 F1, primLoop V G n st = some st1 ∧ PInv V G (k + n) st1 F1
  | 0, _, st, F, hinv, _ => ⟨st, F, rfl, hinv⟩
  | n + 1, k, st, F, hinv, hk => by
    obtain ⟨st1, F1, hstep, hinv1⟩ := pinv_step hsym hlt hconn hinv (by omega : k < V)
    obtain ⟨st2, F2, hloop, hinv2⟩ := pinv_loop hsym hlt hconn n (k + 1) st1 F1 hinv1 (by omega)
    refine ⟨st2, F2, ?_, ?_⟩
    · simp only [primLoop, hstep]
      exact hloop
    · have he : k + (n + 1) = k + 1 + n := by omega
      rw [he]
      exact hinv2

theorem mem_mstEdges {V : Nat} {parent : Nat → Int} {e : Nat × Nat} :
    e ∈ mstEdges V parent ↔ ∃ i, 1 ≤ i ∧ i < V ∧ e = ((parent i).toNat, i) := by
  unfold mstEdges
  simp only [List.mem_map, List.mem_range]
  constructor
  · rintro ⟨i, hi, rfl⟩
    exact ⟨i + 1, by omega, by omega, rfl⟩
  · rintro ⟨i, h1, h2, rfl⟩
    exact ⟨i - 1, by omega, by
      have : i - 1 + 1 = i := by omega
      rw [this]⟩

theorem mstEdges_nodup (V : Nat) (parent : Nat → Int) : (mstEdges V parent).Nodup := by
  unfold mstEdges
  refine (List.nodup_range _).map_on ?_
  intro i _ j _ h
  have := congrArg Prod.snd h
  simp only at this
  omega

/-- C19: for `V ≥ 1` and a symmetric matrix with entries below `INT_MAX` of a connected
graph, `primAlgorithm` reaches `printMST`; each `(parent[i], i)`, `1 ≤ i < V`, is an edge
of the graph; these `V - 1` edges form a spanning tree (they connect all the vertices and
have no cycle), their total weight is least among the spanning trees of the graph, and it
is the sum of the weights `graph[i][parent[i]]` that `printMST` adds up. -/
theorem prim_mst (V : Nat) (G : Nat → Nat → Int) (hV : 1 ≤ V)
    (hsym : ∀ i, i < V → ∀ j, j < V → G i j = G j i)
    (hlt : ∀ i, i < V → ∀ j, j < V → G i j < INT_MAX) (hconn : Connected V G) :
    ∃ st, primAlgorithm V G = some st ∧
      (∀ i, 1 ≤ i → i < V → ∃ p : Nat, st.parent i = (p : Int) ∧ p < V ∧ G p i ≠ 0) ∧
      (mstEdges V st.parent).length + 1 = V ∧
      IsSpanningTree V G (mstEdges V st.parent) ∧
      (∀ T, IsSpanningTree V G T → totalWeight G (mstEdges V st.parent) ≤ totalWeight G T) ∧
      totalWeight G (mstEdges V st.parent) =
        ((List.range (V - 1)).map (fun i => G (i + 1) (st.parent (i + 1)).toNat)).sum := by
  have hlen : ∀ parent : Nat → Int, (mstEdges V parent).length + 1 = V := by
    intro parent
    unfold mstEdges
    simp only [List.length_map, List.length_range]
    omega
  -- the edges printed are a permutation of a promising list that connects all vertices
  have hmain : ∃ st, primAlgorithm V G = some st ∧
      (∀ i, 1 ≤ i → i < V → ∃ p : Nat, st.parent i = (p : Int) ∧ p < V ∧ G p i ≠ 0) ∧
      Span V G (mstEdges V st.parent) ∧ Promising V G (mstEdges V st.parent) := by
    by_cases hV1 : V = 1
    · subst hV1
      refine ⟨init, rfl, fun i h1 h2 => by omega, ⟨?_, ?_, rfl⟩, promising_nil 1 G⟩
      · intro e he
        exact absurd he (List.not_mem_nil e)
      · intro a ha b hb
        have h1 : a = 0 := by omega
        have h2 : b = 0 := by omega
        rw [h1, h2]
        exact conn_refl _ _
    · obtain ⟨st1, hstep1, hinv1⟩ := pinv_first (G := G) hV hlt
      obtain ⟨st, F, hloop, hinv⟩ := pinv_loop hsym hlt hconn (V - 2) 1 st1 [] hinv1 (by omega)
      have hk : 1 + (V - 2) = V - 1 := by omega
      rw [hk] at hinv
      have hprim : primAlgorithm V G = some st := by
        unfold primAlgorithm
        have : V - 1 = (V - 2) + 1 := by omega
        rw [this]
        simp only [primLoop, hstep1]
        exact hloop
      obtain ⟨z, hz, hsz⟩ := exists_not_mst hinv.card (by omega : V - 1 < V)
      have huniq : ∀ v, v < V → st.mstSet v = false → v = z :=
        fun v hv hsv => not_mst_unique hinv.card hv hz hsv hsz
      obtain ⟨y, hy, hsy, hky⟩ := exists_key_lt hlt hconn hinv (by omega : V - 1 < V)
      have hyz := huniq y hy hsy
      subst hyz
      obtain ⟨p, hp, hpar, hsp, hg, hkey, hprom⟩ := pinv_pick hsym hinv hy hsy hky
        (fun v hv hsv => by rw [huniq v hv hsv])
      have hz0 : y ≠ 0 := by
        rintro rfl
        rw [hinv.zero] at hsy
        exact absurd hsy (by decide)
      -- every printed edge is in the list
      have hparent : ∀ i, 1 ≤ i → i < V → ∃ q : Nat, st.parent i = (q : Int) ∧
          (q, i) ∈ (p, y) :: F := by
        intro i h1 h2
        by_cases hsi : st.mstSet i = true
        · obtain ⟨q, hq, hqF⟩ := hinv.par i h2 (by omega) hsi
          exact ⟨q, hq, List.mem_cons_of_mem _ hqF⟩
        · have := huniq i h2 (bool_false_of_ne_true hsi)
          subst this
          exact ⟨p, hpar, List.mem_cons_self _ _⟩
      have hedgeF : ∀ f ∈ (p, y) :: F, IsEdge V G f := by
        intro f hf
        rcases List.mem_cons.1 hf with rfl | hf
        · exact ⟨hp, hy, hg⟩
        · exact (hinv.edges f hf).1
      have hsub : ∀ e ∈ mstEdges V st.parent, e ∈ (p, y) :: F := by
        intro e he
        obtain ⟨i, h1, h2, rfl⟩ := mem_mstEdges.1 he
        obtain ⟨q, hq, hqF⟩ := hparent i h1 h2
        rw [hq, Int.toNat_ofNat]
        exact hqF
      have hperm : (mstEdges V st.parent).Perm ((p, y) :: F) := by
        refine (List.subperm_of_subset (mstEdges_nodup V st.parent) hsub).perm_of_length_le ?_
        have h1 := hlen st.parent
        have h2 := hinv.len
        simp only [List.length_cons]
        omega
      have hconnF : ∀ a, a < V → Conn ((p, y) :: F) 0 a := by
        intro a ha
        have hsubF : ∀ f ∈ F, f ∈ (p, y) :: F := fun f hf => List.mem_cons_of_mem _ hf
        by_cases hsa : st.mstSet a = true
        · exact conn_mono hsubF (hinv.conn a ha hsa)
        · have := huniq a ha (bool_false_of_ne_true hsa)
          subst this
          exact conn_trans (conn_mono hsubF (hinv.conn p hp hsp))
            (conn_edge (e := (p, a)) (List.mem_cons_self _ _))
      refine ⟨st, hprim, ?_, ⟨?_, ?_, hlen st.parent⟩, promising_perm hperm.symm hprom⟩
      · intro i h1 h2
        obtain ⟨q, hq, hqF⟩ := hparent i h1 h2
        have := hedgeF _ hqF
        exact ⟨q, hq, this.1, this.2.2⟩
      · intro e he
        exact hedgeF e (hsub e he)
      · intro a ha b hb
        have h1 : Conn ((p, y) :: F) a b := conn_trans (conn_symm (hconnF a ha)) (hconnF b hb)
        exact conn_mono (fun f hf => hperm.symm.subset hf) h1
  obtain ⟨st, hprim, hpar, hspan, hprom⟩ := hmain
  obtain ⟨htree, hmin⟩ := mst_of_promising hV hspan hprom
  refine ⟨st, hprim, hpar, hlen st.parent, htree, hmin, ?_⟩
  unfold totalWeight mstEdges
  rw [List.map_map]
  congr 1
  apply List.map_congr_left
  intro i hi
  have hi1 : i < V - 1 := List.mem_range.1 hi
  obtain ⟨q, hq, hqV, _⟩ := hpar (i + 1) (by omega) (by omega)
  show G (st.parent (i + 1)).toNat (i + 1) = G (i + 1) (st.parent (i + 1)).toNat
  rw [hq, Int.toNat_ofNat]
  exact hsym q hqV (i + 1) (by omega)

theorem mainGraph_connected : Connected 4 mainGraph :=
  connected_of_hub (c := 1) (by decide) (by decide)

theorem prim_mst_witness :
    (1 ≤ 4 ∧ (∀ i, i < 4 → ∀ j, j < 4 → mainGraph i j = mainGraph j i) ∧
      (∀ i, i < 4 → ∀ j, j < 4 → mainGraph i j < INT_MAX) ∧ Connected 4 mainGraph) ∧
    ∃ st, primAlgorithm 4 mainGraph = some st ∧
      (∀ i, 1 ≤ i → i < 4 → ∃ p : Nat, st.parent i = (p : Int) ∧ p < 4 ∧
        mainGraph p i ≠ 0) ∧
      (mstEdges 4 st.parent).length + 1 = 4 ∧
      IsSpanningTree 4 mainGraph (mstEdges 4 st.parent) ∧
      (∀ T, IsSpanningTree 4 mainGraph T →
        totalWeight mainGraph (mstEdges 4 st.parent) ≤ totalWeight mainGraph T) ∧
      totalWeight mainGraph (mstEdges 4 st.parent) =
        ((List.range (4 - 1)).map (fun i => mainGraph (i + 1) (st.parent (i + 1)).toNat)).sum :=
  ⟨⟨by decide, by decide, by decide, mainGraph_connected⟩,
   prim_mst 4 mainGraph (by decide) (by decide) (by decide) mainGraph_connected⟩

end Prim
